import Mathlib

/-!
VANET attack / mitigation simulation: shallow embedding.

Source: `src/notebook -Data/vanets-new.cc` (the richest variant of the simulation).

Modelling conventions.

* `ns3::Time` is an integer count of nanoseconds (the ns-3 default resolution), here `Int`.
  `Time::GetSeconds` is the exact quotient by `10^9`.
* A C++ `double` is the rational number it stands for (`ℚ`).  The model comes in two layers.
  In the base layer every comparison and every sum is the mathematical one and
  `sqrt (a) > c` for a constant `c ≥ 0` is written `a > c * c`; it is used where no result
  depends on rounding (containers, counters, logs, the bounds of the trust score).  In the
  section on binary64 arithmetic (names prefixed `Binary64.`) the Trust Engine, the heuristic
  detector and the Hybrid Engine are given as the source computes them: every constant, every
  product, sum and quotient and the square root are rounded to the nearest `double`, ties to
  even.  The claims on thresholds and means are stated on this layer.
* `uint32_t` node identifiers are `Nat`; where the source computes with them
  (the sybil fake id) the result is reduced modulo `2^32`.
* `std::map<K, V>` with `operator[]` access is a total function with the value-initialised
  default (`[]`, `0`).
* `std::string` is `List Char`.  The text produced by `ostream << double` is given by a
  parameter `fmt : ℚ → List Char` (the stream library is not part of the sources).  A row of a
  log holds the values written; the number a printed time shows (6 significant digits, the
  default precision) is given by `Ostream.sixDigits`.
* Every output stream is the list of the rows appended to it, oldest first.
* The scheduler, the mobility oracle and the radio are external: a callback receives the
  current time, the positions and velocities it reads, and the packets it is handed.  Where a
  claim is about the schedule itself, the events are those the source hands to
  `Simulator::Schedule` (`scheduledRun` for the beacon ticks, `Highway.step` for the highway
  variant).
-/

set_option linter.unusedVariables false

namespace Vanet

/-! ## Basic types -/

/-- Simulation time `ns3::Time`, in nanoseconds. -/
abbrev Time := Int

/-- Conversion `Time::GetSeconds`. -/
def GetSeconds (t : Time) : ℚ := (t : ℚ) / 1000000000

/-- Conversion `Seconds (0.5)`, `Seconds (0.1)`, ... for a value given in milliseconds. -/
def milliSeconds (ms : Int) : Time := ms * 1000000

/-- Three-dimensional `ns3::Vector`. -/
structure Vector where
  x : ℚ
  y : ℚ
  z : ℚ
deriving DecidableEq

/-- Serialized message, a `std::string`. -/
abbrev Payload := List Char

/-- Record `struct BeaconFeatures`; the constructor of the source zeroes every field. -/
structure BeaconFeatures where
  position : Vector := ⟨0, 0, 0⟩
  velocity : Vector := ⟨0, 0, 0⟩
  timestamp : Time := 0
  neighborCount : Nat := 0
  distanceToNearestNeighbor : ℚ := 0
  interArrivalTime : ℚ := 0
  packetRate : ℚ := 0
  avgPayloadSize : ℚ := 0
  positionDelta : ℚ := 0
  speedDelta : ℚ := 0
  clusterSize : Int := 0
deriving DecidableEq

/-! ## Rows of the output streams -/

/-- Row of `bsm_output`: the values written.  The number the `t` column shows is
`BsmRow.printedTime`. -/
structure BsmRow where
  nodeId : Nat
  x : ℚ
  y : ℚ
  vx : ℚ
  vy : ℚ
  t : ℚ
deriving DecidableEq

/-- Row of `ddos_output`: one sent copy (`ddos_attack`, detail `i`) or an `attack_started` mark. -/
inductive DdosRow where
  | attack (t : ℚ) (attackerId : Nat) (detail : Int)
  | started (t : ℚ) (attackerId : Nat)
deriving DecidableEq

/-- Row of `sybil_output`: one fabricated identity or an `attack_started` mark. -/
inductive SybilRow where
  | fake (t : ℚ) (fakeId : Nat) (attackerId : Nat) (x : ℚ) (y : ℚ)
  | started (t : ℚ) (attackerId : Nat)
deriving DecidableEq

/-- Row of `replay_output`: one replayed payload or an `attack_started` mark. -/
inductive ReplayRow where
  | replayed (t : ℚ) (attackerId : Nat) (msg : Payload)
  | started (t : ℚ) (attackerId : Nat)
deriving DecidableEq

/-- Row of `msg_falsification_output`. -/
inductive FalsificationRow where
  | falsified (t : ℚ) (attackerId : Nat) (fakeX : ℚ) (fakeY : ℚ)
  | started (t : ℚ) (attackerId : Nat)
deriving DecidableEq

/-- Row of `features_output`.  The source prints `speed = sqrt (vx^2 + vy^2)` and
`heading = atan2 (vy, vx)`; the row keeps the velocity they are computed from. -/
structure FeaturesRow where
  nodeId : Nat
  x : ℚ
  y : ℚ
  vel : Vector
  t : ℚ
  interArrivalTime : ℚ
  avgPayloadSize : ℚ
deriving DecidableEq

/-- Row of `trust_output`. -/
structure TrustRow where
  t : ℚ
  nodeId : Nat
  trustScore : ℚ
  lowTrustFlag : Nat
deriving DecidableEq

/-- Row of `ml_output` (`anomaly_detected`). -/
structure MlRow where
  t : ℚ
  nodeId : Nat
  suspiciousCount : Int
deriving DecidableEq

/-- Row of `mitigation_output`. -/
inductive MitigationRow where
  | rule_based_detection (t : ℚ) (nodeId : Nat)
  | hybrid_detection (t : ℚ) (nodeId : Nat) (ml_anomaly : Bool) (rule_violation : Bool)
      (trust_score : ℚ)
deriving DecidableEq

/-- Row of `neighbor_output`. -/
structure NeighborRow where
  t : ℚ
  nodeId : Nat
  neighborCount : Nat
  minDistance : ℚ
deriving DecidableEq

/-- Row of `jammer_output`. -/
structure JammerRow where
  t : ℚ
  nodeId : Nat
deriving DecidableEq

/-- Row of `rssi_output`. -/
structure RssiRow where
  receiver : Nat
  payload : Payload
  rssi : ℚ
deriving DecidableEq

/-! ## Global state -/

/-- The global variables of the program, the output streams, and the packets handed to the
sending sockets (`sent`: beacon sockets, port 5000; `jamSent`: jammer socket, port 5001). -/
structure World where
  replayBuffers : Nat → List Payload := fun _ => []
  ddosNodes : List Nat := []
  sybilNodes : List Nat := []
  jammerNodes : List Nat := []
  falsifiedNodes : List Nat := []
  nodeTrust : Nat → ℚ := fun _ => 0
  trustHistory : Nat → List ℚ := fun _ => []
  mobilityHistory : Nat → List ℚ := fun _ => []
  suspiciousCount : Nat → Int := fun _ => 0
  packetFreqCount : Nat → Int := fun _ => 0
  packetTimestamps : Nat → List Time := fun _ => []
  nodeFeatures : Nat → List BeaconFeatures := fun _ => []
  nodeMessageTimes : Nat → List Time := fun _ => []
  nodePayloadSizes : Nat → List ℚ := fun _ => []
  sent : List (Nat × Payload) := []
  jamSent : List (Nat × Payload) := []
  bsm_output : List BsmRow := []
  mitigation_output : List MitigationRow := []
  trust_output : List TrustRow := []
  ml_output : List MlRow := []
  neighbor_output : List NeighborRow := []
  jammer_output : List JammerRow := []
  sybil_output : List SybilRow := []
  ddos_output : List DdosRow := []
  msg_falsification_output : List FalsificationRow := []
  replay_output : List ReplayRow := []
  rssi_output : List RssiRow := []
  features_output : List FeaturesRow := []

/-- State at program start: every map empty, every stream empty. -/
def World.init : World := {}

/-- Command-line configuration (the `g_*` globals set by `main`). -/
structure Config where
  g_numVehicles : Nat := 132
  g_bsmInterval : Time := 100000000
  g_enable_ddos : Bool := true
  g_enable_sybil : Bool := true
  g_enable_replay : Bool := true
  g_enable_jamming : Bool := true
  g_enable_msg_falsification : Bool := true
  g_enable_trust : Bool := true
  g_enable_ml : Bool := true
  g_enable_hybrid : Bool := true
  g_enable_rule : Bool := true

/-- Bounded push used for every per-node `std::vector` window of the source:
`v.push_back (a); if (v.size () > cap) v.erase (v.begin ());`. -/
def pushBounded {α : Type} (cap : Nat) (v : List α) (a : α) : List α :=
  let v1 := v ++ [a]
  if v1.length > cap then v1.tail else v1

/-! ## Rule-based detection -/

/-- The erase loop of `checkRuleBased`: walk the vector from the front, erase every
timestamp with `(now - *it).GetSeconds () > 0.5`, keep the others. -/
def pruneTimestamps (now : Time) : List Time → List Time
  | [] => []
  | t :: rest =>
    if GetSeconds (now - t) > 1 / 2 then pruneTimestamps now rest
    else t :: pruneTimestamps now rest

/-- Function `checkRuleBased (nodeId)` evaluated at `now = Simulator::Now ()`:
the verdict and the state with the pruned timestamp vector. -/
def checkRuleBased (nodeId : Nat) (now : Time) (w : World) : Bool × World :=
  let timestamps := pruneTimestamps now (w.packetTimestamps nodeId)
  let w1 := { w with packetTimestamps := Function.update w.packetTimestamps nodeId timestamps }
  if timestamps.length > 15 then (true, w1) else (false, w1)

/-! ## Text of a beacon -/

/-- Decimal text printed by `ostream << uint32_t`. -/
def showUInt (n : Nat) : List Char := Nat.toDigits 10 n

/-- The message built by `SendBsm`:
`"BSM," << id << "," << x << "," << y << "," << vx << "," << vy << "," << t`. -/
def bsmString (fmt : ℚ → List Char) (id : Nat) (x y vx vy t : ℚ) : Payload :=
  ['B', 'S', 'M', ','] ++ showUInt id ++ [','] ++ fmt x ++ [','] ++ fmt y ++ [','] ++ fmt vx
    ++ [','] ++ fmt vy ++ [','] ++ fmt t

/-! ## Beacon engine -/

/-- Members of `class EnhancedBsmApp` set by `Setup`: the node, the interval (as the `Time`
value `Seconds (m_interval)` handed to the scheduler), the attack type and the attacker flag. -/
structure EnhancedBsmApp where
  nodeId : Nat
  m_interval : Time := 100000000
  m_attackType : String := "none"
  m_isAttacker : Bool := false

/-- One pass of the DDoS loop body (`for (int i = 0; i < 10; i++)`): send a copy of `s`,
write the `ddos_attack` row with detail `i`. -/
def ddosStep (id : Nat) (now : Time) (s : Payload) (w : World) (i : Nat) : World :=
  { w with sent := w.sent ++ [(id, s)],
           ddos_output := w.ddos_output ++ [DdosRow.attack (GetSeconds now) id i] }

/-- Fabricated identity `m_node->GetId () * 1000 + i` in `uint32_t` arithmetic. -/
def sybilFakeId (id i : Nat) : Nat := (id * 1000 + i) % 4294967296

/-- One pass of the sybil loop body (`for (int i = 1; i <= 5; i++)`). -/
def sybilStep (fmt : ℚ → List Char) (id : Nat) (pos vel : Vector) (now : Time) (w : World)
    (i : Nat) : World :=
  let fakeId := sybilFakeId id i
  let fakeS := bsmString fmt fakeId (pos.x + i * 10) (pos.y + i * 10) vel.x vel.y (GetSeconds now)
  { w with sent := w.sent ++ [(id, fakeS)],
           sybil_output := w.sybil_output ++
             [SybilRow.fake (GetSeconds now) fakeId id (pos.x + i * 10) (pos.y + i * 10)] }

/-- The transmission part of `SendBsm` (`if (m_isAttacker) ... else ...`). -/
def transmit (fmt : ℚ → List Char) (app : EnhancedBsmApp) (pos vel : Vector) (now : Time)
    (s : Payload) (w : World) : World :=
  let id := app.nodeId
  if app.m_isAttacker then
    if app.m_attackType = "ddos" then
      (List.range 10).foldl (ddosStep id now s) w
    else if app.m_attackType = "sybil" then
      (List.range' 1 5).foldl (sybilStep fmt id pos vel now) w
    else if app.m_attackType = "replay" then
      match (w.replayBuffers id).getLast? with
      | some replayMsg =>
        { w with sent := w.sent ++ [(id, replayMsg)],
                 replay_output := w.replay_output ++
                   [ReplayRow.replayed (GetSeconds now) id replayMsg] }
      | none => w
    else if app.m_attackType = "falsification" then
      let fakeS := bsmString fmt id (pos.x + 500) (pos.y + 500) (vel.x * 2) (vel.y * 2)
        (GetSeconds now)
      { w with sent := w.sent ++ [(id, fakeS)],
               msg_falsification_output := w.msg_falsification_output ++
                 [FalsificationRow.falsified (GetSeconds now) id (pos.x + 500) (pos.y + 500)] }
    else
      { w with sent := w.sent ++ [(id, s)] }
  else
    { w with sent := w.sent ++ [(id, s)] }

/-- The feature record computed at the top of `SendBsm`, from the message-time vector and the
payload-size vector as they are after this tick's push. -/
def tickFeatures (pos vel : Vector) (now : Time) (times : List Time) (sizes : List ℚ) :
    BeaconFeatures :=
  let features0 : BeaconFeatures := { position := pos, velocity := vel, timestamp := now }
  let features1 : BeaconFeatures :=
    match times.reverse with
    | lastTime :: secondLastTime :: _ =>
      { features0 with interArrivalTime := GetSeconds (lastTime - secondLastTime) }
    | _ => features0
  if sizes ≠ [] then { features1 with avgPayloadSize := sizes.sum / sizes.length }
  else features1

/-- The message `s` a node builds at a tick. -/
def beaconOf (fmt : ℚ → List Char) (id : Nat) (pos vel : Vector) (now : Time) : Payload :=
  bsmString fmt id pos.x pos.y vel.x vel.y (GetSeconds now)

/-- Method `EnhancedBsmApp::SendBsm`, one beacon tick at time `now` of a node at `pos` moving
with `vel`.  The rescheduling after `m_interval`, its last statement, is `fireBeacon`. -/
def SendBsm (fmt : ℚ → List Char) (app : EnhancedBsmApp) (pos vel : Vector) (now : Time)
    (w : World) : World :=
  let id := app.nodeId
  let times := pushBounded 100 (w.nodeMessageTimes id) now
  let sizes := pushBounded 50 (w.nodePayloadSizes id) 200
  let features := tickFeatures pos vel now times sizes
  let s := beaconOf fmt id pos vel now
  let w1 := { w with nodeMessageTimes := Function.update w.nodeMessageTimes id times,
                     nodePayloadSizes := Function.update w.nodePayloadSizes id sizes }
  let w2 := transmit fmt app pos vel now s w1
  let w3 := { w2 with replayBuffers :=
                Function.update w2.replayBuffers id (pushBounded 50 (w2.replayBuffers id) s) }
  let w4 := { w3 with bsm_output := w3.bsm_output ++
                [BsmRow.mk id pos.x pos.y vel.x vel.y (GetSeconds now)] }
  let queue := pushBounded 100 (w4.nodeFeatures id) features
  let w5 := { w4 with nodeFeatures := Function.update w4.nodeFeatures id queue }
  match queue with
  | [f] =>
    { w5 with features_output := w5.features_output ++
        [FeaturesRow.mk id f.position.x f.position.y vel (GetSeconds f.timestamp)
           f.interArrivalTime f.avgPayloadSize] }
  | _ => w5

/-! ## Trust engine -/

/-- Lines 317-327 of `calculateTrustScore`: the instantaneous score, `1.0` minus the fixed
penalties, checked only when `nodeId < g_numVehicles * 0.8`. -/
def instantTrust (cfg : Config) (nodeId : Nat) (vel : Vector) : ℚ :=
  let trust : ℚ := 1
  if (nodeId : ℚ) < (cfg.g_numVehicles : ℚ) * (4 / 5) then
    let trust1 := if vel.x > 50 ∨ vel.y > 50 then trust - 3 / 10 else trust
    if vel.x < 0 ∨ vel.y < 0 then trust1 - 1 / 10 else trust1
  else trust

/-- The averaging loop of `calculateTrustScore`: `sum / size` when the history is not empty. -/
def avgTrust (trust : ℚ) (history : List ℚ) : ℚ :=
  if history ≠ [] then history.sum / history.length else trust

/-- Function `calculateTrustScore (nodeId, pos, vel, timestamp)`: returned mean and new state. -/
def calculateTrustScore (cfg : Config) (nodeId : Nat) (pos vel : Vector) (timestamp : Time)
    (w : World) : ℚ × World :=
  let trust := instantTrust cfg nodeId vel
  let history := pushBounded 100 (w.trustHistory nodeId) trust
  (avgTrust trust history,
   { w with trustHistory := Function.update w.trustHistory nodeId history })

/-- Mobility oracle: position and velocity of each node at the current time. -/
structure Mobility where
  position : Nat → Vector
  velocity : Nat → Vector

/-- Loop body of `UpdateTrustScores` for node `i`. -/
def updateTrustStep (cfg : Config) (mob : Mobility) (now : Time) (w : World) (i : Nat) : World :=
  let r := calculateTrustScore cfg i (mob.position i) (mob.velocity i) now w
  let trust := r.1
  { r.2 with nodeTrust := Function.update r.2.nodeTrust i trust,
             trust_output := r.2.trust_output ++
               [TrustRow.mk (GetSeconds now) i trust (if trust < 1 / 2 then 1 else 0)] }

/-- Function `UpdateTrustScores (nodes)` with `nodes.GetN () = g_numVehicles`. -/
def UpdateTrustScores (cfg : Config) (mob : Mobility) (now : Time) (w : World) : World :=
  (List.range cfg.g_numVehicles).foldl (updateTrustStep cfg mob now) w

/-! ## Heuristic ("ML") detection -/

/-- Statement `suspiciousCount[nodeId]++`. -/
def bumpSuspicious (nodeId : Nat) (w : World) : World :=
  { w with suspiciousCount :=
      Function.update w.suspiciousCount nodeId (w.suspiciousCount nodeId + 1) }

/-- Function `detectAnomaly (nodeId, pos, vel)`; `speed > 40.0` is `speed^2 > 1600` and
`speed > 35.0` is `speed^2 > 1225`. -/
def detectAnomaly (nodeId : Nat) (pos vel : Vector) (w : World) : Bool × World :=
  let speedSq := vel.x * vel.x + vel.y * vel.y
  let r1 : Bool × World :=
    if speedSq > 1600 then (true, bumpSuspicious nodeId w) else (false, w)
  let r2 : Bool × World :=
    if r1.2.mobilityHistory nodeId ≠ [] ∧ (r1.2.mobilityHistory nodeId).length ≥ 4 then
      if speedSq > 1225 then (true, bumpSuspicious nodeId r1.2) else r1
    else r1
  (r2.1, { r2.2 with mobilityHistory :=
             Function.update r2.2.mobilityHistory nodeId [pos.x, pos.y, vel.x, vel.y] })

/-- Loop body of `RunMLDetection` for node `i`. -/
def mlStep (mob : Mobility) (now : Time) (w : World) (i : Nat) : World :=
  let r := detectAnomaly i (mob.position i) (mob.velocity i) w
  if r.1 then
    { r.2 with ml_output := r.2.ml_output ++
        [MlRow.mk (GetSeconds now) i (r.2.suspiciousCount i)] }
  else r.2

/-- Function `RunMLDetection (nodes)`. -/
def RunMLDetection (cfg : Config) (mob : Mobility) (now : Time) (w : World) : World :=
  (List.range cfg.g_numVehicles).foldl (mlStep mob now) w

/-- Loop body of `UpdateRuleBasedDetection` for node `i`. -/
def ruleStep (now : Time) (w : World) (i : Nat) : World :=
  let r := checkRuleBased i now w
  if r.1 then
    { r.2 with mitigation_output := r.2.mitigation_output ++
        [MitigationRow.rule_based_detection (GetSeconds now) i] }
  else r.2

/-- Function `UpdateRuleBasedDetection (nodes)`. -/
def UpdateRuleBasedDetection (cfg : Config) (now : Time) (w : World) : World :=
  (List.range cfg.g_numVehicles).foldl (ruleStep now) w

/-! ## Hybrid detection -/

/-- Loop body of `RunHybridDetection` for node `i`. -/
def hybridStep (mob : Mobility) (now : Time) (w : World) (i : Nat) : World :=
  let r1 := detectAnomaly i (mob.position i) (mob.velocity i) w
  let mlAnomaly := r1.1
  let r2 := checkRuleBased i now r1.2
  let ruleSuspicious := r2.1
  let trustScore := r2.2.nodeTrust i
  if (mlAnomaly || ruleSuspicious) ∧ trustScore < 3 / 5 then
    { r2.2 with mitigation_output := r2.2.mitigation_output ++
        [MitigationRow.hybrid_detection (GetSeconds now) i mlAnomaly ruleSuspicious trustScore] }
  else r2.2

/-- Function `RunHybridDetection (nodes)`. -/
def RunHybridDetection (cfg : Config) (mob : Mobility) (now : Time) (w : World) : World :=
  (List.range cfg.g_numVehicles).foldl (hybridStep mob now) w

/-- The row `RunHybridDetection` owes node `i`, read off the state `w` before the pass. -/
def hybridVerdict (mob : Mobility) (now : Time) (w : World) (i : Nat) : Option MitigationRow :=
  let ml := (detectAnomaly i (mob.position i) (mob.velocity i) w).1
  let rule := (checkRuleBased i now w).1
  if (ml = true ∨ rule = true) ∧ w.nodeTrust i < 3 / 5 then
    some (MitigationRow.hybrid_detection (GetSeconds now) i ml rule (w.nodeTrust i))
  else none

/-- Whether a mitigation row is a `hybrid_detection` row of node `i`. -/
def MitigationRow.isHybridOf (i : Nat) : MitigationRow → Bool
  | MitigationRow.hybrid_detection _ n _ _ _ => decide (n = i)
  | MitigationRow.rule_based_detection _ _ => false

/-! ## Receiving -/

/-- What stops `ReceivePacket`: the two exceptions `std::stoi` throws, which nothing catches,
and a payload longer than the 200-byte stack buffer it is copied into. -/
inductive RecvError where
  | invalid_argument
  | out_of_range
  | buffer_overrun
deriving DecidableEq

/-- Search of `c` in `s`, counting positions from `i`. -/
def findFrom (c : Char) : List Char → Nat → Option Nat
  | [], _ => none
  | d :: rest, i => if d = c then some i else findFrom c rest (i + 1)

/-- Method `std::string::find (c, pos)`; `none` is `npos`. -/
def find (s : List Char) (c : Char) (pos : Nat) : Option Nat :=
  findFrom c (s.drop pos) pos

/-- Method `std::string::substr (pos, len)` for `pos ≤ size`. -/
def substr (s : List Char) (pos len : Nat) : List Char :=
  (s.drop pos).take len

/-- Predicate `isspace` of the C locale. -/
def isspace (c : Char) : Bool :=
  c.toNat = 32 || (9 ≤ c.toNat && c.toNat ≤ 13)

/-- Value of a run of decimal digits. -/
def digitsValue (ds : List Char) : Nat :=
  ds.foldl (fun acc c => acc * 10 + (c.toNat - 48)) 0

/-- Function `std::stoi (str)`: skip white space, read an optional sign and the longest run
of decimal digits; no digit throws `invalid_argument`, a value outside `int` throws
`out_of_range`; what follows the digits is ignored. -/
def stoi (str : List Char) : Except RecvError Int :=
  let s1 := str.dropWhile isspace
  let signed : Bool × List Char :=
    match s1 with
    | '-' :: r => (true, r)
    | '+' :: r => (false, r)
    | _ => (false, s1)
  let ds := signed.2.takeWhile Char.isDigit
  if ds = [] then Except.error RecvError.invalid_argument
  else
    let v : Int := if signed.1 then - (digitsValue ds : Int) else (digitsValue ds : Int)
    if v < -2147483648 ∨ 2147483647 < v then Except.error RecvError.out_of_range
    else Except.ok v

/-- Conversion of an `int` to `uint32_t`. -/
def toUInt32 (v : Int) : Nat := (v % 4294967296).toNat

/-- Body of the `while` loop of `ReceivePacket` for one received payload `s`, on the socket of
node `receiver`. -/
def receiveOne (receiver : Nat) (now : Time) (w : World) (s : Payload) :
    Except RecvError World :=
  if s.length > 200 then Except.error RecvError.buffer_overrun
  else
    let pos1 := find s ',' 0
    let pos2 := find s ',' (match pos1 with | some p => p + 1 | none => 0)
    let parsed : Except RecvError World :=
      match pos1, pos2 with
      | some p1, some p2 =>
        let nodeIdStr := substr s (p1 + 1) (p2 - p1 - 1)
        match stoi nodeIdStr with
        | Except.ok v =>
          let nodeId := toUInt32 v
          Except.ok
            { w with packetTimestamps :=
                       Function.update w.packetTimestamps nodeId (w.packetTimestamps nodeId ++ [now]),
                     packetFreqCount :=
                       Function.update w.packetFreqCount nodeId (w.packetFreqCount nodeId + 1) }
        | Except.error e => Except.error e
      | _, _ => Except.ok w
    match parsed with
    | Except.ok w1 => Except.ok { w1 with rssi_output := w1.rssi_output ++ [RssiRow.mk receiver s (-1)] }
    | Except.error e => Except.error e

/-- Function `ReceivePacket (socket)`: the payloads waiting on the socket, in order. -/
def ReceivePacket (receiver : Nat) (packets : List Payload) (now : Time) (w : World) :
    Except RecvError World :=
  packets.foldlM (receiveOne receiver now) w

/-! ## Neighbour monitor -/

/-- Constant `std::numeric_limits<double>::max ()`. -/
def DBL_MAX : ℚ := (2 ^ 53 - 1) * 2 ^ 971

/-- Body of the inner loop of `LogNeighbors` (`j`), on the pair `(count, minDistance)`;
`dist i j` is `mob_i->GetDistanceFrom (mob_j)`. -/
def neighborInner (dist : Nat → Nat → ℚ) (i : Nat) (acc : Nat × ℚ) (j : Nat) : Nat × ℚ :=
  if i = j then acc
  else
    let distance := dist i j
    let count := if distance < 250 then acc.1 + 1 else acc.1
    let minDistance := if distance < acc.2 then distance else acc.2
    (count, minDistance)

/-- Body of the outer loop of `LogNeighbors` for node `i`. -/
def neighborStep (cfg : Config) (dist : Nat → Nat → ℚ) (now : Time) (w : World) (i : Nat) :
    World :=
  let r := (List.range cfg.g_numVehicles).foldl (neighborInner dist i) (0, DBL_MAX)
  let w1 := { w with neighbor_output := w.neighbor_output ++
                [NeighborRow.mk (GetSeconds now) i r.1 r.2] }
  match (w1.nodeFeatures i).getLast? with
  | some f =>
    let f1 : BeaconFeatures := { f with neighborCount := r.1, distanceToNearestNeighbor := r.2 }
    let queue := (w1.nodeFeatures i).dropLast ++ [f1]
    { w1 with nodeFeatures := Function.update w1.nodeFeatures i queue }
  | none => w1

/-- Function `LogNeighbors (nodes)`. -/
def LogNeighbors (cfg : Config) (dist : Nat → Nat → ℚ) (now : Time) (w : World) : World :=
  (List.range cfg.g_numVehicles).foldl (neighborStep cfg dist now) w

/-! ## Attack injection -/

/-- Function `InjectDdosAttack (nodes, attacker)`. -/
def InjectDdosAttack (cfg : Config) (attacker : Nat) (now : Time) (w : World) : World :=
  if cfg.g_enable_ddos then
    { w with ddosNodes := w.ddosNodes.insert attacker,
             ddos_output := w.ddos_output ++ [DdosRow.started (GetSeconds now) attacker] }
  else w

/-- Function `InjectSybilAttack (nodes, attacker)`. -/
def InjectSybilAttack (cfg : Config) (attacker : Nat) (now : Time) (w : World) : World :=
  if cfg.g_enable_sybil then
    { w with sybilNodes := w.sybilNodes.insert attacker,
             sybil_output := w.sybil_output ++ [SybilRow.started (GetSeconds now) attacker] }
  else w

/-- Function `InjectReplayAttack (nodes, attacker)`. -/
def InjectReplayAttack (cfg : Config) (attacker : Nat) (now : Time) (w : World) : World :=
  if cfg.g_enable_replay then
    { w with replay_output := w.replay_output ++ [ReplayRow.started (GetSeconds now) attacker] }
  else w

/-- Function `InjectJammerNode (sock, nodeId)`. -/
def InjectJammerNode (cfg : Config) (nodeId : Nat) (now : Time) (w : World) : World :=
  if cfg.g_enable_jamming then
    { w with jammerNodes := w.jammerNodes.insert nodeId,
             jamSent := w.jamSent ++ [(nodeId, "JAMMING_SIGNAL".toList)],
             jammer_output := w.jammer_output ++ [JammerRow.mk (GetSeconds now) nodeId] }
  else w

/-- Function `InjectMsgFalsification (nodes, attacker)`. -/
def InjectMsgFalsification (cfg : Config) (attacker : Nat) (now : Time) (w : World) : World :=
  if cfg.g_enable_msg_falsification then
    { w with falsifiedNodes := w.falsifiedNodes.insert attacker,
             msg_falsification_output := w.msg_falsification_output ++
               [FalsificationRow.started (GetSeconds now) attacker] }
  else w

/-! ## The program as a transition system -/

/-- The application `main` installs on node `i` (lines 746-766). -/
def appOf (cfg : Config) (i : Nat) : EnhancedBsmApp :=
  if cfg.g_enable_ddos ∧ i = 5 then
    { nodeId := i, m_interval := cfg.g_bsmInterval, m_attackType := "ddos", m_isAttacker := true }
  else if cfg.g_enable_sybil ∧ i = 10 then
    { nodeId := i, m_interval := cfg.g_bsmInterval, m_attackType := "sybil", m_isAttacker := true }
  else if cfg.g_enable_replay ∧ i = 15 then
    { nodeId := i, m_interval := cfg.g_bsmInterval, m_attackType := "replay", m_isAttacker := true }
  else if cfg.g_enable_msg_falsification ∧ i = 20 then
    { nodeId := i, m_interval := cfg.g_bsmInterval, m_attackType := "falsification",
      m_isAttacker := true }
  else
    { nodeId := i, m_interval := cfg.g_bsmInterval, m_attackType := "none", m_isAttacker := false }

/-- One callback of the program together with what it reads from the external collaborators. -/
inductive Op where
  | sendBsm (i : Nat) (pos vel : Vector)
  | receivePacket (receiver : Nat) (packets : List Payload)
  | updateTrustScores (mob : Mobility)
  | runMLDetection (mob : Mobility)
  | updateRuleBasedDetection
  | runHybridDetection (mob : Mobility)
  | logNeighbors (dist : Nat → Nat → ℚ)
  | injectDdosAttack
  | injectSybilAttack
  | injectReplayAttack
  | injectJammerNode
  | injectMsgFalsification

/-- Effect of one callback run at time `now`; `none` when `ReceivePacket` is stopped by an
exception.  The attacker ids are the constants `main` schedules the injections with. -/
def exec (fmt : ℚ → List Char) (cfg : Config) (op : Op) (now : Time) (w : World) :
    Option World :=
  match op with
  | Op.sendBsm i pos vel => some (SendBsm fmt (appOf cfg i) pos vel now w)
  | Op.receivePacket receiver packets =>
    match ReceivePacket receiver packets now w with
    | Except.ok w1 => some w1
    | Except.error _ => none
  | Op.updateTrustScores mob => some (UpdateTrustScores cfg mob now w)
  | Op.runMLDetection mob => some (RunMLDetection cfg mob now w)
  | Op.updateRuleBasedDetection => some (UpdateRuleBasedDetection cfg now w)
  | Op.runHybridDetection mob => some (RunHybridDetection cfg mob now w)
  | Op.logNeighbors dist => some (LogNeighbors cfg dist now w)
  | Op.injectDdosAttack => some (InjectDdosAttack cfg 5 now w)
  | Op.injectSybilAttack => some (InjectSybilAttack cfg 10 now w)
  | Op.injectReplayAttack => some (InjectReplayAttack cfg 15 now w)
  | Op.injectJammerNode => some (InjectJammerNode cfg 25 now w)
  | Op.injectMsgFalsification => some (InjectMsgFalsification cfg 20 now w)

/-- States the program can be in: the start state, and every state a callback leaves. -/
inductive Reachable (fmt : ℚ → List Char) (cfg : Config) : World → Prop where
  | init : Reachable fmt cfg World.init
  | step (w w1 : World) (op : Op) (now : Time) :
      Reachable fmt cfg w → exec fmt cfg op now w = some w1 → Reachable fmt cfg w1

/-- A run: the callbacks the scheduler fires, each with the time it fires at, oldest first. -/
def run (fmt : ℚ → List Char) (cfg : Config) : List (Op × Time) → World → Option World
  | [], w => some w
  | e :: rest, w =>
    match exec fmt cfg e.1 e.2 w with
    | some w1 => run fmt cfg rest w1
    | none => none

/-- The beacons node `id` generated in a run, in generation order: the message its
`SendBsm` built at each of its ticks. -/
def beaconsOf (fmt : ℚ → List Char) (id : Nat) : List (Op × Time) → List Payload
  | [] => []
  | (Op.sendBsm i pos vel, now) :: rest =>
    if i = id then beaconOf fmt i pos vel now :: beaconsOf fmt id rest
    else beaconsOf fmt id rest
  | _ :: rest => beaconsOf fmt id rest

/-- Arithmetic mean of a list of scores. -/
def mean (l : List ℚ) : ℚ := l.sum / l.length

/-- The instantaneous scores of node `id` in a run, one per evaluation, in order: every
`UpdateTrustScores` pass evaluates each node `id < g_numVehicles` once. -/
def scoresOf (cfg : Config) (id : Nat) : List (Op × Time) → List ℚ
  | [] => []
  | (Op.updateTrustScores mob, _) :: rest =>
    if id < cfg.g_numVehicles then instantTrust cfg id (mob.velocity id) :: scoresOf cfg id rest
    else scoresOf cfg id rest
  | _ :: rest => scoresOf cfg id rest

/-- The node id `ReceivePacket` files a payload under, when it files it: the number read by
`std::stoi` between the first and the second comma. -/
def senderOf (s : Payload) : Option Nat :=
  match find s ',' 0 with
  | some p1 =>
    match find s ',' (p1 + 1) with
    | some p2 =>
      match stoi (substr s (p1 + 1) (p2 - p1 - 1)) with
      | Except.ok v => some (toUInt32 v)
      | Except.error _ => none
    | none => none
  | none => none

/-- The payloads received in a run, each with the time it was received at. -/
def receptions : List (Op × Time) → List (Payload × Time)
  | [] => []
  | (Op.receivePacket _ packets, now) :: rest =>
    packets.map (fun p => (p, now)) ++ receptions rest
  | _ :: rest => receptions rest

/-- The reception times a run files under node `id`. -/
def attributed (id : Nat) (trace : List (Op × Time)) : List Time :=
  ((receptions trace).filter (fun pr => decide (senderOf pr.1 = some id))).map Prod.snd

/-- What the radio owes the first `n` ticks of a flooding attacker `a`: for tick `k` (position
`posOf k`, velocity `velOf k`, time `t0 + k * interval`) and each of its 10 copies `c`, one
reception of that tick's beacon, at time `r k c`. -/
def deliveries (fmt : ℚ → List Char) (a : Nat) (posOf velOf : Nat → Vector)
    (t0 interval : Time) (r : Nat → Nat → Time) : Nat → List (Payload × Time)
  | 0 => []
  | n + 1 =>
    deliveries fmt a posOf velOf t0 interval r n ++
      (List.range 10).map
        (fun c => (beaconOf fmt a (posOf n) (velOf n) (t0 + n * interval), r n c))

/-- Consecutive evaluations of node `id` by `calculateTrustScore`, one per observation
(position, velocity, time), oldest first: the values returned, in order, and the state left. -/
def evaluations (cfg : Config) (id : Nat) :
    List (Vector × Vector × Time) → World → List ℚ × World
  | [], w => ([], w)
  | o :: rest, w =>
    let r := calculateTrustScore cfg id o.1 o.2.1 o.2.2 w
    let rs := evaluations cfg id rest r.2
    (r.1 :: rs.1, rs.2)

/-! ## Start-up (`main`) -/

/-- What stops `main` before the simulation starts: a node looked up at an index the node
container does not have. -/
inductive MainError where
  | node_index_out_of_range (index size : Nat)
deriving DecidableEq

/-- Method `NodeContainer::Get (i)` on the container `vehicles.Create (size)` builds, whose
nodes have the ids `0 .. size - 1`. -/
def NodeContainer.Get (size i : Nat) : Except MainError Nat :=
  if i < size then Except.ok i else Except.error (MainError.node_index_out_of_range i size)

/-- The callbacks `main` hands to the scheduler, with the node or attacker id they are bound
to. -/
inductive Callback where
  | startApplication (node : Nat)
  | injectDdosAttack (attacker : Nat)
  | injectSybilAttack (attacker : Nat)
  | injectReplayAttack (attacker : Nat)
  | injectMsgFalsification (attacker : Nat)
  | injectJammerNode (nodeId : Nat)
  | updateTrustScores
  | runMLDetection
  | updateRuleBasedDetection
  | runHybridDetection
  | logNeighbors
deriving DecidableEq

/-- The application loop of `main` (lines 732-769) over the node indices `is`: look the node
up, install its application, start it at 1.0 s. -/
def installApps (cfg : Config) : List Nat → Except MainError (List (Callback × Time))
  | [] => Except.ok []
  | i :: rest =>
    match NodeContainer.Get cfg.g_numVehicles i with
    | Except.ok node =>
      match installApps cfg rest with
      | Except.ok evs => Except.ok ((Callback.startApplication node, 1000000000) :: evs)
      | Except.error e => Except.error e
    | Except.error e => Except.error e

/-- Function `main` from the parsed options to `Simulator::Run`: the events it schedules, in
the order it schedules them.  The options are used as parsed, none is checked. -/
def main (cfg : Config) : Except MainError (List (Callback × Time)) :=
  match installApps cfg (List.range cfg.g_numVehicles) with
  | Except.error e => Except.error e
  | Except.ok apps =>
    let attacks : List (Callback × Time) :=
      (if cfg.g_enable_ddos then [(Callback.injectDdosAttack 5, 3000000000)] else []) ++
      (if cfg.g_enable_sybil then [(Callback.injectSybilAttack 10, 4000000000)] else []) ++
      (if cfg.g_enable_replay then [(Callback.injectReplayAttack 15, 6000000000)] else []) ++
      (if cfg.g_enable_msg_falsification then
        [(Callback.injectMsgFalsification 20, 8000000000)] else [])
    let jammer : Except MainError (List (Callback × Time)) :=
      if cfg.g_enable_jamming then
        match NodeContainer.Get cfg.g_numVehicles 25 with
        | Except.ok jnode => Except.ok [(Callback.injectJammerNode 25, 2000000000)]
        | Except.error e => Except.error e
      else Except.ok []
    match jammer with
    | Except.error e => Except.error e
    | Except.ok jam =>
      let mitigation : List (Callback × Time) :=
        (if cfg.g_enable_trust then [(Callback.updateTrustScores, 1000000000)] else []) ++
        (if cfg.g_enable_ml then [(Callback.runMLDetection, 1000000000)] else []) ++
        (if cfg.g_enable_rule then [(Callback.updateRuleBasedDetection, 500000000)] else []) ++
        (if cfg.g_enable_hybrid then [(Callback.runHybridDetection, 1500000000)] else [])
      Except.ok (apps ++ attacks ++ jam ++ mitigation ++ [(Callback.logNeighbors, 1000000000)])

/-- What one `detectAnomaly` call adds to the suspicion counter of the node it evaluates: 1
when `speed > 40`, plus 1 when the stored history has at least 4 entries and `speed > 35`. -/
def anomalyIncrement (vel : Vector) (historySize : Nat) : Int :=
  (if vel.x * vel.x + vel.y * vel.y > 1600 then 1 else 0) +
    (if 4 ≤ historySize ∧ vel.x * vel.x + vel.y * vel.y > 1225 then 1 else 0)

/-- The pair `(count, minDistance)` the inner loop of `LogNeighbors` ends with for node `i`. -/
def neighborScan (cfg : Config) (dist : Nat → Nat → ℚ) (i : Nat) : Nat × ℚ :=
  (List.range cfg.g_numVehicles).foldl (neighborInner dist i) (0, DBL_MAX)

/-- A feature queue with the two topology fields of its newest record overwritten; an empty
queue stays empty. -/
def setTopology (queue : List BeaconFeatures) (count : Nat) (minDistance : ℚ) :
    List BeaconFeatures :=
  match queue.getLast? with
  | some f =>
    queue.dropLast ++
      [{ f with neighborCount := count, distanceToNearestNeighbor := minDistance }]
  | none => queue

/-- A feature record with its two topology fields zeroed: what `LogNeighbors` may not touch. -/
def clearTopology (f : BeaconFeatures) : BeaconFeatures :=
  { f with neighborCount := 0, distanceToNearestNeighbor := 0 }

/-- The capacity invariant: every bounded per-node container is within its declared size. -/
def CapInv (w : World) : Prop :=
  ∀ id, (w.nodeFeatures id).length ≤ 100 ∧ (w.nodeMessageTimes id).length ≤ 100 ∧
    (w.nodePayloadSizes id).length ≤ 50 ∧ (w.trustHistory id).length ≤ 100

/-! ## Highway variant (`hisol-vanets-highway-low-density.cc`) -/

/-- Row of the highway `replay_output`: time, `attacker=`, replayed payload. -/
structure Highway.ReplayRow where
  t : ℚ
  attacker : Nat
  replay : Payload
deriving DecidableEq

/-- Global state of the highway variant, as far as beacons and replay are concerned. -/
structure Highway.World where
  replayBuffers : Nat → List Payload := fun _ => []
  sent : List (Nat × Payload) := []
  bsm_output : List BsmRow := []
  replay_output : List Highway.ReplayRow := []

/-- Method `BsmApp::SendBsm` of the highway variant: build the beacon, buffer it (at most 20
entries, oldest erased), send it, log it. -/
def Highway.SendBsm (fmt : ℚ → List Char) (id : Nat) (pos vel : Vector) (now : Time)
    (w : Highway.World) : Highway.World :=
  let s := beaconOf fmt id pos vel now
  { w with replayBuffers := Function.update w.replayBuffers id
                              (pushBounded 20 (w.replayBuffers id) s),
           sent := w.sent ++ [(id, s)],
           bsm_output := w.bsm_output ++
             [BsmRow.mk id pos.x pos.y vel.x vel.y (GetSeconds now)] }

/-- Function `InjectReplay (nodes, attacker)` of the highway variant, fired at `now`, for a node
container of `size` nodes: the state it leaves and the time it schedules its next firing for
(`none` when it returns without calling `Simulator::Schedule`).  It starts with
`nodes.Get (attacker)`. -/
def Highway.InjectReplay (size attacker : Nat) (now : Time) (w : Highway.World) :
    Except MainError (Highway.World × Option Time) :=
  match NodeContainer.Get size attacker with
  | Except.error e => Except.error e
  | Except.ok a =>
    match (w.replayBuffers attacker).getLast? with
    | none => Except.ok (w, none)
    | some replay =>
      Except.ok
        ({ w with replay_output := w.replay_output ++
            [Highway.ReplayRow.mk (GetSeconds now) attacker replay] },
          some (now + 2000000000))

/-- The events of the highway variant that read or write the replay buffers and the replay
log: a beacon tick of a node (`BsmApp::SendBsm`, first called by `StartApplication`) and a
firing of `InjectReplay`.  The other callbacks (`LogNeighbors`, `InjectSybil`, `JammerTx`,
`ReceivePacket`) touch neither. -/
inductive Highway.Event where
  | sendBsm (node : Nat)
  | injectReplay (attacker : Nat)
deriving DecidableEq

/-- State of the simulator: the global state and the pending events, each with the time it is
scheduled for, in the order they were scheduled. -/
structure Highway.Sim where
  world : Highway.World := {}
  queue : List (Time × Highway.Event) := []

/-- The state `main` of the highway variant hands to `Simulator::Run` for `numVehicles`
vehicles: `Simulator::Schedule (Seconds (20.0), &InjectReplay, vehicles, 2)`, and for every
vehicle `app->SetStartTime (Seconds (1.0))`, whose `StartApplication` calls `SendBsm`. -/
def Highway.main (numVehicles : Nat) : Highway.Sim :=
  { queue := (20000000000, Highway.Event.injectReplay 2) ::
      (List.range numVehicles).map (fun i => (1000000000, Highway.Event.sendBsm i)) }

/-- The event the scheduler fires next, and the events left pending: the earliest one, the
first scheduled among those with the same time. -/
def Highway.popEarliest :
    List (Time × Highway.Event) → Option ((Time × Highway.Event) × List (Time × Highway.Event))
  | [] => none
  | e :: rest =>
    match Highway.popEarliest rest with
    | none => some (e, [])
    | some (m, rest1) => if e.1 ≤ m.1 then some (e, rest) else some (m, e :: rest1)

/-- One step of `Simulator::Run` in the highway variant: the earliest pending event fires at
its time `now`.  `SendBsm` reads the position and the velocity of its node from the mobility
model (`mob`) and ends with `Simulator::Schedule (Seconds (m_interval), &BsmApp::SendBsm, this)`
(`m_interval = g_bsmInterval = 0.1`); `InjectReplay` schedules its next firing 2 s later when it
reaches `Simulator::Schedule`.  `none` when nothing is pending or a callback fails. -/
def Highway.step (fmt : ℚ → List Char) (mob : Nat → Time → Vector × Vector)
    (numVehicles : Nat) (s : Highway.Sim) : Option Highway.Sim :=
  match Highway.popEarliest s.queue with
  | none => none
  | some ((now, Highway.Event.sendBsm i), rest) =>
    some { world := Highway.SendBsm fmt i (mob i now).1 (mob i now).2 now s.world,
           queue := rest ++ [(now + 100000000, Highway.Event.sendBsm i)] }
  | some ((now, Highway.Event.injectReplay a), rest) =>
    match Highway.InjectReplay numVehicles a now s.world with
    | Except.error _ => none
    | Except.ok (w1, some next) =>
      some { world := w1, queue := rest ++ [(next, Highway.Event.injectReplay a)] }
    | Except.ok (w1, none) => some { world := w1, queue := rest }

/-- The time of the tick that follows a tick at `now`: `SendBsm` ends with
`Simulator::Schedule (Seconds (m_interval), &EnhancedBsmApp::SendBsm, this)`. -/
def nextTick (app : EnhancedBsmApp) (now : Time) : Time := now + app.m_interval

/-- The time of tick `k` of an application started at `start`. -/
def tickTime (app : EnhancedBsmApp) (start : Time) : Nat → Time
  | 0 => start
  | k + 1 => nextTick app (tickTime app start k)

/-- The ticks of a run, oldest first: which node ticked, and when. -/
def ticksOf : List (Op × Time) → List (Nat × Time)
  | [] => []
  | (Op.sendBsm i _ _, now) :: rest => (i, now) :: ticksOf rest
  | _ :: rest => ticksOf rest

/-- The beacon-log rows the ticks of a run owe, oldest first. -/
def bsmRowsOf : List (Op × Time) → List BsmRow
  | [] => []
  | (Op.sendBsm i pos vel, now) :: rest =>
    BsmRow.mk i pos.x pos.y vel.x vel.y (GetSeconds now) :: bsmRowsOf rest
  | _ :: rest => bsmRowsOf rest

/-- A run follows the tick schedule: for every node the times of its ticks are, in order, the
times `tickTime` gives for its application, started by `main` at 1.0 s. -/
def Periodic (cfg : Config) (trace : List (Op × Time)) : Prop :=
  ∀ i, ∃ n, ((ticksOf trace).filter (fun p => decide (p.1 = i))).map Prod.snd =
    (List.range n).map (tickTime (appOf cfg i) 1000000000)

/-- State of the basic variant (`hisol-vanets.cc`): the packets sent and the rows of
`output_log`. -/
structure Hisol.World where
  sent : List (Nat × Payload) := []
  output_log : List BsmRow := []

/-- Method `BsmApp::SendBsm` of the basic variant: send the beacon, log it. -/
def Hisol.SendBsm (fmt : ℚ → List Char) (id : Nat) (pos vel : Vector) (now : Time)
    (w : Hisol.World) : Hisol.World :=
  { w with sent := w.sent ++ [(id, beaconOf fmt id pos vel now)],
           output_log := w.output_log ++
             [BsmRow.mk id pos.x pos.y vel.x vel.y (GetSeconds now)] }

/-! ## Evaluations of a run -/

/-- The `detectAnomaly` evaluations of node `id` in a run, oldest first, each with the position
and the velocity it is handed: every `RunMLDetection` pass and every `RunHybridDetection` pass
evaluates each node `id < g_numVehicles` once. -/
def observationsOf (cfg : Config) (id : Nat) : List (Op × Time) → List (Vector × Vector)
  | [] => []
  | (Op.runMLDetection mob, _) :: rest =>
    if id < cfg.g_numVehicles then (mob.position id, mob.velocity id) :: observationsOf cfg id rest
    else observationsOf cfg id rest
  | (Op.runHybridDetection mob, _) :: rest =>
    if id < cfg.g_numVehicles then (mob.position id, mob.velocity id) :: observationsOf cfg id rest
    else observationsOf cfg id rest
  | _ :: rest => observationsOf cfg id rest

/-- The mobility history a node holds after its evaluations `obs` (oldest first): the four
numbers of the last one, nothing when there was none. -/
def historyAfter (obs : List (Vector × Vector)) : List ℚ :=
  match obs.getLast? with
  | none => []
  | some o => [o.1.x, o.1.y, o.2.x, o.2.y]

/-! ## Binary64 arithmetic of the trust pipeline and of the detectors

The trust score is compared with `0.6` exactly where the exact mean can equal `0.6`, and the
speed is compared with `40.0` and `35.0` after three roundings and a rounded square root, so for
the Trust Engine, the heuristic detector and the Hybrid Engine the `double` arithmetic of the
source is modelled as well: a `double` is the rational it denotes, and every operation returns
the `double` nearest to the exact result (round to nearest, ties to even, 53 significant bits;
each operation is rounded on its own, no fused multiply-add).  Overflow and subnormal values are
not modelled; every value of the trust pipeline lies between `2^-2` and `2^32`. -/

/-- Number of halvings that bring `n` below 2, found within `fuel` steps. -/
def Binary64.log2Aux : Nat → Nat → Nat
  | 0, _ => 0
  | fuel + 1, n => if n < 2 then 0 else Binary64.log2Aux fuel (n / 2) + 1

/-- Position of the leading bit of `n`. -/
def Binary64.ilog2 (n : Nat) : Nat := Binary64.log2Aux n n

/-- The power `2^e` for an integer exponent. -/
def Binary64.pow2 (e : Int) : ℚ :=
  if 0 ≤ e then ((2 ^ e.toNat : Nat) : ℚ) else 1 / ((2 ^ (-e).toNat : Nat) : ℚ)

/-- Binary exponent of a non-zero value: the `e` with `2^e ≤ |q| < 2^(e+1)`. -/
def Binary64.exponent (q : ℚ) : Int :=
  let e0 : Int := (Binary64.ilog2 q.num.natAbs : Int) - (Binary64.ilog2 q.den : Int)
  if Binary64.pow2 e0 ≤ |q| then e0 else e0 - 1

/-- Nearest integer, a tie going to the even one. -/
def Binary64.roundHalfEven (r : ℚ) : Int :=
  let f := ⌊r⌋
  if r - f < 1 / 2 then f
  else if 1 / 2 < r - f then f + 1
  else if f % 2 = 0 then f else f + 1

/-- The `double` nearest to `q`: `q` is scaled by its unit in the last place `2^(e - 52)`,
rounded to an integer, and scaled back.  It is what a decimal literal denotes (`0.6` is
`toDouble (3 / 5)`) and what an arithmetic operation returns for the exact result `q`. -/
def Binary64.toDouble (q : ℚ) : ℚ :=
  if q = 0 then 0
  else Binary64.roundHalfEven (q / Binary64.pow2 (Binary64.exponent q - 52)) *
    Binary64.pow2 (Binary64.exponent q - 52)

/-- Bisection for the integer square root: `r` is the root found so far, the bits below
position `k` are still to be decided. -/
def Binary64.sqrtAux (n : Nat) : Nat → Nat → Nat
  | 0, r => r
  | k + 1, r =>
    if (r + 2 ^ k) * (r + 2 ^ k) ≤ n then Binary64.sqrtAux n k (r + 2 ^ k)
    else Binary64.sqrtAux n k r

/-- Integer square root: the `r` with `r^2 ≤ n < (r + 1)^2`. -/
def Binary64.isqrt (n : Nat) : Nat := Binary64.sqrtAux n (Binary64.ilog2 n / 2 + 1) 0

/-- Function `sqrt` on `double`: the `double` nearest to the exact square root (the operation is
correctly rounded, ties to even).  With `2^e ≤ sqrt q < 2^(e+1)` and the unit in the last place
`u = 2^(e - 52)`, the root lies between `m * u` and `(m + 1) * u` for `m = floor (sqrt q / u)`,
and `q` is compared with the square of the midpoint. -/
def Binary64.sqrt (q : ℚ) : ℚ :=
  if q ≤ 0 then 0
  else
    let u := Binary64.pow2 (Binary64.exponent q / 2 - 52)
    let m := Binary64.isqrt ⌊q / (u * u)⌋.toNat
    let mid : ℚ := (2 * (m : ℚ) + 1) / 2 * u
    if q < mid * mid then (m : ℚ) * u
    else if mid * mid < q then ((m : ℚ) + 1) * u
    else if m % 2 = 0 then (m : ℚ) * u else ((m : ℚ) + 1) * u

/-- The value `speed = sqrt (vel.x * vel.x + vel.y * vel.y)` of `detectAnomaly` in `double`
arithmetic: two rounded products, a rounded sum, a rounded square root. -/
def Binary64.speed (vel : Vector) : ℚ :=
  Binary64.sqrt (Binary64.toDouble
    (Binary64.toDouble (vel.x * vel.x) + Binary64.toDouble (vel.y * vel.y)))

/-- Function `detectAnomaly (nodeId, pos, vel)` in `double` arithmetic: the computed `speed` is
compared with `40.0`, and with `35.0` when the stored history has at least 4 entries. -/
def Binary64.detectAnomaly (nodeId : Nat) (pos vel : Vector) (w : World) : Bool × World :=
  let speed := Binary64.speed vel
  let r1 : Bool × World :=
    if speed > 40 then (true, bumpSuspicious nodeId w) else (false, w)
  let r2 : Bool × World :=
    if r1.2.mobilityHistory nodeId ≠ [] ∧ (r1.2.mobilityHistory nodeId).length ≥ 4 then
      if speed > 35 then (true, bumpSuspicious nodeId r1.2) else r1
    else r1
  (r2.1, { r2.2 with mobilityHistory :=
             Function.update r2.2.mobilityHistory nodeId [pos.x, pos.y, vel.x, vel.y] })

/-- Loop body of `RunMLDetection` for node `i`, with `detectAnomaly` in `double` arithmetic. -/
def Binary64.mlStep (mob : Mobility) (now : Time) (w : World) (i : Nat) : World :=
  let r := Binary64.detectAnomaly i (mob.position i) (mob.velocity i) w
  if r.1 then
    { r.2 with ml_output := r.2.ml_output ++
        [MlRow.mk (GetSeconds now) i (r.2.suspiciousCount i)] }
  else r.2

/-- Function `RunMLDetection (nodes)`, with `detectAnomaly` in `double` arithmetic. -/
def Binary64.RunMLDetection (cfg : Config) (mob : Mobility) (now : Time) (w : World) : World :=
  (List.range cfg.g_numVehicles).foldl (Binary64.mlStep mob now) w

/-- Lines 317-327 of `calculateTrustScore` in `double` arithmetic: `g_numVehicles * 0.8` is a
rounded product (the conversions of the two `uint32_t` values are exact), `trust -= 0.3` and
`trust -= 0.1` are rounded differences. -/
def Binary64.instantTrust (cfg : Config) (nodeId : Nat) (vel : Vector) : ℚ :=
  let trust : ℚ := 1
  if (nodeId : ℚ) < Binary64.toDouble ((cfg.g_numVehicles : ℚ) * Binary64.toDouble (4 / 5)) then
    let trust1 :=
      if vel.x > 50 ∨ vel.y > 50 then Binary64.toDouble (trust - Binary64.toDouble (3 / 10))
      else trust
    if vel.x < 0 ∨ vel.y < 0 then Binary64.toDouble (trust1 - Binary64.toDouble (1 / 10))
    else trust1
  else trust

/-- The loop `double sum = 0; for (double t : trustHistory[nodeId]) sum += t;`. -/
def Binary64.sum (history : List ℚ) : ℚ :=
  history.foldl (fun sum t => Binary64.toDouble (sum + t)) 0

/-- The averaging part of `calculateTrustScore` in `double` arithmetic: the rounded quotient
`sum / size` of the rounded sum. -/
def Binary64.avgTrust (trust : ℚ) (history : List ℚ) : ℚ :=
  if history ≠ [] then Binary64.toDouble (Binary64.sum history / history.length) else trust

/-- Function `calculateTrustScore` in `double` arithmetic. -/
def Binary64.calculateTrustScore (cfg : Config) (nodeId : Nat) (pos vel : Vector)
    (timestamp : Time) (w : World) : ℚ × World :=
  let trust := Binary64.instantTrust cfg nodeId vel
  let history := pushBounded 100 (w.trustHistory nodeId) trust
  (Binary64.avgTrust trust history,
   { w with trustHistory := Function.update w.trustHistory nodeId history })

/-- Loop body of `UpdateTrustScores` in `double` arithmetic (`0.5` is a `double`). -/
def Binary64.updateTrustStep (cfg : Config) (mob : Mobility) (now : Time) (w : World)
    (i : Nat) : World :=
  let r := Binary64.calculateTrustScore cfg i (mob.position i) (mob.velocity i) now w
  let trust := r.1
  { r.2 with nodeTrust := Function.update r.2.nodeTrust i trust,
             trust_output := r.2.trust_output ++
               [TrustRow.mk (GetSeconds now) i trust (if trust < 1 / 2 then 1 else 0)] }

/-- Function `UpdateTrustScores` in `double` arithmetic. -/
def Binary64.UpdateTrustScores (cfg : Config) (mob : Mobility) (now : Time) (w : World) :
    World :=
  (List.range cfg.g_numVehicles).foldl (Binary64.updateTrustStep cfg mob now) w

/-- Loop body of `RunHybridDetection` in `double` arithmetic: the heuristic verdict is the one
of `Binary64.detectAnomaly`, the stored trust is compared with the `double` `0.6`. -/
def Binary64.hybridStep (mob : Mobility) (now : Time) (w : World) (i : Nat) : World :=
  let r1 := Binary64.detectAnomaly i (mob.position i) (mob.velocity i) w
  let mlAnomaly := r1.1
  let r2 := checkRuleBased i now r1.2
  let ruleSuspicious := r2.1
  let trustScore := r2.2.nodeTrust i
  if (mlAnomaly || ruleSuspicious) ∧ trustScore < Binary64.toDouble (3 / 5) then
    { r2.2 with mitigation_output := r2.2.mitigation_output ++
        [MitigationRow.hybrid_detection (GetSeconds now) i mlAnomaly ruleSuspicious trustScore] }
  else r2.2

/-- Function `RunHybridDetection (nodes)` in `double` arithmetic. -/
def Binary64.RunHybridDetection (cfg : Config) (mob : Mobility) (now : Time) (w : World) :
    World :=
  (List.range cfg.g_numVehicles).foldl (Binary64.hybridStep mob now) w

/-- The row `Binary64.RunHybridDetection` owes node `i`, read off the state before the pass. -/
def Binary64.hybridVerdict (mob : Mobility) (now : Time) (w : World) (i : Nat) :
    Option MitigationRow :=
  let ml := (Binary64.detectAnomaly i (mob.position i) (mob.velocity i) w).1
  let rule := (checkRuleBased i now w).1
  if (ml = true ∨ rule = true) ∧ w.nodeTrust i < Binary64.toDouble (3 / 5) then
    some (MitigationRow.hybrid_detection (GetSeconds now) i ml rule (w.nodeTrust i))
  else none

/-- Effect of one callback with the Trust Engine, the heuristic detector and the Hybrid Engine
in `double` arithmetic; the other callbacks are as in `exec`. -/
def Binary64.exec (fmt : ℚ → List Char) (cfg : Config) (op : Op) (now : Time) (w : World) :
    Option World :=
  match op with
  | Op.updateTrustScores mob => some (Binary64.UpdateTrustScores cfg mob now w)
  | Op.runMLDetection mob => some (Binary64.RunMLDetection cfg mob now w)
  | Op.runHybridDetection mob => some (Binary64.RunHybridDetection cfg mob now w)
  | _ => Vanet.exec fmt cfg op now w

/-- States the program can be in, with the trust pipeline and the detectors in `double`
arithmetic. -/
inductive Binary64.Reachable (fmt : ℚ → List Char) (cfg : Config) : World → Prop where
  | init : Binary64.Reachable fmt cfg World.init
  | step (w w1 : World) (op : Op) (now : Time) :
      Binary64.Reachable fmt cfg w → Binary64.exec fmt cfg op now w = some w1 →
      Binary64.Reachable fmt cfg w1

/-- A run with the trust pipeline and the detectors in `double` arithmetic. -/
def Binary64.run (fmt : ℚ → List Char) (cfg : Config) : List (Op × Time) → World → Option World
  | [], w => some w
  | e :: rest, w =>
    match Binary64.exec fmt cfg e.1 e.2 w with
    | some w1 => Binary64.run fmt cfg rest w1
    | none => none

/-- The number of evaluations of node `id` by the Trust Engine in a run: every
`UpdateTrustScores` pass evaluates each node `id < g_numVehicles` once. -/
def evaluationCount (cfg : Config) (id : Nat) : List (Op × Time) → Nat
  | [] => 0
  | (Op.updateTrustScores _, _) :: rest =>
    (if id < cfg.g_numVehicles then 1 else 0) + evaluationCount cfg id rest
  | _ :: rest => evaluationCount cfg id rest

/-- The floor invariant of the trust state for a bound `c`: every history is within its
capacity and holds scores of at least `c`; every stored mean is the default `0.0` or at least
`c`; every trust-log row carries a score of at least `c` and the low-trust flag 0. -/
def TrustFloor (c : ℚ) (w : World) : Prop :=
  (∀ id, (w.trustHistory id).length ≤ 100 ∧ ∀ x ∈ w.trustHistory id, c ≤ x) ∧
    (∀ id, w.nodeTrust id = 0 ∨ c ≤ w.nodeTrust id) ∧
    (∀ row ∈ w.trust_output, c ≤ row.trustScore ∧ row.lowTrustFlag = 0)

/-- The state of the Trust Engine in `double` arithmetic: every history is within its capacity
and holds only the four `double` scores; the stored mean of a node is the default `0.0` while
its history is empty and the computed mean of its history afterwards; every trust-log row
carries a score of at least `0.6 - 2 * 2^-53` and the low-trust flag 0. -/
def Binary64.TrustState (w : World) : Prop :=
  (∀ id, (w.trustHistory id).length ≤ 100 ∧
      (∀ x ∈ w.trustHistory id, x = 1 ∨ x = Binary64.toDouble (9 / 10) ∨
        x = Binary64.toDouble (7 / 10) ∨ x = Binary64.toDouble (3 / 5)) ∧
      (w.trustHistory id = [] → w.nodeTrust id = 0) ∧
      (w.trustHistory id ≠ [] →
        w.nodeTrust id = Binary64.avgTrust 1 (w.trustHistory id))) ∧
    (∀ row ∈ w.trust_output,
      5404319552844593 / 9007199254740992 ≤ row.trustScore ∧ row.lowTrustFlag = 0)

/-- What one `detectAnomaly` call adds to the suspicion counter of the node it evaluates, in
`double` arithmetic: 1 when the computed `speed > 40.0`, plus 1 when the stored history has at
least 4 entries and the computed `speed > 35.0`. -/
def Binary64.anomalyIncrement (vel : Vector) (historySize : Nat) : Int :=
  (if Binary64.speed vel > 40 then 1 else 0) +
    (if 4 ≤ historySize ∧ Binary64.speed vel > 35 then 1 else 0)

/-- The instantaneous scores of node `id` in a run, in `double` arithmetic, one per evaluation,
in order: every `UpdateTrustScores` pass evaluates each node `id < g_numVehicles` once. -/
def Binary64.scoresOf (cfg : Config) (id : Nat) : List (Op × Time) → List ℚ
  | [] => []
  | (Op.updateTrustScores mob, _) :: rest =>
    if id < cfg.g_numVehicles then
      Binary64.instantTrust cfg id (mob.velocity id) :: Binary64.scoresOf cfg id rest
    else Binary64.scoresOf cfg id rest
  | _ :: rest => Binary64.scoresOf cfg id rest

/-! ## Printed numbers -/

/-- Number of divisions by 10 that bring `n` below 10, found within `fuel` steps. -/
def Ostream.log10Aux : Nat → Nat → Nat
  | 0, _ => 0
  | fuel + 1, n => if n < 10 then 0 else Ostream.log10Aux fuel (n / 10) + 1

/-- Number of decimal digits of `n`, less one. -/
def Ostream.ilog10 (n : Nat) : Nat := Ostream.log10Aux n n

/-- The power `10^e` for an integer exponent. -/
def Ostream.pow10 (e : Int) : ℚ :=
  if 0 ≤ e then ((10 ^ e.toNat : Nat) : ℚ) else 1 / ((10 ^ (-e).toNat : Nat) : ℚ)

/-- Decimal exponent of a non-zero value: the `e` with `10^e ≤ |q| < 10^(e+1)`. -/
def Ostream.exponent10 (q : ℚ) : Int :=
  let e0 : Int := (Ostream.ilog10 q.num.natAbs : Int) - (Ostream.ilog10 q.den : Int)
  if Ostream.pow10 e0 ≤ |q| then e0 else e0 - 1

/-- The number `ostream << d` prints for a `double` `d` with the default format (precision 6,
no `fixed` or `scientific` flag): `d` rounded to 6 significant decimal digits, ties to even.
The text is a function of this number, so two values print the same text exactly when they have
the same `sixDigits`. -/
def Ostream.sixDigits (d : ℚ) : ℚ :=
  if d = 0 then 0
  else Binary64.roundHalfEven (d / Ostream.pow10 (Ostream.exponent10 d - 5)) *
    Ostream.pow10 (Ostream.exponent10 d - 5)

/-- The time a beacon-log row shows: `Simulator::Now ().GetSeconds ()` is a `double`, printed
with 6 significant digits. -/
def BsmRow.printedTime (r : BsmRow) : ℚ := Ostream.sixDigits (Binary64.toDouble r.t)

/-! ## Beacon events of the scheduler -/

/-- The `SendBsm` events `main` leaves in the scheduler, as pairs of node and firing time:
`StartApplication` of an installed application is one call of `SendBsm`, at the start time
`main` sets. -/
def pendingBeacons : List (Callback × Time) → List (Nat × Time)
  | [] => []
  | (Callback.startApplication i, t) :: rest => (i, t) :: pendingBeacons rest
  | _ :: rest => pendingBeacons rest

/-- What a tick of `app` at `now` does to the `SendBsm` events in the scheduler: the event that
fires leaves the queue, and the last statement of `SendBsm`,
`Simulator::Schedule (Seconds (m_interval), &EnhancedBsmApp::SendBsm, this)`, enters one for
`now + m_interval`.  The result is `none` when the scheduler holds no `SendBsm` event of this
node for the time `now`: such a tick cannot fire. -/
def fireBeacon (app : EnhancedBsmApp) (now : Time) (pending : List (Nat × Time)) :
    Option (List (Nat × Time)) :=
  if (app.nodeId, now) ∈ pending then
    some (pending.erase (app.nodeId, now) ++ [(app.nodeId, nextTick app now)])
  else none

/-- What a callback does to the `SendBsm` events in the scheduler: only a tick touches them. -/
def scheduleBeacon (cfg : Config) (op : Op) (now : Time) (pending : List (Nat × Time)) :
    Option (List (Nat × Time)) :=
  match op with
  | Op.sendBsm i _ _ => fireBeacon (appOf cfg i) now pending
  | _ => some pending

/-- A run in which every beacon tick is an event of the scheduler: the state and the pending
`SendBsm` events after the callbacks of `trace`, or `none` when a callback is stopped by an
exception or a tick of the trace is not in the scheduler.  How the scheduler interleaves the
ticks of different nodes and the other callbacks is left open. -/
def scheduledRun (fmt : ℚ → List Char) (cfg : Config) :
    List (Op × Time) → World → List (Nat × Time) → Option (World × List (Nat × Time))
  | [], w, pending => some (w, pending)
  | e :: rest, w, pending =>
    match scheduleBeacon cfg e.1 e.2 pending, exec fmt cfg e.1 e.2 w with
    | some pending1, some w1 => scheduledRun fmt cfg rest w1 pending1
    | _, _ => none

/-- The pending `SendBsm` events follow the tick schedule: at most one per node, and the one of
a node that has ticked `c i` times is for the time of its tick number `c i`. -/
def TickInv (cfg : Config) (c : Nat → Nat) (pending : List (Nat × Time)) : Prop :=
  (pending.map Prod.fst).Nodup ∧
    ∀ p ∈ pending, p.2 = tickTime (appOf cfg p.1) 1000000000 (c p.1)

/-! ## Invariants -/

/-- The invariant behind the trust bounds: every stored instantaneous score, every stored
mean and every logged mean lies in `[0, 1]`. -/
def TrustInv (w : World) : Prop :=
  (∀ id, ∀ x ∈ w.trustHistory id, 0 ≤ x ∧ x ≤ 1) ∧
    (∀ id, 0 ≤ w.nodeTrust id ∧ w.nodeTrust id ≤ 1) ∧
    (∀ row ∈ w.trust_output, 0 ≤ row.trustScore ∧ row.trustScore ≤ 1)

/-! ## Sample inputs -/

/-- A formatter for the examples: every number prints as `0`. -/
def sampleFmt : ℚ → List Char := fun _ => ['0']

/-- A short run: node 3 ticks, the rule detector runs, node 3 ticks again. -/
def sampleTrace : List (Op × Time) :=
  [(Op.sendBsm 3 ⟨1, 2, 0⟩ ⟨3, 4, 0⟩, 1000000000), (Op.updateRuleBasedDetection, 1050000000),
    (Op.sendBsm 3 ⟨2, 2, 0⟩ ⟨3, 4, 0⟩, 1100000000)]

/-- The state `sampleTrace` leaves. -/
def sampleWorld : World :=
  SendBsm sampleFmt (appOf {} 3) ⟨2, 2, 0⟩ ⟨3, 4, 0⟩ 1100000000
    (UpdateRuleBasedDetection {} 1050000000
      (SendBsm sampleFmt (appOf {} 3) ⟨1, 2, 0⟩ ⟨3, 4, 0⟩ 1000000000 World.init))

/-- A mobility oracle for the examples: node `i` stands at `(i, 0)` and moves with `(60, -1)`. -/
def sampleMob : Mobility :=
  { position := fun i => ⟨i, 0, 0⟩, velocity := fun _ => ⟨60, -1, 0⟩ }

/-- A state for the examples: every node has one stored instantaneous score, `0.6`. -/
def penalisedWorld : World := { trustHistory := fun _ => [3 / 5] }

/-- The configuration of the flooding scenario: 10 vehicles, jamming off, defaults otherwise. -/
def floodCfg : Config := { g_numVehicles := 10, g_enable_jamming := false }

/-- A run of the flooding scenario: node 5 ticks every 0.1 s from 1 s on, and node 1 receives
the 10 copies of each tick at once. -/
def floodTrace : Nat → List (Op × Time)
  | 0 => []
  | k + 1 =>
    floodTrace k ++
      [(Op.sendBsm 5 ⟨0, 0, 0⟩ ⟨20, 0, 0⟩, 1000000000 + (k : Time) * 100000000),
        (Op.receivePacket 1
          (List.replicate 10
            (beaconOf sampleFmt 5 ⟨0, 0, 0⟩ ⟨20, 0, 0⟩ (1000000000 + (k : Time) * 100000000))),
          1000000000 + (k : Time) * 100000000)]

/-- One hundred observations of a node at rest. -/
def restObservations : List (Vector × Vector × Time) :=
  List.replicate 100 (⟨0, 0, 0⟩, ⟨0, 0, 0⟩, 0)

/-- A distance oracle for the examples: every two distinct nodes are 100 apart. -/
def sampleDist : Nat → Nat → ℚ := fun a b => if a = b then 0 else 100

/-- A run of one `RunMLDetection` pass. -/
def mlTrace : List (Op × Time) := [(Op.runMLDetection sampleMob, 1000000000)]

/-- A run of `n` `UpdateTrustScores` passes, at 1 s, 2 s, ..., as `main` schedules them, every
node moving at `(60, -1)`. -/
def penaltyTrace : Nat → List (Op × Time)
  | 0 => []
  | k + 1 =>
    penaltyTrace k ++ [(Op.updateTrustScores sampleMob, 1000000000 + (k : Time) * 1000000000)]

/-- Ten `UpdateTrustScores` passes followed by the `RunHybridDetection` pass at 10.1 s. -/
def hybridTrace : List (Op × Time) :=
  penaltyTrace 10 ++ [(Op.runHybridDetection sampleMob, 10100000000)]

/-- The state `penaltyTrace n` leaves from the start state, with 10 vehicles and the trust
pipeline in `double` arithmetic. -/
def penaltyWorld : Nat → World
  | 0 => World.init
  | k + 1 =>
    Binary64.UpdateTrustScores floodCfg sampleMob (1000000000 + (k : Time) * 1000000000)
      (penaltyWorld k)

/-- A mobility oracle for the examples: every node moves at `(60, 0)`, above the bound of 50
with no negative component, so its instantaneous score is `0.7`. -/
def fastMob : Mobility :=
  { position := fun i => ⟨i, 0, 0⟩, velocity := fun _ => ⟨60, 0, 0⟩ }

/-- Three `UpdateTrustScores` passes, at 1 s, 2 s and 3 s, every node moving at `(60, 0)`. -/
def fastTrace : List (Op × Time) :=
  [(Op.updateTrustScores fastMob, 1000000000), (Op.updateTrustScores fastMob, 2000000000),
    (Op.updateTrustScores fastMob, 3000000000)]

/-- The state `fastTrace` leaves from the start state, with 10 vehicles and the trust pipeline
in `double` arithmetic. -/
def fastWorld : World :=
  Binary64.UpdateTrustScores floodCfg fastMob 3000000000
    (Binary64.UpdateTrustScores floodCfg fastMob 2000000000
      (Binary64.UpdateTrustScores floodCfg fastMob 1000000000 World.init))

/-- A mobility oracle for the examples: at pass `k` (counted from 0) every node moves at
`(60, -1)` when `16 ≤ k < 19` (score `0.6`) and at `(10, 0)` otherwise (score `1.0`). -/
def dipMob (k : Nat) : Mobility :=
  { position := fun i => ⟨i, 0, 0⟩,
    velocity := fun _ => if 16 ≤ k ∧ k < 19 then ⟨60, -1, 0⟩ else ⟨10, 0, 0⟩ }

/-- A run of `n` `UpdateTrustScores` passes, at 1 s, 2 s, ..., pass `k` reading `dipMob k`. -/
def dipTrace : Nat → List (Op × Time)
  | 0 => []
  | k + 1 =>
    dipTrace k ++ [(Op.updateTrustScores (dipMob k), 1000000000 + (k : Time) * 1000000000)]

/-- The state `dipTrace n` leaves from the start state, with 10 vehicles and the trust pipeline
in `double` arithmetic. -/
def dipWorld : Nat → World
  | 0 => World.init
  | k + 1 =>
    Binary64.UpdateTrustScores floodCfg (dipMob k) (1000000000 + (k : Time) * 1000000000)
      (dipWorld k)

/-- The events `main` schedules in the flooding scenario. -/
def floodEvents : List (Callback × Time) :=
  [(Callback.startApplication 0, 1000000000), (Callback.startApplication 1, 1000000000),
    (Callback.startApplication 2, 1000000000), (Callback.startApplication 3, 1000000000),
    (Callback.startApplication 4, 1000000000), (Callback.startApplication 5, 1000000000),
    (Callback.startApplication 6, 1000000000), (Callback.startApplication 7, 1000000000),
    (Callback.startApplication 8, 1000000000), (Callback.startApplication 9, 1000000000),
    (Callback.injectDdosAttack 5, 3000000000), (Callback.injectSybilAttack 10, 4000000000),
    (Callback.injectReplayAttack 15, 6000000000),
    (Callback.injectMsgFalsification 20, 8000000000),
    (Callback.updateTrustScores, 1000000000), (Callback.runMLDetection, 1000000000),
    (Callback.updateRuleBasedDetection, 500000000), (Callback.runHybridDetection, 1500000000),
    (Callback.logNeighbors, 1000000000)]

/-- The state `sampleTrace` leaves in the flooding scenario. -/
def floodSampleWorld : World :=
  SendBsm sampleFmt (appOf floodCfg 3) ⟨2, 2, 0⟩ ⟨3, 4, 0⟩ 1100000000
    (UpdateRuleBasedDetection floodCfg 1050000000
      (SendBsm sampleFmt (appOf floodCfg 3) ⟨1, 2, 0⟩ ⟨3, 4, 0⟩ 1000000000 World.init))

/-- The `SendBsm` events in the scheduler after `sampleTrace` in the flooding scenario. -/
def floodSamplePending : List (Nat × Time) :=
  [(0, 1000000000), (1, 1000000000), (2, 1000000000), (4, 1000000000), (5, 1000000000),
    (6, 1000000000), (7, 1000000000), (8, 1000000000), (9, 1000000000), (3, 1200000000)]

/-- The first `n` ticks of node `i`, standing at the origin. -/
def beaconTrace (cfg : Config) (i n : Nat) : List (Op × Time) :=
  (List.range n).map (fun k =>
    (Op.sendBsm i ⟨0, 0, 0⟩ ⟨0, 0, 0⟩, tickTime (appOf cfg i) 1000000000 k))

/-! ## Lemmas on the rule detector -/

theorem getSeconds_gt_half_iff (d : Time) : GetSeconds d > 1 / 2 ↔ 500000000 < d := by
  unfold GetSeconds
  rw [gt_iff_lt, lt_div_iff₀ (by norm_num : (0 : ℚ) < 1000000000)]
  have h : (1 / 2 : ℚ) * 1000000000 = ((500000000 : Int) : ℚ) := by norm_num
  rw [h, Int.cast_lt]

theorem pruneTimestamps_eq_filter (now : Time) (l : List Time) :
    pruneTimestamps now l = l.filter (fun t => decide (now - t ≤ 500000000)) := by
  induction l with
  | nil => rfl
  | cons t rest ih =>
    unfold pruneTimestamps
    by_cases h : 500000000 < now - t
    · rw [if_pos ((getSeconds_gt_half_iff _).2 h), ih, List.filter_cons_of_neg]
      simp only [decide_eq_true_eq]; exact not_le.2 h
    · rw [if_neg (fun hc => h ((getSeconds_gt_half_iff _).1 hc)), ih, List.filter_cons_of_pos]
      simp only [decide_eq_true_eq]; exact not_lt.1 h

/-! ## Lemmas on the detectors -/

theorem foldl_preserves {α β : Type} (P : α → Prop) (f : α → β → α)
    (h : ∀ a b, P a → P (f a b)) (l : List β) (a : α) (ha : P a) : P (l.foldl f a) := by
  induction l generalizing a with
  | nil => exact ha
  | cons b l ih => exact ih (f a b) (h a b ha)

theorem detectAnomaly_snd_eq (i : Nat) (pos vel : Vector) (w : World) :
    ∃ c : Int, 0 ≤ c ∧ (detectAnomaly i pos vel w).2 =
      { w with suspiciousCount := Function.update w.suspiciousCount i (w.suspiciousCount i + c),
               mobilityHistory :=
                 Function.update w.mobilityHistory i [pos.x, pos.y, vel.x, vel.y] } := by
  unfold detectAnomaly bumpSuspicious
  simp only []
  split_ifs
  · exact ⟨2, by norm_num, by simp [add_assoc]⟩
  · exact ⟨1, by norm_num, by simp⟩
  · exact ⟨1, by norm_num, by simp⟩
  · exact ⟨1, by norm_num, by simp⟩
  · exact ⟨0, by norm_num, by simp⟩
  · exact ⟨0, by norm_num, by simp⟩

theorem checkRuleBased_snd_eq (i : Nat) (now : Time) (w : World) :
    (checkRuleBased i now w).2 =
      { w with packetTimestamps :=
          Function.update w.packetTimestamps i (pruneTimestamps now (w.packetTimestamps i)) } := by
  unfold checkRuleBased
  simp only []
  split_ifs <;> rfl

theorem checkRuleBased_fst (i : Nat) (now : Time) (w : World) :
    (checkRuleBased i now w).1 =
      decide (15 < (pruneTimestamps now (w.packetTimestamps i)).length) := by
  unfold checkRuleBased
  simp only []
  split_ifs with h <;> simp [h]

theorem bumpSuspicious_mobilityHistory (i : Nat) (w : World) :
    (bumpSuspicious i w).mobilityHistory = w.mobilityHistory := rfl

theorem detectAnomaly_fst (i : Nat) (pos vel : Vector) (w : World) :
    (detectAnomaly i pos vel w).1 =
      (decide (vel.x * vel.x + vel.y * vel.y > 1600) ||
        (decide (4 ≤ (w.mobilityHistory i).length) &&
          decide (vel.x * vel.x + vel.y * vel.y > 1225))) := by
  unfold detectAnomaly
  simp only []
  split_ifs with h1 h2 h3 h2 h3 <;>
    simp_all [bumpSuspicious_mobilityHistory]
  all_goals
    intro h4
    exact absurd (h2 (by intro h; rw [h] at h4; simp at h4)) (by omega)

theorem detectAnomaly_nodeTrust (i : Nat) (pos vel : Vector) (w : World) :
    (detectAnomaly i pos vel w).2.nodeTrust = w.nodeTrust := by
  obtain ⟨c, -, hc⟩ := detectAnomaly_snd_eq i pos vel w
  rw [hc]

theorem detectAnomaly_packetTimestamps (i : Nat) (pos vel : Vector) (w : World) :
    (detectAnomaly i pos vel w).2.packetTimestamps = w.packetTimestamps := by
  obtain ⟨c, -, hc⟩ := detectAnomaly_snd_eq i pos vel w
  rw [hc]

theorem detectAnomaly_mitigation_output (i : Nat) (pos vel : Vector) (w : World) :
    (detectAnomaly i pos vel w).2.mitigation_output = w.mitigation_output := by
  obtain ⟨c, -, hc⟩ := detectAnomaly_snd_eq i pos vel w
  rw [hc]

theorem detectAnomaly_mobilityHistory (i : Nat) (pos vel : Vector) (w : World) :
    (detectAnomaly i pos vel w).2.mobilityHistory =
      Function.update w.mobilityHistory i [pos.x, pos.y, vel.x, vel.y] := by
  obtain ⟨c, -, hc⟩ := detectAnomaly_snd_eq i pos vel w
  rw [hc]

theorem checkRuleBased_nodeTrust (i : Nat) (now : Time) (w : World) :
    (checkRuleBased i now w).2.nodeTrust = w.nodeTrust := by
  rw [checkRuleBased_snd_eq]

theorem checkRuleBased_mobilityHistory (i : Nat) (now : Time) (w : World) :
    (checkRuleBased i now w).2.mobilityHistory = w.mobilityHistory := by
  rw [checkRuleBased_snd_eq]

theorem checkRuleBased_mitigation_output (i : Nat) (now : Time) (w : World) :
    (checkRuleBased i now w).2.mitigation_output = w.mitigation_output := by
  rw [checkRuleBased_snd_eq]

theorem checkRuleBased_suspiciousCount (i : Nat) (now : Time) (w : World) :
    (checkRuleBased i now w).2.suspiciousCount = w.suspiciousCount := by
  rw [checkRuleBased_snd_eq]

theorem checkRuleBased_packetTimestamps (i : Nat) (now : Time) (w : World) :
    (checkRuleBased i now w).2.packetTimestamps =
      Function.update w.packetTimestamps i (pruneTimestamps now (w.packetTimestamps i)) := by
  rw [checkRuleBased_snd_eq]

theorem hybridStep_fields (mob : Mobility) (now : Time) (w : World) (i : Nat) :
    (hybridStep mob now w i).mitigation_output =
        w.mitigation_output ++ (hybridVerdict mob now w i).toList ∧
      (hybridStep mob now w i).nodeTrust = w.nodeTrust ∧
      (∀ j, j ≠ i → (hybridStep mob now w i).mobilityHistory j = w.mobilityHistory j) ∧
      (∀ j, j ≠ i → (hybridStep mob now w i).packetTimestamps j = w.packetTimestamps j) := by
  have hv : (checkRuleBased i now (detectAnomaly i (mob.position i) (mob.velocity i) w).2).1 =
      (checkRuleBased i now w).1 := by
    rw [checkRuleBased_fst, checkRuleBased_fst, detectAnomaly_packetTimestamps]
  have ht : (checkRuleBased i now (detectAnomaly i (mob.position i)
      (mob.velocity i) w).2).2.nodeTrust = w.nodeTrust := by
    rw [checkRuleBased_nodeTrust, detectAnomaly_nodeTrust]
  have hm : (checkRuleBased i now (detectAnomaly i (mob.position i)
      (mob.velocity i) w).2).2.mitigation_output = w.mitigation_output := by
    rw [checkRuleBased_mitigation_output, detectAnomaly_mitigation_output]
  unfold hybridStep hybridVerdict
  simp only [hv, ht, Bool.or_eq_true]
  refine ⟨?_, ?_, ?_, ?_⟩
  · split_ifs
    · simp only [hm, Option.toList]
    · simp only [hm, Option.toList, List.append_nil]
  · split_ifs
    · rfl
    · exact ht
  · intro j hj
    have : (checkRuleBased i now (detectAnomaly i (mob.position i)
        (mob.velocity i) w).2).2.mobilityHistory j = w.mobilityHistory j := by
      rw [checkRuleBased_mobilityHistory, detectAnomaly_mobilityHistory,
        Function.update_noteq hj]
    split_ifs
    · exact this
    · exact this
  · intro j hj
    have : (checkRuleBased i now (detectAnomaly i (mob.position i)
        (mob.velocity i) w).2).2.packetTimestamps j = w.packetTimestamps j := by
      rw [checkRuleBased_packetTimestamps, Function.update_noteq hj,
        detectAnomaly_packetTimestamps]
    split_ifs
    · exact this
    · exact this

theorem hybridVerdict_congr (mob : Mobility) (now : Time) (w w1 : World) (i : Nat)
    (h1 : w1.nodeTrust = w.nodeTrust) (h2 : w1.mobilityHistory i = w.mobilityHistory i)
    (h3 : w1.packetTimestamps i = w.packetTimestamps i) :
    hybridVerdict mob now w1 i = hybridVerdict mob now w i := by
  unfold hybridVerdict
  simp only [detectAnomaly_fst, checkRuleBased_fst, h1, h2, h3]

theorem hybrid_fold (mob : Mobility) (now : Time) (w : World) (n : Nat) :
    ((List.range n).foldl (hybridStep mob now) w).mitigation_output =
        w.mitigation_output ++ (List.range n).filterMap (hybridVerdict mob now w) ∧
      ((List.range n).foldl (hybridStep mob now) w).nodeTrust = w.nodeTrust ∧
      (∀ j, n ≤ j → ((List.range n).foldl (hybridStep mob now) w).mobilityHistory j =
        w.mobilityHistory j) ∧
      (∀ j, n ≤ j → ((List.range n).foldl (hybridStep mob now) w).packetTimestamps j =
        w.packetTimestamps j) := by
  induction n with
  | zero => simp
  | succ n ih =>
    obtain ⟨ih1, ih2, ih3, ih4⟩ := ih
    rw [List.range_succ, List.foldl_append, List.foldl_cons, List.foldl_nil]
    obtain ⟨s1, s2, s3, s4⟩ := hybridStep_fields mob now ((List.range n).foldl (hybridStep mob now) w) n
    refine ⟨?_, ?_, ?_, ?_⟩
    · rw [s1, ih1, hybridVerdict_congr mob now w _ n ih2 (ih3 n le_rfl) (ih4 n le_rfl),
        List.filterMap_append, List.append_assoc]
      have hsingle : List.filterMap (hybridVerdict mob now w) [n] =
          (hybridVerdict mob now w n).toList := by
        cases h : hybridVerdict mob now w n <;> simp [List.filterMap_cons, h, Option.toList]
      rw [hsingle]
    · rw [s2, ih2]
    · intro j hj
      rw [s3 j (by omega), ih3 j (by omega)]
    · intro j hj
      rw [s4 j (by omega), ih4 j (by omega)]

theorem hybridVerdict_isHybridOf (mob : Mobility) (now : Time) (w : World) (j i : Nat)
    (row : MitigationRow) (h : hybridVerdict mob now w j = some row) :
    row.isHybridOf i = true ↔ j = i := by
  unfold hybridVerdict at h
  simp only [] at h
  split_ifs at h
  cases h
  simp [MitigationRow.isHybridOf]

/-! ## Lemmas on the replay buffer -/

theorem pushBounded_length_le {α : Type} (cap : Nat) (v : List α) (a : α)
    (h : v.length ≤ cap) : (pushBounded cap v a).length ≤ cap := by
  unfold pushBounded
  simp only []
  split_ifs with hc
  · simp [List.length_tail]; omega
  · omega

theorem pushBounded_drop {α : Type} (cap : Nat) (l : List α) (a : α) (hcap : 0 < cap) :
    pushBounded cap (l.drop (l.length - cap)) a =
      (l ++ [a]).drop ((l ++ [a]).length - cap) := by
  unfold pushBounded
  simp only [List.length_append, List.length_drop, List.length_singleton]
  by_cases h : l.length < cap
  · have h1 : l.length - cap = 0 := by omega
    have h2 : l.length + 1 - cap = 0 := by omega
    rw [h1, h2]
    simp only [List.drop_zero, Nat.sub_zero]
    rw [if_neg (by omega)]
  · have h3 : l.length - (l.length - cap) + 1 > cap := by omega
    rw [if_pos h3]
    have h4 : l.length + 1 - cap = (l.length - cap) + 1 := by omega
    rw [h4, ← List.drop_one, ← List.drop_append_of_le_length (by omega), List.drop_drop]

theorem ddosStep_replayBuffers (id : Nat) (now : Time) (s : Payload) (w : World) (i : Nat) :
    (ddosStep id now s w i).replayBuffers = w.replayBuffers := rfl

theorem sybilStep_replayBuffers (fmt : ℚ → List Char) (id : Nat) (pos vel : Vector)
    (now : Time) (w : World) (i : Nat) :
    (sybilStep fmt id pos vel now w i).replayBuffers = w.replayBuffers := rfl

theorem transmit_replayBuffers (fmt : ℚ → List Char) (app : EnhancedBsmApp) (pos vel : Vector)
    (now : Time) (s : Payload) (w : World) :
    (transmit fmt app pos vel now s w).replayBuffers = w.replayBuffers := by
  unfold transmit
  simp only []
  split_ifs
  · exact foldl_preserves (fun w1 : World => w1.replayBuffers = w.replayBuffers)
      (ddosStep app.nodeId now s) (fun a b h => h) _ _ rfl
  · exact foldl_preserves (fun w1 : World => w1.replayBuffers = w.replayBuffers)
      (sybilStep fmt app.nodeId pos vel now) (fun a b h => h) _ _ rfl
  · split <;> rfl
  · rfl
  · rfl
  · rfl

theorem SendBsm_replayBuffers (fmt : ℚ → List Char) (app : EnhancedBsmApp) (pos vel : Vector)
    (now : Time) (w : World) :
    (SendBsm fmt app pos vel now w).replayBuffers =
      Function.update w.replayBuffers app.nodeId
        (pushBounded 50 (w.replayBuffers app.nodeId) (beaconOf fmt app.nodeId pos vel now)) := by
  unfold SendBsm
  simp only []
  split <;> simp only [transmit_replayBuffers]

/-! ## Frame lemmas: what each callback leaves untouched -/

theorem appOf_nodeId (cfg : Config) (i : Nat) : (appOf cfg i).nodeId = i := by
  unfold appOf
  split_ifs <;> rfl

theorem receiveOne_frame (receiver : Nat) (now : Time) (w w1 : World) (s : Payload)
    (h : receiveOne receiver now w s = Except.ok w1) :
    w1.replayBuffers = w.replayBuffers ∧ w1.trustHistory = w.trustHistory ∧
      w1.nodeTrust = w.nodeTrust ∧ w1.trust_output = w.trust_output ∧
      w1.suspiciousCount = w.suspiciousCount ∧ w1.mobilityHistory = w.mobilityHistory := by
  unfold receiveOne at h
  simp only [] at h
  split_ifs at h
  split at h
  · rename_i w2 hp
    cases h
    split at hp
    · split at hp
      · cases hp
        exact ⟨rfl, rfl, rfl, rfl, rfl, rfl⟩
      · cases hp
    · cases hp
      exact ⟨rfl, rfl, rfl, rfl, rfl, rfl⟩
  · cases h

theorem ReceivePacket_frame (receiver : Nat) (packets : List Payload) (now : Time)
    (w w1 : World) (h : ReceivePacket receiver packets now w = Except.ok w1) :
    w1.replayBuffers = w.replayBuffers ∧ w1.trustHistory = w.trustHistory ∧
      w1.nodeTrust = w.nodeTrust ∧ w1.trust_output = w.trust_output ∧
      w1.suspiciousCount = w.suspiciousCount ∧ w1.mobilityHistory = w.mobilityHistory := by
  unfold ReceivePacket at h
  induction packets generalizing w with
  | nil =>
    cases h
    exact ⟨rfl, rfl, rfl, rfl, rfl, rfl⟩
  | cons s rest ih =>
    rw [List.foldlM_cons] at h
    cases hs : receiveOne receiver now w s with
    | error e => rw [hs] at h; cases h
    | ok w2 =>
      rw [hs] at h
      obtain ⟨a1, a2, a3, a4, a5, a6⟩ := receiveOne_frame receiver now w w2 s hs
      obtain ⟨b1, b2, b3, b4, b5, b6⟩ := ih w2 h
      exact ⟨b1.trans a1, b2.trans a2, b3.trans a3, b4.trans a4, b5.trans a5, b6.trans a6⟩
theorem UpdateTrustScores_frame (cfg : Config) (mob : Mobility) (now : Time) (w : World) :
    (UpdateTrustScores cfg mob now w).replayBuffers = w.replayBuffers ∧
      (UpdateTrustScores cfg mob now w).suspiciousCount = w.suspiciousCount ∧
      (UpdateTrustScores cfg mob now w).packetTimestamps = w.packetTimestamps ∧
      (UpdateTrustScores cfg mob now w).mobilityHistory = w.mobilityHistory :=
  foldl_preserves
    (fun w1 : World => w1.replayBuffers = w.replayBuffers ∧
      w1.suspiciousCount = w.suspiciousCount ∧ w1.packetTimestamps = w.packetTimestamps ∧
      w1.mobilityHistory = w.mobilityHistory)
    (updateTrustStep cfg mob now) (fun _ _ h => h) _ _ ⟨rfl, rfl, rfl, rfl⟩

theorem detectAnomaly_frame (i : Nat) (pos vel : Vector) (w : World) :
    (detectAnomaly i pos vel w).2.replayBuffers = w.replayBuffers ∧
      (detectAnomaly i pos vel w).2.trustHistory = w.trustHistory ∧
      (detectAnomaly i pos vel w).2.nodeTrust = w.nodeTrust ∧
      (detectAnomaly i pos vel w).2.trust_output = w.trust_output ∧
      (detectAnomaly i pos vel w).2.packetTimestamps = w.packetTimestamps := by
  obtain ⟨c, -, hc⟩ := detectAnomaly_snd_eq i pos vel w
  rw [hc]
  exact ⟨rfl, rfl, rfl, rfl, rfl⟩

theorem detectAnomaly_suspiciousCount (i : Nat) (pos vel : Vector) (w : World) (j : Nat) :
    w.suspiciousCount j ≤ (detectAnomaly i pos vel w).2.suspiciousCount j := by
  obtain ⟨c, h0, hc⟩ := detectAnomaly_snd_eq i pos vel w
  rw [hc]
  show w.suspiciousCount j ≤ Function.update w.suspiciousCount i (w.suspiciousCount i + c) j
  by_cases hj : j = i
  · subst hj
    rw [Function.update_same]
    omega
  · rw [Function.update_noteq hj]

theorem mlStep_frame (mob : Mobility) (now : Time) (w : World) (i : Nat) :
    (mlStep mob now w i).replayBuffers = w.replayBuffers ∧
      (mlStep mob now w i).trustHistory = w.trustHistory ∧
      (mlStep mob now w i).nodeTrust = w.nodeTrust ∧
      (mlStep mob now w i).trust_output = w.trust_output ∧
      (mlStep mob now w i).packetTimestamps = w.packetTimestamps := by
  have h := detectAnomaly_frame i (mob.position i) (mob.velocity i) w
  unfold mlStep
  simp only []
  split_ifs <;> exact h

theorem mlStep_suspiciousCount (mob : Mobility) (now : Time) (w : World) (i j : Nat) :
    w.suspiciousCount j ≤ (mlStep mob now w i).suspiciousCount j := by
  have h := detectAnomaly_suspiciousCount i (mob.position i) (mob.velocity i) w j
  unfold mlStep
  simp only []
  split_ifs <;> exact h

theorem RunMLDetection_frame (cfg : Config) (mob : Mobility) (now : Time) (w : World) :
    (RunMLDetection cfg mob now w).replayBuffers = w.replayBuffers ∧
      (RunMLDetection cfg mob now w).trustHistory = w.trustHistory ∧
      (RunMLDetection cfg mob now w).nodeTrust = w.nodeTrust ∧
      (RunMLDetection cfg mob now w).trust_output = w.trust_output ∧
      (RunMLDetection cfg mob now w).packetTimestamps = w.packetTimestamps :=
  foldl_preserves
    (fun w1 : World => w1.replayBuffers = w.replayBuffers ∧ w1.trustHistory = w.trustHistory ∧
      w1.nodeTrust = w.nodeTrust ∧ w1.trust_output = w.trust_output ∧
      w1.packetTimestamps = w.packetTimestamps)
    (mlStep mob now)
    (fun a b h => by
      obtain ⟨h1, h2, h3, h4, h5⟩ := h
      obtain ⟨s1, s2, s3, s4, s5⟩ := mlStep_frame mob now a b
      exact ⟨s1.trans h1, s2.trans h2, s3.trans h3, s4.trans h4, s5.trans h5⟩)
    _ _ ⟨rfl, rfl, rfl, rfl, rfl⟩

theorem RunMLDetection_suspiciousCount (cfg : Config) (mob : Mobility) (now : Time) (w : World)
    (j : Nat) : w.suspiciousCount j ≤ (RunMLDetection cfg mob now w).suspiciousCount j :=
  foldl_preserves (fun w1 : World => w.suspiciousCount j ≤ w1.suspiciousCount j)
    (mlStep mob now) (fun a b h => le_trans h (mlStep_suspiciousCount mob now a b j)) _ _ le_rfl

theorem ruleStep_frame (now : Time) (w : World) (i : Nat) :
    (ruleStep now w i).replayBuffers = w.replayBuffers ∧
      (ruleStep now w i).trustHistory = w.trustHistory ∧
      (ruleStep now w i).nodeTrust = w.nodeTrust ∧
      (ruleStep now w i).trust_output = w.trust_output ∧
      (ruleStep now w i).suspiciousCount = w.suspiciousCount ∧
      (ruleStep now w i).mobilityHistory = w.mobilityHistory := by
  have h := checkRuleBased_snd_eq i now w
  unfold ruleStep
  simp only []
  split_ifs <;> rw [h] <;> exact ⟨rfl, rfl, rfl, rfl, rfl, rfl⟩

theorem UpdateRuleBasedDetection_frame (cfg : Config) (now : Time) (w : World) :
    (UpdateRuleBasedDetection cfg now w).replayBuffers = w.replayBuffers ∧
      (UpdateRuleBasedDetection cfg now w).trustHistory = w.trustHistory ∧
      (UpdateRuleBasedDetection cfg now w).nodeTrust = w.nodeTrust ∧
      (UpdateRuleBasedDetection cfg now w).trust_output = w.trust_output ∧
      (UpdateRuleBasedDetection cfg now w).suspiciousCount = w.suspiciousCount ∧
      (UpdateRuleBasedDetection cfg now w).mobilityHistory = w.mobilityHistory :=
  foldl_preserves
    (fun w1 : World => w1.replayBuffers = w.replayBuffers ∧ w1.trustHistory = w.trustHistory ∧
      w1.nodeTrust = w.nodeTrust ∧ w1.trust_output = w.trust_output ∧
      w1.suspiciousCount = w.suspiciousCount ∧ w1.mobilityHistory = w.mobilityHistory)
    (ruleStep now)
    (fun a b h => by
      obtain ⟨h1, h2, h3, h4, h5, h6⟩ := h
      obtain ⟨s1, s2, s3, s4, s5, s6⟩ := ruleStep_frame now a b
      exact ⟨s1.trans h1, s2.trans h2, s3.trans h3, s4.trans h4, s5.trans h5, s6.trans h6⟩)
    _ _ ⟨rfl, rfl, rfl, rfl, rfl, rfl⟩

theorem hybridStep_frame (mob : Mobility) (now : Time) (w : World) (i : Nat) :
    (hybridStep mob now w i).replayBuffers = w.replayBuffers ∧
      (hybridStep mob now w i).trustHistory = w.trustHistory ∧
      (hybridStep mob now w i).nodeTrust = w.nodeTrust ∧
      (hybridStep mob now w i).trust_output = w.trust_output := by
  have h := checkRuleBased_snd_eq i now (detectAnomaly i (mob.position i) (mob.velocity i) w).2
  obtain ⟨d1, d2, d3, d4, -⟩ := detectAnomaly_frame i (mob.position i) (mob.velocity i) w
  unfold hybridStep
  simp only []
  split_ifs <;> rw [h] <;> exact ⟨d1, d2, d3, d4⟩

theorem hybridStep_suspiciousCount (mob : Mobility) (now : Time) (w : World) (i j : Nat) :
    w.suspiciousCount j ≤ (hybridStep mob now w i).suspiciousCount j := by
  have h := checkRuleBased_snd_eq i now (detectAnomaly i (mob.position i) (mob.velocity i) w).2
  have hd := detectAnomaly_suspiciousCount i (mob.position i) (mob.velocity i) w j
  unfold hybridStep
  simp only []
  split_ifs <;> rw [h] <;> exact hd

theorem RunHybridDetection_frame (cfg : Config) (mob : Mobility) (now : Time) (w : World) :
    (RunHybridDetection cfg mob now w).replayBuffers = w.replayBuffers ∧
      (RunHybridDetection cfg mob now w).trustHistory = w.trustHistory ∧
      (RunHybridDetection cfg mob now w).nodeTrust = w.nodeTrust ∧
      (RunHybridDetection cfg mob now w).trust_output = w.trust_output :=
  foldl_preserves
    (fun w1 : World => w1.replayBuffers = w.replayBuffers ∧ w1.trustHistory = w.trustHistory ∧
      w1.nodeTrust = w.nodeTrust ∧ w1.trust_output = w.trust_output)
    (hybridStep mob now)
    (fun a b h => by
      obtain ⟨h1, h2, h3, h4⟩ := h
      obtain ⟨s1, s2, s3, s4⟩ := hybridStep_frame mob now a b
      exact ⟨s1.trans h1, s2.trans h2, s3.trans h3, s4.trans h4⟩)
    _ _ ⟨rfl, rfl, rfl, rfl⟩

theorem RunHybridDetection_suspiciousCount (cfg : Config) (mob : Mobility) (now : Time)
    (w : World) (j : Nat) :
    w.suspiciousCount j ≤ (RunHybridDetection cfg mob now w).suspiciousCount j :=
  foldl_preserves (fun w1 : World => w.suspiciousCount j ≤ w1.suspiciousCount j)
    (hybridStep mob now) (fun a b h => le_trans h (hybridStep_suspiciousCount mob now a b j))
    _ _ le_rfl

theorem neighborStep_frame (cfg : Config) (dist : Nat → Nat → ℚ) (now : Time) (w : World)
    (i : Nat) :
    (neighborStep cfg dist now w i).replayBuffers = w.replayBuffers ∧
      (neighborStep cfg dist now w i).trustHistory = w.trustHistory ∧
      (neighborStep cfg dist now w i).nodeTrust = w.nodeTrust ∧
      (neighborStep cfg dist now w i).trust_output = w.trust_output ∧
      (neighborStep cfg dist now w i).suspiciousCount = w.suspiciousCount ∧
      (neighborStep cfg dist now w i).packetTimestamps = w.packetTimestamps ∧
      (neighborStep cfg dist now w i).mobilityHistory = w.mobilityHistory := by
  unfold neighborStep
  simp only []
  split <;> exact ⟨rfl, rfl, rfl, rfl, rfl, rfl, rfl⟩

theorem LogNeighbors_frame (cfg : Config) (dist : Nat → Nat → ℚ) (now : Time) (w : World) :
    (LogNeighbors cfg dist now w).replayBuffers = w.replayBuffers ∧
      (LogNeighbors cfg dist now w).trustHistory = w.trustHistory ∧
      (LogNeighbors cfg dist now w).nodeTrust = w.nodeTrust ∧
      (LogNeighbors cfg dist now w).trust_output = w.trust_output ∧
      (LogNeighbors cfg dist now w).suspiciousCount = w.suspiciousCount ∧
      (LogNeighbors cfg dist now w).packetTimestamps = w.packetTimestamps ∧
      (LogNeighbors cfg dist now w).mobilityHistory = w.mobilityHistory :=
  foldl_preserves
    (fun w1 : World => w1.replayBuffers = w.replayBuffers ∧ w1.trustHistory = w.trustHistory ∧
      w1.nodeTrust = w.nodeTrust ∧ w1.trust_output = w.trust_output ∧
      w1.suspiciousCount = w.suspiciousCount ∧ w1.packetTimestamps = w.packetTimestamps ∧
      w1.mobilityHistory = w.mobilityHistory)
    (neighborStep cfg dist now)
    (fun a b h => by
      obtain ⟨h1, h2, h3, h4, h5, h6, h7⟩ := h
      obtain ⟨s1, s2, s3, s4, s5, s6, s7⟩ := neighborStep_frame cfg dist now a b
      exact ⟨s1.trans h1, s2.trans h2, s3.trans h3, s4.trans h4, s5.trans h5, s6.trans h6,
        s7.trans h7⟩)
    _ _ ⟨rfl, rfl, rfl, rfl, rfl, rfl, rfl⟩

theorem inject_frame (cfg : Config) (a : Nat) (now : Time) (w : World) :
    ∀ w1 ∈ [InjectDdosAttack cfg a now w, InjectSybilAttack cfg a now w,
        InjectReplayAttack cfg a now w, InjectJammerNode cfg a now w,
        InjectMsgFalsification cfg a now w],
      w1.replayBuffers = w.replayBuffers ∧ w1.trustHistory = w.trustHistory ∧
        w1.nodeTrust = w.nodeTrust ∧ w1.trust_output = w.trust_output ∧
        w1.suspiciousCount = w.suspiciousCount ∧ w1.packetTimestamps = w.packetTimestamps ∧
        w1.mobilityHistory = w.mobilityHistory := by
  intro w1 h
  simp only [List.mem_cons, List.mem_singleton, List.not_mem_nil, or_false] at h
  rcases h with h | h | h | h | h <;> subst h
  · unfold InjectDdosAttack; split_ifs <;> exact ⟨rfl, rfl, rfl, rfl, rfl, rfl, rfl⟩
  · unfold InjectSybilAttack; split_ifs <;> exact ⟨rfl, rfl, rfl, rfl, rfl, rfl, rfl⟩
  · unfold InjectReplayAttack; split_ifs <;> exact ⟨rfl, rfl, rfl, rfl, rfl, rfl, rfl⟩
  · unfold InjectJammerNode; split_ifs <;> exact ⟨rfl, rfl, rfl, rfl, rfl, rfl, rfl⟩
  · unfold InjectMsgFalsification; split_ifs <;> exact ⟨rfl, rfl, rfl, rfl, rfl, rfl, rfl⟩

theorem transmit_frame (fmt : ℚ → List Char) (app : EnhancedBsmApp) (pos vel : Vector)
    (now : Time) (s : Payload) (w : World) :
    (transmit fmt app pos vel now s w).trustHistory = w.trustHistory ∧
      (transmit fmt app pos vel now s w).nodeTrust = w.nodeTrust ∧
      (transmit fmt app pos vel now s w).trust_output = w.trust_output ∧
      (transmit fmt app pos vel now s w).suspiciousCount = w.suspiciousCount ∧
      (transmit fmt app pos vel now s w).packetTimestamps = w.packetTimestamps ∧
      (transmit fmt app pos vel now s w).mobilityHistory = w.mobilityHistory := by
  unfold transmit
  simp only []
  split_ifs
  · exact foldl_preserves (fun w1 : World => w1.trustHistory = w.trustHistory ∧
      w1.nodeTrust = w.nodeTrust ∧ w1.trust_output = w.trust_output ∧
      w1.suspiciousCount = w.suspiciousCount ∧ w1.packetTimestamps = w.packetTimestamps ∧
      w1.mobilityHistory = w.mobilityHistory)
      (ddosStep app.nodeId now s) (fun a b h => h) _ _ ⟨rfl, rfl, rfl, rfl, rfl, rfl⟩
  · exact foldl_preserves (fun w1 : World => w1.trustHistory = w.trustHistory ∧
      w1.nodeTrust = w.nodeTrust ∧ w1.trust_output = w.trust_output ∧
      w1.suspiciousCount = w.suspiciousCount ∧ w1.packetTimestamps = w.packetTimestamps ∧
      w1.mobilityHistory = w.mobilityHistory)
      (sybilStep fmt app.nodeId pos vel now) (fun a b h => h) _ _ ⟨rfl, rfl, rfl, rfl, rfl, rfl⟩
  · split <;> exact ⟨rfl, rfl, rfl, rfl, rfl, rfl⟩
  · exact ⟨rfl, rfl, rfl, rfl, rfl, rfl⟩
  · exact ⟨rfl, rfl, rfl, rfl, rfl, rfl⟩
  · exact ⟨rfl, rfl, rfl, rfl, rfl, rfl⟩

theorem SendBsm_frame (fmt : ℚ → List Char) (app : EnhancedBsmApp) (pos vel : Vector)
    (now : Time) (w : World) :
    (SendBsm fmt app pos vel now w).trustHistory = w.trustHistory ∧
      (SendBsm fmt app pos vel now w).nodeTrust = w.nodeTrust ∧
      (SendBsm fmt app pos vel now w).trust_output = w.trust_output ∧
      (SendBsm fmt app pos vel now w).suspiciousCount = w.suspiciousCount ∧
      (SendBsm fmt app pos vel now w).packetTimestamps = w.packetTimestamps ∧
      (SendBsm fmt app pos vel now w).mobilityHistory = w.mobilityHistory := by
  have h := transmit_frame fmt app pos vel now (beaconOf fmt app.nodeId pos vel now)
    { w with nodeMessageTimes := Function.update w.nodeMessageTimes app.nodeId
               (pushBounded 100 (w.nodeMessageTimes app.nodeId) now),
             nodePayloadSizes := Function.update w.nodePayloadSizes app.nodeId
               (pushBounded 50 (w.nodePayloadSizes app.nodeId) 200) }
  unfold SendBsm
  simp only []
  split <;> exact h

/-! ## Lemmas on runs -/

theorem exec_replayBuffers (fmt : ℚ → List Char) (cfg : Config) (op : Op) (now : Time)
    (w w1 : World) (h : exec fmt cfg op now w = some w1) (id : Nat) :
    w1.replayBuffers id =
      match beaconsOf fmt id [(op, now)] with
      | [] => w.replayBuffers id
      | s :: _ => pushBounded 50 (w.replayBuffers id) s := by
  cases op with
  | sendBsm i pos vel =>
    simp only [exec, Option.some.injEq] at h
    subst h
    rw [SendBsm_replayBuffers, appOf_nodeId]
    unfold beaconsOf
    by_cases hi : i = id
    · subst hi
      simp [beaconsOf]
    · simp [beaconsOf, hi, Function.update_noteq (Ne.symm hi)]
  | receivePacket receiver packets =>
    simp only [exec] at h
    split at h
    · rename_i w2 hr
      cases h
      rw [(ReceivePacket_frame receiver packets now w w1 hr).1]
      rfl
    · cases h
  | updateTrustScores mob =>
    simp only [exec, Option.some.injEq] at h
    subst h
    rw [(UpdateTrustScores_frame cfg mob now w).1]
    rfl
  | runMLDetection mob =>
    simp only [exec, Option.some.injEq] at h
    subst h
    rw [(RunMLDetection_frame cfg mob now w).1]
    rfl
  | updateRuleBasedDetection =>
    simp only [exec, Option.some.injEq] at h
    subst h
    rw [(UpdateRuleBasedDetection_frame cfg now w).1]
    rfl
  | runHybridDetection mob =>
    simp only [exec, Option.some.injEq] at h
    subst h
    rw [(RunHybridDetection_frame cfg mob now w).1]
    rfl
  | logNeighbors dist =>
    simp only [exec, Option.some.injEq] at h
    subst h
    rw [(LogNeighbors_frame cfg dist now w).1]
    rfl
  | injectDdosAttack =>
    simp only [exec, Option.some.injEq] at h
    subst h
    rw [(inject_frame cfg 5 now w _ (by simp)).1]
    rfl
  | injectSybilAttack =>
    simp only [exec, Option.some.injEq] at h
    subst h
    rw [(inject_frame cfg 10 now w _ (by simp)).1]
    rfl
  | injectReplayAttack =>
    simp only [exec, Option.some.injEq] at h
    subst h
    rw [(inject_frame cfg 15 now w _ (by simp)).1]
    rfl
  | injectJammerNode =>
    simp only [exec, Option.some.injEq] at h
    subst h
    rw [(inject_frame cfg 25 now w _ (by simp)).1]
    rfl
  | injectMsgFalsification =>
    simp only [exec, Option.some.injEq] at h
    subst h
    rw [(inject_frame cfg 20 now w _ (by simp)).1]
    rfl

theorem beaconsOf_cons (fmt : ℚ → List Char) (id : Nat) (e : Op × Time)
    (rest : List (Op × Time)) :
    beaconsOf fmt id (e :: rest) = beaconsOf fmt id [e] ++ beaconsOf fmt id rest := by
  obtain ⟨op, now⟩ := e
  cases op with
  | sendBsm i pos vel =>
    by_cases hi : i = id <;> simp [beaconsOf, hi]
  | _ => simp [beaconsOf]

theorem beaconsOf_single_length (fmt : ℚ → List Char) (id : Nat) (e : Op × Time) :
    (beaconsOf fmt id [e]).length ≤ 1 := by
  obtain ⟨op, now⟩ := e
  cases op with
  | sendBsm i pos vel =>
    by_cases hi : i = id <;> simp [beaconsOf, hi]
  | _ => simp [beaconsOf]

theorem run_replayBuffers (fmt : ℚ → List Char) (cfg : Config) (id : Nat)
    (trace : List (Op × Time)) :
    ∀ (w w1 : World) (pre : List Payload),
      w.replayBuffers id = pre.drop (pre.length - 50) →
      run fmt cfg trace w = some w1 →
      w1.replayBuffers id =
        (pre ++ beaconsOf fmt id trace).drop ((pre ++ beaconsOf fmt id trace).length - 50) := by
  induction trace with
  | nil =>
    intro w w1 pre hpre h
    simp only [run, Option.some.injEq] at h
    subst h
    simpa [beaconsOf] using hpre
  | cons e rest ih =>
    intro w w1 pre hpre h
    simp only [run] at h
    split at h
    · rename_i w2 he
      have hstep := exec_replayBuffers fmt cfg e.1 e.2 w w2 he id
      rw [beaconsOf_cons, ← List.append_assoc]
      refine ih w2 w1 (pre ++ beaconsOf fmt id [e]) ?_ h
      have hl := beaconsOf_single_length fmt id e
      rw [show ((e.1, e.2) : Op × Time) = e from rfl] at hstep
      match hb : beaconsOf fmt id [e] with
      | [] =>
        rw [hb] at hstep
        simp only [] at hstep
        rw [hstep, hpre, List.append_nil]
      | [s] =>
        rw [hb] at hstep
        simp only [] at hstep
        rw [hstep, hpre, pushBounded_drop 50 pre s (by norm_num)]
      | s :: t :: r =>
        rw [hb] at hl
        simp at hl
    · cases h

/-! ## Lemmas on the trust engine -/

theorem instantTrust_mem (cfg : Config) (nodeId : Nat) (vel : Vector) :
    instantTrust cfg nodeId vel = 1 ∨ instantTrust cfg nodeId vel = 9 / 10 ∨
      instantTrust cfg nodeId vel = 7 / 10 ∨ instantTrust cfg nodeId vel = 3 / 5 := by
  unfold instantTrust
  simp only []
  split_ifs <;> norm_num

theorem instantTrust_bounds (cfg : Config) (nodeId : Nat) (vel : Vector) :
    0 ≤ instantTrust cfg nodeId vel ∧ instantTrust cfg nodeId vel ≤ 1 := by
  rcases instantTrust_mem cfg nodeId vel with h | h | h | h <;> rw [h] <;> norm_num

theorem mem_pushBounded {α : Type} (cap : Nat) (v : List α) (a x : α)
    (h : x ∈ pushBounded cap v a) : x ∈ v ∨ x = a := by
  unfold pushBounded at h
  simp only [] at h
  split_ifs at h
  · have := List.mem_of_mem_tail h
    simpa using this
  · simpa using h

theorem pushBounded_ne_nil {α : Type} (cap : Nat) (v : List α) (a : α) (hcap : 0 < cap) :
    pushBounded cap v a ≠ [] := by
  unfold pushBounded
  simp only []
  split_ifs with hc
  · intro he
    have hl : (v ++ [a]).tail.length = 0 := by rw [he]; rfl
    rw [List.length_tail] at hl
    omega
  · simp

theorem sum_bounds (l : List ℚ) (h : ∀ x ∈ l, 0 ≤ x ∧ x ≤ 1) :
    0 ≤ l.sum ∧ l.sum ≤ l.length := by
  induction l with
  | nil => simp
  | cons a l ih =>
    have ha := h a (List.mem_cons_self a l)
    have hl := ih (fun x hx => h x (List.mem_cons_of_mem a hx))
    simp only [List.sum_cons, List.length_cons, Nat.cast_add, Nat.cast_one]
    constructor <;> linarith [ha.1, ha.2, hl.1, hl.2]

theorem avgTrust_bounds (trust : ℚ) (l : List ℚ) (ht : 0 ≤ trust ∧ trust ≤ 1)
    (h : ∀ x ∈ l, 0 ≤ x ∧ x ≤ 1) : 0 ≤ avgTrust trust l ∧ avgTrust trust l ≤ 1 := by
  unfold avgTrust
  split_ifs with hne
  · have hs := sum_bounds l h
    have hpos : (0 : ℚ) < l.length := by
      have : 0 < l.length := List.length_pos.2 hne
      exact_mod_cast this
    exact ⟨div_nonneg hs.1 hpos.le, (div_le_one hpos).2 hs.2⟩
  · exact ht

theorem TrustInv_of_eq (w w1 : World) (h : TrustInv w) (h1 : w1.trustHistory = w.trustHistory)
    (h2 : w1.nodeTrust = w.nodeTrust) (h3 : w1.trust_output = w.trust_output) : TrustInv w1 := by
  unfold TrustInv
  rw [h1, h2, h3]
  exact h

theorem calculateTrustScore_bounds (cfg : Config) (id : Nat) (pos vel : Vector) (t : Time)
    (w : World) (h : ∀ x ∈ w.trustHistory id, 0 ≤ x ∧ x ≤ 1) :
    (0 ≤ (calculateTrustScore cfg id pos vel t w).1 ∧
      (calculateTrustScore cfg id pos vel t w).1 ≤ 1) ∧
    (∀ j, ∀ x ∈ (calculateTrustScore cfg id pos vel t w).2.trustHistory j,
      x ∈ w.trustHistory j ∨ (0 ≤ x ∧ x ≤ 1)) := by
  have hb := instantTrust_bounds cfg id vel
  constructor
  · unfold calculateTrustScore
    simp only []
    refine avgTrust_bounds _ _ hb ?_
    intro x hx
    rcases mem_pushBounded _ _ _ _ hx with h1 | h1
    · exact h x h1
    · rw [h1]; exact hb
  · intro j x hx
    unfold calculateTrustScore at hx
    simp only [] at hx
    by_cases hj : j = id
    · subst hj
      rw [Function.update_same] at hx
      rcases mem_pushBounded _ _ _ _ hx with h1 | h1
      · exact Or.inl h1
      · rw [h1]; exact Or.inr hb
    · rw [Function.update_noteq hj] at hx
      exact Or.inl hx

theorem updateTrustStep_inv (cfg : Config) (mob : Mobility) (now : Time) (w : World) (i : Nat)
    (h : TrustInv w) : TrustInv (updateTrustStep cfg mob now w i) := by
  obtain ⟨h1, h2, h3⟩ := h
  obtain ⟨hb, hh⟩ := calculateTrustScore_bounds cfg i (mob.position i) (mob.velocity i) now w
    (h1 i)
  refine ⟨?_, ?_, ?_⟩
  · intro id x hx
    rcases hh id x hx with h4 | h4
    · exact h1 id x h4
    · exact h4
  · intro id
    show 0 ≤ Function.update w.nodeTrust i _ id ∧ Function.update w.nodeTrust i _ id ≤ 1
    by_cases hid : id = i
    · subst hid
      rw [Function.update_same]
      exact hb
    · rw [Function.update_noteq hid]
      exact h2 id
  · intro row hrow
    have hrow1 : row ∈ w.trust_output ++ [TrustRow.mk (GetSeconds now) i
        (calculateTrustScore cfg i (mob.position i) (mob.velocity i) now w).1
        (if (calculateTrustScore cfg i (mob.position i) (mob.velocity i) now w).1 < 1 / 2
          then 1 else 0)] := hrow
    rw [List.mem_append, List.mem_singleton] at hrow1
    rcases hrow1 with h5 | h5
    · exact h3 row h5
    · rw [h5]
      exact hb

theorem exec_TrustInv (fmt : ℚ → List Char) (cfg : Config) (op : Op) (now : Time)
    (w w1 : World) (h : exec fmt cfg op now w = some w1) (hinv : TrustInv w) : TrustInv w1 := by
  cases op with
  | sendBsm i pos vel =>
    simp only [exec, Option.some.injEq] at h
    subst h
    obtain ⟨f1, f2, f3, -⟩ := SendBsm_frame fmt (appOf cfg i) pos vel now w
    exact TrustInv_of_eq w _ hinv f1 f2 f3
  | receivePacket receiver packets =>
    simp only [exec] at h
    split at h
    · rename_i w2 hr
      cases h
      obtain ⟨-, f1, f2, f3, -⟩ := ReceivePacket_frame receiver packets now w w1 hr
      exact TrustInv_of_eq w _ hinv f1 f2 f3
    · cases h
  | updateTrustScores mob =>
    simp only [exec, Option.some.injEq] at h
    subst h
    exact foldl_preserves TrustInv (updateTrustStep cfg mob now)
      (fun a b ha => updateTrustStep_inv cfg mob now a b ha) _ _ hinv
  | runMLDetection mob =>
    simp only [exec, Option.some.injEq] at h
    subst h
    obtain ⟨-, f1, f2, f3, -⟩ := RunMLDetection_frame cfg mob now w
    exact TrustInv_of_eq w _ hinv f1 f2 f3
  | updateRuleBasedDetection =>
    simp only [exec, Option.some.injEq] at h
    subst h
    obtain ⟨-, f1, f2, f3, -⟩ := UpdateRuleBasedDetection_frame cfg now w
    exact TrustInv_of_eq w _ hinv f1 f2 f3
  | runHybridDetection mob =>
    simp only [exec, Option.some.injEq] at h
    subst h
    obtain ⟨-, f1, f2, f3⟩ := RunHybridDetection_frame cfg mob now w
    exact TrustInv_of_eq w _ hinv f1 f2 f3
  | logNeighbors dist =>
    simp only [exec, Option.some.injEq] at h
    subst h
    obtain ⟨-, f1, f2, f3, -⟩ := LogNeighbors_frame cfg dist now w
    exact TrustInv_of_eq w _ hinv f1 f2 f3
  | injectDdosAttack =>
    simp only [exec, Option.some.injEq] at h
    subst h
    obtain ⟨-, f1, f2, f3, -⟩ := inject_frame cfg 5 now w (InjectDdosAttack cfg 5 now w) (by simp)
    exact TrustInv_of_eq w _ hinv f1 f2 f3
  | injectSybilAttack =>
    simp only [exec, Option.some.injEq] at h
    subst h
    obtain ⟨-, f1, f2, f3, -⟩ := inject_frame cfg 10 now w (InjectSybilAttack cfg 10 now w) (by simp)
    exact TrustInv_of_eq w _ hinv f1 f2 f3
  | injectReplayAttack =>
    simp only [exec, Option.some.injEq] at h
    subst h
    obtain ⟨-, f1, f2, f3, -⟩ := inject_frame cfg 15 now w (InjectReplayAttack cfg 15 now w) (by simp)
    exact TrustInv_of_eq w _ hinv f1 f2 f3
  | injectJammerNode =>
    simp only [exec, Option.some.injEq] at h
    subst h
    obtain ⟨-, f1, f2, f3, -⟩ := inject_frame cfg 25 now w (InjectJammerNode cfg 25 now w) (by simp)
    exact TrustInv_of_eq w _ hinv f1 f2 f3
  | injectMsgFalsification =>
    simp only [exec, Option.some.injEq] at h
    subst h
    obtain ⟨-, f1, f2, f3, -⟩ := inject_frame cfg 20 now w (InjectMsgFalsification cfg 20 now w) (by simp)
    exact TrustInv_of_eq w _ hinv f1 f2 f3

theorem Reachable_TrustInv (fmt : ℚ → List Char) (cfg : Config) (w : World)
    (h : Reachable fmt cfg w) : TrustInv w := by
  induction h with
  | init =>
    refine ⟨?_, ?_, ?_⟩
    · intro id x hx
      simp [World.init] at hx
    · intro id
      simp [World.init]
    · intro row hrow
      simp [World.init] at hrow
  | step w w1 op now _ hex ih => exact exec_TrustInv fmt cfg op now w w1 hex ih

theorem mean_push_one (h : List ℚ) (hne : h ≠ []) (hb : ∀ x ∈ h, 0 ≤ x ∧ x ≤ 1) :
    h.sum / h.length ≤ avgTrust 1 (pushBounded 100 h 1) := by
  unfold avgTrust
  rw [if_pos (pushBounded_ne_nil 100 h 1 (by norm_num))]
  cases h with
  | nil => exact absurd rfl hne
  | cons a t =>
    have ha := hb a (List.mem_cons_self a t)
    have ht := sum_bounds t (fun x hx => hb x (List.mem_cons_of_mem a hx))
    have hn : (0 : ℚ) ≤ (t.length : ℚ) := Nat.cast_nonneg _
    unfold pushBounded
    simp only [List.cons_append, List.length_cons, List.length_append, List.length_singleton]
    split_ifs with hc
    · simp only [List.tail_cons, List.sum_cons, List.sum_append, List.sum_singleton,
        List.length_append, List.length_singleton, Nat.cast_add, Nat.cast_one, List.sum_nil,
        List.length_nil, Nat.cast_zero, add_zero, zero_add]
      rw [div_le_div_iff₀ (by linarith) (by linarith)]
      nlinarith [ha.1, ha.2, ht.1, ht.2, mul_nonneg (sub_nonneg.2 ha.2) hn]
    · simp only [List.sum_cons, List.sum_append, List.sum_singleton, List.length_cons,
        List.length_append, List.length_singleton, Nat.cast_add, Nat.cast_one, List.sum_nil,
        List.length_nil, Nat.cast_zero, add_zero, zero_add]
      rw [div_le_div_iff₀ (by linarith) (by linarith)]
      nlinarith [ha.1, ha.2, ht.1, ht.2, mul_nonneg (sub_nonneg.2 ha.2) hn]

theorem calculateTrustScore_fst (cfg : Config) (id : Nat) (pos vel : Vector) (t : Time)
    (w : World) :
    (calculateTrustScore cfg id pos vel t w).1 =
      ((calculateTrustScore cfg id pos vel t w).2.trustHistory id).sum /
        ((calculateTrustScore cfg id pos vel t w).2.trustHistory id).length := by
  unfold calculateTrustScore avgTrust
  simp only [Function.update_same]
  rw [if_pos (pushBounded_ne_nil 100 _ _ (by norm_num))]

theorem updateTrust_fold (cfg : Config) (mob : Mobility) (now : Time) (w : World) (n j : Nat) :
    ((List.range n).foldl (updateTrustStep cfg mob now) w).trustHistory j =
      if j < n then pushBounded 100 (w.trustHistory j) (instantTrust cfg j (mob.velocity j))
      else w.trustHistory j := by
  induction n with
  | zero => simp
  | succ n ih =>
    rw [List.range_succ, List.foldl_append, List.foldl_cons, List.foldl_nil]
    show Function.update ((List.range n).foldl (updateTrustStep cfg mob now) w).trustHistory n
      (pushBounded 100 (((List.range n).foldl (updateTrustStep cfg mob now) w).trustHistory n)
        (instantTrust cfg n (mob.velocity n))) j = _
    by_cases hj : j = n
    · subst hj
      rw [Function.update_same, ih, if_neg (lt_irrefl _), if_pos (Nat.lt_succ_self _)]
    · rw [Function.update_noteq hj, ih]
      by_cases hlt : j < n
      · rw [if_pos hlt, if_pos (by omega)]
      · rw [if_neg hlt, if_neg (by omega)]

theorem exec_trustHistory (fmt : ℚ → List Char) (cfg : Config) (op : Op) (now : Time)
    (w w1 : World) (h : exec fmt cfg op now w = some w1) (id : Nat) :
    w1.trustHistory id =
      match scoresOf cfg id [(op, now)] with
      | [] => w.trustHistory id
      | s :: _ => pushBounded 100 (w.trustHistory id) s := by
  cases op with
  | sendBsm i pos vel =>
    simp only [exec, Option.some.injEq] at h
    subst h
    rw [(SendBsm_frame fmt (appOf cfg i) pos vel now w).1]
    rfl
  | receivePacket receiver packets =>
    simp only [exec] at h
    split at h
    · rename_i w2 hr
      cases h
      rw [(ReceivePacket_frame receiver packets now w w1 hr).2.1]
      rfl
    · cases h
  | updateTrustScores mob =>
    simp only [exec, Option.some.injEq] at h
    subst h
    unfold UpdateTrustScores
    rw [updateTrust_fold]
    by_cases hlt : id < cfg.g_numVehicles <;> simp [scoresOf, hlt]
  | runMLDetection mob =>
    simp only [exec, Option.some.injEq] at h
    subst h
    rw [(RunMLDetection_frame cfg mob now w).2.1]
    rfl
  | updateRuleBasedDetection =>
    simp only [exec, Option.some.injEq] at h
    subst h
    rw [(UpdateRuleBasedDetection_frame cfg now w).2.1]
    rfl
  | runHybridDetection mob =>
    simp only [exec, Option.some.injEq] at h
    subst h
    rw [(RunHybridDetection_frame cfg mob now w).2.1]
    rfl
  | logNeighbors dist =>
    simp only [exec, Option.some.injEq] at h
    subst h
    rw [(LogNeighbors_frame cfg dist now w).2.1]
    rfl
  | injectDdosAttack =>
    simp only [exec, Option.some.injEq] at h
    subst h
    rw [(inject_frame cfg 5 now w _ (by simp)).2.1]
    rfl
  | injectSybilAttack =>
    simp only [exec, Option.some.injEq] at h
    subst h
    rw [(inject_frame cfg 10 now w _ (by simp)).2.1]
    rfl
  | injectReplayAttack =>
    simp only [exec, Option.some.injEq] at h
    subst h
    rw [(inject_frame cfg 15 now w _ (by simp)).2.1]
    rfl
  | injectJammerNode =>
    simp only [exec, Option.some.injEq] at h
    subst h
    rw [(inject_frame cfg 25 now w _ (by simp)).2.1]
    rfl
  | injectMsgFalsification =>
    simp only [exec, Option.some.injEq] at h
    subst h
    rw [(inject_frame cfg 20 now w _ (by simp)).2.1]
    rfl

theorem scoresOf_cons (cfg : Config) (id : Nat) (e : Op × Time) (rest : List (Op × Time)) :
    scoresOf cfg id (e :: rest) = scoresOf cfg id [e] ++ scoresOf cfg id rest := by
  obtain ⟨op, now⟩ := e
  cases op with
  | updateTrustScores mob =>
    by_cases hi : id < cfg.g_numVehicles <;> simp [scoresOf, hi]
  | _ => simp [scoresOf]

theorem scoresOf_single_length (cfg : Config) (id : Nat) (e : Op × Time) :
    (scoresOf cfg id [e]).length ≤ 1 := by
  obtain ⟨op, now⟩ := e
  cases op with
  | updateTrustScores mob =>
    by_cases hi : id < cfg.g_numVehicles <;> simp [scoresOf, hi]
  | _ => simp [scoresOf]

theorem run_trustHistory (fmt : ℚ → List Char) (cfg : Config) (id : Nat)
    (trace : List (Op × Time)) :
    ∀ (w w1 : World) (pre : List ℚ),
      w.trustHistory id = pre.drop (pre.length - 100) →
      run fmt cfg trace w = some w1 →
      w1.trustHistory id =
        (pre ++ scoresOf cfg id trace).drop ((pre ++ scoresOf cfg id trace).length - 100) := by
  induction trace with
  | nil =>
    intro w w1 pre hpre h
    simp only [run, Option.some.injEq] at h
    subst h
    simpa [scoresOf] using hpre
  | cons e rest ih =>
    intro w w1 pre hpre h
    simp only [run] at h
    split at h
    · rename_i w2 he
      have hstep := exec_trustHistory fmt cfg e.1 e.2 w w2 he id
      rw [scoresOf_cons, ← List.append_assoc]
      refine ih w2 w1 (pre ++ scoresOf cfg id [e]) ?_ h
      have hl := scoresOf_single_length cfg id e
      rw [show ((e.1, e.2) : Op × Time) = e from rfl] at hstep
      match hb : scoresOf cfg id [e] with
      | [] =>
        rw [hb] at hstep
        simp only [] at hstep
        rw [hstep, hpre, List.append_nil]
      | [s] =>
        rw [hb] at hstep
        simp only [] at hstep
        rw [hstep, hpre, pushBounded_drop 100 pre s (by norm_num)]
      | s :: t :: r =>
        rw [hb] at hl
        simp at hl
    · cases h

theorem exec_suspiciousCount (fmt : ℚ → List Char) (cfg : Config) (op : Op) (now : Time)
    (w w1 : World) (h : exec fmt cfg op now w = some w1) (j : Nat) :
    w.suspiciousCount j ≤ w1.suspiciousCount j := by
  cases op with
  | sendBsm i pos vel =>
    simp only [exec, Option.some.injEq] at h
    subst h
    rw [(SendBsm_frame fmt (appOf cfg i) pos vel now w).2.2.2.1]
  | receivePacket receiver packets =>
    simp only [exec] at h
    split at h
    · rename_i w2 hr
      cases h
      rw [(ReceivePacket_frame receiver packets now w w1 hr).2.2.2.2.1]
    · cases h
  | updateTrustScores mob =>
    simp only [exec, Option.some.injEq] at h
    subst h
    rw [(UpdateTrustScores_frame cfg mob now w).2.1]
  | runMLDetection mob =>
    simp only [exec, Option.some.injEq] at h
    subst h
    exact RunMLDetection_suspiciousCount cfg mob now w j
  | updateRuleBasedDetection =>
    simp only [exec, Option.some.injEq] at h
    subst h
    rw [(UpdateRuleBasedDetection_frame cfg now w).2.2.2.2.1]
  | runHybridDetection mob =>
    simp only [exec, Option.some.injEq] at h
    subst h
    exact RunHybridDetection_suspiciousCount cfg mob now w j
  | logNeighbors dist =>
    simp only [exec, Option.some.injEq] at h
    subst h
    rw [(LogNeighbors_frame cfg dist now w).2.2.2.2.1]
  | injectDdosAttack =>
    simp only [exec, Option.some.injEq] at h
    subst h
    rw [(inject_frame cfg 5 now w (InjectDdosAttack cfg 5 now w) (by simp)).2.2.2.2.1]
  | injectSybilAttack =>
    simp only [exec, Option.some.injEq] at h
    subst h
    rw [(inject_frame cfg 10 now w (InjectSybilAttack cfg 10 now w) (by simp)).2.2.2.2.1]
  | injectReplayAttack =>
    simp only [exec, Option.some.injEq] at h
    subst h
    rw [(inject_frame cfg 15 now w (InjectReplayAttack cfg 15 now w) (by simp)).2.2.2.2.1]
  | injectJammerNode =>
    simp only [exec, Option.some.injEq] at h
    subst h
    rw [(inject_frame cfg 25 now w (InjectJammerNode cfg 25 now w) (by simp)).2.2.2.2.1]
  | injectMsgFalsification =>
    simp only [exec, Option.some.injEq] at h
    subst h
    rw [(inject_frame cfg 20 now w (InjectMsgFalsification cfg 20 now w) (by simp)).2.2.2.2.1]

theorem run_suspiciousCount (fmt : ℚ → List Char) (cfg : Config) (trace : List (Op × Time))
    (j : Nat) : ∀ (w w1 : World), run fmt cfg trace w = some w1 →
      w.suspiciousCount j ≤ w1.suspiciousCount j := by
  induction trace with
  | nil =>
    intro w w1 h
    simp only [run, Option.some.injEq] at h
    subst h
    exact le_rfl
  | cons e rest ih =>
    intro w w1 h
    simp only [run] at h
    split at h
    · rename_i w2 he
      exact le_trans (exec_suspiciousCount fmt cfg e.1 e.2 w w2 he j) (ih w2 w1 h)
    · cases h

/-! ## Lemmas on the attack branches -/

theorem SendBsm_streams (fmt : ℚ → List Char) (app : EnhancedBsmApp) (pos vel : Vector)
    (now : Time) (w : World) :
    ∃ w0 : World, w0.sent = w.sent ∧ w0.sybil_output = w.sybil_output ∧
      w0.replay_output = w.replay_output ∧ w0.ddos_output = w.ddos_output ∧
      w0.replayBuffers = w.replayBuffers ∧
      (SendBsm fmt app pos vel now w).sent =
        (transmit fmt app pos vel now (beaconOf fmt app.nodeId pos vel now) w0).sent ∧
      (SendBsm fmt app pos vel now w).sybil_output =
        (transmit fmt app pos vel now (beaconOf fmt app.nodeId pos vel now) w0).sybil_output ∧
      (SendBsm fmt app pos vel now w).replay_output =
        (transmit fmt app pos vel now (beaconOf fmt app.nodeId pos vel now) w0).replay_output ∧
      (SendBsm fmt app pos vel now w).ddos_output =
        (transmit fmt app pos vel now (beaconOf fmt app.nodeId pos vel now) w0).ddos_output := by
  let times := pushBounded 100 (w.nodeMessageTimes app.nodeId) now
  let sizes := pushBounded 50 (w.nodePayloadSizes app.nodeId) 200
  refine ⟨{ w with nodeMessageTimes := Function.update w.nodeMessageTimes app.nodeId times,
                   nodePayloadSizes := Function.update w.nodePayloadSizes app.nodeId sizes },
    rfl, rfl, rfl, rfl, rfl, ?_⟩
  unfold SendBsm
  simp only []
  split <;> exact ⟨rfl, rfl, rfl, rfl⟩

theorem appOf_sybil (cfg : Config) (a : Nat) (h1 : (appOf cfg a).m_isAttacker = true)
    (h2 : (appOf cfg a).m_attackType = "sybil") : a = 10 := by
  unfold appOf at h1 h2
  split_ifs at h1 h2 with c1 c2 c3 c4 <;> first | exact c2.2 | simp at h2

theorem transmit_sybil (fmt : ℚ → List Char) (app : EnhancedBsmApp) (pos vel : Vector)
    (now : Time) (s : Payload) (w : World) (h1 : app.m_isAttacker = true)
    (h2 : app.m_attackType = "sybil") :
    (transmit fmt app pos vel now s w).sybil_output =
        w.sybil_output ++ (List.range' 1 5).map (fun i =>
          SybilRow.fake (GetSeconds now) (sybilFakeId app.nodeId i) app.nodeId
            (pos.x + i * 10) (pos.y + i * 10)) ∧
      (transmit fmt app pos vel now s w).sent =
        w.sent ++ (List.range' 1 5).map (fun i =>
          (app.nodeId, bsmString fmt (sybilFakeId app.nodeId i) (pos.x + i * 10)
            (pos.y + i * 10) vel.x vel.y (GetSeconds now))) := by
  unfold transmit
  simp only []
  rw [if_pos h1, if_neg (by rw [h2]; decide), if_pos h2]
  have hr : List.range' 1 5 = [1, 2, 3, 4, 5] := rfl
  rw [hr]
  simp [sybilStep]

theorem transmit_replay (fmt : ℚ → List Char) (app : EnhancedBsmApp) (pos vel : Vector)
    (now : Time) (s : Payload) (w : World) (h1 : app.m_isAttacker = true)
    (h2 : app.m_attackType = "replay") :
    (transmit fmt app pos vel now s w).replay_output =
        w.replay_output ++ ((w.replayBuffers app.nodeId).getLast?.map
          (fun m => ReplayRow.replayed (GetSeconds now) app.nodeId m)).toList ∧
      (transmit fmt app pos vel now s w).sent =
        w.sent ++ ((w.replayBuffers app.nodeId).getLast?.map
          (fun m => (app.nodeId, m))).toList := by
  unfold transmit
  simp only []
  rw [if_pos h1, if_neg (by rw [h2]; decide), if_neg (by rw [h2]; decide), if_pos h2]
  cases (w.replayBuffers app.nodeId).getLast? <;> simp [Option.toList]

/-! ## Lemmas on receiving and the timestamp window -/

theorem senderOf_bsmString_five (fmt : ℚ → List Char) (x y vx vy t : ℚ) :
    senderOf (bsmString fmt 5 x y vx vy t) = some 5 := by
  have h5 : showUInt 5 = ['5'] := by decide
  unfold senderOf bsmString
  rw [h5]
  simp [find, findFrom, substr, stoi, isspace, digitsValue, toUInt32]

theorem receiveOne_packetTimestamps (receiver : Nat) (now : Time) (w w1 : World) (s : Payload)
    (h : receiveOne receiver now w s = Except.ok w1) (id : Nat) :
    w1.packetTimestamps id =
      w.packetTimestamps id ++ (if senderOf s = some id then [now] else []) := by
  unfold receiveOne at h
  simp only [] at h
  split_ifs at h
  cases h1 : find s ',' 0 with
  | none =>
    have hs : senderOf s = none := by simp [senderOf, h1]
    rw [h1] at h
    simp only [Except.ok.injEq] at h
    subst h
    simp [hs]
  | some p1 =>
    rw [h1] at h
    simp only [] at h
    cases h2 : find s ',' (p1 + 1) with
    | none =>
      have hs : senderOf s = none := by simp [senderOf, h1, h2]
      rw [h2] at h
      simp only [Except.ok.injEq] at h
      subst h
      simp [hs]
    | some p2 =>
      rw [h2] at h
      simp only [] at h
      cases h3 : stoi (substr s (p1 + 1) (p2 - p1 - 1)) with
      | error e =>
        rw [h3] at h
        cases h
      | ok v =>
        have hs : senderOf s = some (toUInt32 v) := by simp [senderOf, h1, h2, h3]
        rw [h3] at h
        simp only [Except.ok.injEq] at h
        subst h
        rw [hs]
        simp only [Option.some.injEq]
        by_cases hid : toUInt32 v = id
        · subst hid
          simp
        · rw [if_neg hid]
          simp [Function.update_noteq (Ne.symm hid)]

theorem ReceivePacket_packetTimestamps (receiver : Nat) (packets : List Payload) (now : Time)
    (w w1 : World) (h : ReceivePacket receiver packets now w = Except.ok w1) (id : Nat) :
    w1.packetTimestamps id =
      w.packetTimestamps id ++
        ((packets.map (fun p => (p, now))).filter
          (fun pr => decide (senderOf pr.1 = some id))).map Prod.snd := by
  unfold ReceivePacket at h
  induction packets generalizing w with
  | nil =>
    cases h
    simp
  | cons s rest ih =>
    rw [List.foldlM_cons] at h
    cases hs : receiveOne receiver now w s with
    | error e => rw [hs] at h; cases h
    | ok w2 =>
      rw [hs] at h
      rw [ih w2 h, receiveOne_packetTimestamps receiver now w w2 s hs id]
      by_cases hid : senderOf s = some id <;> simp [hid, List.filter_cons]

theorem rule_fold_packetTimestamps (now : Time) (w : World) (n j : Nat) :
    ((List.range n).foldl (ruleStep now) w).packetTimestamps j =
      if j < n then pruneTimestamps now (w.packetTimestamps j) else w.packetTimestamps j := by
  induction n with
  | zero => simp
  | succ n ih =>
    rw [List.range_succ, List.foldl_append, List.foldl_cons, List.foldl_nil]
    have hstep : ∀ w0 : World, (ruleStep now w0 n).packetTimestamps =
        Function.update w0.packetTimestamps n (pruneTimestamps now (w0.packetTimestamps n)) := by
      intro w0
      have h := checkRuleBased_packetTimestamps n now w0
      unfold ruleStep
      simp only []
      split_ifs <;> exact h
    rw [hstep]
    by_cases hj : j = n
    · subst hj
      rw [Function.update_same, ih, if_neg (lt_irrefl _), if_pos (Nat.lt_succ_self _)]
    · rw [Function.update_noteq hj, ih]
      by_cases hlt : j < n
      · rw [if_pos hlt, if_pos (by omega)]
      · rw [if_neg hlt, if_neg (by omega)]

theorem hybrid_fold_packetTimestamps (mob : Mobility) (now : Time) (w : World) (n j : Nat) :
    ((List.range n).foldl (hybridStep mob now) w).packetTimestamps j =
      if j < n then pruneTimestamps now (w.packetTimestamps j) else w.packetTimestamps j := by
  induction n with
  | zero => simp
  | succ n ih =>
    rw [List.range_succ, List.foldl_append, List.foldl_cons, List.foldl_nil]
    have hstep : ∀ w0 : World, (hybridStep mob now w0 n).packetTimestamps =
        Function.update w0.packetTimestamps n (pruneTimestamps now (w0.packetTimestamps n)) := by
      intro w0
      have h := checkRuleBased_packetTimestamps n now
        (detectAnomaly n (mob.position n) (mob.velocity n) w0).2
      rw [detectAnomaly_packetTimestamps] at h
      unfold hybridStep
      simp only []
      split_ifs <;> exact h
    rw [hstep]
    by_cases hj : j = n
    · subst hj
      rw [Function.update_same, ih, if_neg (lt_irrefl _), if_pos (Nat.lt_succ_self _)]
    · rw [Function.update_noteq hj, ih]
      by_cases hlt : j < n
      · rw [if_pos hlt, if_pos (by omega)]
      · rw [if_neg hlt, if_neg (by omega)]

theorem filter_window_prune (now T : Time) (hle : now ≤ T) (l : List Time) :
    (pruneTimestamps now l).filter (fun t => decide (T - t ≤ 500000000)) =
      l.filter (fun t => decide (T - t ≤ 500000000)) := by
  rw [pruneTimestamps_eq_filter, List.filter_filter]
  apply List.filter_congr
  intro t _
  by_cases h : T - t ≤ 500000000
  · have h2 : now - t ≤ 500000000 := by
      have : now - t ≤ T - t := sub_le_sub_right hle t
      exact le_trans this h
    simp [h, h2]
  · simp [h]

theorem attributed_cons (id : Nat) (e : Op × Time) (rest : List (Op × Time)) :
    attributed id (e :: rest) = attributed id [e] ++ attributed id rest := by
  obtain ⟨op, now⟩ := e
  cases op <;> simp [attributed, receptions]

theorem exec_window (fmt : ℚ → List Char) (cfg : Config) (op : Op) (now T : Time)
    (w w1 : World) (h : exec fmt cfg op now w = some w1) (hle : now ≤ T) (id : Nat) :
    (w1.packetTimestamps id).filter (fun t => decide (T - t ≤ 500000000)) =
      (w.packetTimestamps id ++ attributed id [(op, now)]).filter
        (fun t => decide (T - t ≤ 500000000)) := by
  cases op with
  | sendBsm i pos vel =>
    simp only [exec, Option.some.injEq] at h
    subst h
    rw [(SendBsm_frame fmt (appOf cfg i) pos vel now w).2.2.2.2.1]
    simp [attributed, receptions]
  | receivePacket receiver packets =>
    simp only [exec] at h
    split at h
    · rename_i w2 hr
      cases h
      rw [ReceivePacket_packetTimestamps receiver packets now w w1 hr id]
      simp [attributed, receptions]
    · cases h
  | updateTrustScores mob =>
    simp only [exec, Option.some.injEq] at h
    subst h
    rw [(UpdateTrustScores_frame cfg mob now w).2.2.1]
    simp [attributed, receptions]
  | runMLDetection mob =>
    simp only [exec, Option.some.injEq] at h
    subst h
    rw [(RunMLDetection_frame cfg mob now w).2.2.2.2]
    simp [attributed, receptions]
  | updateRuleBasedDetection =>
    simp only [exec, Option.some.injEq] at h
    subst h
    unfold UpdateRuleBasedDetection
    rw [rule_fold_packetTimestamps]
    have ha : attributed id [(Op.updateRuleBasedDetection, now)] = [] := by
      simp [attributed, receptions]
    rw [ha, List.append_nil]
    split_ifs
    · exact filter_window_prune now T hle _
    · rfl
  | runHybridDetection mob =>
    simp only [exec, Option.some.injEq] at h
    subst h
    unfold RunHybridDetection
    rw [hybrid_fold_packetTimestamps]
    have ha : attributed id [(Op.runHybridDetection mob, now)] = [] := by
      simp [attributed, receptions]
    rw [ha, List.append_nil]
    split_ifs
    · exact filter_window_prune now T hle _
    · rfl
  | logNeighbors dist =>
    simp only [exec, Option.some.injEq] at h
    subst h
    rw [(LogNeighbors_frame cfg dist now w).2.2.2.2.2.1]
    simp [attributed, receptions]
  | injectDdosAttack =>
    simp only [exec, Option.some.injEq] at h
    subst h
    rw [(inject_frame cfg 5 now w (InjectDdosAttack cfg 5 now w) (by simp)).2.2.2.2.2.1]
    simp [attributed, receptions]
  | injectSybilAttack =>
    simp only [exec, Option.some.injEq] at h
    subst h
    rw [(inject_frame cfg 10 now w (InjectSybilAttack cfg 10 now w) (by simp)).2.2.2.2.2.1]
    simp [attributed, receptions]
  | injectReplayAttack =>
    simp only [exec, Option.some.injEq] at h
    subst h
    rw [(inject_frame cfg 15 now w (InjectReplayAttack cfg 15 now w) (by simp)).2.2.2.2.2.1]
    simp [attributed, receptions]
  | injectJammerNode =>
    simp only [exec, Option.some.injEq] at h
    subst h
    rw [(inject_frame cfg 25 now w (InjectJammerNode cfg 25 now w) (by simp)).2.2.2.2.2.1]
    simp [attributed, receptions]
  | injectMsgFalsification =>
    simp only [exec, Option.some.injEq] at h
    subst h
    rw [(inject_frame cfg 20 now w (InjectMsgFalsification cfg 20 now w)
      (by simp)).2.2.2.2.2.1]
    simp [attributed, receptions]

theorem run_window (fmt : ℚ → List Char) (cfg : Config) (id : Nat) (T : Time)
    (trace : List (Op × Time)) :
    ∀ (w w1 : World), run fmt cfg trace w = some w1 → (∀ e ∈ trace, e.2 ≤ T) →
      (w1.packetTimestamps id).filter (fun t => decide (T - t ≤ 500000000)) =
        (w.packetTimestamps id ++ attributed id trace).filter
          (fun t => decide (T - t ≤ 500000000)) := by
  induction trace with
  | nil =>
    intro w w1 h _
    simp only [run, Option.some.injEq] at h
    subst h
    simp [attributed, receptions]
  | cons e rest ih =>
    intro w w1 h hT
    simp only [run] at h
    split at h
    · rename_i w2 he
      have h1 := exec_window fmt cfg e.1 e.2 T w w2 he (hT e (List.mem_cons_self e rest)) id
      have h2 := ih w2 w1 h (fun x hx => hT x (List.mem_cons_of_mem e hx))
      rw [show ((e.1, e.2) : Op × Time) = e from rfl] at h1
      rw [h2, attributed_cons, ← List.append_assoc, List.filter_append, h1,
        ← List.filter_append]
    · cases h

theorem appOf_ddos (cfg : Config) (a : Nat) (h1 : (appOf cfg a).m_isAttacker = true)
    (h2 : (appOf cfg a).m_attackType = "ddos") : a = 5 := by
  unfold appOf at h1 h2
  split_ifs at h1 h2 with c1 c2 c3 c4 <;> first | exact c1.2 | simp at h2

theorem transmit_ddos (fmt : ℚ → List Char) (app : EnhancedBsmApp) (pos vel : Vector)
    (now : Time) (s : Payload) (w : World) (h1 : app.m_isAttacker = true)
    (h2 : app.m_attackType = "ddos") :
    (transmit fmt app pos vel now s w).sent = w.sent ++ List.replicate 10 (app.nodeId, s) ∧
      (transmit fmt app pos vel now s w).ddos_output =
        w.ddos_output ++ (List.range 10).map (fun i : Nat =>
          DdosRow.attack (GetSeconds now) app.nodeId i) := by
  unfold transmit
  simp only []
  rw [if_pos h1, if_pos h2]
  have hr : List.range 10 = [0, 1, 2, 3, 4, 5, 6, 7, 8, 9] := rfl
  rw [hr]
  simp [ddosStep, List.replicate]

theorem countP_attributed (id : Nat) (T : Time) (trace : List (Op × Time)) :
    (attributed id trace).countP (fun t => decide (T - t ≤ 500000000)) =
      (receptions trace).countP
        (fun pr => decide (T - pr.2 ≤ 500000000) && decide (senderOf pr.1 = some id)) := by
  unfold attributed
  rw [List.countP_map, List.countP_filter]
  rfl

theorem countP_copies (q : Payload × Time → Bool) (p : Payload) (rk : Nat → Time)
    (h : ∀ c, c < 10 → q (p, rk c) = true) :
    ((List.range 10).map (fun c => (p, rk c))).countP q = 10 := by
  have hl : ((List.range 10).map (fun c => (p, rk c))).length = 10 := by simp
  refine Eq.trans (List.countP_eq_length.2 ?_) hl
  intro x hx
  rw [List.mem_map] at hx
  obtain ⟨c, hc, rfl⟩ := hx
  exact h c (List.mem_range.1 hc)

theorem SendBsm_sybil_rows (fmt : ℚ → List Char) (app : EnhancedBsmApp)
    (pos vel : Vector) (now : Time) (w : World)
    (h1 : app.m_isAttacker = true) (h2 : app.m_attackType = "sybil")
    (h3 : app.nodeId * 1000 + 5 < 4294967296) :
    (SendBsm fmt app pos vel now w).sybil_output =
        w.sybil_output ++ [1, 2, 3, 4, 5].map (fun i : Nat =>
          SybilRow.fake (GetSeconds now) (app.nodeId * 1000 + i) app.nodeId (pos.x + 10 * i)
            (pos.y + 10 * i)) ∧
      (SendBsm fmt app pos vel now w).sent =
        w.sent ++ [1, 2, 3, 4, 5].map (fun i : Nat =>
          (app.nodeId, bsmString fmt (app.nodeId * 1000 + i) (pos.x + 10 * i) (pos.y + 10 * i)
            vel.x vel.y (GetSeconds now))) := by
  obtain ⟨w0, e1, e2, -, -, -, s1, s2, -, -⟩ := SendBsm_streams fmt app pos vel now w
  obtain ⟨t1, t2⟩ := transmit_sybil fmt app pos vel now
    (beaconOf fmt app.nodeId pos vel now) w0 h1 h2
  rw [s1, s2, t1, t2, e1, e2]
  have hr : List.range' 1 5 = [1, 2, 3, 4, 5] := rfl
  rw [hr]
  have f1 : sybilFakeId app.nodeId 1 = app.nodeId * 1000 + 1 := Nat.mod_eq_of_lt (by omega)
  have f2 : sybilFakeId app.nodeId 2 = app.nodeId * 1000 + 2 := Nat.mod_eq_of_lt (by omega)
  have f3 : sybilFakeId app.nodeId 3 = app.nodeId * 1000 + 3 := Nat.mod_eq_of_lt (by omega)
  have f4 : sybilFakeId app.nodeId 4 = app.nodeId * 1000 + 4 := Nat.mod_eq_of_lt (by omega)
  have f5 : sybilFakeId app.nodeId 5 = app.nodeId * 1000 + 5 := Nat.mod_eq_of_lt (by omega)
  constructor
  · simp [f1, f2, f3, f4, f5, mul_comm]
  · simp [f1, f2, f3, f4, f5, mul_comm]

theorem calculateTrustScore_trustHistory (cfg : Config) (id : Nat) (pos vel : Vector)
    (t : Time) (w : World) :
    (calculateTrustScore cfg id pos vel t w).2.trustHistory id =
      pushBounded 100 (w.trustHistory id) (instantTrust cfg id vel) := by
  unfold calculateTrustScore
  simp only [Function.update_same]

theorem evaluations_history (cfg : Config) (id : Nat) (obs : List (Vector × Vector × Time)) :
    ∀ (w : World) (pre : List ℚ), w.trustHistory id = pre.drop (pre.length - 100) →
      (∀ o ∈ obs, instantTrust cfg id o.2.1 = 1) →
      (evaluations cfg id obs w).2.trustHistory id =
        (pre ++ List.replicate obs.length 1).drop
          ((pre ++ List.replicate obs.length 1).length - 100) ∧
      ((evaluations cfg id obs w).1.getLast? =
        if obs = [] then none
        else some (mean ((pre ++ List.replicate obs.length 1).drop
          ((pre ++ List.replicate obs.length 1).length - 100)))) := by
  induction obs with
  | nil =>
    intro w pre hpre _
    simp [evaluations, hpre]
  | cons o rest ih =>
    intro w pre hpre hun
    have ho : instantTrust cfg id o.2.1 = 1 := hun o (List.mem_cons_self o rest)
    have hnext : (calculateTrustScore cfg id o.1 o.2.1 o.2.2 w).2.trustHistory id =
        (pre ++ [1]).drop ((pre ++ [1]).length - 100) := by
      rw [calculateTrustScore_trustHistory, ho, hpre, pushBounded_drop 100 pre 1 (by norm_num)]
    obtain ⟨ih1, ih2⟩ := ih (calculateTrustScore cfg id o.1 o.2.1 o.2.2 w).2 (pre ++ [1]) hnext
      (fun x hx => hun x (List.mem_cons_of_mem o hx))
    have hrep : pre ++ List.replicate (o :: rest).length 1 =
        pre ++ [1] ++ List.replicate rest.length 1 := by
      simp [List.replicate_succ]
    rw [hrep]
    refine ⟨ih1, ?_⟩
    show ((calculateTrustScore cfg id o.1 o.2.1 o.2.2 w).1 ::
      (evaluations cfg id rest (calculateTrustScore cfg id o.1 o.2.1 o.2.2 w).2).1).getLast? = _
    rw [if_neg (List.cons_ne_nil o rest)]
    cases rest with
    | nil =>
      simp only [evaluations, List.getLast?_singleton, List.length_nil, List.replicate_zero,
        List.append_nil]
      rw [calculateTrustScore_fst, hnext]
      rfl
    | cons o2 rest2 =>
      rw [if_neg (List.cons_ne_nil o2 rest2)] at ih2
      rw [← ih2]
      simp [evaluations, List.getLast?_cons_cons]

theorem installApps_ok (cfg : Config) (is : List Nat) (h : ∀ i ∈ is, i < cfg.g_numVehicles) :
    installApps cfg is =
      Except.ok (is.map (fun i => (Callback.startApplication i, (1000000000 : Time)))) := by
  induction is with
  | nil => rfl
  | cons i rest ih =>
    have hi : i < cfg.g_numVehicles := h i (List.mem_cons_self i rest)
    have hr := ih (fun j hj => h j (List.mem_cons_of_mem i hj))
    simp [installApps, NodeContainer.Get, hi, hr]

theorem detectAnomaly_suspiciousCount_eq (i : Nat) (pos vel : Vector) (w : World) :
    (detectAnomaly i pos vel w).2.suspiciousCount =
      Function.update w.suspiciousCount i
        (w.suspiciousCount i + anomalyIncrement vel (w.mobilityHistory i).length) := by
  have hne : ∀ l : List ℚ, (l ≠ [] ∧ l.length ≥ 4) ↔ 4 ≤ l.length := by
    intro l
    constructor
    · exact fun h => h.2
    · intro h
      refine ⟨?_, h⟩
      intro he
      rw [he] at h
      simp at h
  unfold detectAnomaly anomalyIncrement bumpSuspicious
  simp only [hne]
  by_cases h1 : vel.x * vel.x + vel.y * vel.y > 1600 <;>
    by_cases h2 : vel.x * vel.x + vel.y * vel.y > 1225 <;>
    by_cases h3 : 4 ≤ (w.mobilityHistory i).length <;>
    simp [h1, h2, h3, add_assoc]

theorem hybridStep_counters (mob : Mobility) (now : Time) (w : World) (i : Nat) :
    (hybridStep mob now w i).suspiciousCount =
        Function.update w.suspiciousCount i
          (w.suspiciousCount i +
            anomalyIncrement (mob.velocity i) (w.mobilityHistory i).length) ∧
      (hybridStep mob now w i).mobilityHistory =
        Function.update w.mobilityHistory i
          [(mob.position i).x, (mob.position i).y, (mob.velocity i).x, (mob.velocity i).y] := by
  have h := checkRuleBased_snd_eq i now (detectAnomaly i (mob.position i) (mob.velocity i) w).2
  have hs := detectAnomaly_suspiciousCount_eq i (mob.position i) (mob.velocity i) w
  have hm := detectAnomaly_mobilityHistory i (mob.position i) (mob.velocity i) w
  unfold hybridStep
  simp only []
  split_ifs <;> rw [h] <;> exact ⟨hs, hm⟩

theorem hybrid_fold_counters (mob : Mobility) (now : Time) (w : World) (n j : Nat) :
    ((List.range n).foldl (hybridStep mob now) w).suspiciousCount j =
        (if j < n then w.suspiciousCount j +
            anomalyIncrement (mob.velocity j) (w.mobilityHistory j).length
          else w.suspiciousCount j) ∧
      ((List.range n).foldl (hybridStep mob now) w).mobilityHistory j =
        (if j < n then
            [(mob.position j).x, (mob.position j).y, (mob.velocity j).x, (mob.velocity j).y]
          else w.mobilityHistory j) := by
  induction n generalizing j with
  | zero => simp
  | succ n ih =>
    rw [List.range_succ, List.foldl_append, List.foldl_cons, List.foldl_nil]
    obtain ⟨s1, s2⟩ := hybridStep_counters mob now ((List.range n).foldl (hybridStep mob now) w) n
    rw [s1, s2]
    by_cases hj : j = n
    · subst hj
      rw [Function.update_same, Function.update_same, (ih j).1, (ih j).2,
        if_neg (lt_irrefl _), if_neg (lt_irrefl _), if_pos (Nat.lt_succ_self _),
        if_pos (Nat.lt_succ_self _)]
      exact ⟨rfl, rfl⟩
    · rw [Function.update_noteq hj, Function.update_noteq hj, (ih j).1, (ih j).2]
      by_cases hlt : j < n
      · rw [if_pos hlt, if_pos hlt, if_pos (by omega), if_pos (by omega)]
        exact ⟨rfl, rfl⟩
      · rw [if_neg hlt, if_neg hlt, if_neg (by omega), if_neg (by omega)]
        exact ⟨rfl, rfl⟩

theorem transmit_frame2 (fmt : ℚ → List Char) (app : EnhancedBsmApp) (pos vel : Vector)
    (now : Time) (s : Payload) (w : World) :
    (transmit fmt app pos vel now s w).nodeFeatures = w.nodeFeatures ∧
      (transmit fmt app pos vel now s w).nodeMessageTimes = w.nodeMessageTimes ∧
      (transmit fmt app pos vel now s w).nodePayloadSizes = w.nodePayloadSizes ∧
      (transmit fmt app pos vel now s w).bsm_output = w.bsm_output := by
  unfold transmit
  simp only []
  split_ifs
  · exact foldl_preserves (fun w1 : World => w1.nodeFeatures = w.nodeFeatures ∧
      w1.nodeMessageTimes = w.nodeMessageTimes ∧ w1.nodePayloadSizes = w.nodePayloadSizes ∧
      w1.bsm_output = w.bsm_output)
      (ddosStep app.nodeId now s) (fun a b h => h) _ _ ⟨rfl, rfl, rfl, rfl⟩
  · exact foldl_preserves (fun w1 : World => w1.nodeFeatures = w.nodeFeatures ∧
      w1.nodeMessageTimes = w.nodeMessageTimes ∧ w1.nodePayloadSizes = w.nodePayloadSizes ∧
      w1.bsm_output = w.bsm_output)
      (sybilStep fmt app.nodeId pos vel now) (fun a b h => h) _ _ ⟨rfl, rfl, rfl, rfl⟩
  · split <;> exact ⟨rfl, rfl, rfl, rfl⟩
  · exact ⟨rfl, rfl, rfl, rfl⟩
  · exact ⟨rfl, rfl, rfl, rfl⟩
  · exact ⟨rfl, rfl, rfl, rfl⟩

theorem SendBsm_windows (fmt : ℚ → List Char) (app : EnhancedBsmApp) (pos vel : Vector)
    (now : Time) (w : World) :
    (SendBsm fmt app pos vel now w).nodeMessageTimes =
        Function.update w.nodeMessageTimes app.nodeId
          (pushBounded 100 (w.nodeMessageTimes app.nodeId) now) ∧
      (SendBsm fmt app pos vel now w).nodePayloadSizes =
        Function.update w.nodePayloadSizes app.nodeId
          (pushBounded 50 (w.nodePayloadSizes app.nodeId) 200) ∧
      (SendBsm fmt app pos vel now w).nodeFeatures =
        Function.update w.nodeFeatures app.nodeId
          (pushBounded 100 (w.nodeFeatures app.nodeId)
            (tickFeatures pos vel now (pushBounded 100 (w.nodeMessageTimes app.nodeId) now)
              (pushBounded 50 (w.nodePayloadSizes app.nodeId) 200))) ∧
      (SendBsm fmt app pos vel now w).bsm_output =
        w.bsm_output ++ [BsmRow.mk app.nodeId pos.x pos.y vel.x vel.y (GetSeconds now)] := by
  let times := pushBounded 100 (w.nodeMessageTimes app.nodeId) now
  let sizes := pushBounded 50 (w.nodePayloadSizes app.nodeId) 200
  obtain ⟨t1, t2, t3, t4⟩ := transmit_frame2 fmt app pos vel now
    (beaconOf fmt app.nodeId pos vel now)
    { w with nodeMessageTimes := Function.update w.nodeMessageTimes app.nodeId times,
             nodePayloadSizes := Function.update w.nodePayloadSizes app.nodeId sizes }
  unfold SendBsm
  simp only []
  split <;> exact ⟨t2, t3,
    congrArg (fun f => Function.update f app.nodeId
      (pushBounded 100 (f app.nodeId) (tickFeatures pos vel now times sizes))) t1,
    congrArg (fun l => l ++ [BsmRow.mk app.nodeId pos.x pos.y vel.x vel.y (GetSeconds now)]) t4⟩

theorem receiveOne_frame2 (receiver : Nat) (now : Time) (w w1 : World) (s : Payload)
    (h : receiveOne receiver now w s = Except.ok w1) :
    w1.nodeFeatures = w.nodeFeatures ∧ w1.nodeMessageTimes = w.nodeMessageTimes ∧
      w1.nodePayloadSizes = w.nodePayloadSizes ∧ w1.bsm_output = w.bsm_output := by
  unfold receiveOne at h
  simp only [] at h
  split_ifs at h
  split at h
  · rename_i w2 hp
    cases h
    split at hp
    · split at hp
      · cases hp
        exact ⟨rfl, rfl, rfl, rfl⟩
      · cases hp
    · cases hp
      exact ⟨rfl, rfl, rfl, rfl⟩
  · cases h

theorem ReceivePacket_frame2 (receiver : Nat) (packets : List Payload) (now : Time)
    (w w1 : World) (h : ReceivePacket receiver packets now w = Except.ok w1) :
    w1.nodeFeatures = w.nodeFeatures ∧ w1.nodeMessageTimes = w.nodeMessageTimes ∧
      w1.nodePayloadSizes = w.nodePayloadSizes ∧ w1.bsm_output = w.bsm_output := by
  unfold ReceivePacket at h
  induction packets generalizing w with
  | nil =>
    cases h
    exact ⟨rfl, rfl, rfl, rfl⟩
  | cons s rest ih =>
    rw [List.foldlM_cons] at h
    cases hs : receiveOne receiver now w s with
    | error e => rw [hs] at h; cases h
    | ok w2 =>
      rw [hs] at h
      obtain ⟨a1, a2, a3, a4⟩ := receiveOne_frame2 receiver now w w2 s hs
      obtain ⟨b1, b2, b3, b4⟩ := ih w2 h
      exact ⟨b1.trans a1, b2.trans a2, b3.trans a3, b4.trans a4⟩

theorem UpdateTrustScores_frame2 (cfg : Config) (mob : Mobility) (now : Time) (w : World) :
    (UpdateTrustScores cfg mob now w).nodeFeatures = w.nodeFeatures ∧
      (UpdateTrustScores cfg mob now w).nodeMessageTimes = w.nodeMessageTimes ∧
      (UpdateTrustScores cfg mob now w).nodePayloadSizes = w.nodePayloadSizes ∧
      (UpdateTrustScores cfg mob now w).bsm_output = w.bsm_output :=
  foldl_preserves
    (fun w1 : World => w1.nodeFeatures = w.nodeFeatures ∧
      w1.nodeMessageTimes = w.nodeMessageTimes ∧ w1.nodePayloadSizes = w.nodePayloadSizes ∧
      w1.bsm_output = w.bsm_output)
    (updateTrustStep cfg mob now) (fun _ _ h => h) _ _ ⟨rfl, rfl, rfl, rfl⟩

theorem detectAnomaly_frame2 (i : Nat) (pos vel : Vector) (w : World) :
    (detectAnomaly i pos vel w).2.nodeFeatures = w.nodeFeatures ∧
      (detectAnomaly i pos vel w).2.nodeMessageTimes = w.nodeMessageTimes ∧
      (detectAnomaly i pos vel w).2.nodePayloadSizes = w.nodePayloadSizes ∧
      (detectAnomaly i pos vel w).2.bsm_output = w.bsm_output := by
  obtain ⟨c, -, hc⟩ := detectAnomaly_snd_eq i pos vel w
  rw [hc]
  exact ⟨rfl, rfl, rfl, rfl⟩

theorem RunMLDetection_frame2 (cfg : Config) (mob : Mobility) (now : Time) (w : World) :
    (RunMLDetection cfg mob now w).nodeFeatures = w.nodeFeatures ∧
      (RunMLDetection cfg mob now w).nodeMessageTimes = w.nodeMessageTimes ∧
      (RunMLDetection cfg mob now w).nodePayloadSizes = w.nodePayloadSizes ∧
      (RunMLDetection cfg mob now w).bsm_output = w.bsm_output :=
  foldl_preserves
    (fun w1 : World => w1.nodeFeatures = w.nodeFeatures ∧
      w1.nodeMessageTimes = w.nodeMessageTimes ∧ w1.nodePayloadSizes = w.nodePayloadSizes ∧
      w1.bsm_output = w.bsm_output)
    (mlStep mob now)
    (fun a b h => by
      obtain ⟨h1, h2, h3, h4⟩ := h
      obtain ⟨s1, s2, s3, s4⟩ := detectAnomaly_frame2 b (mob.position b) (mob.velocity b) a
      unfold mlStep
      simp only []
      split_ifs <;> exact ⟨s1.trans h1, s2.trans h2, s3.trans h3, s4.trans h4⟩)
    _ _ ⟨rfl, rfl, rfl, rfl⟩

theorem UpdateRuleBasedDetection_frame2 (cfg : Config) (now : Time) (w : World) :
    (UpdateRuleBasedDetection cfg now w).nodeFeatures = w.nodeFeatures ∧
      (UpdateRuleBasedDetection cfg now w).nodeMessageTimes = w.nodeMessageTimes ∧
      (UpdateRuleBasedDetection cfg now w).nodePayloadSizes = w.nodePayloadSizes ∧
      (UpdateRuleBasedDetection cfg now w).bsm_output = w.bsm_output :=
  foldl_preserves
    (fun w1 : World => w1.nodeFeatures = w.nodeFeatures ∧
      w1.nodeMessageTimes = w.nodeMessageTimes ∧ w1.nodePayloadSizes = w.nodePayloadSizes ∧
      w1.bsm_output = w.bsm_output)
    (ruleStep now)
    (fun a b h => by
      have hc := checkRuleBased_snd_eq b now a
      unfold ruleStep
      simp only []
      split_ifs <;> rw [hc] <;> exact h)
    _ _ ⟨rfl, rfl, rfl, rfl⟩

theorem RunHybridDetection_frame2 (cfg : Config) (mob : Mobility) (now : Time) (w : World) :
    (RunHybridDetection cfg mob now w).nodeFeatures = w.nodeFeatures ∧
      (RunHybridDetection cfg mob now w).nodeMessageTimes = w.nodeMessageTimes ∧
      (RunHybridDetection cfg mob now w).nodePayloadSizes = w.nodePayloadSizes ∧
      (RunHybridDetection cfg mob now w).bsm_output = w.bsm_output :=
  foldl_preserves
    (fun w1 : World => w1.nodeFeatures = w.nodeFeatures ∧
      w1.nodeMessageTimes = w.nodeMessageTimes ∧ w1.nodePayloadSizes = w.nodePayloadSizes ∧
      w1.bsm_output = w.bsm_output)
    (hybridStep mob now)
    (fun a b h => by
      obtain ⟨h1, h2, h3, h4⟩ := h
      obtain ⟨s1, s2, s3, s4⟩ := detectAnomaly_frame2 b (mob.position b) (mob.velocity b) a
      have hc := checkRuleBased_snd_eq b now
        (detectAnomaly b (mob.position b) (mob.velocity b) a).2
      unfold hybridStep
      simp only []
      split_ifs <;> rw [hc] <;> exact ⟨s1.trans h1, s2.trans h2, s3.trans h3, s4.trans h4⟩)
    _ _ ⟨rfl, rfl, rfl, rfl⟩

theorem inject_frame2 (cfg : Config) (a : Nat) (now : Time) (w : World) :
    ∀ w1 ∈ [InjectDdosAttack cfg a now w, InjectSybilAttack cfg a now w,
        InjectReplayAttack cfg a now w, InjectJammerNode cfg a now w,
        InjectMsgFalsification cfg a now w],
      w1.nodeFeatures = w.nodeFeatures ∧ w1.nodeMessageTimes = w.nodeMessageTimes ∧
        w1.nodePayloadSizes = w.nodePayloadSizes ∧ w1.bsm_output = w.bsm_output := by
  intro w1 h
  simp only [List.mem_cons, List.mem_singleton, List.not_mem_nil, or_false] at h
  rcases h with h | h | h | h | h <;> subst h
  · unfold InjectDdosAttack; split_ifs <;> exact ⟨rfl, rfl, rfl, rfl⟩
  · unfold InjectSybilAttack; split_ifs <;> exact ⟨rfl, rfl, rfl, rfl⟩
  · unfold InjectReplayAttack; split_ifs <;> exact ⟨rfl, rfl, rfl, rfl⟩
  · unfold InjectJammerNode; split_ifs <;> exact ⟨rfl, rfl, rfl, rfl⟩
  · unfold InjectMsgFalsification; split_ifs <;> exact ⟨rfl, rfl, rfl, rfl⟩

theorem setTopology_props (queue : List BeaconFeatures) (count : Nat) (m : ℚ) :
    (setTopology queue count m).length = queue.length ∧
      (setTopology queue count m).dropLast = queue.dropLast ∧
      (setTopology queue count m).map clearTopology = queue.map clearTopology ∧
      (queue = [] → setTopology queue count m = []) ∧
      (∀ f, queue.getLast? = some f →
        (setTopology queue count m).getLast? =
          some { f with neighborCount := count, distanceToNearestNeighbor := m }) := by
  unfold setTopology
  cases hq : queue.getLast? with
  | none =>
    have hnil : queue = [] := List.getLast?_eq_none_iff.1 hq
    subst hnil
    simp
  | some f =>
    have hne : queue ≠ [] := by
      intro he
      rw [he] at hq
      simp at hq
    have hsplit : queue = queue.dropLast ++ [f] := by
      have h1 := List.dropLast_append_getLast? f (by simpa using hq)
      exact h1.symm
    refine ⟨?_, ?_, ?_, ?_, ?_⟩
    · simp only [List.length_append, List.length_singleton, List.length_dropLast]
      have := List.length_pos.2 hne
      omega
    · simp [List.dropLast_concat]
    · conv_rhs => rw [hsplit]
      simp [clearTopology]
    · intro he
      exact absurd he hne
    · intro g hg
      cases hg
      simp

theorem neighborStep_effect (cfg : Config) (dist : Nat → Nat → ℚ) (now : Time) (w : World)
    (i : Nat) :
    (neighborStep cfg dist now w i).nodeFeatures =
        Function.update w.nodeFeatures i
          (setTopology (w.nodeFeatures i) (neighborScan cfg dist i).1
            (neighborScan cfg dist i).2) ∧
      (neighborStep cfg dist now w i).neighbor_output =
        w.neighbor_output ++
          [NeighborRow.mk (GetSeconds now) i (neighborScan cfg dist i).1
            (neighborScan cfg dist i).2] ∧
      (neighborStep cfg dist now w i).nodeMessageTimes = w.nodeMessageTimes ∧
      (neighborStep cfg dist now w i).nodePayloadSizes = w.nodePayloadSizes ∧
      (neighborStep cfg dist now w i).bsm_output = w.bsm_output := by
  unfold neighborStep setTopology neighborScan
  simp only []
  cases hq : (w.nodeFeatures i).getLast? with
  | none =>
    refine ⟨?_, rfl, rfl, rfl, rfl⟩
    simp only []
    rw [Function.update_eq_self]
  | some f => exact ⟨rfl, rfl, rfl, rfl, rfl⟩

theorem LogNeighbors_fold (cfg : Config) (dist : Nat → Nat → ℚ) (now : Time) (w : World)
    (n : Nat) :
    (∀ j, ((List.range n).foldl (neighborStep cfg dist now) w).nodeFeatures j =
        if j < n then
          setTopology (w.nodeFeatures j) (neighborScan cfg dist j).1 (neighborScan cfg dist j).2
        else w.nodeFeatures j) ∧
      ((List.range n).foldl (neighborStep cfg dist now) w).neighbor_output =
        w.neighbor_output ++ (List.range n).map (fun i =>
          NeighborRow.mk (GetSeconds now) i (neighborScan cfg dist i).1
            (neighborScan cfg dist i).2) ∧
      ((List.range n).foldl (neighborStep cfg dist now) w).nodeMessageTimes =
        w.nodeMessageTimes ∧
      ((List.range n).foldl (neighborStep cfg dist now) w).nodePayloadSizes =
        w.nodePayloadSizes ∧
      ((List.range n).foldl (neighborStep cfg dist now) w).bsm_output = w.bsm_output := by
  induction n with
  | zero => simp
  | succ n ih =>
    obtain ⟨i1, i2, i3, i4, i5⟩ := ih
    rw [List.range_succ, List.foldl_append, List.foldl_cons, List.foldl_nil]
    obtain ⟨s1, s2, s3, s4, s5⟩ :=
      neighborStep_effect cfg dist now ((List.range n).foldl (neighborStep cfg dist now) w) n
    refine ⟨?_, ?_, s3.trans i3, s4.trans i4, s5.trans i5⟩
    · intro j
      rw [s1]
      by_cases hj : j = n
      · subst hj
        rw [Function.update_same, i1, if_neg (lt_irrefl _), if_pos (Nat.lt_succ_self _)]
      · rw [Function.update_noteq hj, i1]
        by_cases hlt : j < n
        · rw [if_pos hlt, if_pos (by omega)]
        · rw [if_neg hlt, if_neg (by omega)]
    · rw [s2, i2, List.map_append, List.append_assoc]
      rfl

theorem neighborScan_fold (dist : Nat → Nat → ℚ) (i n : Nat) :
    ((List.range n).foldl (neighborInner dist i) (0, DBL_MAX)).1 =
        (List.range n).countP (fun j => decide (j ≠ i) && decide (dist i j < 250)) ∧
      ((List.range n).foldl (neighborInner dist i) (0, DBL_MAX)).2 ≤ DBL_MAX ∧
      (∀ j, j < n → j ≠ i →
        ((List.range n).foldl (neighborInner dist i) (0, DBL_MAX)).2 ≤ dist i j) ∧
      (((List.range n).foldl (neighborInner dist i) (0, DBL_MAX)).2 = DBL_MAX ∨
        ∃ j, j < n ∧ j ≠ i ∧
          ((List.range n).foldl (neighborInner dist i) (0, DBL_MAX)).2 = dist i j) := by
  induction n with
  | zero => simp
  | succ n ih =>
    obtain ⟨h1, h2, h3, h4⟩ := ih
    rw [List.range_succ, List.foldl_append, List.foldl_cons, List.foldl_nil,
      List.countP_append]
    generalize (List.range n).foldl (neighborInner dist i) (0, DBL_MAX) = acc at h1 h2 h3 h4
    unfold neighborInner
    by_cases hin : i = n
    · rw [if_pos hin]
      refine ⟨?_, h2, ?_, ?_⟩
      · rw [h1]
        simp [List.countP_cons, hin]
      · intro j hj hji
        exact h3 j (by omega) hji
      · rcases h4 with h | ⟨j, hj, hji, he⟩
        · exact Or.inl h
        · exact Or.inr ⟨j, by omega, hji, he⟩
    · rw [if_neg hin]
      simp only []
      refine ⟨?_, ?_, ?_, ?_⟩
      · rw [h1]
        by_cases hd : dist i n < 250
        · simp [List.countP_cons, hd, Ne.symm hin]
        · simp [List.countP_cons, hd]
      · split_ifs with hlt
        · exact le_of_lt (lt_of_lt_of_le hlt h2)
        · exact h2
      · intro j hj hji
        by_cases hjn : j = n
        · subst hjn
          split_ifs with hlt
          · exact le_rfl
          · exact not_lt.1 hlt
        · have := h3 j (by omega) hji
          split_ifs with hlt
          · exact le_trans (le_of_lt hlt) this
          · exact this
      · split_ifs with hlt
        · exact Or.inr ⟨n, Nat.lt_succ_self n, Ne.symm hin, rfl⟩
        · rcases h4 with h | ⟨j, hj, hji, he⟩
          · exact Or.inl h
          · exact Or.inr ⟨j, by omega, hji, he⟩

theorem pushBounded_eq_drop {α : Type} (cap : Nat) (v : List α) (a : α) (hcap : 0 < cap)
    (h : v.length ≤ cap) :
    pushBounded cap v a = (v ++ [a]).drop ((v ++ [a]).length - cap) := by
  have := pushBounded_drop cap v a hcap
  rw [Nat.sub_eq_zero_of_le h, List.drop_zero] at this
  exact this

theorem CapInv_of_eq (w w1 : World) (h : CapInv w) (h1 : w1.nodeFeatures = w.nodeFeatures)
    (h2 : w1.nodeMessageTimes = w.nodeMessageTimes)
    (h3 : w1.nodePayloadSizes = w.nodePayloadSizes) (h4 : w1.trustHistory = w.trustHistory) :
    CapInv w1 := by
  unfold CapInv
  rw [h1, h2, h3, h4]
  exact h

theorem update_pushBounded_length {α : Type} (cap : Nat) (f : Nat → List α) (i : Nat) (a : α)
    (h : ∀ j, (f j).length ≤ cap) (j : Nat) :
    (Function.update f i (pushBounded cap (f i) a) j).length ≤ cap := by
  by_cases hj : j = i
  · subst hj
    rw [Function.update_same]
    exact pushBounded_length_le cap _ a (h j)
  · rw [Function.update_noteq hj]
    exact h j

theorem exec_CapInv (fmt : ℚ → List Char) (cfg : Config) (op : Op) (now : Time)
    (w w1 : World) (h : exec fmt cfg op now w = some w1) (hinv : CapInv w) : CapInv w1 := by
  cases op with
  | sendBsm i pos vel =>
    simp only [exec, Option.some.injEq] at h
    subst h
    obtain ⟨s1, s2, s3, -⟩ := SendBsm_windows fmt (appOf cfg i) pos vel now w
    obtain ⟨f1, -⟩ := SendBsm_frame fmt (appOf cfg i) pos vel now w
    intro id
    rw [s1, s2, s3, f1]
    exact ⟨update_pushBounded_length 100 _ _ _ (fun j => (hinv j).1) id,
      update_pushBounded_length 100 _ _ _ (fun j => (hinv j).2.1) id,
      update_pushBounded_length 50 _ _ _ (fun j => (hinv j).2.2.1) id, (hinv id).2.2.2⟩
  | receivePacket receiver packets =>
    simp only [exec] at h
    split at h
    · rename_i w2 hr
      cases h
      obtain ⟨a1, a2, a3, -⟩ := ReceivePacket_frame2 receiver packets now w w1 hr
      exact CapInv_of_eq w _ hinv a1 a2 a3 (ReceivePacket_frame receiver packets now w w1 hr).2.1
    · cases h
  | updateTrustScores mob =>
    simp only [exec, Option.some.injEq] at h
    subst h
    obtain ⟨a1, a2, a3, -⟩ := UpdateTrustScores_frame2 cfg mob now w
    intro id
    rw [a1, a2, a3]
    refine ⟨(hinv id).1, (hinv id).2.1, (hinv id).2.2.1, ?_⟩
    unfold UpdateTrustScores
    rw [updateTrust_fold]
    split_ifs
    · exact pushBounded_length_le 100 _ _ (hinv id).2.2.2
    · exact (hinv id).2.2.2
  | runMLDetection mob =>
    simp only [exec, Option.some.injEq] at h
    subst h
    obtain ⟨a1, a2, a3, -⟩ := RunMLDetection_frame2 cfg mob now w
    exact CapInv_of_eq w _ hinv a1 a2 a3 (RunMLDetection_frame cfg mob now w).2.1
  | updateRuleBasedDetection =>
    simp only [exec, Option.some.injEq] at h
    subst h
    obtain ⟨a1, a2, a3, -⟩ := UpdateRuleBasedDetection_frame2 cfg now w
    exact CapInv_of_eq w _ hinv a1 a2 a3 (UpdateRuleBasedDetection_frame cfg now w).2.1
  | runHybridDetection mob =>
    simp only [exec, Option.some.injEq] at h
    subst h
    obtain ⟨a1, a2, a3, -⟩ := RunHybridDetection_frame2 cfg mob now w
    exact CapInv_of_eq w _ hinv a1 a2 a3 (RunHybridDetection_frame cfg mob now w).2.1
  | logNeighbors dist =>
    simp only [exec, Option.some.injEq] at h
    subst h
    obtain ⟨f1, -, f3, f4, -⟩ := LogNeighbors_fold cfg dist now w cfg.g_numVehicles
    have hLN : ∀ k, (LogNeighbors cfg dist now w).nodeFeatures k =
        if k < cfg.g_numVehicles then
          setTopology (w.nodeFeatures k) (neighborScan cfg dist k).1 (neighborScan cfg dist k).2
        else w.nodeFeatures k := f1
    have h3 : (LogNeighbors cfg dist now w).nodeMessageTimes = w.nodeMessageTimes := f3
    have h4 : (LogNeighbors cfg dist now w).nodePayloadSizes = w.nodePayloadSizes := f4
    intro id
    rw [hLN id, h3, h4, (LogNeighbors_frame cfg dist now w).2.1]
    refine ⟨?_, (hinv id).2.1, (hinv id).2.2.1, (hinv id).2.2.2⟩
    split_ifs
    · rw [(setTopology_props _ _ _).1]
      exact (hinv id).1
    · exact (hinv id).1
  | injectDdosAttack =>
    simp only [exec, Option.some.injEq] at h
    subst h
    obtain ⟨a1, a2, a3, -⟩ := inject_frame2 cfg 5 now w (InjectDdosAttack cfg 5 now w) (by simp)
    exact CapInv_of_eq w _ hinv a1 a2 a3
      (inject_frame cfg 5 now w (InjectDdosAttack cfg 5 now w) (by simp)).2.1
  | injectSybilAttack =>
    simp only [exec, Option.some.injEq] at h
    subst h
    obtain ⟨a1, a2, a3, -⟩ :=
      inject_frame2 cfg 10 now w (InjectSybilAttack cfg 10 now w) (by simp)
    exact CapInv_of_eq w _ hinv a1 a2 a3
      (inject_frame cfg 10 now w (InjectSybilAttack cfg 10 now w) (by simp)).2.1
  | injectReplayAttack =>
    simp only [exec, Option.some.injEq] at h
    subst h
    obtain ⟨a1, a2, a3, -⟩ :=
      inject_frame2 cfg 15 now w (InjectReplayAttack cfg 15 now w) (by simp)
    exact CapInv_of_eq w _ hinv a1 a2 a3
      (inject_frame cfg 15 now w (InjectReplayAttack cfg 15 now w) (by simp)).2.1
  | injectJammerNode =>
    simp only [exec, Option.some.injEq] at h
    subst h
    obtain ⟨a1, a2, a3, -⟩ :=
      inject_frame2 cfg 25 now w (InjectJammerNode cfg 25 now w) (by simp)
    exact CapInv_of_eq w _ hinv a1 a2 a3
      (inject_frame cfg 25 now w (InjectJammerNode cfg 25 now w) (by simp)).2.1
  | injectMsgFalsification =>
    simp only [exec, Option.some.injEq] at h
    subst h
    obtain ⟨a1, a2, a3, -⟩ :=
      inject_frame2 cfg 20 now w (InjectMsgFalsification cfg 20 now w) (by simp)
    exact CapInv_of_eq w _ hinv a1 a2 a3
      (inject_frame cfg 20 now w (InjectMsgFalsification cfg 20 now w) (by simp)).2.1

theorem Reachable_CapInv (fmt : ℚ → List Char) (cfg : Config) (w : World)
    (h : Reachable fmt cfg w) : CapInv w := by
  induction h with
  | init =>
    intro id
    simp [World.init]
  | step w w1 op now _ hex ih => exact exec_CapInv fmt cfg op now w w1 hex ih

theorem appOf_interval (cfg : Config) (i : Nat) : (appOf cfg i).m_interval = cfg.g_bsmInterval := by
  unfold appOf
  split_ifs <;> rfl

theorem tickTime_eq (app : EnhancedBsmApp) (start : Time) (k : Nat) :
    tickTime app start k = start + k * app.m_interval := by
  induction k with
  | zero => simp [tickTime]
  | succ k ih =>
    rw [tickTime, nextTick, ih]
    push_cast
    ring

theorem GetSeconds_lt (a b : Time) (h : a < b) : GetSeconds a < GetSeconds b := by
  unfold GetSeconds
  have : (a : ℚ) < (b : ℚ) := by exact_mod_cast h
  exact div_lt_div_of_pos_right this (by norm_num)

theorem exec_bsm_output (fmt : ℚ → List Char) (cfg : Config) (op : Op) (now : Time)
    (w w1 : World) (h : exec fmt cfg op now w = some w1) :
    w1.bsm_output = w.bsm_output ++ bsmRowsOf [(op, now)] := by
  cases op with
  | sendBsm i pos vel =>
    simp only [exec, Option.some.injEq] at h
    subst h
    rw [(SendBsm_windows fmt (appOf cfg i) pos vel now w).2.2.2, appOf_nodeId]
    rfl
  | receivePacket receiver packets =>
    simp only [exec] at h
    split at h
    · rename_i w2 hr
      cases h
      rw [(ReceivePacket_frame2 receiver packets now w w1 hr).2.2.2]
      simp [bsmRowsOf]
    · cases h
  | updateTrustScores mob =>
    simp only [exec, Option.some.injEq] at h
    subst h
    rw [(UpdateTrustScores_frame2 cfg mob now w).2.2.2]
    simp [bsmRowsOf]
  | runMLDetection mob =>
    simp only [exec, Option.some.injEq] at h
    subst h
    rw [(RunMLDetection_frame2 cfg mob now w).2.2.2]
    simp [bsmRowsOf]
  | updateRuleBasedDetection =>
    simp only [exec, Option.some.injEq] at h
    subst h
    rw [(UpdateRuleBasedDetection_frame2 cfg now w).2.2.2]
    simp [bsmRowsOf]
  | runHybridDetection mob =>
    simp only [exec, Option.some.injEq] at h
    subst h
    rw [(RunHybridDetection_frame2 cfg mob now w).2.2.2]
    simp [bsmRowsOf]
  | logNeighbors dist =>
    simp only [exec, Option.some.injEq] at h
    subst h
    have := (LogNeighbors_fold cfg dist now w cfg.g_numVehicles).2.2.2.2
    have h5 : (LogNeighbors cfg dist now w).bsm_output = w.bsm_output := this
    rw [h5]
    simp [bsmRowsOf]
  | injectDdosAttack =>
    simp only [exec, Option.some.injEq] at h
    subst h
    rw [(inject_frame2 cfg 5 now w (InjectDdosAttack cfg 5 now w) (by simp)).2.2.2]
    simp [bsmRowsOf]
  | injectSybilAttack =>
    simp only [exec, Option.some.injEq] at h
    subst h
    rw [(inject_frame2 cfg 10 now w (InjectSybilAttack cfg 10 now w) (by simp)).2.2.2]
    simp [bsmRowsOf]
  | injectReplayAttack =>
    simp only [exec, Option.some.injEq] at h
    subst h
    rw [(inject_frame2 cfg 15 now w (InjectReplayAttack cfg 15 now w) (by simp)).2.2.2]
    simp [bsmRowsOf]
  | injectJammerNode =>
    simp only [exec, Option.some.injEq] at h
    subst h
    rw [(inject_frame2 cfg 25 now w (InjectJammerNode cfg 25 now w) (by simp)).2.2.2]
    simp [bsmRowsOf]
  | injectMsgFalsification =>
    simp only [exec, Option.some.injEq] at h
    subst h
    rw [(inject_frame2 cfg 20 now w (InjectMsgFalsification cfg 20 now w) (by simp)).2.2.2]
    simp [bsmRowsOf]

theorem bsmRowsOf_cons (e : Op × Time) (rest : List (Op × Time)) :
    bsmRowsOf (e :: rest) = bsmRowsOf [e] ++ bsmRowsOf rest := by
  obtain ⟨op, now⟩ := e
  cases op <;> simp [bsmRowsOf]

theorem run_bsm_output (fmt : ℚ → List Char) (cfg : Config) (trace : List (Op × Time)) :
    ∀ (w w1 : World), run fmt cfg trace w = some w1 →
      w1.bsm_output = w.bsm_output ++ bsmRowsOf trace := by
  induction trace with
  | nil =>
    intro w w1 h
    simp only [run, Option.some.injEq] at h
    subst h
    simp [bsmRowsOf]
  | cons e rest ih =>
    intro w w1 h
    simp only [run] at h
    split at h
    · rename_i w2 he
      have h1 := exec_bsm_output fmt cfg e.1 e.2 w w2 he
      rw [show ((e.1, e.2) : Op × Time) = e from rfl] at h1
      rw [ih w2 w1 h, h1, List.append_assoc, ← bsmRowsOf_cons]
    · cases h

theorem bsmRowsOf_keys (trace : List (Op × Time)) (i : Nat) :
    ((bsmRowsOf trace).filter (fun r => decide (r.nodeId = i))).map BsmRow.t =
      (((ticksOf trace).filter (fun p => decide (p.1 = i))).map Prod.snd).map GetSeconds := by
  induction trace with
  | nil => rfl
  | cons e rest ih =>
    obtain ⟨op, now⟩ := e
    cases op with
    | sendBsm j pos vel =>
      by_cases hj : j = i
      · simp [bsmRowsOf, ticksOf, List.filter_cons, hj] at ih ⊢
        exact ih
      · simp [bsmRowsOf, ticksOf, List.filter_cons, hj] at ih ⊢
        exact ih
    | _ => simpa [bsmRowsOf, ticksOf] using ih

theorem nodup_of_pairwise_per_key {α : Type} (key1 : α → Nat) (key2 : α → ℚ) (l : List α)
    (h : ∀ i, ((l.filter (fun a => decide (key1 a = i))).map key2).Pairwise (· < ·)) :
    (l.map (fun a => (key1 a, key2 a))).Nodup := by
  induction l with
  | nil => simp
  | cons a rest ih =>
    rw [List.map_cons, List.nodup_cons]
    constructor
    · intro hmem
      rw [List.mem_map] at hmem
      obtain ⟨b, hb, hbe⟩ := hmem
      have hk1 : key1 b = key1 a := (Prod.mk.inj hbe).1
      have hk2 : key2 b = key2 a := (Prod.mk.inj hbe).2
      have hp := h (key1 a)
      rw [List.filter_cons_of_pos (by simp), List.map_cons, List.pairwise_cons] at hp
      have hlt := hp.1 (key2 b) (List.mem_map.2 ⟨b, List.mem_filter.2 ⟨hb, by simp [hk1]⟩, rfl⟩)
      rw [hk2] at hlt
      exact lt_irrefl _ hlt
    · apply ih
      intro i
      have hp := h i
      by_cases hi : key1 a = i
      · rw [List.filter_cons_of_pos (by simp [hi]), List.map_cons, List.pairwise_cons] at hp
        exact hp.2
      · rw [List.filter_cons_of_neg (by simp [hi])] at hp
        exact hp

theorem progression_pairwise (start interval : Time) (hpos : 0 < interval) (n : Nat) :
    ((List.range n).map (fun k : Nat => GetSeconds (start + k * interval))).Pairwise
      (· < ·) := by
  rw [List.pairwise_map]
  refine List.Pairwise.imp ?_ (List.pairwise_lt_range n)
  intro a b hab
  apply GetSeconds_lt
  have : (a : Int) < (b : Int) := by exact_mod_cast hab
  nlinarith

theorem mlStep_counters (mob : Mobility) (now : Time) (w : World) (i : Nat) :
    (mlStep mob now w i).suspiciousCount =
        Function.update w.suspiciousCount i
          (w.suspiciousCount i +
            anomalyIncrement (mob.velocity i) (w.mobilityHistory i).length) ∧
      (mlStep mob now w i).mobilityHistory =
        Function.update w.mobilityHistory i
          [(mob.position i).x, (mob.position i).y, (mob.velocity i).x, (mob.velocity i).y] := by
  have hs := detectAnomaly_suspiciousCount_eq i (mob.position i) (mob.velocity i) w
  have hm := detectAnomaly_mobilityHistory i (mob.position i) (mob.velocity i) w
  unfold mlStep
  simp only []
  split_ifs <;> exact ⟨hs, hm⟩

theorem ml_fold_counters (mob : Mobility) (now : Time) (w : World) (n j : Nat) :
    ((List.range n).foldl (mlStep mob now) w).suspiciousCount j =
        (if j < n then w.suspiciousCount j +
            anomalyIncrement (mob.velocity j) (w.mobilityHistory j).length
          else w.suspiciousCount j) ∧
      ((List.range n).foldl (mlStep mob now) w).mobilityHistory j =
        (if j < n then
            [(mob.position j).x, (mob.position j).y, (mob.velocity j).x, (mob.velocity j).y]
          else w.mobilityHistory j) := by
  induction n generalizing j with
  | zero => simp
  | succ n ih =>
    rw [List.range_succ, List.foldl_append, List.foldl_cons, List.foldl_nil]
    obtain ⟨s1, s2⟩ := mlStep_counters mob now ((List.range n).foldl (mlStep mob now) w) n
    rw [s1, s2]
    by_cases hj : j = n
    · subst hj
      rw [Function.update_same, Function.update_same, (ih j).1, (ih j).2,
        if_neg (lt_irrefl _), if_neg (lt_irrefl _), if_pos (Nat.lt_succ_self _),
        if_pos (Nat.lt_succ_self _)]
      exact ⟨rfl, rfl⟩
    · rw [Function.update_noteq hj, Function.update_noteq hj, (ih j).1, (ih j).2]
      by_cases hlt : j < n
      · rw [if_pos hlt, if_pos hlt, if_pos (by omega), if_pos (by omega)]
        exact ⟨rfl, rfl⟩
      · rw [if_neg hlt, if_neg hlt, if_neg (by omega), if_neg (by omega)]
        exact ⟨rfl, rfl⟩

theorem exec_mobilityHistory (fmt : ℚ → List Char) (cfg : Config) (op : Op) (now : Time)
    (w w1 : World) (h : exec fmt cfg op now w = some w1) (id : Nat) :
    w1.mobilityHistory id =
      match observationsOf cfg id [(op, now)] with
      | [] => w.mobilityHistory id
      | o :: _ => [o.1.x, o.1.y, o.2.x, o.2.y] := by
  cases op with
  | sendBsm i pos vel =>
    simp only [exec, Option.some.injEq] at h
    subst h
    rw [(SendBsm_frame fmt (appOf cfg i) pos vel now w).2.2.2.2.2]
    rfl
  | receivePacket receiver packets =>
    simp only [exec] at h
    split at h
    · rename_i w2 hr
      cases h
      rw [(ReceivePacket_frame receiver packets now w w1 hr).2.2.2.2.2]
      rfl
    · cases h
  | updateTrustScores mob =>
    simp only [exec, Option.some.injEq] at h
    subst h
    rw [(UpdateTrustScores_frame cfg mob now w).2.2.2]
    rfl
  | runMLDetection mob =>
    simp only [exec, Option.some.injEq] at h
    subst h
    unfold RunMLDetection
    rw [(ml_fold_counters mob now w cfg.g_numVehicles id).2]
    by_cases hlt : id < cfg.g_numVehicles <;> simp [observationsOf, hlt]
  | updateRuleBasedDetection =>
    simp only [exec, Option.some.injEq] at h
    subst h
    rw [(UpdateRuleBasedDetection_frame cfg now w).2.2.2.2.2]
    rfl
  | runHybridDetection mob =>
    simp only [exec, Option.some.injEq] at h
    subst h
    unfold RunHybridDetection
    rw [(hybrid_fold_counters mob now w cfg.g_numVehicles id).2]
    by_cases hlt : id < cfg.g_numVehicles <;> simp [observationsOf, hlt]
  | logNeighbors dist =>
    simp only [exec, Option.some.injEq] at h
    subst h
    rw [(LogNeighbors_frame cfg dist now w).2.2.2.2.2.2]
    rfl
  | injectDdosAttack =>
    simp only [exec, Option.some.injEq] at h
    subst h
    rw [(inject_frame cfg 5 now w _ (by simp)).2.2.2.2.2.2]
    rfl
  | injectSybilAttack =>
    simp only [exec, Option.some.injEq] at h
    subst h
    rw [(inject_frame cfg 10 now w _ (by simp)).2.2.2.2.2.2]
    rfl
  | injectReplayAttack =>
    simp only [exec, Option.some.injEq] at h
    subst h
    rw [(inject_frame cfg 15 now w _ (by simp)).2.2.2.2.2.2]
    rfl
  | injectJammerNode =>
    simp only [exec, Option.some.injEq] at h
    subst h
    rw [(inject_frame cfg 25 now w _ (by simp)).2.2.2.2.2.2]
    rfl
  | injectMsgFalsification =>
    simp only [exec, Option.some.injEq] at h
    subst h
    rw [(inject_frame cfg 20 now w _ (by simp)).2.2.2.2.2.2]
    rfl

theorem observationsOf_cons (cfg : Config) (id : Nat) (e : Op × Time)
    (rest : List (Op × Time)) :
    observationsOf cfg id (e :: rest) =
      observationsOf cfg id [e] ++ observationsOf cfg id rest := by
  obtain ⟨op, now⟩ := e
  cases op with
  | runMLDetection mob =>
    by_cases hi : id < cfg.g_numVehicles <;> simp [observationsOf, hi]
  | runHybridDetection mob =>
    by_cases hi : id < cfg.g_numVehicles <;> simp [observationsOf, hi]
  | _ => simp [observationsOf]

theorem observationsOf_single_length (cfg : Config) (id : Nat) (e : Op × Time) :
    (observationsOf cfg id [e]).length ≤ 1 := by
  obtain ⟨op, now⟩ := e
  cases op with
  | runMLDetection mob =>
    by_cases hi : id < cfg.g_numVehicles <;> simp [observationsOf, hi]
  | runHybridDetection mob =>
    by_cases hi : id < cfg.g_numVehicles <;> simp [observationsOf, hi]
  | _ => simp [observationsOf]

theorem run_mobilityHistory (fmt : ℚ → List Char) (cfg : Config) (id : Nat)
    (trace : List (Op × Time)) :
    ∀ (w w1 : World) (pre : List (Vector × Vector)),
      w.mobilityHistory id = historyAfter pre →
      run fmt cfg trace w = some w1 →
      w1.mobilityHistory id = historyAfter (pre ++ observationsOf cfg id trace) := by
  induction trace with
  | nil =>
    intro w w1 pre hpre h
    simp only [run, Option.some.injEq] at h
    subst h
    simpa [observationsOf] using hpre
  | cons e rest ih =>
    intro w w1 pre hpre h
    simp only [run] at h
    split at h
    · rename_i w2 he
      have hstep := exec_mobilityHistory fmt cfg e.1 e.2 w w2 he id
      rw [observationsOf_cons, ← List.append_assoc]
      refine ih w2 w1 (pre ++ observationsOf cfg id [e]) ?_ h
      have hl := observationsOf_single_length cfg id e
      rw [show ((e.1, e.2) : Op × Time) = e from rfl] at hstep
      match hb : observationsOf cfg id [e] with
      | [] =>
        rw [hb] at hstep
        simp only [] at hstep
        rw [hstep, hpre, List.append_nil]
      | [o] =>
        rw [hb] at hstep
        simp only [] at hstep
        rw [hstep]
        simp [historyAfter]
      | o :: t :: r =>
        rw [hb] at hl
        simp at hl
    · cases h

theorem historyAfter_length (obs : List (Vector × Vector)) (hne : obs ≠ []) :
    (historyAfter obs).length = 4 := by
  unfold historyAfter
  cases h : obs.getLast? with
  | none => exact absurd (List.getLast?_eq_none_iff.1 h) hne
  | some o => rfl

theorem pushBounded_nil {α : Type} (cap : Nat) (a : α) (hcap : 0 < cap) :
    pushBounded cap [] a = [a] := by
  unfold pushBounded
  simp only [List.nil_append, List.length_cons, List.length_nil]
  rw [if_neg (by omega)]

theorem pushBounded_length_one {α : Type} (v : List α) (a : α) :
    (pushBounded 100 v a).length = 1 ↔ v = [] := by
  constructor
  · intro h
    cases v with
    | nil => rfl
    | cons b l =>
      exfalso
      unfold pushBounded at h
      simp only [List.cons_append, List.length_cons, List.length_append,
        List.length_singleton, List.length_nil] at h
      split_ifs at h with hc
      · simp only [List.tail_cons, List.length_append, List.length_cons, List.length_nil] at h
        omega
      · simp only [List.length_cons, List.length_append, List.length_nil] at h
        omega
  · intro h
    rw [h, pushBounded_nil 100 a (by norm_num)]
    rfl

theorem transmit_features_output (fmt : ℚ → List Char) (app : EnhancedBsmApp) (pos vel : Vector)
    (now : Time) (s : Payload) (w : World) :
    (transmit fmt app pos vel now s w).features_output = w.features_output := by
  unfold transmit
  simp only []
  split_ifs
  · exact foldl_preserves (fun w1 : World => w1.features_output = w.features_output)
      (ddosStep app.nodeId now s) (fun a b h => h) _ _ rfl
  · exact foldl_preserves (fun w1 : World => w1.features_output = w.features_output)
      (sybilStep fmt app.nodeId pos vel now) (fun a b h => h) _ _ rfl
  · split <;> rfl
  · rfl
  · rfl
  · rfl

theorem SendBsm_features_output (fmt : ℚ → List Char) (app : EnhancedBsmApp) (pos vel : Vector)
    (now : Time) (w : World) :
    (SendBsm fmt app pos vel now w).features_output =
      if w.nodeFeatures app.nodeId = [] then
        w.features_output ++
          [FeaturesRow.mk app.nodeId pos.x pos.y vel (GetSeconds now)
            (tickFeatures pos vel now (pushBounded 100 (w.nodeMessageTimes app.nodeId) now)
              (pushBounded 50 (w.nodePayloadSizes app.nodeId) 200)).interArrivalTime
            (tickFeatures pos vel now (pushBounded 100 (w.nodeMessageTimes app.nodeId) now)
              (pushBounded 50 (w.nodePayloadSizes app.nodeId) 200)).avgPayloadSize]
      else w.features_output := by
  let times := pushBounded 100 (w.nodeMessageTimes app.nodeId) now
  let sizes := pushBounded 50 (w.nodePayloadSizes app.nodeId) 200
  have hpos : (tickFeatures pos vel now times sizes).position = pos ∧
      (tickFeatures pos vel now times sizes).timestamp = now := by
    unfold tickFeatures
    simp only []
    split_ifs <;> split <;> exact ⟨rfl, rfl⟩
  have t1 := (transmit_frame2 fmt app pos vel now (beaconOf fmt app.nodeId pos vel now)
    { w with nodeMessageTimes := Function.update w.nodeMessageTimes app.nodeId times,
             nodePayloadSizes := Function.update w.nodePayloadSizes app.nodeId sizes }).1
  have t2 := transmit_features_output fmt app pos vel now (beaconOf fmt app.nodeId pos vel now)
    { w with nodeMessageTimes := Function.update w.nodeMessageTimes app.nodeId times,
             nodePayloadSizes := Function.update w.nodePayloadSizes app.nodeId sizes }
  have hq : (transmit fmt app pos vel now (beaconOf fmt app.nodeId pos vel now)
      { w with nodeMessageTimes := Function.update w.nodeMessageTimes app.nodeId times,
               nodePayloadSizes := Function.update w.nodePayloadSizes app.nodeId sizes
      }).nodeFeatures app.nodeId = w.nodeFeatures app.nodeId := by
    rw [t1]
  unfold SendBsm
  simp only []
  split
  · rename_i f hf
    rw [hq] at hf
    have hnil : w.nodeFeatures app.nodeId = [] :=
      (pushBounded_length_one _ _).1 (by rw [hf]; rfl)
    rw [if_pos hnil]
    rw [hnil, pushBounded_nil 100 _ (by norm_num)] at hf
    have hf1 : tickFeatures pos vel now times sizes = f := by
      simpa using hf
    show (transmit fmt app pos vel now (beaconOf fmt app.nodeId pos vel now) _).features_output
      ++ [FeaturesRow.mk app.nodeId f.position.x f.position.y vel (GetSeconds f.timestamp)
        f.interArrivalTime f.avgPayloadSize] = _
    rw [t2, ← hf1, hpos.1, hpos.2]
  · rename_i hne
    rw [hq] at hne
    have hnn : w.nodeFeatures app.nodeId ≠ [] := by
      intro hnil
      rw [hnil, pushBounded_nil 100 _ (by norm_num)] at hne
      exact hne _ rfl
    rw [if_neg hnn]
    exact t2

theorem receiveOne_features_output (receiver : Nat) (now : Time) (w w1 : World) (s : Payload)
    (h : receiveOne receiver now w s = Except.ok w1) :
    w1.features_output = w.features_output := by
  unfold receiveOne at h
  simp only [] at h
  split_ifs at h
  split at h
  · rename_i w2 hp
    cases h
    split at hp
    · split at hp
      · cases hp
        rfl
      · cases hp
    · cases hp
      rfl
  · cases h

theorem ReceivePacket_features_output (receiver : Nat) (packets : List Payload) (now : Time)
    (w w1 : World) (h : ReceivePacket receiver packets now w = Except.ok w1) :
    w1.features_output = w.features_output := by
  unfold ReceivePacket at h
  induction packets generalizing w with
  | nil =>
    cases h
    rfl
  | cons s rest ih =>
    rw [List.foldlM_cons] at h
    cases hs : receiveOne receiver now w s with
    | error e => rw [hs] at h; cases h
    | ok w2 =>
      rw [hs] at h
      exact (ih w2 h).trans (receiveOne_features_output receiver now w w2 s hs)

theorem detectors_features_output (cfg : Config) (mob : Mobility) (dist : Nat → Nat → ℚ)
    (now : Time) (w : World) :
    (UpdateTrustScores cfg mob now w).features_output = w.features_output ∧
      (RunMLDetection cfg mob now w).features_output = w.features_output ∧
      (UpdateRuleBasedDetection cfg now w).features_output = w.features_output ∧
      (RunHybridDetection cfg mob now w).features_output = w.features_output ∧
      (LogNeighbors cfg dist now w).features_output = w.features_output := by
  refine ⟨?_, ?_, ?_, ?_, ?_⟩
  · exact foldl_preserves (fun w1 : World => w1.features_output = w.features_output)
      (updateTrustStep cfg mob now) (fun _ _ h => h) _ _ rfl
  · refine foldl_preserves (fun w1 : World => w1.features_output = w.features_output)
      (mlStep mob now) (fun a b h => ?_) _ _ rfl
    obtain ⟨c, -, hc⟩ := detectAnomaly_snd_eq b (mob.position b) (mob.velocity b) a
    unfold mlStep
    simp only []
    split_ifs <;> rw [hc] <;> exact h
  · refine foldl_preserves (fun w1 : World => w1.features_output = w.features_output)
      (ruleStep now) (fun a b h => ?_) _ _ rfl
    have hc := checkRuleBased_snd_eq b now a
    unfold ruleStep
    simp only []
    split_ifs <;> rw [hc] <;> exact h
  · refine foldl_preserves (fun w1 : World => w1.features_output = w.features_output)
      (hybridStep mob now) (fun a b h => ?_) _ _ rfl
    obtain ⟨c, -, hd⟩ := detectAnomaly_snd_eq b (mob.position b) (mob.velocity b) a
    have hc := checkRuleBased_snd_eq b now
      (detectAnomaly b (mob.position b) (mob.velocity b) a).2
    unfold hybridStep
    simp only []
    split_ifs <;> rw [hc, hd] <;> exact h
  · refine foldl_preserves (fun w1 : World => w1.features_output = w.features_output)
      (neighborStep cfg dist now) (fun a b h => ?_) _ _ rfl
    unfold neighborStep
    simp only []
    split <;> exact h

theorem inject_features_output (cfg : Config) (a : Nat) (now : Time) (w : World) :
    ∀ w1 ∈ [InjectDdosAttack cfg a now w, InjectSybilAttack cfg a now w,
        InjectReplayAttack cfg a now w, InjectJammerNode cfg a now w,
        InjectMsgFalsification cfg a now w],
      w1.features_output = w.features_output := by
  intro w1 h
  simp only [List.mem_cons, List.mem_singleton, List.not_mem_nil, or_false] at h
  rcases h with h | h | h | h | h <;> subst h
  · unfold InjectDdosAttack; split_ifs <;> rfl
  · unfold InjectSybilAttack; split_ifs <;> rfl
  · unfold InjectReplayAttack; split_ifs <;> rfl
  · unfold InjectJammerNode; split_ifs <;> rfl
  · unfold InjectMsgFalsification; split_ifs <;> rfl

theorem exec_features_frame (fmt : ℚ → List Char) (cfg : Config) (op : Op) (now : Time)
    (w w1 : World) (h : exec fmt cfg op now w = some w1) (hop : ticksOf [(op, now)] = []) :
    w1.features_output = w.features_output ∧
      ∀ j, (w1.nodeFeatures j).length = (w.nodeFeatures j).length := by
  cases op with
  | sendBsm i pos vel => simp [ticksOf] at hop
  | receivePacket receiver packets =>
    simp only [exec] at h
    split at h
    · rename_i w2 hr
      cases h
      refine ⟨ReceivePacket_features_output receiver packets now w w1 hr, fun j => ?_⟩
      rw [(ReceivePacket_frame2 receiver packets now w w1 hr).1]
    · cases h
  | updateTrustScores mob =>
    simp only [exec, Option.some.injEq] at h
    subst h
    refine ⟨(detectors_features_output cfg mob (fun _ _ => 0) now w).1, fun j => ?_⟩
    rw [(UpdateTrustScores_frame2 cfg mob now w).1]
  | runMLDetection mob =>
    simp only [exec, Option.some.injEq] at h
    subst h
    refine ⟨(detectors_features_output cfg mob (fun _ _ => 0) now w).2.1, fun j => ?_⟩
    rw [(RunMLDetection_frame2 cfg mob now w).1]
  | updateRuleBasedDetection =>
    simp only [exec, Option.some.injEq] at h
    subst h
    refine ⟨(detectors_features_output cfg ⟨fun _ => ⟨0, 0, 0⟩, fun _ => ⟨0, 0, 0⟩⟩
      (fun _ _ => 0) now w).2.2.1, fun j => ?_⟩
    rw [(UpdateRuleBasedDetection_frame2 cfg now w).1]
  | runHybridDetection mob =>
    simp only [exec, Option.some.injEq] at h
    subst h
    refine ⟨(detectors_features_output cfg mob (fun _ _ => 0) now w).2.2.2.1, fun j => ?_⟩
    rw [(RunHybridDetection_frame2 cfg mob now w).1]
  | logNeighbors dist =>
    simp only [exec, Option.some.injEq] at h
    subst h
    refine ⟨(detectors_features_output cfg ⟨fun _ => ⟨0, 0, 0⟩, fun _ => ⟨0, 0, 0⟩⟩
      dist now w).2.2.2.2, fun j => ?_⟩
    have hLN : (LogNeighbors cfg dist now w).nodeFeatures j =
        if j < cfg.g_numVehicles then
          setTopology (w.nodeFeatures j) (neighborScan cfg dist j).1 (neighborScan cfg dist j).2
        else w.nodeFeatures j := (LogNeighbors_fold cfg dist now w cfg.g_numVehicles).1 j
    rw [hLN]
    split_ifs
    · exact (setTopology_props _ _ _).1
    · rfl
  | injectDdosAttack =>
    simp only [exec, Option.some.injEq] at h
    subst h
    refine ⟨inject_features_output cfg 5 now w _ (by simp), fun j => ?_⟩
    rw [(inject_frame2 cfg 5 now w (InjectDdosAttack cfg 5 now w) (by simp)).1]
  | injectSybilAttack =>
    simp only [exec, Option.some.injEq] at h
    subst h
    refine ⟨inject_features_output cfg 10 now w _ (by simp), fun j => ?_⟩
    rw [(inject_frame2 cfg 10 now w (InjectSybilAttack cfg 10 now w) (by simp)).1]
  | injectReplayAttack =>
    simp only [exec, Option.some.injEq] at h
    subst h
    refine ⟨inject_features_output cfg 15 now w _ (by simp), fun j => ?_⟩
    rw [(inject_frame2 cfg 15 now w (InjectReplayAttack cfg 15 now w) (by simp)).1]
  | injectJammerNode =>
    simp only [exec, Option.some.injEq] at h
    subst h
    refine ⟨inject_features_output cfg 25 now w _ (by simp), fun j => ?_⟩
    rw [(inject_frame2 cfg 25 now w (InjectJammerNode cfg 25 now w) (by simp)).1]
  | injectMsgFalsification =>
    simp only [exec, Option.some.injEq] at h
    subst h
    refine ⟨inject_features_output cfg 20 now w _ (by simp), fun j => ?_⟩
    rw [(inject_frame2 cfg 20 now w (InjectMsgFalsification cfg 20 now w) (by simp)).1]

theorem exec_features (fmt : ℚ → List Char) (cfg : Config) (op : Op) (now : Time)
    (w w1 : World) (h : exec fmt cfg op now w = some w1) (j : Nat) :
    (w1.nodeFeatures j = [] ↔
        (w.nodeFeatures j = [] ∧ j ∉ (ticksOf [(op, now)]).map Prod.fst)) ∧
      (w1.features_output.filter (fun r => decide (r.nodeId = j))).length =
        (w.features_output.filter (fun r => decide (r.nodeId = j))).length +
          (if w.nodeFeatures j = [] ∧ j ∈ (ticksOf [(op, now)]).map Prod.fst then 1 else 0) := by
  by_cases hop : ticksOf [(op, now)] = []
  · obtain ⟨f1, f2⟩ := exec_features_frame fmt cfg op now w w1 h hop
    rw [hop, f1]
    refine ⟨?_, by simp⟩
    have := f2 j
    constructor
    · intro h1
      rw [h1] at this
      exact ⟨List.length_eq_zero.1 this.symm, by simp⟩
    · intro h1
      rw [h1.1] at this
      exact List.length_eq_zero.1 this
  · cases op with
    | sendBsm i pos vel =>
      simp only [exec, Option.some.injEq] at h
      subst h
      have hn := (SendBsm_windows fmt (appOf cfg i) pos vel now w).2.2.1
      have hf := SendBsm_features_output fmt (appOf cfg i) pos vel now w
      rw [appOf_nodeId] at hn hf
      rw [hn, hf]
      simp only [ticksOf, List.map_cons, List.map_nil, List.mem_singleton]
      by_cases hj : j = i
      · subst hj
        rw [Function.update_same]
        refine ⟨⟨fun h1 => absurd h1 (pushBounded_ne_nil 100 _ _ (by norm_num)),
          fun h1 => absurd rfl h1.2⟩, ?_⟩
        by_cases hnil : w.nodeFeatures j = []
        · rw [if_pos hnil, if_pos ⟨hnil, rfl⟩, List.filter_append, List.length_append]
          simp
        · rw [if_neg hnil, if_neg (fun hc => hnil hc.1)]
          rfl
      · rw [Function.update_noteq hj]
        refine ⟨⟨fun h1 => ⟨h1, hj⟩, fun h1 => h1.1⟩, ?_⟩
        rw [if_neg (show ¬ (w.nodeFeatures j = [] ∧ j = i) from fun hc => hj hc.2), add_zero]
        split_ifs
        · rw [List.filter_append, List.length_append]
          simp [Ne.symm hj]
        · rfl
    | _ => exact absurd (by simp [ticksOf]) hop

theorem ticksOf_cons (e : Op × Time) (rest : List (Op × Time)) :
    ticksOf (e :: rest) = ticksOf [e] ++ ticksOf rest := by
  obtain ⟨op, now⟩ := e
  cases op <;> simp [ticksOf]

theorem run_features (fmt : ℚ → List Char) (cfg : Config) (j : Nat)
    (trace : List (Op × Time)) :
    ∀ (w w1 : World) (pre : List Nat),
      (w.nodeFeatures j = [] ↔ j ∉ pre) →
      (w.features_output.filter (fun r => decide (r.nodeId = j))).length =
        (if j ∈ pre then 1 else 0) →
      run fmt cfg trace w = some w1 →
      (w1.nodeFeatures j = [] ↔ j ∉ pre ++ (ticksOf trace).map Prod.fst) ∧
        (w1.features_output.filter (fun r => decide (r.nodeId = j))).length =
          (if j ∈ pre ++ (ticksOf trace).map Prod.fst then 1 else 0) := by
  induction trace with
  | nil =>
    intro w w1 pre h1 h2 h
    simp only [run, Option.some.injEq] at h
    subst h
    simpa [ticksOf] using ⟨h1, h2⟩
  | cons e rest ih =>
    intro w w1 pre h1 h2 h
    simp only [run] at h
    split at h
    · rename_i w2 he
      obtain ⟨s1, s2⟩ := exec_features fmt cfg e.1 e.2 w w2 he j
      rw [show ((e.1, e.2) : Op × Time) = e from rfl] at s1 s2
      rw [ticksOf_cons, List.map_append, ← List.append_assoc]
      refine ih w2 w1 (pre ++ (ticksOf [e]).map Prod.fst) ?_ ?_ h
      · rw [s1, h1, List.mem_append, not_or]
      · rw [s2, h2]
        by_cases hp : j ∈ pre
        · have hn : ¬ (w.nodeFeatures j = []) := fun hc => (h1.1 hc) hp
          simp [hp, hn]
        · have hn : w.nodeFeatures j = [] := h1.2 hp
          by_cases hq : j ∈ (ticksOf [e]).map Prod.fst
          · simp only [hp, hq, hn, List.mem_append, and_self, if_true, if_false, or_true,
              zero_add]
          · simp only [hp, hq, hn, List.mem_append, and_false, if_false, or_self, add_zero]
    · cases h

theorem Binary64.pow2_eq_zpow (e : Int) : Binary64.pow2 e = (2 : ℚ) ^ e := by
  unfold Binary64.pow2
  split_ifs with h
  · obtain ⟨n, rfl⟩ := Int.eq_ofNat_of_zero_le h
    simp
  · have hn : 0 ≤ -e := by omega
    obtain ⟨n, hn1⟩ := Int.eq_ofNat_of_zero_le hn
    have he : e = -(n : Int) := by omega
    subst he
    simp

theorem Binary64.pow2_pos (e : Int) : 0 < Binary64.pow2 e := by
  rw [Binary64.pow2_eq_zpow]
  positivity

theorem Binary64.log2Aux_spec (fuel : Nat) :
    ∀ n, n ≤ fuel → 1 ≤ n →
      2 ^ Binary64.log2Aux fuel n ≤ n ∧ n < 2 ^ (Binary64.log2Aux fuel n + 1) := by
  induction fuel with
  | zero => intro n h1 h2; omega
  | succ fuel ih =>
    intro n h1 h2
    unfold Binary64.log2Aux
    split_ifs with h
    · have : n = 1 := by omega
      subst this
      simp
    · obtain ⟨i1, i2⟩ := ih (n / 2) (by omega) (by omega)
      rw [pow_succ, pow_succ]
      rw [pow_succ] at i2
      constructor <;> omega

theorem Binary64.ilog2_spec (n : Nat) (h : 1 ≤ n) :
    2 ^ Binary64.ilog2 n ≤ n ∧ n < 2 ^ (Binary64.ilog2 n + 1) :=
  Binary64.log2Aux_spec n n le_rfl h

theorem Binary64.pow2_exponent_le (q : ℚ) (hq : 0 < q) :
    Binary64.pow2 (Binary64.exponent q) ≤ q := by
  unfold Binary64.exponent
  simp only []
  split_ifs with h
  · rwa [abs_of_pos hq] at h
  · have hnum : 0 < q.num := Rat.num_pos.2 hq
    have hden : 1 ≤ q.den := q.den_pos
    have hna : 1 ≤ q.num.natAbs := by omega
    obtain ⟨a1, -⟩ := Binary64.ilog2_spec q.num.natAbs hna
    obtain ⟨-, b2⟩ := Binary64.ilog2_spec q.den hden
    rw [Binary64.pow2_eq_zpow]
    have hq2 : q = (q.num.natAbs : ℚ) / (q.den : ℚ) := by
      have h1 : ((q.num.natAbs : Int) : ℚ) = (q.num : ℚ) := by
        rw [Int.natAbs_of_nonneg hnum.le]
      have h2 : ((q.num.natAbs : ℕ) : ℚ) = ((q.num.natAbs : Int) : ℚ) :=
        (Int.cast_natCast _).symm
      rw [h2, h1]
      exact (Rat.num_div_den q).symm
    have e1 : ((2 : ℚ) ^ (Binary64.ilog2 q.num.natAbs)) ≤ (q.num.natAbs : ℚ) := by
      exact_mod_cast a1
    have e2 : (q.den : ℚ) ≤ (2 : ℚ) ^ (Binary64.ilog2 q.den + 1) := by
      exact_mod_cast b2.le
    have hdpos : (0 : ℚ) < (q.den : ℚ) := by exact_mod_cast hden
    have key : (2 : ℚ) ^ ((Binary64.ilog2 q.num.natAbs : Int) - (Binary64.ilog2 q.den : Int) - 1)
        = (2 : ℚ) ^ (Binary64.ilog2 q.num.natAbs) / (2 : ℚ) ^ (Binary64.ilog2 q.den + 1) := by
      rw [show ((Binary64.ilog2 q.num.natAbs : Int) - (Binary64.ilog2 q.den : Int) - 1) =
        (Binary64.ilog2 q.num.natAbs : Int) - ((Binary64.ilog2 q.den + 1 : ℕ) : Int) by
          push_cast; ring]
      rw [zpow_sub₀ (by norm_num : (2 : ℚ) ≠ 0), zpow_natCast, zpow_natCast]
    rw [key]
    conv_rhs => rw [hq2]
    exact div_le_div₀ (by positivity) e1 hdpos e2

theorem Binary64.roundHalfEven_ge (r : ℚ) (m : Int) (h : (m : ℚ) ≤ r) :
    m ≤ Binary64.roundHalfEven r := by
  have hf : m ≤ ⌊r⌋ := Int.le_floor.2 h
  unfold Binary64.roundHalfEven
  simp only []
  split_ifs <;> omega

theorem Binary64.toDouble_ge (q : ℚ) (n : Nat) (hn : n ≤ 2 ^ 53) (h : (n : ℚ) / 2 ≤ q) :
    (n : ℚ) / 2 ≤ Binary64.toDouble q := by
  unfold Binary64.toDouble
  split_ifs with hq0
  · rw [hq0] at h
    exact h
  · have hn0 : (0 : ℚ) ≤ (n : ℚ) / 2 := by positivity
    have hq : 0 < q := lt_of_le_of_ne (le_trans hn0 h) (Ne.symm hq0)
    have hu := Binary64.pow2_pos (Binary64.exponent q - 52)
    have hexp := Binary64.pow2_exponent_le q hq
    rw [Binary64.pow2_eq_zpow] at hexp
    rw [Binary64.pow2_eq_zpow] at hu ⊢
    by_cases he : Binary64.exponent q ≤ 51
    · -- the grid value is a multiple of the unit in the last place
      obtain ⟨k, hk⟩ := Int.eq_ofNat_of_zero_le (show 0 ≤ 51 - Binary64.exponent q by omega)
      have hm : (((n * 2 ^ k : ℕ) : Int) : ℚ) = (n : ℚ) / 2 / (2 : ℚ) ^ (Binary64.exponent q - 52) := by
        have hexp2 : Binary64.exponent q - 52 = -1 - (k : Int) := by omega
        rw [hexp2, zpow_sub₀ (by norm_num : (2 : ℚ) ≠ 0), zpow_natCast]
        push_cast
        field_simp
        ring
      have hle : (((n * 2 ^ k : ℕ) : Int) : ℚ) ≤ q / (2 : ℚ) ^ (Binary64.exponent q - 52) := by
        rw [hm]
        exact div_le_div_of_nonneg_right h hu.le
      have hr := Binary64.roundHalfEven_ge _ _ hle
      have hr2 : (((n * 2 ^ k : ℕ) : Int) : ℚ) ≤
          (Binary64.roundHalfEven (q / (2 : ℚ) ^ (Binary64.exponent q - 52)) : ℚ) := by
        exact_mod_cast hr
      calc (n : ℚ) / 2 = (((n * 2 ^ k : ℕ) : Int) : ℚ) * (2 : ℚ) ^ (Binary64.exponent q - 52) := by
            rw [hm]; field_simp; ring
        _ ≤ _ := mul_le_mul_of_nonneg_right hr2 hu.le
    · -- the value is at least 2^52, which is above every grid value considered
      have he52 : (52 : Int) ≤ Binary64.exponent q := by omega
      have hm : (((2 ^ 52 : ℕ) : Int) : ℚ) * (2 : ℚ) ^ (Binary64.exponent q - 52) =
          (2 : ℚ) ^ (Binary64.exponent q) := by
        have c52 : (((2 ^ 52 : ℕ) : Int) : ℚ) = (2 : ℚ) ^ (52 : Int) := by norm_num
        rw [c52, ← zpow_add₀ (by norm_num : (2 : ℚ) ≠ 0)]
        congr 1
        ring
      have hle : (((2 ^ 52 : ℕ) : Int) : ℚ) ≤ q / (2 : ℚ) ^ (Binary64.exponent q - 52) := by
        rw [le_div_iff₀ hu, hm]
        exact hexp
      have hr := Binary64.roundHalfEven_ge _ _ hle
      have hr2 : (((2 ^ 52 : ℕ) : Int) : ℚ) ≤
          (Binary64.roundHalfEven (q / (2 : ℚ) ^ (Binary64.exponent q - 52)) : ℚ) := by
        exact_mod_cast hr
      have hbig : (2 : ℚ) ^ (52 : Int) ≤ (2 : ℚ) ^ (Binary64.exponent q) :=
        zpow_le_zpow_right₀ (by norm_num) he52
      have hn2 : (n : ℚ) / 2 ≤ (2 : ℚ) ^ (52 : Int) := by
        have hn1 : n ≤ 9007199254740992 := by simpa using hn
        have hn2 : (n : ℚ) ≤ 9007199254740992 := by exact_mod_cast hn1
        rw [show (2 : ℚ) ^ (52 : Int) = 4503599627370496 by norm_num]
        linarith
      calc (n : ℚ) / 2 ≤ (2 : ℚ) ^ (Binary64.exponent q) := le_trans hn2 hbig
        _ = (((2 ^ 52 : ℕ) : Int) : ℚ) * (2 : ℚ) ^ (Binary64.exponent q - 52) := hm.symm
        _ ≤ _ := mul_le_mul_of_nonneg_right hr2 hu.le

theorem Binary64.instantTrust_mem_double (cfg : Config) (nodeId : Nat) (vel : Vector) :
    Binary64.instantTrust cfg nodeId vel = 1 ∨
      Binary64.instantTrust cfg nodeId vel = Binary64.toDouble (9 / 10) ∨
      Binary64.instantTrust cfg nodeId vel = Binary64.toDouble (7 / 10) ∨
      Binary64.instantTrust cfg nodeId vel = Binary64.toDouble (3 / 5) := by
  have h7 : Binary64.toDouble (1 - Binary64.toDouble (3 / 10)) = Binary64.toDouble (7 / 10) := by
    decide!
  have h9 : Binary64.toDouble (1 - Binary64.toDouble (1 / 10)) = Binary64.toDouble (9 / 10) := by
    decide!
  have h6 : Binary64.toDouble (Binary64.toDouble (1 - Binary64.toDouble (3 / 10)) -
      Binary64.toDouble (1 / 10)) = Binary64.toDouble (3 / 5) := by
    decide!
  unfold Binary64.instantTrust
  simp only []
  split_ifs
  · exact Or.inr (Or.inr (Or.inr h6))
  · exact Or.inr (Or.inl h9)
  · exact Or.inr (Or.inr (Or.inl h7))
  · exact Or.inl rfl
  · exact Or.inl rfl

theorem TrustFloor_of_eq (c : ℚ) (w w1 : World) (h : TrustFloor c w)
    (h1 : w1.trustHistory = w.trustHistory) (h2 : w1.nodeTrust = w.nodeTrust)
    (h3 : w1.trust_output = w.trust_output) : TrustFloor c w1 := by
  unfold TrustFloor
  rw [h1, h2, h3]
  exact h

theorem TrustFloor_init (c : ℚ) : TrustFloor c World.init := by
  refine ⟨?_, ?_, ?_⟩
  · intro id
    simp [World.init]
  · intro id
    simp [World.init]
  · intro row hrow
    simp [World.init] at hrow

theorem TrustFloor_update (c : ℚ) (hc : 1 / 2 ≤ c) (w w1 : World) (i : Nat) (trust m t : ℚ)
    (hinv : TrustFloor c w) (ht : c ≤ trust) (hm : c ≤ m)
    (h1 : w1.trustHistory =
      Function.update w.trustHistory i (pushBounded 100 (w.trustHistory i) trust))
    (h2 : w1.nodeTrust = Function.update w.nodeTrust i m)
    (h3 : w1.trust_output =
      w.trust_output ++ [TrustRow.mk t i m (if m < 1 / 2 then 1 else 0)]) :
    TrustFloor c w1 := by
  obtain ⟨a1, a2, a3⟩ := hinv
  unfold TrustFloor
  rw [h1, h2, h3]
  refine ⟨?_, ?_, ?_⟩
  · intro id
    by_cases hid : id = i
    · subst hid
      rw [Function.update_same]
      refine ⟨pushBounded_length_le 100 _ _ (a1 id).1, ?_⟩
      intro x hx
      rcases mem_pushBounded _ _ _ _ hx with h | h
      · exact (a1 id).2 x h
      · rw [h]; exact ht
    · rw [Function.update_noteq hid]
      exact a1 id
  · intro id
    by_cases hid : id = i
    · subst hid
      rw [Function.update_same]
      exact Or.inr hm
    · rw [Function.update_noteq hid]
      exact a2 id
  · intro row hrow
    rw [List.mem_append, List.mem_singleton] at hrow
    rcases hrow with h | h
    · exact a3 row h
    · rw [h]
      refine ⟨hm, ?_⟩
      show (if m < 1 / 2 then 1 else 0) = 0
      rw [if_neg (not_lt.2 (le_trans hc hm))]

theorem exec_trust_frame (fmt : ℚ → List Char) (cfg : Config) (op : Op) (now : Time)
    (w w1 : World) (h : exec fmt cfg op now w = some w1)
    (hop : ∀ mob, op ≠ Op.updateTrustScores mob) :
    w1.trustHistory = w.trustHistory ∧ w1.nodeTrust = w.nodeTrust ∧
      w1.trust_output = w.trust_output := by
  cases op with
  | sendBsm i pos vel =>
    simp only [exec, Option.some.injEq] at h
    subst h
    obtain ⟨f1, f2, f3, -⟩ := SendBsm_frame fmt (appOf cfg i) pos vel now w
    exact ⟨f1, f2, f3⟩
  | receivePacket receiver packets =>
    simp only [exec] at h
    split at h
    · rename_i w2 hr
      cases h
      obtain ⟨-, f1, f2, f3, -⟩ := ReceivePacket_frame receiver packets now w w1 hr
      exact ⟨f1, f2, f3⟩
    · cases h
  | updateTrustScores mob => exact absurd rfl (hop mob)
  | runMLDetection mob =>
    simp only [exec, Option.some.injEq] at h
    subst h
    obtain ⟨-, f1, f2, f3, -⟩ := RunMLDetection_frame cfg mob now w
    exact ⟨f1, f2, f3⟩
  | updateRuleBasedDetection =>
    simp only [exec, Option.some.injEq] at h
    subst h
    obtain ⟨-, f1, f2, f3, -⟩ := UpdateRuleBasedDetection_frame cfg now w
    exact ⟨f1, f2, f3⟩
  | runHybridDetection mob =>
    simp only [exec, Option.some.injEq] at h
    subst h
    obtain ⟨-, f1, f2, f3⟩ := RunHybridDetection_frame cfg mob now w
    exact ⟨f1, f2, f3⟩
  | logNeighbors dist =>
    simp only [exec, Option.some.injEq] at h
    subst h
    obtain ⟨-, f1, f2, f3, -⟩ := LogNeighbors_frame cfg dist now w
    exact ⟨f1, f2, f3⟩
  | injectDdosAttack =>
    simp only [exec, Option.some.injEq] at h
    subst h
    obtain ⟨-, f1, f2, f3, -⟩ := inject_frame cfg 5 now w (InjectDdosAttack cfg 5 now w) (by simp)
    exact ⟨f1, f2, f3⟩
  | injectSybilAttack =>
    simp only [exec, Option.some.injEq] at h
    subst h
    obtain ⟨-, f1, f2, f3, -⟩ :=
      inject_frame cfg 10 now w (InjectSybilAttack cfg 10 now w) (by simp)
    exact ⟨f1, f2, f3⟩
  | injectReplayAttack =>
    simp only [exec, Option.some.injEq] at h
    subst h
    obtain ⟨-, f1, f2, f3, -⟩ :=
      inject_frame cfg 15 now w (InjectReplayAttack cfg 15 now w) (by simp)
    exact ⟨f1, f2, f3⟩
  | injectJammerNode =>
    simp only [exec, Option.some.injEq] at h
    subst h
    obtain ⟨-, f1, f2, f3, -⟩ :=
      inject_frame cfg 25 now w (InjectJammerNode cfg 25 now w) (by simp)
    exact ⟨f1, f2, f3⟩
  | injectMsgFalsification =>
    simp only [exec, Option.some.injEq] at h
    subst h
    obtain ⟨-, f1, f2, f3, -⟩ :=
      inject_frame cfg 20 now w (InjectMsgFalsification cfg 20 now w) (by simp)
    exact ⟨f1, f2, f3⟩

theorem sum_ge_floor (c : ℚ) (l : List ℚ) (h : ∀ x ∈ l, c ≤ x) : c * l.length ≤ l.sum := by
  induction l with
  | nil => simp
  | cons a l ih =>
    have ha := h a (List.mem_cons_self a l)
    have hl := ih (fun x hx => h x (List.mem_cons_of_mem a hx))
    simp only [List.sum_cons, List.length_cons, Nat.cast_add, Nat.cast_one]
    linarith

theorem avgTrust_ge_floor (c trust : ℚ) (l : List ℚ) (ht : c ≤ trust) (h : ∀ x ∈ l, c ≤ x) :
    c ≤ avgTrust trust l := by
  unfold avgTrust
  split_ifs with hne
  · have hpos : (0 : ℚ) < l.length := by
      have : 0 < l.length := List.length_pos.2 hne
      exact_mod_cast this
    rw [le_div_iff₀ hpos]
    exact sum_ge_floor c l h
  · exact ht

theorem instantTrust_ge_floor (cfg : Config) (nodeId : Nat) (vel : Vector) :
    3 / 5 ≤ instantTrust cfg nodeId vel := by
  rcases instantTrust_mem cfg nodeId vel with h | h | h | h <;> rw [h] <;> norm_num

theorem calculateTrustScore_ge_floor (cfg : Config) (id : Nat) (pos vel : Vector) (t : Time)
    (w : World) (h : ∀ x ∈ w.trustHistory id, (3 : ℚ) / 5 ≤ x) :
    3 / 5 ≤ (calculateTrustScore cfg id pos vel t w).1 := by
  unfold calculateTrustScore
  simp only []
  refine avgTrust_ge_floor _ _ _ (instantTrust_ge_floor cfg id vel) ?_
  intro x hx
  rcases mem_pushBounded _ _ _ _ hx with h1 | h1
  · exact h x h1
  · rw [h1]; exact instantTrust_ge_floor cfg id vel

theorem updateTrustStep_floor (cfg : Config) (mob : Mobility) (now : Time) (w : World) (i : Nat)
    (h : TrustFloor (3 / 5) w) : TrustFloor (3 / 5) (updateTrustStep cfg mob now w i) :=
  TrustFloor_update (3 / 5) (by norm_num) w _ i (instantTrust cfg i (mob.velocity i))
    (calculateTrustScore cfg i (mob.position i) (mob.velocity i) now w).1 (GetSeconds now) h
    (instantTrust_ge_floor cfg i (mob.velocity i))
    (calculateTrustScore_ge_floor cfg i _ _ now w (h.1 i).2) rfl rfl rfl

theorem exec_TrustFloor (fmt : ℚ → List Char) (cfg : Config) (op : Op) (now : Time)
    (w w1 : World) (h : exec fmt cfg op now w = some w1) (hinv : TrustFloor (3 / 5) w) :
    TrustFloor (3 / 5) w1 := by
  by_cases hop : ∀ mob, op ≠ Op.updateTrustScores mob
  · obtain ⟨f1, f2, f3⟩ := exec_trust_frame fmt cfg op now w w1 h hop
    exact TrustFloor_of_eq _ w w1 hinv f1 f2 f3
  · push_neg at hop
    obtain ⟨mob, rfl⟩ := hop
    simp only [exec, Option.some.injEq] at h
    subst h
    exact foldl_preserves (TrustFloor (3 / 5)) (updateTrustStep cfg mob now)
      (fun a b ha => updateTrustStep_floor cfg mob now a b ha) _ _ hinv

theorem Reachable_TrustFloor (fmt : ℚ → List Char) (cfg : Config) (w : World)
    (h : Reachable fmt cfg w) : TrustFloor (3 / 5) w := by
  induction h with
  | init => exact TrustFloor_init _
  | step w w1 op now _ hex ih => exact exec_TrustFloor fmt cfg op now w w1 hex ih

theorem Binary64.detectAnomaly_snd_double (i : Nat) (pos vel : Vector) (w : World) :
    ∃ c : Int, 0 ≤ c ∧ (Binary64.detectAnomaly i pos vel w).2 =
      { w with suspiciousCount := Function.update w.suspiciousCount i (w.suspiciousCount i + c),
               mobilityHistory :=
                 Function.update w.mobilityHistory i [pos.x, pos.y, vel.x, vel.y] } := by
  unfold Binary64.detectAnomaly bumpSuspicious
  simp only []
  split_ifs
  · exact ⟨2, by norm_num, by simp [add_assoc]⟩
  · exact ⟨1, by norm_num, by simp⟩
  · exact ⟨1, by norm_num, by simp⟩
  · exact ⟨1, by norm_num, by simp⟩
  · exact ⟨0, by norm_num, by simp⟩
  · exact ⟨0, by norm_num, by simp⟩

theorem Binary64.detectAnomaly_fst_double (i : Nat) (pos vel : Vector) (w : World) :
    (Binary64.detectAnomaly i pos vel w).1 =
      (decide (Binary64.speed vel > 40) ||
        (decide (4 ≤ (w.mobilityHistory i).length) && decide (Binary64.speed vel > 35))) := by
  unfold Binary64.detectAnomaly
  simp only []
  split_ifs with h1 h2 h3 h2 h3 <;>
    simp_all [bumpSuspicious_mobilityHistory]
  all_goals
    intro h4
    exact absurd (h2 (by intro h; rw [h] at h4; simp at h4)) (by omega)

theorem Binary64.detectAnomaly_frame_double (i : Nat) (pos vel : Vector) (w : World) :
    (Binary64.detectAnomaly i pos vel w).2.replayBuffers = w.replayBuffers ∧
      (Binary64.detectAnomaly i pos vel w).2.trustHistory = w.trustHistory ∧
      (Binary64.detectAnomaly i pos vel w).2.nodeTrust = w.nodeTrust ∧
      (Binary64.detectAnomaly i pos vel w).2.trust_output = w.trust_output ∧
      (Binary64.detectAnomaly i pos vel w).2.packetTimestamps = w.packetTimestamps ∧
      (Binary64.detectAnomaly i pos vel w).2.mitigation_output = w.mitigation_output ∧
      (Binary64.detectAnomaly i pos vel w).2.mobilityHistory =
        Function.update w.mobilityHistory i [pos.x, pos.y, vel.x, vel.y] := by
  obtain ⟨c, -, hc⟩ := Binary64.detectAnomaly_snd_double i pos vel w
  rw [hc]
  exact ⟨rfl, rfl, rfl, rfl, rfl, rfl, rfl⟩

theorem Binary64.mlStep_frame_double (mob : Mobility) (now : Time) (w : World) (i : Nat) :
    (Binary64.mlStep mob now w i).trustHistory = w.trustHistory ∧
      (Binary64.mlStep mob now w i).nodeTrust = w.nodeTrust ∧
      (Binary64.mlStep mob now w i).trust_output = w.trust_output ∧
      (Binary64.mlStep mob now w i).mitigation_output = w.mitigation_output := by
  obtain ⟨-, d2, d3, d4, -, d6, -⟩ :=
    Binary64.detectAnomaly_frame_double i (mob.position i) (mob.velocity i) w
  unfold Binary64.mlStep
  simp only []
  split_ifs <;> exact ⟨d2, d3, d4, d6⟩

theorem Binary64.RunMLDetection_frame_double (cfg : Config) (mob : Mobility) (now : Time)
    (w : World) :
    (Binary64.RunMLDetection cfg mob now w).trustHistory = w.trustHistory ∧
      (Binary64.RunMLDetection cfg mob now w).nodeTrust = w.nodeTrust ∧
      (Binary64.RunMLDetection cfg mob now w).trust_output = w.trust_output ∧
      (Binary64.RunMLDetection cfg mob now w).mitigation_output = w.mitigation_output :=
  foldl_preserves
    (fun w1 : World => w1.trustHistory = w.trustHistory ∧
      w1.nodeTrust = w.nodeTrust ∧ w1.trust_output = w.trust_output ∧
      w1.mitigation_output = w.mitigation_output)
    (Binary64.mlStep mob now)
    (fun a b h => by
      obtain ⟨h2, h3, h4, h5⟩ := h
      obtain ⟨s2, s3, s4, s5⟩ := Binary64.mlStep_frame_double mob now a b
      exact ⟨s2.trans h2, s3.trans h3, s4.trans h4, s5.trans h5⟩)
    _ _ ⟨rfl, rfl, rfl, rfl⟩

theorem Binary64.hybridStep_frame_double (mob : Mobility) (now : Time) (w : World) (i : Nat) :
    (Binary64.hybridStep mob now w i).trustHistory = w.trustHistory ∧
      (Binary64.hybridStep mob now w i).nodeTrust = w.nodeTrust ∧
      (Binary64.hybridStep mob now w i).trust_output = w.trust_output := by
  have h := checkRuleBased_snd_eq i now
    (Binary64.detectAnomaly i (mob.position i) (mob.velocity i) w).2
  obtain ⟨-, d2, d3, d4, -, -, -⟩ :=
    Binary64.detectAnomaly_frame_double i (mob.position i) (mob.velocity i) w
  unfold Binary64.hybridStep
  simp only []
  split_ifs <;> rw [h] <;> exact ⟨d2, d3, d4⟩

theorem Binary64.RunHybridDetection_frame_double (cfg : Config) (mob : Mobility) (now : Time)
    (w : World) :
    (Binary64.RunHybridDetection cfg mob now w).trustHistory = w.trustHistory ∧
      (Binary64.RunHybridDetection cfg mob now w).nodeTrust = w.nodeTrust ∧
      (Binary64.RunHybridDetection cfg mob now w).trust_output = w.trust_output :=
  foldl_preserves
    (fun w1 : World => w1.trustHistory = w.trustHistory ∧
      w1.nodeTrust = w.nodeTrust ∧ w1.trust_output = w.trust_output)
    (Binary64.hybridStep mob now)
    (fun a b h => by
      obtain ⟨h2, h3, h4⟩ := h
      obtain ⟨s2, s3, s4⟩ := Binary64.hybridStep_frame_double mob now a b
      exact ⟨s2.trans h2, s3.trans h3, s4.trans h4⟩)
    _ _ ⟨rfl, rfl, rfl⟩

theorem Binary64.exec_eq (fmt : ℚ → List Char) (cfg : Config) (op : Op) (now : Time)
    (w : World) (h1 : ∀ mob, op ≠ Op.updateTrustScores mob)
    (h2 : ∀ mob, op ≠ Op.runHybridDetection mob) (h3 : ∀ mob, op ≠ Op.runMLDetection mob) :
    Binary64.exec fmt cfg op now w = Vanet.exec fmt cfg op now w := by
  cases op with
  | updateTrustScores mob => exact absurd rfl (h1 mob)
  | runHybridDetection mob => exact absurd rfl (h2 mob)
  | runMLDetection mob => exact absurd rfl (h3 mob)
  | _ => rfl

theorem Binary64.exec_trust_frame_double (fmt : ℚ → List Char) (cfg : Config) (op : Op) (now : Time)
    (w w1 : World) (h : Binary64.exec fmt cfg op now w = some w1)
    (hop : ∀ mob, op ≠ Op.updateTrustScores mob) :
    w1.trustHistory = w.trustHistory ∧ w1.nodeTrust = w.nodeTrust ∧
      w1.trust_output = w.trust_output := by
  by_cases h2 : ∀ mob, op ≠ Op.runHybridDetection mob
  · by_cases h3 : ∀ mob, op ≠ Op.runMLDetection mob
    · rw [Binary64.exec_eq fmt cfg op now w hop h2 h3] at h
      exact Vanet.exec_trust_frame fmt cfg op now w w1 h hop
    · push_neg at h3
      obtain ⟨mob, rfl⟩ := h3
      simp only [Binary64.exec, Option.some.injEq] at h
      subst h
      obtain ⟨r1, r2, r3, -⟩ := Binary64.RunMLDetection_frame_double cfg mob now w
      exact ⟨r1, r2, r3⟩
  · push_neg at h2
    obtain ⟨mob, rfl⟩ := h2
    simp only [Binary64.exec, Option.some.injEq] at h
    subst h
    exact Binary64.RunHybridDetection_frame_double cfg mob now w

theorem Binary64.run_append (fmt : ℚ → List Char) (cfg : Config) (a b : List (Op × Time)) :
    ∀ w : World, Binary64.run fmt cfg (a ++ b) w =
      (Binary64.run fmt cfg a w).bind (Binary64.run fmt cfg b) := by
  induction a with
  | nil => intro w; rfl
  | cons e rest ih =>
    intro w
    simp only [List.cons_append, Binary64.run]
    cases Binary64.exec fmt cfg e.1 e.2 w with
    | none => rfl
    | some w1 => exact ih w1

theorem Binary64.run_reachable (fmt : ℚ → List Char) (cfg : Config) (trace : List (Op × Time)) :
    ∀ w w1 : World, Binary64.Reachable fmt cfg w → Binary64.run fmt cfg trace w = some w1 →
      Binary64.Reachable fmt cfg w1 := by
  induction trace with
  | nil =>
    intro w w1 hr h
    simp only [Binary64.run, Option.some.injEq] at h
    subst h
    exact hr
  | cons e rest ih =>
    intro w w1 hr h
    simp only [Binary64.run] at h
    split at h
    · rename_i w2 he
      exact ih w2 w1 (Binary64.Reachable.step w w2 e.1 e.2 hr he) h
    · cases h

theorem penaltyTrace_run (k : Nat) :
    Binary64.run sampleFmt floodCfg (penaltyTrace k) World.init = some (penaltyWorld k) := by
  induction k with
  | zero => rfl
  | succ k ih =>
    rw [penaltyTrace, Binary64.run_append, ih]
    rfl

theorem penaltyWorld_reachable (k : Nat) :
    Binary64.Reachable sampleFmt floodCfg (penaltyWorld k) :=
  Binary64.run_reachable sampleFmt floodCfg (penaltyTrace k) World.init (penaltyWorld k)
    Binary64.Reachable.init (penaltyTrace_run k)

theorem Binary64.hybridStep_fields_double (mob : Mobility) (now : Time) (w : World) (i : Nat) :
    (Binary64.hybridStep mob now w i).mitigation_output =
        w.mitigation_output ++ (Binary64.hybridVerdict mob now w i).toList ∧
      (Binary64.hybridStep mob now w i).nodeTrust = w.nodeTrust ∧
      (∀ j, j ≠ i → (Binary64.hybridStep mob now w i).mobilityHistory j = w.mobilityHistory j) ∧
      (∀ j, j ≠ i →
        (Binary64.hybridStep mob now w i).packetTimestamps j = w.packetTimestamps j) := by
  have hv : (checkRuleBased i now
      (Binary64.detectAnomaly i (mob.position i) (mob.velocity i) w).2).1 =
      (checkRuleBased i now w).1 := by
    rw [checkRuleBased_fst, checkRuleBased_fst,
      (Binary64.detectAnomaly_frame_double i (mob.position i) (mob.velocity i) w).2.2.2.2.1]
  have ht : (checkRuleBased i now (Binary64.detectAnomaly i (mob.position i)
      (mob.velocity i) w).2).2.nodeTrust = w.nodeTrust := by
    rw [checkRuleBased_nodeTrust,
      (Binary64.detectAnomaly_frame_double i (mob.position i) (mob.velocity i) w).2.2.1]
  have hm : (checkRuleBased i now (Binary64.detectAnomaly i (mob.position i)
      (mob.velocity i) w).2).2.mitigation_output = w.mitigation_output := by
    rw [checkRuleBased_mitigation_output,
      (Binary64.detectAnomaly_frame_double i (mob.position i) (mob.velocity i) w).2.2.2.2.2.1]
  unfold Binary64.hybridStep Binary64.hybridVerdict
  simp only [hv, ht, Bool.or_eq_true]
  refine ⟨?_, ?_, ?_, ?_⟩
  · split_ifs
    · simp only [hm, Option.toList]
    · simp only [hm, Option.toList, List.append_nil]
  · split_ifs
    · rfl
    · exact ht
  · intro j hj
    have : (checkRuleBased i now (Binary64.detectAnomaly i (mob.position i)
        (mob.velocity i) w).2).2.mobilityHistory j = w.mobilityHistory j := by
      rw [checkRuleBased_mobilityHistory,
        (Binary64.detectAnomaly_frame_double i (mob.position i) (mob.velocity i) w).2.2.2.2.2.2,
        Function.update_noteq hj]
    split_ifs
    · exact this
    · exact this
  · intro j hj
    have : (checkRuleBased i now (Binary64.detectAnomaly i (mob.position i)
        (mob.velocity i) w).2).2.packetTimestamps j = w.packetTimestamps j := by
      rw [checkRuleBased_packetTimestamps, Function.update_noteq hj,
        (Binary64.detectAnomaly_frame_double i (mob.position i) (mob.velocity i) w).2.2.2.2.1]
    split_ifs
    · exact this
    · exact this

theorem Binary64.hybridVerdict_congr_double (mob : Mobility) (now : Time) (w w1 : World) (i : Nat)
    (h1 : w1.nodeTrust = w.nodeTrust) (h2 : w1.mobilityHistory i = w.mobilityHistory i)
    (h3 : w1.packetTimestamps i = w.packetTimestamps i) :
    Binary64.hybridVerdict mob now w1 i = Binary64.hybridVerdict mob now w i := by
  unfold Binary64.hybridVerdict
  simp only [Binary64.detectAnomaly_fst_double, checkRuleBased_fst, h1, h2, h3]

theorem Binary64.hybrid_fold_double (mob : Mobility) (now : Time) (w : World) (n : Nat) :
    ((List.range n).foldl (Binary64.hybridStep mob now) w).mitigation_output =
        w.mitigation_output ++ (List.range n).filterMap (Binary64.hybridVerdict mob now w) ∧
      ((List.range n).foldl (Binary64.hybridStep mob now) w).nodeTrust = w.nodeTrust ∧
      (∀ j, n ≤ j → ((List.range n).foldl (Binary64.hybridStep mob now) w).mobilityHistory j =
        w.mobilityHistory j) ∧
      (∀ j, n ≤ j → ((List.range n).foldl (Binary64.hybridStep mob now) w).packetTimestamps j =
        w.packetTimestamps j) := by
  induction n with
  | zero => simp
  | succ n ih =>
    obtain ⟨ih1, ih2, ih3, ih4⟩ := ih
    rw [List.range_succ, List.foldl_append, List.foldl_cons, List.foldl_nil]
    obtain ⟨s1, s2, s3, s4⟩ := Binary64.hybridStep_fields_double mob now
      ((List.range n).foldl (Binary64.hybridStep mob now) w) n
    refine ⟨?_, ?_, ?_, ?_⟩
    · rw [s1, ih1, Binary64.hybridVerdict_congr_double mob now w _ n ih2 (ih3 n le_rfl) (ih4 n le_rfl),
        List.filterMap_append, List.append_assoc]
      have hsingle : List.filterMap (Binary64.hybridVerdict mob now w) [n] =
          (Binary64.hybridVerdict mob now w n).toList := by
        cases h : Binary64.hybridVerdict mob now w n <;>
          simp [List.filterMap_cons, h, Option.toList]
      rw [hsingle]
    · rw [s2, ih2]
    · intro j hj
      rw [s3 j (by omega), ih3 j (by omega)]
    · intro j hj
      rw [s4 j (by omega), ih4 j (by omega)]

theorem Binary64.hybridVerdict_isHybridOf_double (mob : Mobility) (now : Time) (w : World) (j i : Nat)
    (row : MitigationRow) (h : Binary64.hybridVerdict mob now w j = some row) :
    row.isHybridOf i = true ↔ j = i := by
  unfold Binary64.hybridVerdict at h
  simp only [] at h
  split_ifs at h
  cases h
  simp [MitigationRow.isHybridOf]

theorem Binary64.hybrid_row_iff (cfg : Config) (mob : Mobility) (now : Time) (w : World)
    (i : Nat) :
    (∃ row ∈ (Binary64.RunHybridDetection cfg mob now w).mitigation_output.drop
          w.mitigation_output.length, row.isHybridOf i = true) ↔
      (i < cfg.g_numVehicles ∧
        ((Binary64.detectAnomaly i (mob.position i) (mob.velocity i) w).1 = true ∨
          (checkRuleBased i now w).1 = true) ∧
        w.nodeTrust i < Binary64.toDouble (3 / 5)) := by
  have hf := (Binary64.hybrid_fold_double mob now w cfg.g_numVehicles).1
  unfold Binary64.RunHybridDetection
  rw [hf, List.drop_left]
  constructor
  · rintro ⟨row, hrow, hi⟩
    rw [List.mem_filterMap] at hrow
    obtain ⟨j, hj, hjr⟩ := hrow
    have hji := (Binary64.hybridVerdict_isHybridOf_double mob now w j i row hjr).1 hi
    subst hji
    refine ⟨List.mem_range.1 hj, ?_⟩
    unfold Binary64.hybridVerdict at hjr
    simp only [] at hjr
    split_ifs at hjr with hc
    exact hc
  · rintro ⟨hlt, hc⟩
    refine ⟨MitigationRow.hybrid_detection (GetSeconds now) i
      (Binary64.detectAnomaly i (mob.position i) (mob.velocity i) w).1 (checkRuleBased i now w).1
      (w.nodeTrust i), ?_, by simp [MitigationRow.isHybridOf]⟩
    rw [List.mem_filterMap]
    refine ⟨i, List.mem_range.2 hlt, ?_⟩
    unfold Binary64.hybridVerdict
    simp only []
    rw [if_pos hc]

theorem hybrid_no_row_of_trusted (cfg : Config) (mob : Mobility) (now : Time) (w : World)
    (i : Nat) (h : 3 / 5 ≤ w.nodeTrust i) :
    ∀ row ∈ (RunHybridDetection cfg mob now w).mitigation_output.drop
        w.mitigation_output.length, row.isHybridOf i = false := by
  have hf := (hybrid_fold mob now w cfg.g_numVehicles).1
  unfold RunHybridDetection
  rw [hf, List.drop_left]
  intro row hrow
  rw [List.mem_filterMap] at hrow
  obtain ⟨j, hj, hjr⟩ := hrow
  by_contra hne
  have hi : row.isHybridOf i = true := by simpa using hne
  have hji := (hybridVerdict_isHybridOf mob now w j i row hjr).1 hi
  subst hji
  unfold hybridVerdict at hjr
  simp only [] at hjr
  split_ifs at hjr with hc
  exact absurd hc.2 (not_lt.2 h)

theorem fold_nodeTrust_floor (c : ℚ) (f : World → Nat → World)
    (hstep : ∀ w k, TrustFloor c w →
      TrustFloor c (f w k) ∧ c ≤ (f w k).nodeTrust k ∧
        ∀ j, j ≠ k → (f w k).nodeTrust j = w.nodeTrust j)
    (w : World) (hinv : TrustFloor c w) (i : Nat) (n : Nat) :
    TrustFloor c ((List.range n).foldl f w) ∧
      (i < n → c ≤ ((List.range n).foldl f w).nodeTrust i) ∧
      (n ≤ i → ((List.range n).foldl f w).nodeTrust i = w.nodeTrust i) := by
  induction n with
  | zero => exact ⟨hinv, fun h => absurd h (Nat.not_lt_zero _), fun _ => rfl⟩
  | succ n ih =>
    obtain ⟨i1, i2, i3⟩ := ih
    rw [List.range_succ, List.foldl_append, List.foldl_cons, List.foldl_nil]
    obtain ⟨s1, s2, s3⟩ := hstep ((List.range n).foldl f w) n i1
    refine ⟨s1, ?_, ?_⟩
    · intro hlt
      by_cases hin : i = n
      · subst hin
        exact s2
      · rw [s3 i hin]
        exact i2 (by omega)
    · intro hle
      rw [s3 i (by omega)]
      exact i3 (by omega)

theorem evaluationCount_cons (cfg : Config) (id : Nat) (e : Op × Time)
    (rest : List (Op × Time)) :
    evaluationCount cfg id (e :: rest) =
      evaluationCount cfg id [e] + evaluationCount cfg id rest := by
  obtain ⟨op, now⟩ := e
  cases op <;> simp [evaluationCount]

theorem evaluationCount_single (cfg : Config) (id : Nat) (op : Op) (now : Time) :
    (evaluationCount cfg id [(op, now)] ≠ 0 ↔
      (∃ mob, op = Op.updateTrustScores mob) ∧ id < cfg.g_numVehicles) := by
  cases op <;> simp [evaluationCount]

theorem updateTrustStep_nodeTrust (cfg : Config) (mob : Mobility) (now : Time) (w : World)
    (k : Nat) (h : TrustFloor (3 / 5) w) :
    TrustFloor (3 / 5) (updateTrustStep cfg mob now w k) ∧
      3 / 5 ≤ (updateTrustStep cfg mob now w k).nodeTrust k ∧
      ∀ j, j ≠ k → (updateTrustStep cfg mob now w k).nodeTrust j = w.nodeTrust j := by
  refine ⟨updateTrustStep_floor cfg mob now w k h, ?_, ?_⟩
  · show 3 / 5 ≤ Function.update w.nodeTrust k _ k
    rw [Function.update_same]
    exact calculateTrustScore_ge_floor cfg k _ _ now w (h.1 k).2
  · intro j hj
    show Function.update w.nodeTrust k _ j = _
    rw [Function.update_noteq hj]

theorem exec_nodeTrust_eval (fmt : ℚ → List Char) (cfg : Config) (op : Op) (now : Time)
    (w w1 : World) (h : exec fmt cfg op now w = some w1) (hinv : TrustFloor (3 / 5) w)
    (i : Nat) :
    (evaluationCount cfg i [(op, now)] = 0 → w1.nodeTrust i = w.nodeTrust i) ∧
      (evaluationCount cfg i [(op, now)] ≠ 0 → 3 / 5 ≤ w1.nodeTrust i) := by
  by_cases hop : ∀ mob, op ≠ Op.updateTrustScores mob
  · have hz : evaluationCount cfg i [(op, now)] = 0 := by
      by_contra hne
      obtain ⟨⟨mob, hm⟩, -⟩ := (evaluationCount_single cfg i op now).1 hne
      exact hop mob hm
    obtain ⟨-, f2, -⟩ := exec_trust_frame fmt cfg op now w w1 h hop
    exact ⟨fun _ => by rw [f2], fun hne => absurd hz hne⟩
  · push_neg at hop
    obtain ⟨mob, rfl⟩ := hop
    simp only [exec, Option.some.injEq] at h
    subst h
    obtain ⟨-, k2, k3⟩ := fold_nodeTrust_floor (3 / 5) (updateTrustStep cfg mob now)
      (fun a k ha => updateTrustStep_nodeTrust cfg mob now a k ha) w hinv i cfg.g_numVehicles
    constructor
    · intro hz
      have hge : cfg.g_numVehicles ≤ i := by
        by_contra hlt
        exact absurd hz ((evaluationCount_single cfg i _ now).2 ⟨⟨mob, rfl⟩, by omega⟩)
      exact k3 hge
    · intro hne
      exact k2 ((evaluationCount_single cfg i _ now).1 hne).2

theorem run_nodeTrust_eval (fmt : ℚ → List Char) (cfg : Config) (i : Nat)
    (trace : List (Op × Time)) :
    ∀ w w1 : World, TrustFloor (3 / 5) w → run fmt cfg trace w = some w1 →
      (evaluationCount cfg i trace = 0 → w1.nodeTrust i = w.nodeTrust i) ∧
        (evaluationCount cfg i trace ≠ 0 → 3 / 5 ≤ w1.nodeTrust i) := by
  induction trace with
  | nil =>
    intro w w1 hinv h
    simp only [run, Option.some.injEq] at h
    subst h
    exact ⟨fun _ => rfl, fun hne => absurd rfl hne⟩
  | cons e rest ih =>
    intro w w1 hinv h
    simp only [run] at h
    split at h
    · rename_i w2 he
      obtain ⟨s1, s2⟩ := exec_nodeTrust_eval fmt cfg e.1 e.2 w w2 he hinv i
      rw [show ((e.1, e.2) : Op × Time) = e from rfl] at s1 s2
      obtain ⟨r1, r2⟩ := ih w2 w1 (exec_TrustFloor fmt cfg e.1 e.2 w w2 he hinv) h
      rw [evaluationCount_cons]
      constructor
      · intro hz
        rw [r1 (by omega), s1 (by omega)]
      · intro hne
        by_cases hr : evaluationCount cfg i rest = 0
        · rw [r1 hr]
          exact s2 (by omega)
        · exact r2 hr
    · cases h

theorem Binary64.roundHalfEven_near (r : ℚ) :
    |(Binary64.roundHalfEven r : ℚ) - r| ≤ 1 / 2 := by
  have h1 : ((⌊r⌋ : Int) : ℚ) ≤ r := Int.floor_le r
  have h2 : r < ((⌊r⌋ : Int) : ℚ) + 1 := Int.lt_floor_add_one r
  unfold Binary64.roundHalfEven
  simp only []
  rw [abs_le]
  split_ifs with a b c
  · constructor <;> linarith
  · push_cast
    constructor <;> linarith
  · have hf : r - ((⌊r⌋ : Int) : ℚ) = 1 / 2 := le_antisymm (not_lt.1 b) (not_lt.1 a)
    constructor <;> linarith
  · have hf : r - ((⌊r⌋ : Int) : ℚ) = 1 / 2 := le_antisymm (not_lt.1 b) (not_lt.1 a)
    push_cast
    constructor <;> linarith

theorem Binary64.toDouble_near (q : ℚ) (hq : 0 ≤ q) :
    |Binary64.toDouble q - q| ≤ q / 9007199254740992 := by
  unfold Binary64.toDouble
  split_ifs with h0
  · rw [h0]
    norm_num
  · have hpos : 0 < q := lt_of_le_of_ne hq (Ne.symm h0)
    have hu := Binary64.pow2_pos (Binary64.exponent q - 52)
    have hexp := Binary64.pow2_exponent_le q hpos
    have hr := Binary64.roundHalfEven_near (q / Binary64.pow2 (Binary64.exponent q - 52))
    have hmul : q / Binary64.pow2 (Binary64.exponent q - 52) *
        Binary64.pow2 (Binary64.exponent q - 52) = q := div_mul_cancel₀ q hu.ne'
    have hu2 : Binary64.pow2 (Binary64.exponent q - 52) =
        Binary64.pow2 (Binary64.exponent q) / 4503599627370496 := by
      rw [Binary64.pow2_eq_zpow, Binary64.pow2_eq_zpow, zpow_sub₀ (by norm_num : (2 : ℚ) ≠ 0)]
      norm_num
    have key : (Binary64.roundHalfEven (q / Binary64.pow2 (Binary64.exponent q - 52)) : ℚ) *
        Binary64.pow2 (Binary64.exponent q - 52) - q =
        ((Binary64.roundHalfEven (q / Binary64.pow2 (Binary64.exponent q - 52)) : ℚ) -
          q / Binary64.pow2 (Binary64.exponent q - 52)) *
          Binary64.pow2 (Binary64.exponent q - 52) := by
      rw [sub_mul, hmul]
    rw [key, abs_mul, abs_of_pos hu]
    calc _ ≤ 1 / 2 * Binary64.pow2 (Binary64.exponent q - 52) :=
          mul_le_mul_of_nonneg_right hr hu.le
      _ = Binary64.pow2 (Binary64.exponent q) / 9007199254740992 := by
          rw [hu2]; ring
      _ ≤ q / 9007199254740992 := div_le_div_of_nonneg_right hexp (by norm_num)

theorem Binary64.toDouble_nonneg (q : ℚ) (hq : 0 ≤ q) : 0 ≤ Binary64.toDouble q := by
  have := Binary64.toDouble_ge q 0 (by norm_num) (by simpa using hq)
  simpa using this

theorem Binary64.sum_fold_near (l : List ℚ) (hl : ∀ x ∈ l, 0 ≤ x ∧ x ≤ 1) :
    ∀ (acc s : ℚ) (k : Nat), 0 ≤ acc → 0 ≤ s → s ≤ k →
      |acc - s| ≤ k * (102 / 9007199254740992) → k + l.length ≤ 100 →
      0 ≤ l.foldl (fun sum t => Binary64.toDouble (sum + t)) acc ∧
        |l.foldl (fun sum t => Binary64.toDouble (sum + t)) acc - (s + l.sum)| ≤
          ((k + l.length : Nat) : ℚ) * (102 / 9007199254740992) := by
  induction l with
  | nil =>
    intro acc s k h0 hs0 hsk he _
    simpa using ⟨h0, he⟩
  | cons a l ih =>
    intro acc s k h0 hs0 hsk he hlen
    rw [List.foldl_cons]
    obtain ⟨ha0, ha1⟩ := hl a (List.mem_cons_self a l)
    simp only [List.length_cons] at hlen
    have hk : (k : ℚ) ≤ 100 := by
      have : k ≤ 100 := by omega
      exact_mod_cast this
    have hk0 : (0 : ℚ) ≤ k := Nat.cast_nonneg k
    have hnear := Binary64.toDouble_near (acc + a) (by linarith)
    obtain ⟨e1, e2⟩ := abs_le.1 he
    have hacc : acc + a ≤ 102 := by nlinarith
    have hstep : |Binary64.toDouble (acc + a) - (s + a)| ≤
        ((k + 1 : Nat) : ℚ) * (102 / 9007199254740992) := by
      obtain ⟨n1, n2⟩ := abs_le.1 hnear
      have hq : (acc + a) / 9007199254740992 ≤ 102 / 9007199254740992 :=
        div_le_div_of_nonneg_right hacc (by norm_num)
      rw [abs_le]
      push_cast
      constructor <;> linarith
    have := ih (fun x hx => hl x (List.mem_cons_of_mem a hx)) (Binary64.toDouble (acc + a))
      (s + a) (k + 1) (Binary64.toDouble_nonneg _ (by linarith)) (by linarith)
      (by push_cast; linarith) hstep (by omega)
    rw [show k + (a :: l).length = k + 1 + l.length by simp only [List.length_cons]; omega,
      List.sum_cons, ← add_assoc]
    exact this

theorem Binary64.avgTrust_near (l : List ℚ) (hne : l ≠ []) (hl : ∀ x ∈ l, 0 ≤ x ∧ x ≤ 1)
    (hlen : l.length ≤ 100) (trust : ℚ) :
    |Binary64.avgTrust trust l - l.sum / l.length| ≤ 104 / 9007199254740992 := by
  obtain ⟨s0, s1⟩ := Binary64.sum_fold_near l hl 0 0 0 le_rfl le_rfl (by norm_num)
    (by norm_num) (by omega)
  have hS : 0 ≤ Binary64.sum l := s0
  have hE : |Binary64.sum l - l.sum| ≤ (l.length : ℚ) * (102 / 9007199254740992) := by
    simpa [Binary64.sum] using s1
  have hpos : (0 : ℚ) < l.length := by
    have : 0 < l.length := List.length_pos.2 hne
    exact_mod_cast this
  have hn1 : (1 : ℚ) ≤ l.length := by
    have : 1 ≤ l.length := List.length_pos.2 hne
    exact_mod_cast this
  have hn100 : (l.length : ℚ) ≤ 100 := by exact_mod_cast hlen
  have hsum := sum_bounds l hl
  obtain ⟨e1, e2⟩ := abs_le.1 hE
  unfold Binary64.avgTrust
  rw [if_pos hne]
  have hq0 : 0 ≤ Binary64.sum l / l.length := div_nonneg hS hpos.le
  have hnear := Binary64.toDouble_near _ hq0
  obtain ⟨n1, n2⟩ := abs_le.1 hnear
  have hq2 : Binary64.sum l / l.length ≤ 2 := by
    rw [div_le_iff₀ hpos]
    nlinarith
  have hd : |Binary64.sum l / l.length - l.sum / l.length| ≤ 102 / 9007199254740992 := by
    rw [← sub_div, abs_div, abs_of_pos hpos, div_le_iff₀ hpos]
    linarith [hE]
  obtain ⟨d1, d2⟩ := abs_le.1 hd
  have hq3 : Binary64.sum l / ↑l.length / 9007199254740992 ≤ 2 / 9007199254740992 :=
    div_le_div_of_nonneg_right hq2 (by norm_num)
  rw [abs_le]
  constructor <;> linarith

theorem Binary64.constants :
    Binary64.toDouble (3 / 5) = 5404319552844595 / 9007199254740992 ∧
      Binary64.toDouble (7 / 10) = 3152519739159347 / 4503599627370496 ∧
      Binary64.toDouble (9 / 10) = 8106479329266893 / 9007199254740992 := by
  decide!

theorem Binary64.score_bounds (x : ℚ)
    (h : x = 1 ∨ x = Binary64.toDouble (9 / 10) ∨ x = Binary64.toDouble (7 / 10) ∨
      x = Binary64.toDouble (3 / 5)) :
    (0 ≤ x ∧ x ≤ 1) ∧ Binary64.toDouble (3 / 5) ≤ x ∧
      (x ≠ Binary64.toDouble (3 / 5) → Binary64.toDouble (3 / 5) + 1 / 20 ≤ x) := by
  obtain ⟨c6, c7, c9⟩ := Binary64.constants
  rw [c6, c7, c9] at h
  rw [c6]
  rcases h with h | h | h | h <;> rw [h] <;> norm_num

theorem sum_ge_bonus (c d : ℚ) (hd : 0 ≤ d) (l : List ℚ) (h : ∀ x ∈ l, c ≤ x)
    (hx : ∃ x ∈ l, c + d ≤ x) : c * l.length + d ≤ l.sum := by
  induction l with
  | nil =>
    obtain ⟨x, hx1, -⟩ := hx
    simp at hx1
  | cons a l ih =>
    have ha := h a (List.mem_cons_self a l)
    have hl := sum_ge_floor c l (fun x hx => h x (List.mem_cons_of_mem a hx))
    simp only [List.sum_cons, List.length_cons, Nat.cast_add, Nat.cast_one]
    obtain ⟨x, hx1, hx2⟩ := hx
    rcases List.mem_cons.1 hx1 with he | hm
    · rw [he] at hx2
      linarith
    · have := ih (fun y hy => h y (List.mem_cons_of_mem a hy)) ⟨x, hm, hx2⟩
      linarith

theorem Binary64.mixed_mean_ge (l : List ℚ) (hlen : l.length ≤ 100)
    (hl : ∀ x ∈ l, x = 1 ∨ x = Binary64.toDouble (9 / 10) ∨ x = Binary64.toDouble (7 / 10) ∨
      x = Binary64.toDouble (3 / 5))
    (hx : ∃ x ∈ l, x ≠ Binary64.toDouble (3 / 5)) (trust : ℚ) :
    Binary64.toDouble (3 / 5) ≤ Binary64.avgTrust trust l := by
  have hne : l ≠ [] := by
    obtain ⟨x, hx1, -⟩ := hx
    exact List.ne_nil_of_mem hx1
  have hb : ∀ x ∈ l, 0 ≤ x ∧ x ≤ 1 := fun x hx1 => (Binary64.score_bounds x (hl x hx1)).1
  have hnear := Binary64.avgTrust_near l hne hb hlen trust
  have hsum := sum_ge_bonus (Binary64.toDouble (3 / 5)) (1 / 20) (by norm_num) l
    (fun x hx1 => (Binary64.score_bounds x (hl x hx1)).2.1)
    (by
      obtain ⟨x, hx1, hx2⟩ := hx
      exact ⟨x, hx1, (Binary64.score_bounds x (hl x hx1)).2.2 hx2⟩)
  have hpos : (0 : ℚ) < l.length := by
    have : 0 < l.length := List.length_pos.2 hne
    exact_mod_cast this
  have hn100 : (l.length : ℚ) ≤ 100 := by exact_mod_cast hlen
  have hmean : Binary64.toDouble (3 / 5) + 1 / 2000 ≤ l.sum / l.length := by
    rw [le_div_iff₀ hpos]
    nlinarith
  obtain ⟨n1, -⟩ := abs_le.1 hnear
  norm_num at n1
  linarith

theorem Binary64.uniform_mean :
    ∀ n < 101, 0 < n →
      ((Binary64.avgTrust 1 (List.replicate n (Binary64.toDouble (3 / 5))) <
          Binary64.toDouble (3 / 5) ↔ (10 ≤ n ∧ n ≤ 28)) ∧
        (5404319552844593 / 9007199254740992 : ℚ) ≤
          Binary64.avgTrust 1 (List.replicate n (Binary64.toDouble (3 / 5)))) := by
  decide!

theorem Binary64.avgTrust_of_ne_nil (a b : ℚ) (l : List ℚ) (hne : l ≠ []) :
    Binary64.avgTrust a l = Binary64.avgTrust b l := by
  unfold Binary64.avgTrust
  rw [if_pos hne, if_pos hne]

theorem Binary64.mean_below_iff (l : List ℚ) (hne : l ≠ []) (hlen : l.length ≤ 100)
    (hl : ∀ x ∈ l, x = 1 ∨ x = Binary64.toDouble (9 / 10) ∨ x = Binary64.toDouble (7 / 10) ∨
      x = Binary64.toDouble (3 / 5)) :
    (Binary64.avgTrust 1 l < Binary64.toDouble (3 / 5) ↔
        (l = List.replicate l.length (Binary64.toDouble (3 / 5)) ∧
          10 ≤ l.length ∧ l.length ≤ 28)) ∧
      5404319552844593 / 9007199254740992 ≤ Binary64.avgTrust 1 l := by
  have hpos : 0 < l.length := List.length_pos.2 hne
  by_cases hx : ∃ x ∈ l, x ≠ Binary64.toDouble (3 / 5)
  · have hge := Binary64.mixed_mean_ge l hlen hl hx 1
    have hc : (5404319552844593 / 9007199254740992 : ℚ) ≤ Binary64.toDouble (3 / 5) := by
      rw [Binary64.constants.1]
      norm_num
    refine ⟨⟨fun h => absurd h (not_lt.2 hge), ?_⟩, le_trans hc hge⟩
    rintro ⟨he, -, -⟩
    obtain ⟨x, hx1, hx2⟩ := hx
    rw [he] at hx1
    exact absurd (List.eq_of_mem_replicate hx1) hx2
  · push_neg at hx
    have he : l = List.replicate l.length (Binary64.toDouble (3 / 5)) :=
      List.eq_replicate_iff.2 ⟨rfl, hx⟩
    obtain ⟨u1, u2⟩ := Binary64.uniform_mean l.length (by omega) hpos
    rw [← he] at u1 u2
    refine ⟨?_, u2⟩
    rw [u1]
    exact ⟨fun h => ⟨he, h⟩, fun h => h.2⟩

theorem Binary64.TrustState_of_eq (w w1 : World) (h : Binary64.TrustState w)
    (h1 : w1.trustHistory = w.trustHistory) (h2 : w1.nodeTrust = w.nodeTrust)
    (h3 : w1.trust_output = w.trust_output) : Binary64.TrustState w1 := by
  unfold Binary64.TrustState
  rw [h1, h2, h3]
  exact h

theorem Binary64.TrustState_init : Binary64.TrustState World.init := by
  refine ⟨?_, ?_⟩
  · intro id
    simp [World.init]
  · intro row hrow
    simp [World.init] at hrow

theorem Binary64.calculateTrustScore_spec (cfg : Config) (id : Nat) (pos vel : Vector)
    (t : Time) (w : World) (hlen : (w.trustHistory id).length ≤ 100)
    (hl : ∀ x ∈ w.trustHistory id, x = 1 ∨ x = Binary64.toDouble (9 / 10) ∨
      x = Binary64.toDouble (7 / 10) ∨ x = Binary64.toDouble (3 / 5)) :
    (pushBounded 100 (w.trustHistory id) (Binary64.instantTrust cfg id vel)).length ≤ 100 ∧
      (∀ x ∈ pushBounded 100 (w.trustHistory id) (Binary64.instantTrust cfg id vel),
        x = 1 ∨ x = Binary64.toDouble (9 / 10) ∨ x = Binary64.toDouble (7 / 10) ∨
          x = Binary64.toDouble (3 / 5)) ∧
      (Binary64.calculateTrustScore cfg id pos vel t w).1 =
        Binary64.avgTrust 1
          (pushBounded 100 (w.trustHistory id) (Binary64.instantTrust cfg id vel)) ∧
      5404319552844593 / 9007199254740992 ≤ (Binary64.calculateTrustScore cfg id pos vel t w).1 := by
  have hne := pushBounded_ne_nil 100 (w.trustHistory id) (Binary64.instantTrust cfg id vel)
    (by norm_num)
  have h1 := pushBounded_length_le 100 (w.trustHistory id) (Binary64.instantTrust cfg id vel) hlen
  have h2 : ∀ x ∈ pushBounded 100 (w.trustHistory id) (Binary64.instantTrust cfg id vel),
      x = 1 ∨ x = Binary64.toDouble (9 / 10) ∨ x = Binary64.toDouble (7 / 10) ∨
        x = Binary64.toDouble (3 / 5) := by
    intro x hx
    rcases mem_pushBounded _ _ _ _ hx with h | h
    · exact hl x h
    · rw [h]
      exact Binary64.instantTrust_mem_double cfg id vel
  have h3 : (Binary64.calculateTrustScore cfg id pos vel t w).1 =
      Binary64.avgTrust 1
        (pushBounded 100 (w.trustHistory id) (Binary64.instantTrust cfg id vel)) :=
    Binary64.avgTrust_of_ne_nil _ _ _ hne
  refine ⟨h1, h2, h3, ?_⟩
  rw [h3]
  exact (Binary64.mean_below_iff _ hne h1 h2).2

theorem Binary64.updateTrustStep_state (cfg : Config) (mob : Mobility) (now : Time) (w : World)
    (i : Nat) (h : Binary64.TrustState w) :
    Binary64.TrustState (Binary64.updateTrustStep cfg mob now w i) := by
  obtain ⟨a1, a2⟩ := h
  obtain ⟨s1, s2, s3, s4⟩ := Binary64.calculateTrustScore_spec cfg i (mob.position i)
    (mob.velocity i) now w (a1 i).1 (a1 i).2.1
  have hne := pushBounded_ne_nil 100 (w.trustHistory i)
    (Binary64.instantTrust cfg i (mob.velocity i)) (by norm_num)
  have hhalf : (1 / 2 : ℚ) ≤ 5404319552844593 / 9007199254740992 := by norm_num
  refine ⟨?_, ?_⟩
  · intro id
    show (Function.update w.trustHistory i _ id).length ≤ 100 ∧
      (∀ x ∈ Function.update w.trustHistory i _ id, _) ∧
      (Function.update w.trustHistory i _ id = [] → Function.update w.nodeTrust i _ id = 0) ∧
      (Function.update w.trustHistory i _ id ≠ [] →
        Function.update w.nodeTrust i _ id =
          Binary64.avgTrust 1 (Function.update w.trustHistory i _ id))
    by_cases hid : id = i
    · subst hid
      simp only [Function.update_same]
      exact ⟨s1, s2, fun he => absurd he hne, fun _ => s3⟩
    · simp only [Function.update_noteq hid]
      exact a1 id
  · intro row hrow
    have hrow1 : row ∈ w.trust_output ++ [TrustRow.mk (GetSeconds now) i
        (Binary64.calculateTrustScore cfg i (mob.position i) (mob.velocity i) now w).1
        (if (Binary64.calculateTrustScore cfg i (mob.position i) (mob.velocity i) now w).1
          < 1 / 2 then 1 else 0)] := hrow
    rw [List.mem_append, List.mem_singleton] at hrow1
    rcases hrow1 with h5 | h5
    · exact a2 row h5
    · rw [h5]
      refine ⟨s4, ?_⟩
      show (if _ < 1 / 2 then 1 else 0) = 0
      rw [if_neg (not_lt.2 (le_trans hhalf s4))]

theorem Binary64.exec_TrustState (fmt : ℚ → List Char) (cfg : Config) (op : Op) (now : Time)
    (w w1 : World) (h : Binary64.exec fmt cfg op now w = some w1)
    (hinv : Binary64.TrustState w) : Binary64.TrustState w1 := by
  by_cases hop : ∀ mob, op ≠ Op.updateTrustScores mob
  · obtain ⟨f1, f2, f3⟩ := Binary64.exec_trust_frame_double fmt cfg op now w w1 h hop
    exact Binary64.TrustState_of_eq w w1 hinv f1 f2 f3
  · push_neg at hop
    obtain ⟨mob, rfl⟩ := hop
    simp only [Binary64.exec, Option.some.injEq] at h
    subst h
    exact foldl_preserves Binary64.TrustState (Binary64.updateTrustStep cfg mob now)
      (fun a b ha => Binary64.updateTrustStep_state cfg mob now a b ha) _ _ hinv

theorem Binary64.Reachable_TrustState (fmt : ℚ → List Char) (cfg : Config) (w : World)
    (h : Binary64.Reachable fmt cfg w) : Binary64.TrustState w := by
  induction h with
  | init => exact Binary64.TrustState_init
  | step w w1 op now _ hex ih => exact Binary64.exec_TrustState fmt cfg op now w w1 hex ih

theorem Binary64.updateTrust_history (cfg : Config) (mob : Mobility) (now : Time) (w : World)
    (n j : Nat) :
    ((List.range n).foldl (Binary64.updateTrustStep cfg mob now) w).trustHistory j =
      if j < n then
        pushBounded 100 (w.trustHistory j) (Binary64.instantTrust cfg j (mob.velocity j))
      else w.trustHistory j := by
  induction n with
  | zero => simp
  | succ n ih =>
    rw [List.range_succ, List.foldl_append, List.foldl_cons, List.foldl_nil]
    show Function.update
      ((List.range n).foldl (Binary64.updateTrustStep cfg mob now) w).trustHistory n
      (pushBounded 100
        (((List.range n).foldl (Binary64.updateTrustStep cfg mob now) w).trustHistory n)
        (Binary64.instantTrust cfg n (mob.velocity n))) j = _
    by_cases hj : j = n
    · subst hj
      rw [Function.update_same, ih, if_neg (lt_irrefl _), if_pos (Nat.lt_succ_self _)]
    · rw [Function.update_noteq hj, ih]
      by_cases hlt : j < n
      · rw [if_pos hlt, if_pos (by omega)]
      · rw [if_neg hlt, if_neg (by omega)]

theorem Binary64.exec_history_nil (fmt : ℚ → List Char) (cfg : Config) (op : Op) (now : Time)
    (w w1 : World) (h : Binary64.exec fmt cfg op now w = some w1) (i : Nat) :
    (w1.trustHistory i = [] ↔
      (w.trustHistory i = [] ∧ evaluationCount cfg i [(op, now)] = 0)) := by
  by_cases hop : ∀ mob, op ≠ Op.updateTrustScores mob
  · have hz : evaluationCount cfg i [(op, now)] = 0 := by
      by_contra hne
      obtain ⟨⟨mob, hm⟩, -⟩ := (evaluationCount_single cfg i op now).1 hne
      exact hop mob hm
    obtain ⟨f1, -, -⟩ := Binary64.exec_trust_frame_double fmt cfg op now w w1 h hop
    rw [f1]
    exact ⟨fun h1 => ⟨h1, hz⟩, fun h1 => h1.1⟩
  · push_neg at hop
    obtain ⟨mob, rfl⟩ := hop
    simp only [Binary64.exec, Option.some.injEq] at h
    subst h
    unfold Binary64.UpdateTrustScores
    rw [Binary64.updateTrust_history]
    by_cases hlt : i < cfg.g_numVehicles
    · rw [if_pos hlt]
      have hne : evaluationCount cfg i [(Op.updateTrustScores mob, now)] ≠ 0 :=
        (evaluationCount_single cfg i _ now).2 ⟨⟨mob, rfl⟩, hlt⟩
      exact ⟨fun h1 => absurd h1 (pushBounded_ne_nil 100 _ _ (by norm_num)),
        fun h1 => absurd h1.2 hne⟩
    · rw [if_neg hlt]
      have hz : evaluationCount cfg i [(Op.updateTrustScores mob, now)] = 0 := by
        by_contra hne
        exact hlt ((evaluationCount_single cfg i _ now).1 hne).2
      exact ⟨fun h1 => ⟨h1, hz⟩, fun h1 => h1.1⟩

theorem Binary64.run_state (fmt : ℚ → List Char) (cfg : Config) (i : Nat)
    (trace : List (Op × Time)) :
    ∀ w w1 : World, Binary64.TrustState w → Binary64.run fmt cfg trace w = some w1 →
      Binary64.TrustState w1 ∧
        (w1.trustHistory i = [] ↔
          (w.trustHistory i = [] ∧ evaluationCount cfg i trace = 0)) := by
  induction trace with
  | nil =>
    intro w w1 hinv h
    simp only [Binary64.run, Option.some.injEq] at h
    subst h
    exact ⟨hinv, by simp [evaluationCount]⟩
  | cons e rest ih =>
    intro w w1 hinv h
    simp only [Binary64.run] at h
    split at h
    · rename_i w2 he
      have s1 := Binary64.exec_history_nil fmt cfg e.1 e.2 w w2 he i
      rw [show ((e.1, e.2) : Op × Time) = e from rfl] at s1
      obtain ⟨r1, r2⟩ := ih w2 w1 (Binary64.exec_TrustState fmt cfg e.1 e.2 w w2 he hinv) h
      refine ⟨r1, ?_⟩
      have hc := evaluationCount_cons cfg i e rest
      rw [r2, s1]
      constructor
      · rintro ⟨⟨a, b⟩, c⟩
        exact ⟨a, by omega⟩
      · rintro ⟨a, b⟩
        exact ⟨⟨a, by omega⟩, by omega⟩
    · cases h

theorem Binary64.lt_pow2_exponent_succ (q : ℚ) (hq : 0 < q) :
    q < Binary64.pow2 (Binary64.exponent q + 1) := by
  unfold Binary64.exponent
  simp only []
  split_ifs with h
  · have hnum : 0 < q.num := Rat.num_pos.2 hq
    have hden : 1 ≤ q.den := q.den_pos
    have hna : 1 ≤ q.num.natAbs := by omega
    obtain ⟨-, a2⟩ := Binary64.ilog2_spec q.num.natAbs hna
    obtain ⟨b1, -⟩ := Binary64.ilog2_spec q.den hden
    rw [Binary64.pow2_eq_zpow]
    have hq2 : q = (q.num.natAbs : ℚ) / (q.den : ℚ) := by
      have h1 : ((q.num.natAbs : Int) : ℚ) = (q.num : ℚ) := by
        rw [Int.natAbs_of_nonneg hnum.le]
      have h2 : ((q.num.natAbs : ℕ) : ℚ) = ((q.num.natAbs : Int) : ℚ) :=
        (Int.cast_natCast _).symm
      rw [h2, h1]
      exact (Rat.num_div_den q).symm
    have e1 : (q.num.natAbs : ℚ) < (2 : ℚ) ^ (Binary64.ilog2 q.num.natAbs + 1) := by
      exact_mod_cast a2
    have e2 : ((2 : ℚ) ^ (Binary64.ilog2 q.den)) ≤ (q.den : ℚ) := by
      exact_mod_cast b1
    have hdpos : (0 : ℚ) < (q.den : ℚ) := by exact_mod_cast hden
    have key : (2 : ℚ) ^ ((Binary64.ilog2 q.num.natAbs : Int) - (Binary64.ilog2 q.den : Int) + 1)
        = (2 : ℚ) ^ (Binary64.ilog2 q.num.natAbs + 1) / (2 : ℚ) ^ (Binary64.ilog2 q.den) := by
      rw [show ((Binary64.ilog2 q.num.natAbs : Int) - (Binary64.ilog2 q.den : Int) + 1) =
        ((Binary64.ilog2 q.num.natAbs + 1 : ℕ) : Int) - ((Binary64.ilog2 q.den : ℕ) : Int) by
          push_cast; ring]
      rw [zpow_sub₀ (by norm_num : (2 : ℚ) ≠ 0), zpow_natCast, zpow_natCast]
    rw [key]
    conv_lhs => rw [hq2]
    have hp : (0 : ℚ) < (2 : ℚ) ^ (Binary64.ilog2 q.den) := by positivity
    rw [div_lt_div_iff₀ hdpos hp]
    calc (q.num.natAbs : ℚ) * 2 ^ Binary64.ilog2 q.den
        ≤ (q.num.natAbs : ℚ) * (q.den : ℚ) := by
          apply mul_le_mul_of_nonneg_left e2
          positivity
      _ < 2 ^ (Binary64.ilog2 q.num.natAbs + 1) * (q.den : ℚ) :=
          mul_lt_mul_of_pos_right e1 hdpos
  · rw [abs_of_pos hq] at h
    rw [show (Binary64.ilog2 q.num.natAbs : Int) - (Binary64.ilog2 q.den : Int) - 1 + 1 =
      (Binary64.ilog2 q.num.natAbs : Int) - (Binary64.ilog2 q.den : Int) by ring]
    exact not_le.1 h

theorem Binary64.exponent_unique (q : ℚ) (e : Int) (h1 : (2 : ℚ) ^ e ≤ q)
    (h2 : q < (2 : ℚ) ^ (e + 1)) : Binary64.exponent q = e := by
  have hq : 0 < q := lt_of_lt_of_le (by positivity) h1
  have a1 := Binary64.pow2_exponent_le q hq
  have a2 := Binary64.lt_pow2_exponent_succ q hq
  rw [Binary64.pow2_eq_zpow] at a1 a2
  by_contra hne
  rcases lt_or_gt_of_ne hne with hlt | hgt
  · have : (2 : ℚ) ^ (Binary64.exponent q + 1) ≤ (2 : ℚ) ^ e :=
      zpow_le_zpow_right₀ (by norm_num) (by omega)
    linarith
  · have : (2 : ℚ) ^ (e + 1) ≤ (2 : ℚ) ^ (Binary64.exponent q) :=
      zpow_le_zpow_right₀ (by norm_num) (by omega)
    linarith

theorem Binary64.roundHalfEven_le_of_lt (r : ℚ) (m : Int) (h : r < (m : ℚ) + 1 / 2) :
    Binary64.roundHalfEven r ≤ m := by
  have hf : ⌊r⌋ ≤ m := by
    have : ⌊r⌋ < m + 1 := by
      rw [Int.floor_lt]
      push_cast
      linarith
    omega
  have h1 : ((⌊r⌋ : Int) : ℚ) ≤ r := Int.floor_le r
  unfold Binary64.roundHalfEven
  simp only []
  split_ifs with a b c
  · exact hf
  · by_contra hc
    have he : ⌊r⌋ = m := by omega
    rw [he] at b
    linarith
  · exact hf
  · by_contra hc
    have he : ⌊r⌋ = m := by omega
    rw [he] at a
    linarith

theorem Binary64.toDouble_pos_eq (q : ℚ) (hq : 0 < q) :
    Binary64.toDouble q =
      (Binary64.roundHalfEven (q / (2 : ℚ) ^ (Binary64.exponent q - 52)) : ℚ) *
        (2 : ℚ) ^ (Binary64.exponent q - 52) := by
  unfold Binary64.toDouble
  rw [if_neg hq.ne', Binary64.pow2_eq_zpow]

theorem Binary64.two_zpow_split (e : Int) (k : ℚ) :
    k * (2 : ℚ) ^ (e - 52) = k / 4503599627370496 * (2 : ℚ) ^ e := by
  rw [zpow_sub₀ (by norm_num : (2 : ℚ) ≠ 0)]
  norm_num
  ring

/-- Rounding does not cross a grid point from below: a value below the midpoint above the grid
point `G * 2^(e-52)` of the binade `[2^e, 2^(e+1))` is rounded to at most that grid point. -/
theorem Binary64.toDouble_le_grid (x : ℚ) (e G : Int) (hG : 4503599627370496 ≤ G)
    (hG2 : G < 9007199254740992) (hx0 : 0 < x)
    (hx : x < ((G : ℚ) + 1 / 2) * (2 : ℚ) ^ (e - 52)) :
    Binary64.toDouble x ≤ (G : ℚ) * (2 : ℚ) ^ (e - 52) := by
  have a1 := Binary64.pow2_exponent_le x hx0
  have a2 := Binary64.lt_pow2_exponent_succ x hx0
  rw [Binary64.pow2_eq_zpow] at a1 a2
  rw [Binary64.toDouble_pos_eq x hx0]
  have hGq : (4503599627370496 : ℚ) ≤ (G : ℚ) := by exact_mod_cast hG
  have hGq2 : (G : ℚ) + 1 ≤ 9007199254740992 := by
    have : G + 1 ≤ 9007199254740992 := by omega
    exact_mod_cast this
  have hue : (0 : ℚ) < (2 : ℚ) ^ e := by positivity
  rcases lt_trichotomy (Binary64.exponent x) e with hlt | heq | hgt
  · -- lower binade: the result is at most 2^(E+1) ≤ 2^e
    have hu : (0 : ℚ) < (2 : ℚ) ^ (Binary64.exponent x - 52) := by positivity
    have hr : x / (2 : ℚ) ^ (Binary64.exponent x - 52) <
        ((9007199254740992 : Int) : ℚ) + 1 / 2 := by
      rw [div_lt_iff₀ hu]
      have : (2 : ℚ) ^ (Binary64.exponent x + 1) =
          9007199254740992 * (2 : ℚ) ^ (Binary64.exponent x - 52) := by
        rw [zpow_add₀ (by norm_num : (2 : ℚ) ≠ 0), zpow_sub₀ (by norm_num : (2 : ℚ) ≠ 0)]
        norm_num
        ring
      push_cast
      nlinarith
    have hr2 := Binary64.roundHalfEven_le_of_lt _ _ hr
    have hr3 : (Binary64.roundHalfEven (x / (2 : ℚ) ^ (Binary64.exponent x - 52)) : ℚ) ≤
        9007199254740992 := by exact_mod_cast hr2
    have hstep : (2 : ℚ) ^ (Binary64.exponent x + 1) ≤ (2 : ℚ) ^ e :=
      zpow_le_zpow_right₀ (by norm_num) (by omega)
    calc _ ≤ 9007199254740992 * (2 : ℚ) ^ (Binary64.exponent x - 52) :=
          mul_le_mul_of_nonneg_right hr3 hu.le
      _ = (2 : ℚ) ^ (Binary64.exponent x + 1) := by
          rw [zpow_add₀ (by norm_num : (2 : ℚ) ≠ 0), zpow_sub₀ (by norm_num : (2 : ℚ) ≠ 0)]
          norm_num
          ring
      _ ≤ (2 : ℚ) ^ e := hstep
      _ ≤ (G : ℚ) * (2 : ℚ) ^ (e - 52) := by
          rw [Binary64.two_zpow_split]
          have : (1 : ℚ) ≤ (G : ℚ) / 4503599627370496 := by
            rw [le_div_iff₀ (by norm_num)]
            linarith
          nlinarith
  · rw [heq]
    have hu : (0 : ℚ) < (2 : ℚ) ^ (e - 52) := by positivity
    have hr : x / (2 : ℚ) ^ (e - 52) < (G : ℚ) + 1 / 2 := by
      rw [div_lt_iff₀ hu]
      exact hx
    have hr2 := Binary64.roundHalfEven_le_of_lt _ _ hr
    have hr3 : (Binary64.roundHalfEven (x / (2 : ℚ) ^ (e - 52)) : ℚ) ≤ (G : ℚ) := by
      exact_mod_cast hr2
    exact mul_le_mul_of_nonneg_right hr3 hu.le
  · exfalso
    have hstep : (2 : ℚ) ^ (e + 1) ≤ (2 : ℚ) ^ (Binary64.exponent x) :=
      zpow_le_zpow_right₀ (by norm_num) (by omega)
    have : ((G : ℚ) + 1 / 2) * (2 : ℚ) ^ (e - 52) < (2 : ℚ) ^ (e + 1) := by
      rw [Binary64.two_zpow_split, zpow_add₀ (by norm_num : (2 : ℚ) ≠ 0)]
      have : ((G : ℚ) + 1 / 2) / 4503599627370496 < 2 := by
        rw [div_lt_iff₀ (by norm_num)]
        linarith
      nlinarith
    linarith

/-- Rounding does not cross a grid point from above: a value at or above the grid point
`G * 2^(e-52)` of the binade `[2^e, 2^(e+1))` is rounded to at least that grid point. -/
theorem Binary64.toDouble_ge_grid (x : ℚ) (e G : Int) (hG : 4503599627370496 ≤ G)
    (hG2 : G < 9007199254740992) (hx : (G : ℚ) * (2 : ℚ) ^ (e - 52) ≤ x) :
    (G : ℚ) * (2 : ℚ) ^ (e - 52) ≤ Binary64.toDouble x := by
  have hGq : (4503599627370496 : ℚ) ≤ (G : ℚ) := by exact_mod_cast hG
  have hGq2 : (G : ℚ) + 1 ≤ 9007199254740992 := by
    have : G + 1 ≤ 9007199254740992 := by omega
    exact_mod_cast this
  have hue : (0 : ℚ) < (2 : ℚ) ^ e := by positivity
  have hge : (2 : ℚ) ^ e ≤ (G : ℚ) * (2 : ℚ) ^ (e - 52) := by
    rw [Binary64.two_zpow_split]
    have : (1 : ℚ) ≤ (G : ℚ) / 4503599627370496 := by
      rw [le_div_iff₀ (by norm_num)]
      linarith
    nlinarith
  have hx0 : 0 < x := lt_of_lt_of_le hue (le_trans hge hx)
  have a1 := Binary64.pow2_exponent_le x hx0
  have a2 := Binary64.lt_pow2_exponent_succ x hx0
  rw [Binary64.pow2_eq_zpow] at a1 a2
  rw [Binary64.toDouble_pos_eq x hx0]
  rcases lt_trichotomy (Binary64.exponent x) e with hlt | heq | hgt
  · exfalso
    have hstep : (2 : ℚ) ^ (Binary64.exponent x + 1) ≤ (2 : ℚ) ^ e :=
      zpow_le_zpow_right₀ (by norm_num) (by omega)
    linarith
  · rw [heq]
    have hu : (0 : ℚ) < (2 : ℚ) ^ (e - 52) := by positivity
    have hr : (G : ℚ) ≤ x / (2 : ℚ) ^ (e - 52) := by
      rw [le_div_iff₀ hu]
      exact hx
    have hr2 := Binary64.roundHalfEven_ge _ _ hr
    have hr3 : (G : ℚ) ≤ (Binary64.roundHalfEven (x / (2 : ℚ) ^ (e - 52)) : ℚ) := by
      exact_mod_cast hr2
    exact mul_le_mul_of_nonneg_right hr3 hu.le
  · have hu : (0 : ℚ) < (2 : ℚ) ^ (Binary64.exponent x - 52) := by positivity
    have hr : ((4503599627370496 : Int) : ℚ) ≤ x / (2 : ℚ) ^ (Binary64.exponent x - 52) := by
      rw [le_div_iff₀ hu]
      have : (2 : ℚ) ^ (Binary64.exponent x) =
          4503599627370496 * (2 : ℚ) ^ (Binary64.exponent x - 52) := by
        rw [zpow_sub₀ (by norm_num : (2 : ℚ) ≠ 0)]
        norm_num
        ring
      push_cast
      linarith
    have hr2 := Binary64.roundHalfEven_ge _ _ hr
    have hr3 : (4503599627370496 : ℚ) ≤
        (Binary64.roundHalfEven (x / (2 : ℚ) ^ (Binary64.exponent x - 52)) : ℚ) := by
      exact_mod_cast hr2
    have hstep : (2 : ℚ) ^ (e + 1) ≤ (2 : ℚ) ^ (Binary64.exponent x) :=
      zpow_le_zpow_right₀ (by norm_num) (by omega)
    calc (G : ℚ) * (2 : ℚ) ^ (e - 52) ≤ (2 : ℚ) ^ (e + 1) := by
          rw [Binary64.two_zpow_split, zpow_add₀ (by norm_num : (2 : ℚ) ≠ 0)]
          have : (G : ℚ) / 4503599627370496 ≤ 2 := by
            rw [div_le_iff₀ (by norm_num)]
            linarith
          nlinarith
      _ ≤ (2 : ℚ) ^ (Binary64.exponent x) := hstep
      _ = 4503599627370496 * (2 : ℚ) ^ (Binary64.exponent x - 52) := by
          rw [zpow_sub₀ (by norm_num : (2 : ℚ) ≠ 0)]
          norm_num
          ring
      _ ≤ _ := mul_le_mul_of_nonneg_right hr3 hu.le
theorem Binary64.sqrtAux_spec (n : Nat) : ∀ (k r : Nat), r * r ≤ n → n < (r + 2 ^ k) * (r + 2 ^ k) →
    Binary64.sqrtAux n k r * Binary64.sqrtAux n k r ≤ n ∧
      n < (Binary64.sqrtAux n k r + 1) * (Binary64.sqrtAux n k r + 1) := by
  intro k
  induction k with
  | zero =>
    intro r h1 h2
    simpa [Binary64.sqrtAux] using ⟨h1, h2⟩
  | succ k ih =>
    intro r h1 h2
    unfold Binary64.sqrtAux
    split_ifs with h
    · refine ih (r + 2 ^ k) h ?_
      have : r + 2 ^ k + 2 ^ k = r + 2 ^ (k + 1) := by rw [pow_succ]; ring
      rw [this]
      exact h2
    · exact ih r h1 (not_le.1 h)

theorem Binary64.isqrt_spec (n : Nat) :
    Binary64.isqrt n * Binary64.isqrt n ≤ n ∧
      n < (Binary64.isqrt n + 1) * (Binary64.isqrt n + 1) := by
  unfold Binary64.isqrt
  apply Binary64.sqrtAux_spec
  · simp
  · rw [zero_add, ← pow_add]
    rcases Nat.eq_zero_or_pos n with h0 | hpos
    · subst h0
      positivity
    · obtain ⟨-, h2⟩ := Binary64.ilog2_spec n hpos
      refine lt_of_lt_of_le h2 (Nat.pow_le_pow_right (by norm_num) ?_)
      omega
/-- The square root is bracketed: with `e` half the exponent of `q` and `u = 2^(e-52)`, the
mantissa `m` found by `isqrt` has 53 bits, `(m u)^2 ≤ q < ((m + 1) u)^2`, and the result is
`m u` or `(m + 1) u` according to the side of the midpoint `q` lies on. -/
theorem Binary64.sqrt_bracket (q : ℚ) (hq : 0 < q) :
    ∃ (e : Int) (m : Nat), 4503599627370496 ≤ m ∧ m < 9007199254740992 ∧
      ((m : ℚ) * (2 : ℚ) ^ (e - 52)) * ((m : ℚ) * (2 : ℚ) ^ (e - 52)) ≤ q ∧
      q < (((m : ℚ) + 1) * (2 : ℚ) ^ (e - 52)) * (((m : ℚ) + 1) * (2 : ℚ) ^ (e - 52)) ∧
      Binary64.sqrt q =
        (if q < ((2 * (m : ℚ) + 1) / 2 * (2 : ℚ) ^ (e - 52)) *
              ((2 * (m : ℚ) + 1) / 2 * (2 : ℚ) ^ (e - 52)) then (m : ℚ) * (2 : ℚ) ^ (e - 52)
         else if ((2 * (m : ℚ) + 1) / 2 * (2 : ℚ) ^ (e - 52)) *
              ((2 * (m : ℚ) + 1) / 2 * (2 : ℚ) ^ (e - 52)) < q then
            ((m : ℚ) + 1) * (2 : ℚ) ^ (e - 52)
         else if m % 2 = 0 then (m : ℚ) * (2 : ℚ) ^ (e - 52)
         else ((m : ℚ) + 1) * (2 : ℚ) ^ (e - 52)) := by
  have a1 := Binary64.pow2_exponent_le q hq
  have a2 := Binary64.lt_pow2_exponent_succ q hq
  rw [Binary64.pow2_eq_zpow] at a1 a2
  set E := Binary64.exponent q with hE
  set e : Int := E / 2 with he
  have he1 : 2 * e ≤ E := by omega
  have he2 : E ≤ 2 * e + 1 := by omega
  have hu : (0 : ℚ) < (2 : ℚ) ^ (e - 52) := by positivity
  have huu : (2 : ℚ) ^ (e - 52) * (2 : ℚ) ^ (e - 52) = (2 : ℚ) ^ (2 * e - 104) := by
    rw [← zpow_add₀ (by norm_num : (2 : ℚ) ≠ 0)]
    congr 1
    ring
  have hlow : (2 : ℚ) ^ (2 * e) ≤ q :=
    le_trans (zpow_le_zpow_right₀ (by norm_num) he1) a1
  have hhigh : q < (2 : ℚ) ^ (2 * e + 2) :=
    lt_of_lt_of_le a2 (zpow_le_zpow_right₀ (by norm_num) (by omega))
  have hp : (0 : ℚ) < (2 : ℚ) ^ (2 * e - 104) := by positivity
  have c1 : (2 : ℚ) ^ (2 * e) = 20282409603651670423947251286016 * (2 : ℚ) ^ (2 * e - 104) := by
    rw [zpow_sub₀ (by norm_num : (2 : ℚ) ≠ 0)]
    norm_num
    ring
  have c2 : (2 : ℚ) ^ (2 * e + 2) =
      81129638414606681695789005144064 * (2 : ℚ) ^ (2 * e - 104) := by
    rw [zpow_add₀ (by norm_num : (2 : ℚ) ≠ 0), zpow_sub₀ (by norm_num : (2 : ℚ) ≠ 0)]
    norm_num
    ring
  set x : ℚ := q / ((2 : ℚ) ^ (e - 52) * (2 : ℚ) ^ (e - 52)) with hx
  have hx1 : (20282409603651670423947251286016 : ℚ) ≤ x := by
    rw [hx, huu, le_div_iff₀ hp, ← c1]
    exact hlow
  have hx2 : x < 81129638414606681695789005144064 := by
    rw [hx, huu, div_lt_iff₀ hp, ← c2]
    exact hhigh
  have hqx : q = x * ((2 : ℚ) ^ (e - 52) * (2 : ℚ) ^ (e - 52)) := by
    rw [hx, div_mul_cancel₀]
    positivity
  have hfl0 : (0 : Int) ≤ ⌊x⌋ := Int.floor_nonneg.2 (by linarith)
  set n : Nat := ⌊x⌋.toNat with hn
  have hnq : ((n : ℕ) : ℚ) = ((⌊x⌋ : Int) : ℚ) := by
    have : ((n : ℕ) : Int) = ⌊x⌋ := Int.toNat_of_nonneg hfl0
    rw [← this]
    exact (Int.cast_natCast n).symm
  have hn1 : (n : ℚ) ≤ x := by
    rw [hnq]
    exact Int.floor_le x
  have hn2 : x < (n : ℚ) + 1 := by
    rw [hnq]
    exact Int.lt_floor_add_one x
  have hn3 : 20282409603651670423947251286016 ≤ n := by
    have : ((20282409603651670423947251286016 : Int)) ≤ ⌊x⌋ := by
      rw [Int.le_floor]
      push_cast
      exact hx1
    omega
  have hn4 : n < 81129638414606681695789005144064 := by
    have : (n : ℚ) < 81129638414606681695789005144064 := lt_of_le_of_lt hn1 hx2
    exact_mod_cast this
  obtain ⟨s1, s2⟩ := Binary64.isqrt_spec n
  set m := Binary64.isqrt n with hm
  have hm1 : 4503599627370496 ≤ m := by
    by_contra hc
    have h1 : m + 1 ≤ 4503599627370496 := by omega
    have h2 : (m + 1) * (m + 1) ≤ 4503599627370496 * 4503599627370496 :=
      Nat.mul_le_mul h1 h1
    omega
  have hm2 : m < 9007199254740992 := by
    by_contra hc
    have h1 : 9007199254740992 ≤ m := by omega
    have h2 : 9007199254740992 * 9007199254740992 ≤ m * m := Nat.mul_le_mul h1 h1
    omega
  have s1q : (m : ℚ) * (m : ℚ) ≤ (n : ℚ) := by exact_mod_cast s1
  have s2q : (n : ℚ) + 1 ≤ ((m : ℚ) + 1) * ((m : ℚ) + 1) := by
    have : n + 1 ≤ (m + 1) * (m + 1) := s2
    exact_mod_cast this
  have huu0 : (0 : ℚ) < (2 : ℚ) ^ (e - 52) * (2 : ℚ) ^ (e - 52) := by positivity
  refine ⟨e, m, hm1, hm2, ?_, ?_, ?_⟩
  · rw [hqx]
    calc (m : ℚ) * 2 ^ (e - 52) * ((m : ℚ) * 2 ^ (e - 52))
        = (m : ℚ) * (m : ℚ) * ((2 : ℚ) ^ (e - 52) * (2 : ℚ) ^ (e - 52)) := by ring
      _ ≤ x * ((2 : ℚ) ^ (e - 52) * (2 : ℚ) ^ (e - 52)) :=
          mul_le_mul_of_nonneg_right (le_trans s1q hn1) huu0.le
  · rw [hqx]
    calc x * ((2 : ℚ) ^ (e - 52) * (2 : ℚ) ^ (e - 52))
        < ((m : ℚ) + 1) * ((m : ℚ) + 1) * ((2 : ℚ) ^ (e - 52) * (2 : ℚ) ^ (e - 52)) :=
          mul_lt_mul_of_pos_right (lt_of_lt_of_le hn2 s2q) huu0
      _ = _ := by ring
  · unfold Binary64.sqrt
    rw [if_neg (not_le.2 hq)]
    simp only [Binary64.pow2_eq_zpow]
/-- Comparison of the rounded square root with a `double` `c = M0 / 2^47` of the binade
`[32, 64)` whose mantissa `M0` is even: the root exceeds `c` exactly when `q` exceeds the square
of the midpoint between `c` and the next `double`. -/
theorem Binary64.sqrt_gt_iff (M0 : Nat) (h52 : 4503599627370496 ≤ M0)
    (h53 : M0 < 9007199254740992) (heven : M0 % 2 = 0) (q : ℚ) :
    (M0 : ℚ) / 140737488355328 < Binary64.sqrt q ↔
      ((2 * (M0 : ℚ) + 1) / 2 / 140737488355328) *
        ((2 * (M0 : ℚ) + 1) / 2 / 140737488355328) < q := by
  have hb1 : (4503599627370496 : ℚ) ≤ (M0 : ℚ) := by exact_mod_cast h52
  have hb2 : (M0 : ℚ) + 1 ≤ 9007199254740992 := by
    have : M0 + 1 ≤ 9007199254740992 := by omega
    exact_mod_cast this
  have hc32 : (32 : ℚ) ≤ (M0 : ℚ) / 140737488355328 := by
    rw [le_div_iff₀ (by norm_num)]
    linarith
  have hc64 : (2 * (M0 : ℚ) + 1) / 2 / 140737488355328 < 64 := by
    rw [div_lt_iff₀ (by norm_num)]
    linarith
  have hmid : (M0 : ℚ) / 140737488355328 < (2 * (M0 : ℚ) + 1) / 2 / 140737488355328 := by
    rw [div_lt_div_iff₀ (by norm_num) (by norm_num)]
    linarith
  by_cases hq : q ≤ 0
  · have hs : Binary64.sqrt q = 0 := by
      unfold Binary64.sqrt
      rw [if_pos hq]
    rw [hs]
    constructor
    · intro h
      linarith
    · intro h
      have : (0 : ℚ) ≤ ((2 * (M0 : ℚ) + 1) / 2 / 140737488355328) *
          ((2 * (M0 : ℚ) + 1) / 2 / 140737488355328) := mul_self_nonneg _
      linarith
  · obtain ⟨e, m, hm1, hm2, b1, b2, hs⟩ := Binary64.sqrt_bracket q (not_le.1 hq)
    have ha1 : (4503599627370496 : ℚ) ≤ (m : ℚ) := by exact_mod_cast hm1
    have ha2 : (m : ℚ) + 1 ≤ 9007199254740992 := by
      have : m + 1 ≤ 9007199254740992 := by omega
      exact_mod_cast this
    have hu : (0 : ℚ) < (2 : ℚ) ^ (e - 52) := by positivity
    have hge : (m : ℚ) * (2 : ℚ) ^ (e - 52) ≤ Binary64.sqrt q := by
      rw [hs]
      split_ifs
      · exact le_rfl
      · exact mul_le_mul_of_nonneg_right (by linarith) hu.le
      · exact le_rfl
      · exact mul_le_mul_of_nonneg_right (by linarith) hu.le
    have hle : Binary64.sqrt q ≤ ((m : ℚ) + 1) * (2 : ℚ) ^ (e - 52) := by
      rw [hs]
      split_ifs
      · exact mul_le_mul_of_nonneg_right (by linarith) hu.le
      · exact le_rfl
      · exact mul_le_mul_of_nonneg_right (by linarith) hu.le
      · exact le_rfl
    rcases lt_trichotomy e 5 with hlt | heq | hgt
    · -- the root is at most 32
      have hu2 : (2 : ℚ) ^ (e - 52) ≤ 1 / 281474976710656 := by
        have := zpow_le_zpow_right₀ (by norm_num : (1 : ℚ) ≤ 2) (show e - 52 ≤ -48 by omega)
        have c : (2 : ℚ) ^ (-48 : Int) = 1 / 281474976710656 := by norm_num
        rw [c] at this
        exact this
      have htop : ((m : ℚ) + 1) * (2 : ℚ) ^ (e - 52) ≤ 32 := by
        calc ((m : ℚ) + 1) * (2 : ℚ) ^ (e - 52)
            ≤ 9007199254740992 * (1 / 281474976710656) :=
              mul_le_mul ha2 hu2 hu.le (by norm_num)
          _ = 32 := by norm_num
      have hpos : (0 : ℚ) ≤ ((m : ℚ) + 1) * (2 : ℚ) ^ (e - 52) := by positivity
      constructor
      · intro h
        linarith
      · intro h
        have h1 : ((m : ℚ) + 1) * (2 : ℚ) ^ (e - 52) * (((m : ℚ) + 1) * (2 : ℚ) ^ (e - 52)) ≤
            32 * 32 := mul_self_le_mul_self hpos htop
        have h2 : (32 : ℚ) * 32 ≤ ((2 * (M0 : ℚ) + 1) / 2 / 140737488355328) *
            ((2 * (M0 : ℚ) + 1) / 2 / 140737488355328) :=
          mul_self_le_mul_self (by norm_num) (by linarith)
        linarith
    · -- the binade of the threshold
      subst heq
      have cu : (2 : ℚ) ^ ((5 : Int) - 52) = 1 / 140737488355328 := by norm_num
      rw [cu] at b1 b2 hs hge hle
      rcases lt_trichotomy m M0 with hmlt | hmeq | hmgt
      · have hmq : (m : ℚ) + 1 ≤ (M0 : ℚ) := by
          have : m + 1 ≤ M0 := hmlt
          exact_mod_cast this
        have htop : ((m : ℚ) + 1) * (1 / 140737488355328) ≤ (M0 : ℚ) / 140737488355328 := by
          rw [mul_one_div]
          exact div_le_div_of_nonneg_right hmq (by norm_num)
        have hpos : (0 : ℚ) ≤ ((m : ℚ) + 1) * (1 / 140737488355328) := by positivity
        constructor
        · intro h
          linarith
        · intro h
          have h1 := mul_self_le_mul_self hpos htop
          have h2 : (M0 : ℚ) / 140737488355328 * ((M0 : ℚ) / 140737488355328) ≤
              ((2 * (M0 : ℚ) + 1) / 2 / 140737488355328) *
                ((2 * (M0 : ℚ) + 1) / 2 / 140737488355328) :=
            mul_self_le_mul_self (by linarith) hmid.le
          linarith
      · subst hmeq
        have e1 : (2 * (m : ℚ) + 1) / 2 * (1 / 140737488355328) =
            (2 * (m : ℚ) + 1) / 2 / 140737488355328 := by rw [mul_one_div]
        have e2 : (m : ℚ) * (1 / 140737488355328) = (m : ℚ) / 140737488355328 := by
          rw [mul_one_div]
        rw [e1] at hs
        rw [hs]
        split_ifs with c1 c2
        · rw [e2]
          exact ⟨fun h => absurd h (lt_irrefl _), fun h => absurd h (not_lt.2 c1.le)⟩
        · refine ⟨fun _ => c2, fun _ => ?_⟩
          rw [mul_one_div, div_lt_div_iff₀ (by norm_num) (by norm_num)]
          linarith
        · rw [e2]
          exact ⟨fun h => absurd h (lt_irrefl _), fun h => absurd h c2⟩
      · have hmq : (M0 : ℚ) + 1 ≤ (m : ℚ) := by
          have : M0 + 1 ≤ m := hmgt
          exact_mod_cast this
        have hbot : ((M0 : ℚ) + 1) / 140737488355328 ≤ (m : ℚ) * (1 / 140737488355328) := by
          rw [mul_one_div]
          exact div_le_div_of_nonneg_right hmq (by norm_num)
        have hm3 : (2 * (M0 : ℚ) + 1) / 2 / 140737488355328 <
            ((M0 : ℚ) + 1) / 140737488355328 := by
          rw [div_lt_div_iff₀ (by norm_num) (by norm_num)]
          linarith
        have hpos : (0 : ℚ) ≤ (2 * (M0 : ℚ) + 1) / 2 / 140737488355328 := by positivity
        constructor
        · intro _
          have h1 := mul_self_lt_mul_self hpos (lt_of_lt_of_le hm3 hbot)
          linarith
        · intro _
          have : (M0 : ℚ) / 140737488355328 < ((M0 : ℚ) + 1) / 140737488355328 := by
            rw [div_lt_div_iff₀ (by norm_num) (by norm_num)]
            linarith
          linarith
    · -- the root is at least 64
      have hu2 : 1 / 70368744177664 ≤ (2 : ℚ) ^ (e - 52) := by
        have := zpow_le_zpow_right₀ (by norm_num : (1 : ℚ) ≤ 2) (show -46 ≤ e - 52 by omega)
        have c : (2 : ℚ) ^ (-46 : Int) = 1 / 70368744177664 := by norm_num
        rw [c] at this
        exact this
      have hbot : (64 : ℚ) ≤ (m : ℚ) * (2 : ℚ) ^ (e - 52) := by
        calc (64 : ℚ) = 4503599627370496 * (1 / 70368744177664) := by norm_num
          _ ≤ (m : ℚ) * (2 : ℚ) ^ (e - 52) :=
              mul_le_mul ha1 hu2 (by norm_num) (by linarith)
      have hpos : (0 : ℚ) ≤ (2 * (M0 : ℚ) + 1) / 2 / 140737488355328 := by positivity
      constructor
      · intro _
        have h1 := mul_self_lt_mul_self hpos (lt_of_lt_of_le hc64 hbot)
        linarith
      · intro _
        linarith
theorem Binary64.square_near (a : ℚ) :
    a * a * (1 - 1 / 9007199254740992) ≤ Binary64.toDouble (a * a) ∧
      Binary64.toDouble (a * a) ≤ a * a * (1 + 1 / 9007199254740992) := by
  have h := Binary64.toDouble_near (a * a) (mul_self_nonneg a)
  obtain ⟨h1, h2⟩ := abs_le.1 h
  constructor <;> linarith

/-- The comparison `speed > 40.0` in `double` arithmetic: on the rounded sum of the rounded
squares it is the comparison with `(40 + 2^-48)^2`; it holds only if `vx^2 + vy^2 > 1600`, and
it holds whenever `vx^2 + vy^2 ≥ 1600 * (1 + 2^-50)`. -/
theorem Binary64.speed_gt_40 (vel : Vector) :
    (Binary64.speed vel > 40 ↔
        (40 + 1 / 281474976710656) * (40 + 1 / 281474976710656) <
          Binary64.toDouble
            (Binary64.toDouble (vel.x * vel.x) + Binary64.toDouble (vel.y * vel.y))) ∧
      (Binary64.speed vel > 40 → vel.x * vel.x + vel.y * vel.y > 1600) ∧
      (1600 * (1 + 1 / 1125899906842624) ≤ vel.x * vel.x + vel.y * vel.y →
        Binary64.speed vel > 40) := by
  have key : Binary64.speed vel > 40 ↔
      (40 + 1 / 281474976710656) * (40 + 1 / 281474976710656) <
        Binary64.toDouble
          (Binary64.toDouble (vel.x * vel.x) + Binary64.toDouble (vel.y * vel.y)) := by
    have h := Binary64.sqrt_gt_iff 5629499534213120 (by norm_num) (by norm_num) (by norm_num)
      (Binary64.toDouble
        (Binary64.toDouble (vel.x * vel.x) + Binary64.toDouble (vel.y * vel.y)))
    have c1 : ((5629499534213120 : ℕ) : ℚ) / 140737488355328 = 40 := by norm_num
    have c2 : (2 * ((5629499534213120 : ℕ) : ℚ) + 1) / 2 / 140737488355328 =
        40 + 1 / 281474976710656 := by norm_num
    rw [c1, c2] at h
    exact h
  obtain ⟨x1, x2⟩ := Binary64.square_near vel.x
  obtain ⟨y1, y2⟩ := Binary64.square_near vel.y
  have hx0 : 0 ≤ vel.x * vel.x := mul_self_nonneg _
  have hy0 : 0 ≤ vel.y * vel.y := mul_self_nonneg _
  have cu : (2 : ℚ) ^ ((10 : Int) - 52) = 1 / 4398046511104 := by norm_num
  refine ⟨key, ?_, ?_⟩
  · intro h
    rw [key] at h
    by_contra hc
    have hS : vel.x * vel.x + vel.y * vel.y ≤ 1600 := not_lt.1 hc
    have hsum : Binary64.toDouble (vel.x * vel.x) + Binary64.toDouble (vel.y * vel.y) <
        (((7036874417766401 : Int) : ℚ) + 1 / 2) * (2 : ℚ) ^ ((10 : Int) - 52) := by
      rw [cu]
      push_cast
      linarith
    rcases (Binary64.toDouble_nonneg _ hx0).lt_or_eq with hp | hz
    · have hpos : 0 < Binary64.toDouble (vel.x * vel.x) + Binary64.toDouble (vel.y * vel.y) := by
        have := Binary64.toDouble_nonneg _ hy0
        linarith
      have := Binary64.toDouble_le_grid _ 10 7036874417766401 (by norm_num) (by norm_num)
        hpos hsum
      rw [cu] at this
      push_cast at this
      norm_num at this h
      linarith
    · rcases (Binary64.toDouble_nonneg _ hy0).lt_or_eq with hp | hz2
      · have hpos : 0 < Binary64.toDouble (vel.x * vel.x) + Binary64.toDouble (vel.y * vel.y) := by
          linarith
        have := Binary64.toDouble_le_grid _ 10 7036874417766401 (by norm_num) (by norm_num)
          hpos hsum
        rw [cu] at this
        push_cast at this
        norm_num at this h
        linarith
      · rw [← hz, ← hz2] at h
        have hz3 : Binary64.toDouble (0 + 0) = 0 := by
          unfold Binary64.toDouble
          simp
        rw [hz3] at h
        norm_num at h
  · intro hS
    rw [key]
    have hsum : (((7036874417766402 : Int) : ℚ)) * (2 : ℚ) ^ ((10 : Int) - 52) ≤
        Binary64.toDouble (vel.x * vel.x) + Binary64.toDouble (vel.y * vel.y) := by
      rw [cu]
      push_cast
      linarith
    have := Binary64.toDouble_ge_grid _ 10 7036874417766402 (by norm_num) (by norm_num) hsum
    rw [cu] at this
    push_cast at this
    norm_num at this ⊢
    linarith

/-- The comparison `speed > 35.0` in `double` arithmetic, as `Binary64.speed_gt_40`. -/
theorem Binary64.speed_gt_35 (vel : Vector) :
    (Binary64.speed vel > 35 ↔
        (35 + 1 / 281474976710656) * (35 + 1 / 281474976710656) <
          Binary64.toDouble
            (Binary64.toDouble (vel.x * vel.x) + Binary64.toDouble (vel.y * vel.y))) ∧
      (Binary64.speed vel > 35 → vel.x * vel.x + vel.y * vel.y > 1225) ∧
      (1225 * (1 + 1 / 1125899906842624) ≤ vel.x * vel.x + vel.y * vel.y →
        Binary64.speed vel > 35) := by
  have key : Binary64.speed vel > 35 ↔
      (35 + 1 / 281474976710656) * (35 + 1 / 281474976710656) <
        Binary64.toDouble
          (Binary64.toDouble (vel.x * vel.x) + Binary64.toDouble (vel.y * vel.y)) := by
    have h := Binary64.sqrt_gt_iff 4925812092436480 (by norm_num) (by norm_num) (by norm_num)
      (Binary64.toDouble
        (Binary64.toDouble (vel.x * vel.x) + Binary64.toDouble (vel.y * vel.y)))
    have c1 : ((4925812092436480 : ℕ) : ℚ) / 140737488355328 = 35 := by norm_num
    have c2 : (2 * ((4925812092436480 : ℕ) : ℚ) + 1) / 2 / 140737488355328 =
        35 + 1 / 281474976710656 := by norm_num
    rw [c1, c2] at h
    exact h
  obtain ⟨x1, x2⟩ := Binary64.square_near vel.x
  obtain ⟨y1, y2⟩ := Binary64.square_near vel.y
  have hx0 : 0 ≤ vel.x * vel.x := mul_self_nonneg _
  have hy0 : 0 ≤ vel.y * vel.y := mul_self_nonneg _
  have cu : (2 : ℚ) ^ ((10 : Int) - 52) = 1 / 4398046511104 := by norm_num
  refine ⟨key, ?_, ?_⟩
  · intro h
    rw [key] at h
    by_contra hc
    have hS : vel.x * vel.x + vel.y * vel.y ≤ 1225 := not_lt.1 hc
    have hsum : Binary64.toDouble (vel.x * vel.x) + Binary64.toDouble (vel.y * vel.y) <
        (((5387606976102401 : Int) : ℚ) + 1 / 2) * (2 : ℚ) ^ ((10 : Int) - 52) := by
      rw [cu]
      push_cast
      linarith
    rcases (Binary64.toDouble_nonneg _ hx0).lt_or_eq with hp | hz
    · have hpos : 0 < Binary64.toDouble (vel.x * vel.x) + Binary64.toDouble (vel.y * vel.y) := by
        have := Binary64.toDouble_nonneg _ hy0
        linarith
      have := Binary64.toDouble_le_grid _ 10 5387606976102401 (by norm_num) (by norm_num)
        hpos hsum
      rw [cu] at this
      push_cast at this
      norm_num at this h
      linarith
    · rcases (Binary64.toDouble_nonneg _ hy0).lt_or_eq with hp | hz2
      · have hpos : 0 < Binary64.toDouble (vel.x * vel.x) + Binary64.toDouble (vel.y * vel.y) := by
          linarith
        have := Binary64.toDouble_le_grid _ 10 5387606976102401 (by norm_num) (by norm_num)
          hpos hsum
        rw [cu] at this
        push_cast at this
        norm_num at this h
        linarith
      · rw [← hz, ← hz2] at h
        have hz3 : Binary64.toDouble (0 + 0) = 0 := by
          unfold Binary64.toDouble
          simp
        rw [hz3] at h
        norm_num at h
  · intro hS
    rw [key]
    have hsum : (((5387606976102402 : Int) : ℚ)) * (2 : ℚ) ^ ((10 : Int) - 52) ≤
        Binary64.toDouble (vel.x * vel.x) + Binary64.toDouble (vel.y * vel.y) := by
      rw [cu]
      push_cast
      linarith
    have := Binary64.toDouble_ge_grid _ 10 5387606976102402 (by norm_num) (by norm_num) hsum
    rw [cu] at this
    push_cast at this
    norm_num at this ⊢
    linarith

theorem Binary64.detectAnomaly_count_double (i : Nat) (pos vel : Vector) (w : World) :
    (Binary64.detectAnomaly i pos vel w).2.suspiciousCount =
      Function.update w.suspiciousCount i
        (w.suspiciousCount i + Binary64.anomalyIncrement vel (w.mobilityHistory i).length) := by
  have hne : ∀ l : List ℚ, (l ≠ [] ∧ l.length ≥ 4) ↔ 4 ≤ l.length := by
    intro l
    constructor
    · exact fun h => h.2
    · intro h
      refine ⟨?_, h⟩
      intro he
      rw [he] at h
      simp at h
  unfold Binary64.detectAnomaly Binary64.anomalyIncrement bumpSuspicious
  simp only [hne]
  by_cases h1 : Binary64.speed vel > 40 <;>
    by_cases h2 : Binary64.speed vel > 35 <;>
    by_cases h3 : 4 ≤ (w.mobilityHistory i).length <;>
    simp [h1, h2, h3, add_assoc]

theorem Binary64.mlStep_mobility_double (mob : Mobility) (now : Time) (w : World) (i : Nat) :
    (Binary64.mlStep mob now w i).mobilityHistory =
      Function.update w.mobilityHistory i
        [(mob.position i).x, (mob.position i).y, (mob.velocity i).x, (mob.velocity i).y] := by
  have hm := (Binary64.detectAnomaly_frame_double i (mob.position i) (mob.velocity i)
    w).2.2.2.2.2.2
  unfold Binary64.mlStep
  simp only []
  split_ifs <;> exact hm

theorem Binary64.hybridStep_mobility_double (mob : Mobility) (now : Time) (w : World)
    (i : Nat) :
    (Binary64.hybridStep mob now w i).mobilityHistory =
      Function.update w.mobilityHistory i
        [(mob.position i).x, (mob.position i).y, (mob.velocity i).x, (mob.velocity i).y] := by
  have h := checkRuleBased_snd_eq i now
    (Binary64.detectAnomaly i (mob.position i) (mob.velocity i) w).2
  have hm := (Binary64.detectAnomaly_frame_double i (mob.position i) (mob.velocity i)
    w).2.2.2.2.2.2
  unfold Binary64.hybridStep
  simp only []
  split_ifs <;> rw [h] <;> exact hm

theorem fold_mobility_update (f : World → Nat → World) (g : Nat → List ℚ)
    (hf : ∀ w i, (f w i).mobilityHistory = Function.update w.mobilityHistory i (g i))
    (w : World) (n j : Nat) :
    ((List.range n).foldl f w).mobilityHistory j =
      if j < n then g j else w.mobilityHistory j := by
  induction n generalizing j with
  | zero => simp
  | succ n ih =>
    rw [List.range_succ, List.foldl_append, List.foldl_cons, List.foldl_nil, hf]
    by_cases hj : j = n
    · subst hj
      rw [Function.update_same, if_pos (Nat.lt_succ_self _)]
    · rw [Function.update_noteq hj, ih]
      by_cases hlt : j < n
      · rw [if_pos hlt, if_pos (by omega)]
      · rw [if_neg hlt, if_neg (by omega)]

theorem Binary64.UpdateTrustScores_mobility_double (cfg : Config) (mob : Mobility) (now : Time)
    (w : World) :
    (Binary64.UpdateTrustScores cfg mob now w).mobilityHistory = w.mobilityHistory :=
  foldl_preserves (fun w1 : World => w1.mobilityHistory = w.mobilityHistory)
    (Binary64.updateTrustStep cfg mob now) (fun _ _ h => h) _ _ rfl

theorem Binary64.exec_mobilityHistory_double (fmt : ℚ → List Char) (cfg : Config) (op : Op)
    (now : Time) (w w1 : World) (h : Binary64.exec fmt cfg op now w = some w1) (id : Nat) :
    w1.mobilityHistory id =
      match observationsOf cfg id [(op, now)] with
      | [] => w.mobilityHistory id
      | o :: _ => [o.1.x, o.1.y, o.2.x, o.2.y] := by
  by_cases h1 : ∀ mob, op ≠ Op.updateTrustScores mob
  · by_cases h2 : ∀ mob, op ≠ Op.runHybridDetection mob
    · by_cases h3 : ∀ mob, op ≠ Op.runMLDetection mob
      · rw [Binary64.exec_eq fmt cfg op now w h1 h2 h3] at h
        exact Vanet.exec_mobilityHistory fmt cfg op now w w1 h id
      · push_neg at h3
        obtain ⟨mob, rfl⟩ := h3
        simp only [Binary64.exec, Option.some.injEq] at h
        subst h
        unfold Binary64.RunMLDetection
        rw [fold_mobility_update (Binary64.mlStep mob now) _
          (fun w i => Binary64.mlStep_mobility_double mob now w i)]
        by_cases hlt : id < cfg.g_numVehicles <;> simp [observationsOf, hlt]
    · push_neg at h2
      obtain ⟨mob, rfl⟩ := h2
      simp only [Binary64.exec, Option.some.injEq] at h
      subst h
      unfold Binary64.RunHybridDetection
      rw [fold_mobility_update (Binary64.hybridStep mob now) _
        (fun w i => Binary64.hybridStep_mobility_double mob now w i)]
      by_cases hlt : id < cfg.g_numVehicles <;> simp [observationsOf, hlt]
  · push_neg at h1
    obtain ⟨mob, rfl⟩ := h1
    simp only [Binary64.exec, Option.some.injEq] at h
    subst h
    rw [Binary64.UpdateTrustScores_mobility_double]
    rfl

theorem Binary64.run_mobilityHistory_double (fmt : ℚ → List Char) (cfg : Config) (id : Nat)
    (trace : List (Op × Time)) :
    ∀ (w w1 : World) (pre : List (Vector × Vector)),
      w.mobilityHistory id = historyAfter pre →
      Binary64.run fmt cfg trace w = some w1 →
      w1.mobilityHistory id = historyAfter (pre ++ observationsOf cfg id trace) := by
  induction trace with
  | nil =>
    intro w w1 pre hpre h
    simp only [Binary64.run, Option.some.injEq] at h
    subst h
    simpa [observationsOf] using hpre
  | cons e rest ih =>
    intro w w1 pre hpre h
    simp only [Binary64.run] at h
    split at h
    · rename_i w2 he
      have hstep := Binary64.exec_mobilityHistory_double fmt cfg e.1 e.2 w w2 he id
      rw [observationsOf_cons, ← List.append_assoc]
      refine ih w2 w1 (pre ++ observationsOf cfg id [e]) ?_ h
      have hl := observationsOf_single_length cfg id e
      rw [show ((e.1, e.2) : Op × Time) = e from rfl] at hstep
      match hb : observationsOf cfg id [e] with
      | [] =>
        rw [hb] at hstep
        simp only [] at hstep
        rw [hstep, hpre, List.append_nil]
      | [o] =>
        rw [hb] at hstep
        simp only [] at hstep
        rw [hstep]
        simp [historyAfter]
      | o :: t :: r =>
        rw [hb] at hl
        simp at hl
    · cases h

theorem Binary64.exec_trustHistory_double (fmt : ℚ → List Char) (cfg : Config) (op : Op)
    (now : Time) (w w1 : World) (h : Binary64.exec fmt cfg op now w = some w1) (id : Nat) :
    w1.trustHistory id =
      match Binary64.scoresOf cfg id [(op, now)] with
      | [] => w.trustHistory id
      | s :: _ => pushBounded 100 (w.trustHistory id) s := by
  by_cases hop : ∀ mob, op ≠ Op.updateTrustScores mob
  · obtain ⟨f1, -, -⟩ := Binary64.exec_trust_frame_double fmt cfg op now w w1 h hop
    rw [f1]
    cases op with
    | updateTrustScores mob => exact absurd rfl (hop mob)
    | _ => rfl
  · push_neg at hop
    obtain ⟨mob, rfl⟩ := hop
    simp only [Binary64.exec, Option.some.injEq] at h
    subst h
    unfold Binary64.UpdateTrustScores
    rw [Binary64.updateTrust_history]
    by_cases hlt : id < cfg.g_numVehicles <;> simp [Binary64.scoresOf, hlt]

theorem Binary64.scoresOf_cons_double (cfg : Config) (id : Nat) (e : Op × Time)
    (rest : List (Op × Time)) :
    Binary64.scoresOf cfg id (e :: rest) =
      Binary64.scoresOf cfg id [e] ++ Binary64.scoresOf cfg id rest := by
  obtain ⟨op, now⟩ := e
  cases op with
  | updateTrustScores mob =>
    by_cases hi : id < cfg.g_numVehicles <;> simp [Binary64.scoresOf, hi]
  | _ => simp [Binary64.scoresOf]

theorem Binary64.scoresOf_single_length_double (cfg : Config) (id : Nat) (e : Op × Time) :
    (Binary64.scoresOf cfg id [e]).length ≤ 1 := by
  obtain ⟨op, now⟩ := e
  cases op with
  | updateTrustScores mob =>
    by_cases hi : id < cfg.g_numVehicles <;> simp [Binary64.scoresOf, hi]
  | _ => simp [Binary64.scoresOf]

theorem Binary64.run_trustHistory_double (fmt : ℚ → List Char) (cfg : Config) (id : Nat)
    (trace : List (Op × Time)) :
    ∀ (w w1 : World) (pre : List ℚ),
      w.trustHistory id = pre.drop (pre.length - 100) →
      Binary64.run fmt cfg trace w = some w1 →
      w1.trustHistory id =
        (pre ++ Binary64.scoresOf cfg id trace).drop
          ((pre ++ Binary64.scoresOf cfg id trace).length - 100) := by
  induction trace with
  | nil =>
    intro w w1 pre hpre h
    simp only [Binary64.run, Option.some.injEq] at h
    subst h
    simpa [Binary64.scoresOf] using hpre
  | cons e rest ih =>
    intro w w1 pre hpre h
    simp only [Binary64.run] at h
    split at h
    · rename_i w2 he
      have hstep := Binary64.exec_trustHistory_double fmt cfg e.1 e.2 w w2 he id
      rw [Binary64.scoresOf_cons_double, ← List.append_assoc]
      refine ih w2 w1 (pre ++ Binary64.scoresOf cfg id [e]) ?_ h
      have hl := Binary64.scoresOf_single_length_double cfg id e
      rw [show ((e.1, e.2) : Op × Time) = e from rfl] at hstep
      match hb : Binary64.scoresOf cfg id [e] with
      | [] =>
        rw [hb] at hstep
        simp only [] at hstep
        rw [hstep, hpre, List.append_nil]
      | [s] =>
        rw [hb] at hstep
        simp only [] at hstep
        rw [hstep, hpre, pushBounded_drop 100 pre s (by norm_num)]
      | s :: t :: r =>
        rw [hb] at hl
        simp at hl
    · cases h

theorem Binary64.run_TrustState (fmt : ℚ → List Char) (cfg : Config)
    (trace : List (Op × Time)) (w : World)
    (h : Binary64.run fmt cfg trace World.init = some w) : Binary64.TrustState w :=
  Binary64.Reachable_TrustState fmt cfg w
    (Binary64.run_reachable fmt cfg trace World.init w Binary64.Reachable.init h)

theorem sum_le_of_exists (d : ℚ) (hd : 0 ≤ d) (l : List ℚ) (h : ∀ x ∈ l, x ≤ 1)
    (hx : ∃ x ∈ l, x ≤ 1 - d) : l.sum ≤ l.length - d := by
  induction l with
  | nil =>
    obtain ⟨x, hx1, -⟩ := hx
    simp at hx1
  | cons a l ih =>
    have ha := h a (List.mem_cons_self a l)
    have hl : l.sum ≤ l.length := by
      have := List.sum_le_card_nsmul l 1 (fun x hx => h x (List.mem_cons_of_mem a hx))
      simpa using this
    simp only [List.sum_cons, List.length_cons, Nat.cast_add, Nat.cast_one]
    obtain ⟨x, hx1, hx2⟩ := hx
    rcases List.mem_cons.1 hx1 with he | hm
    · rw [he] at hx2
      linarith
    · have := ih (fun y hy => h y (List.mem_cons_of_mem a hy)) ⟨x, hm, hx2⟩
      linarith

theorem Binary64.ones_mean :
    ∀ n < 101, 0 < n → Binary64.avgTrust 1 (List.replicate n 1) = 1 := by
  decide!

theorem Binary64.score_ne_one (x : ℚ)
    (h : x = 1 ∨ x = Binary64.toDouble (9 / 10) ∨ x = Binary64.toDouble (7 / 10) ∨
      x = Binary64.toDouble (3 / 5)) (hx : x ≠ 1) : x ≤ 1 - 9 / 100 := by
  obtain ⟨c6, c7, c9⟩ := Binary64.constants
  rw [c6, c7, c9] at h
  rcases h with h | h | h | h
  · exact absurd h hx
  · rw [h]; norm_num
  · rw [h]; norm_num
  · rw [h]; norm_num

/-- An unpenalised evaluation in `double` arithmetic: the computed mean of the history after
pushing the score `1.0` is within `208 * 2^-53` below the computed mean before, and it is not
below it at all unless the history is full and the evicted score is `1.0`. -/
theorem Binary64.push_one_mean (h : List ℚ) (hne : h ≠ []) (hlen : h.length ≤ 100)
    (hl : ∀ x ∈ h, x = 1 ∨ x = Binary64.toDouble (9 / 10) ∨ x = Binary64.toDouble (7 / 10) ∨
      x = Binary64.toDouble (3 / 5)) :
    Binary64.avgTrust 1 h - 208 / 9007199254740992 ≤
        Binary64.avgTrust 1 (pushBounded 100 h 1) ∧
      (¬ (h.length = 100 ∧ h.head? = some 1) →
        Binary64.avgTrust 1 h ≤ Binary64.avgTrust 1 (pushBounded 100 h 1)) := by
  have hb : ∀ x ∈ h, 0 ≤ x ∧ x ≤ 1 := fun x hx => (Binary64.score_bounds x (hl x hx)).1
  have hne2 := pushBounded_ne_nil 100 h (1 : ℚ) (by norm_num)
  have hlen2 := pushBounded_length_le 100 h (1 : ℚ) hlen
  have hb2 : ∀ x ∈ pushBounded 100 h (1 : ℚ), 0 ≤ x ∧ x ≤ 1 := by
    intro x hx
    rcases mem_pushBounded _ _ _ _ hx with h1 | h1
    · exact hb x h1
    · rw [h1]
      norm_num
  have n1 := Binary64.avgTrust_near h hne hb hlen 1
  have n2 := Binary64.avgTrust_near _ hne2 hb2 hlen2 1
  obtain ⟨n1a, n1b⟩ := abs_le.1 n1
  obtain ⟨n2a, n2b⟩ := abs_le.1 n2
  have hmono := mean_push_one h hne hb
  have hex : Vanet.avgTrust 1 (pushBounded 100 h 1) =
      (pushBounded 100 h (1 : ℚ)).sum / (pushBounded 100 h (1 : ℚ)).length := by
    unfold Vanet.avgTrust
    rw [if_pos hne2]
  rw [hex] at hmono
  refine ⟨by linarith, ?_⟩
  intro hcase
  have hpos : 0 < h.length := List.length_pos.2 hne
  have hn1 : (1 : ℚ) ≤ h.length := by exact_mod_cast hpos
  have hn100 : (h.length : ℚ) ≤ 100 := by exact_mod_cast hlen
  have hsum := sum_bounds h hb
  by_cases hfull : h.length = 100
  · -- full window: the evicted score is penalised
    cases h with
    | nil => exact absurd rfl hne
    | cons e tl =>
      have he1 : e ≠ 1 := by
        intro he
        apply hcase
        refine ⟨hfull, ?_⟩
        rw [he]
        rfl
      have he2 := Binary64.score_ne_one e (hl e (List.mem_cons_self e tl)) he1
      have htl : tl.length = 99 := by
        simp only [List.length_cons] at hfull
        omega
      have hp : pushBounded 100 (e :: tl) (1 : ℚ) = tl ++ [1] := by
        unfold pushBounded
        simp only [List.cons_append, List.length_cons, List.length_append,
          List.length_singleton, htl]
        rw [if_pos (by norm_num)]
        rfl
      rw [hp] at n2a n2b ⊢
      simp only [List.sum_append, List.sum_singleton, List.length_append,
        List.length_singleton, htl, List.sum_cons, List.length_cons] at n1a n1b n2a n2b
      norm_num at n1a n1b n2a n2b
      linarith
  · -- growing window
    have hlt : h.length < 100 := by omega
    have hp : pushBounded 100 h (1 : ℚ) = h ++ [1] := by
      unfold pushBounded
      simp only [List.length_append, List.length_singleton]
      rw [if_neg (by omega)]
    by_cases hall : ∀ x ∈ h, x = 1
    · have hrep : h = List.replicate h.length 1 := List.eq_replicate_iff.2 ⟨rfl, hall⟩
      have hrep2 : h ++ [1] = List.replicate (h.length + 1) (1 : ℚ) := by
        rw [List.replicate_succ']
        rw [← hrep]
      rw [hp, hrep2, Binary64.ones_mean (h.length + 1) (by omega) (by omega)]
      rw [hrep, Binary64.ones_mean h.length (by omega) hpos]
    · push_neg at hall
      obtain ⟨x, hx1, hx2⟩ := hall
      have hx3 := Binary64.score_ne_one x (hl x hx1) hx2
      have hS := sum_le_of_exists (9 / 100) (by norm_num) h (fun y hy => (hb y hy).2)
        ⟨x, hx1, hx3⟩
      rw [hp] at n2a n2b ⊢
      simp only [List.sum_append, List.sum_singleton, List.length_append,
        List.length_singleton, Nat.cast_add, Nat.cast_one] at n2a n2b
      have hgap : h.sum / h.length + 9 / 1010000 ≤ (h.sum + 1) / ((h.length : ℚ) + 1) := by
        rw [div_add' _ _ _ (by linarith : (h.length : ℚ) ≠ 0),
          div_le_div_iff₀ (by linarith) (by linarith)]
        nlinarith
      linarith

theorem fastTrace_run :
    Binary64.run sampleFmt floodCfg fastTrace World.init = some fastWorld := rfl

theorem dipTrace_run (k : Nat) :
    Binary64.run sampleFmt floodCfg (dipTrace k) World.init = some (dipWorld k) := by
  induction k with
  | zero => rfl
  | succ k ih =>
    rw [dipTrace, Binary64.run_append, ih]
    rfl

theorem Ostream.pow10_eq_zpow (e : Int) : Ostream.pow10 e = (10 : ℚ) ^ e := by
  unfold Ostream.pow10
  split_ifs with h
  · obtain ⟨n, rfl⟩ := Int.eq_ofNat_of_zero_le h
    simp
  · have hn : 0 ≤ -e := by omega
    obtain ⟨n, hn1⟩ := Int.eq_ofNat_of_zero_le hn
    have he : e = -(n : Int) := by omega
    subst he
    simp

theorem Ostream.log10Aux_spec (fuel : Nat) :
    ∀ n, n ≤ fuel → 1 ≤ n →
      10 ^ Ostream.log10Aux fuel n ≤ n ∧ n < 10 ^ (Ostream.log10Aux fuel n + 1) := by
  induction fuel with
  | zero => intro n h1 h2; omega
  | succ fuel ih =>
    intro n h1 h2
    unfold Ostream.log10Aux
    split_ifs with h
    · simp
      omega
    · obtain ⟨i1, i2⟩ := ih (n / 10) (by omega) (by omega)
      rw [pow_succ, pow_succ]
      rw [pow_succ] at i2
      constructor <;> omega

theorem Ostream.ilog10_spec (n : Nat) (h : 1 ≤ n) :
    10 ^ Ostream.ilog10 n ≤ n ∧ n < 10 ^ (Ostream.ilog10 n + 1) :=
  Ostream.log10Aux_spec n n le_rfl h

theorem Ostream.exponent10_bounds (q : ℚ) (hq : 0 < q) :
    (10 : ℚ) ^ (Ostream.exponent10 q) ≤ q ∧ q < (10 : ℚ) ^ (Ostream.exponent10 q + 1) := by
  have hnum : 0 < q.num := Rat.num_pos.2 hq
  have hden : 1 ≤ q.den := q.den_pos
  have hna : 1 ≤ q.num.natAbs := by omega
  obtain ⟨a1, a2⟩ := Ostream.ilog10_spec q.num.natAbs hna
  obtain ⟨b1, b2⟩ := Ostream.ilog10_spec q.den hden
  have hq2 : q = (q.num.natAbs : ℚ) / (q.den : ℚ) := by
    have h1 : ((q.num.natAbs : Int) : ℚ) = (q.num : ℚ) := by
      rw [Int.natAbs_of_nonneg hnum.le]
    have h2 : ((q.num.natAbs : ℕ) : ℚ) = ((q.num.natAbs : Int) : ℚ) :=
      (Int.cast_natCast _).symm
    rw [h2, h1]
    exact (Rat.num_div_den q).symm
  have e1 : ((10 : ℚ) ^ (Ostream.ilog10 q.num.natAbs)) ≤ (q.num.natAbs : ℚ) := by
    exact_mod_cast a1
  have e1' : (q.num.natAbs : ℚ) < (10 : ℚ) ^ (Ostream.ilog10 q.num.natAbs + 1) := by
    exact_mod_cast a2
  have e2 : (q.den : ℚ) ≤ (10 : ℚ) ^ (Ostream.ilog10 q.den + 1) := by
    exact_mod_cast b2.le
  have e2' : ((10 : ℚ) ^ (Ostream.ilog10 q.den)) ≤ (q.den : ℚ) := by
    exact_mod_cast b1
  have hdpos : (0 : ℚ) < (q.den : ℚ) := by exact_mod_cast hden
  unfold Ostream.exponent10
  simp only [Ostream.pow10_eq_zpow, abs_of_pos hq]
  split_ifs with h
  · refine ⟨h, ?_⟩
    have key : (10 : ℚ) ^ ((Ostream.ilog10 q.num.natAbs : Int) - (Ostream.ilog10 q.den : Int) + 1)
        = (10 : ℚ) ^ (Ostream.ilog10 q.num.natAbs + 1) / (10 : ℚ) ^ (Ostream.ilog10 q.den) := by
      rw [show ((Ostream.ilog10 q.num.natAbs : Int) - (Ostream.ilog10 q.den : Int) + 1) =
        ((Ostream.ilog10 q.num.natAbs + 1 : ℕ) : Int) - ((Ostream.ilog10 q.den : ℕ) : Int) by
          push_cast; ring]
      rw [zpow_sub₀ (by norm_num : (10 : ℚ) ≠ 0), zpow_natCast, zpow_natCast]
    rw [key]
    conv_lhs => rw [hq2]
    have hp : (0 : ℚ) < (10 : ℚ) ^ (Ostream.ilog10 q.den) := by positivity
    rw [div_lt_div_iff₀ hdpos hp]
    calc (q.num.natAbs : ℚ) * 10 ^ Ostream.ilog10 q.den
        ≤ (q.num.natAbs : ℚ) * (q.den : ℚ) := by
          apply mul_le_mul_of_nonneg_left e2'
          positivity
      _ < 10 ^ (Ostream.ilog10 q.num.natAbs + 1) * (q.den : ℚ) :=
          mul_lt_mul_of_pos_right e1' hdpos
  · constructor
    · have key : (10 : ℚ) ^
          ((Ostream.ilog10 q.num.natAbs : Int) - (Ostream.ilog10 q.den : Int) - 1)
          = (10 : ℚ) ^ (Ostream.ilog10 q.num.natAbs) /
            (10 : ℚ) ^ (Ostream.ilog10 q.den + 1) := by
        rw [show ((Ostream.ilog10 q.num.natAbs : Int) - (Ostream.ilog10 q.den : Int) - 1) =
          (Ostream.ilog10 q.num.natAbs : Int) - ((Ostream.ilog10 q.den + 1 : ℕ) : Int) by
            push_cast; ring]
        rw [zpow_sub₀ (by norm_num : (10 : ℚ) ≠ 0), zpow_natCast, zpow_natCast]
      rw [key]
      conv_rhs => rw [hq2]
      exact div_le_div₀ (by positivity) e1 hdpos e2
    · rw [show (Ostream.ilog10 q.num.natAbs : Int) - (Ostream.ilog10 q.den : Int) - 1 + 1 =
        (Ostream.ilog10 q.num.natAbs : Int) - (Ostream.ilog10 q.den : Int) by ring]
      exact not_le.1 h

theorem Ostream.exponent10_unique (q : ℚ) (e : Int) (h1 : (10 : ℚ) ^ e ≤ q)
    (h2 : q < (10 : ℚ) ^ (e + 1)) : Ostream.exponent10 q = e := by
  have hq : 0 < q := lt_of_lt_of_le (by positivity) h1
  obtain ⟨a1, a2⟩ := Ostream.exponent10_bounds q hq
  by_contra hne
  rcases lt_or_gt_of_ne hne with hlt | hgt
  · have : (10 : ℚ) ^ (Ostream.exponent10 q + 1) ≤ (10 : ℚ) ^ e :=
      zpow_le_zpow_right₀ (by norm_num) (by omega)
    linarith
  · have : (10 : ℚ) ^ (e + 1) ≤ (10 : ℚ) ^ (Ostream.exponent10 q) :=
      zpow_le_zpow_right₀ (by norm_num) (by omega)
    linarith

theorem Binary64.roundHalfEven_eq_of_near (r : ℚ) (m : Int) (h : |r - (m : ℚ)| < 1 / 2) :
    Binary64.roundHalfEven r = m := by
  obtain ⟨h1, h2⟩ := abs_lt.1 h
  have hle := Binary64.roundHalfEven_le_of_lt r m (by linarith)
  have hge : m ≤ Binary64.roundHalfEven r := by
    have hf1 : m - 1 ≤ ⌊r⌋ := by
      rw [Int.le_floor]
      push_cast
      linarith
    have hfr : r < ((⌊r⌋ : Int) : ℚ) + 1 := Int.lt_floor_add_one r
    unfold Binary64.roundHalfEven
    simp only []
    split_ifs with a b c
    · by_contra hc
      have he : ⌊r⌋ = m - 1 := by omega
      rw [he] at a
      push_cast at a
      linarith
    · omega
    · by_contra hc
      have he : ⌊r⌋ = m - 1 := by omega
      rw [he] at a b
      push_cast at a b
      linarith
    · omega
  omega

theorem Ostream.sixDigits_of_near (d : ℚ) (e K : Int) (h1 : (10 : ℚ) ^ e ≤ d)
    (h2 : d < (10 : ℚ) ^ (e + 1)) (h3 : |d / (10 : ℚ) ^ (e - 5) - (K : ℚ)| < 1 / 2) :
    Ostream.sixDigits d = (K : ℚ) * (10 : ℚ) ^ (e - 5) := by
  have hd : 0 < d := lt_of_lt_of_le (by positivity) h1
  unfold Ostream.sixDigits
  rw [if_neg hd.ne', Ostream.pow10_eq_zpow, Ostream.exponent10_unique d e h1 h2,
    Binary64.roundHalfEven_eq_of_near _ K h3]

theorem Ostream.sixDigits_decade (m lo c : Nat) (e : Int) (hlo : 1 ≤ lo) (hc : c * lo = 10000)
    (hpe : (10 : ℚ) ^ e = (lo : ℚ)) (hl : 10 * lo ≤ m) (hu : m < 100 * lo) :
    Ostream.sixDigits (Binary64.toDouble ((m : ℚ) / 10)) = (m : ℚ) / 10 := by
  have hq0 : (0 : ℚ) ≤ (m : ℚ) / 10 := by positivity
  have hnear := Binary64.toDouble_near ((m : ℚ) / 10) hq0
  obtain ⟨n1, n2⟩ := abs_le.1 hnear
  have hlq : (10 : ℚ) * (lo : ℚ) ≤ (m : ℚ) := by exact_mod_cast hl
  have huq : (m : ℚ) + 1 ≤ 100 * (lo : ℚ) := by
    have : m + 1 ≤ 100 * lo := by omega
    exact_mod_cast this
  have hlo1 : (1 : ℚ) ≤ (lo : ℚ) := by exact_mod_cast hlo
  have hcq : (c : ℚ) * (lo : ℚ) = 10000 := by exact_mod_cast hc
  have hc1 : (1 : ℚ) ≤ (c : ℚ) := by
    have : 1 ≤ c := by
      rcases Nat.eq_zero_or_pos c with h0 | hp
      · rw [h0] at hc
        simp at hc
      · exact hp
    exact_mod_cast this
  have hlo2 : (lo : ℚ) ≤ 10000 := by nlinarith
  have hck : (c : ℚ) ≤ 10000 := by nlinarith
  have hlopos : (0 : ℚ) < (lo : ℚ) := by linarith
  have hpe1 : (10 : ℚ) ^ (e + 1) = 10 * (lo : ℚ) := by
    rw [zpow_add₀ (by norm_num : (10 : ℚ) ≠ 0), hpe]
    norm_num
    ring
  have hpe5 : (10 : ℚ) ^ (e - 5) = (lo : ℚ) / 100000 := by
    rw [zpow_sub₀ (by norm_num : (10 : ℚ) ≠ 0), hpe]
    norm_num
  have hlo' : (2 * lo : ℕ) ≤ 2 ^ 53 := by
    have h1 : lo ≤ 10000 := by exact_mod_cast hlo2
    have h2 : (2 : ℕ) ^ 53 = 9007199254740992 := by norm_num
    omega
  have hge := Binary64.toDouble_ge ((m : ℚ) / 10) (2 * lo) hlo' (by
    push_cast
    linarith)
  push_cast at hge
  have hmq : (m : ℚ) ≤ 1000000 := by nlinarith
  have hdiv : Binary64.toDouble ((m : ℚ) / 10) / ((lo : ℚ) / 100000) =
      Binary64.toDouble ((m : ℚ) / 10) * (10 * (c : ℚ)) := by
    rw [div_div_eq_mul_div, div_eq_iff hlopos.ne']
    have h5 : (10 : ℚ) * (c : ℚ) * (lo : ℚ) = 100000 := by linarith
    calc Binary64.toDouble ((m : ℚ) / 10) * 100000
        = Binary64.toDouble ((m : ℚ) / 10) * (10 * (c : ℚ) * (lo : ℚ)) := by rw [h5]
      _ = _ := by ring
  have hdev : |Binary64.toDouble ((m : ℚ) / 10) - (m : ℚ) / 10| ≤ 1 / 90071992547 := by
    refine le_trans hnear ?_
    rw [div_le_iff₀ (by norm_num)]
    linarith
  obtain ⟨v1, v2⟩ := abs_le.1 hdev
  have hr := Ostream.sixDigits_of_near (Binary64.toDouble ((m : ℚ) / 10)) e
    ((m * c : ℕ) : Int) (by rw [hpe]; linarith) (by rw [hpe1]; linarith) (by
      rw [hpe5, hdiv, abs_lt]
      push_cast
      have e1 : Binary64.toDouble ((m : ℚ) / 10) * (10 * (c : ℚ)) - (m : ℚ) * (c : ℚ) =
          (Binary64.toDouble ((m : ℚ) / 10) - (m : ℚ) / 10) * (10 * (c : ℚ)) := by ring
      rw [e1]
      have hcpos : (0 : ℚ) < 10 * (c : ℚ) := by linarith
      have hc5 : 10 * (c : ℚ) ≤ 100000 := by linarith
      constructor
      · have : -(1 / 90071992547) * (10 * (c : ℚ)) ≤
            (Binary64.toDouble ((m : ℚ) / 10) - (m : ℚ) / 10) * (10 * (c : ℚ)) :=
          mul_le_mul_of_nonneg_right v1 hcpos.le
        have : (1 / 90071992547 : ℚ) * (10 * (c : ℚ)) ≤ 1 / 90071992547 * 100000 :=
          mul_le_mul_of_nonneg_left hc5 (by norm_num)
        norm_num at this ⊢
        linarith
      · have : (Binary64.toDouble ((m : ℚ) / 10) - (m : ℚ) / 10) * (10 * (c : ℚ)) ≤
            1 / 90071992547 * (10 * (c : ℚ)) :=
          mul_le_mul_of_nonneg_right v2 hcpos.le
        have : (1 / 90071992547 : ℚ) * (10 * (c : ℚ)) ≤ 1 / 90071992547 * 100000 :=
          mul_le_mul_of_nonneg_left hc5 (by norm_num)
        norm_num at this ⊢
        linarith)
  rw [hr, hpe5]
  push_cast
  have h6 : (m : ℚ) * (c : ℚ) * ((lo : ℚ) / 100000) = (m : ℚ) * ((c : ℚ) * (lo : ℚ)) / 100000 := by
    ring
  rw [h6, hcq]
  ring

/-- A time with one decimal below 100000 s prints as itself: the conversion to `double` and
the rounding to 6 significant digits give back `m / 10`. -/
theorem Ostream.sixDigits_tenths (m : Nat) (h1 : 10 ≤ m) (h2 : m < 1000000) :
    Ostream.sixDigits (Binary64.toDouble ((m : ℚ) / 10)) = (m : ℚ) / 10 := by
  by_cases c1 : m < 100
  · exact Ostream.sixDigits_decade m 1 10000 0 (by norm_num) (by norm_num) (by norm_num)
      (by omega) (by omega)
  · by_cases c2 : m < 1000
    · exact Ostream.sixDigits_decade m 10 1000 1 (by norm_num) (by norm_num) (by norm_num)
        (by omega) (by omega)
    · by_cases c3 : m < 10000
      · exact Ostream.sixDigits_decade m 100 100 2 (by norm_num) (by norm_num) (by norm_num)
          (by omega) (by omega)
      · by_cases c4 : m < 100000
        · exact Ostream.sixDigits_decade m 1000 10 3 (by norm_num) (by norm_num) (by norm_num)
            (by omega) (by omega)
        · exact Ostream.sixDigits_decade m 10000 1 4 (by norm_num) (by norm_num) (by norm_num)
            (by omega) (by omega)

theorem pendingBeacons_append (l1 l2 : List (Callback × Time)) :
    pendingBeacons (l1 ++ l2) = pendingBeacons l1 ++ pendingBeacons l2 := by
  induction l1 with
  | nil => rfl
  | cons e rest ih =>
    obtain ⟨cb, t⟩ := e
    cases cb <;> simp [pendingBeacons, ih]

theorem pendingBeacons_apps (l : List Nat) :
    pendingBeacons (l.map (fun i => (Callback.startApplication i, (1000000000 : Time)))) =
      l.map (fun i => (i, (1000000000 : Time))) := by
  induction l with
  | nil => rfl
  | cons i rest ih => simp [pendingBeacons, ih]

/-- The beacon events `main` leaves in the scheduler: one per vehicle, at 1.0 s. -/
theorem main_pendingBeacons (cfg : Config) (evs : List (Callback × Time))
    (h : main cfg = Except.ok evs) :
    pendingBeacons evs =
      (List.range cfg.g_numVehicles).map (fun i => (i, (1000000000 : Time))) := by
  unfold main at h
  rw [installApps_ok cfg _ (fun i hi => List.mem_range.1 hi)] at h
  simp only at h
  split at h
  · exact absurd h (by simp)
  · rename_i jam hj
    simp only [Except.ok.injEq] at h
    rw [← h]
    have hjam : pendingBeacons jam = [] := by
      split_ifs at hj with c1
      · split at hj
        · simp only [Except.ok.injEq] at hj
          rw [← hj]
          rfl
        · exact absurd hj (by simp)
      · simp only [Except.ok.injEq] at hj
        rw [← hj]
        rfl
    simp only [pendingBeacons_append, pendingBeacons_apps, hjam]
    have e1 : ∀ (c : Prop) [Decidable c] (x : Callback × Time), pendingBeacons [x] = [] →
        pendingBeacons (if c then [x] else []) = [] := by
      intro c _ x hx
      split_ifs
      · exact hx
      · rfl
    rw [e1 _ (Callback.injectDdosAttack 5, 3000000000) rfl,
      e1 _ (Callback.injectSybilAttack 10, 4000000000) rfl,
      e1 _ (Callback.injectReplayAttack 15, 6000000000) rfl,
      e1 _ (Callback.injectMsgFalsification 20, 8000000000) rfl,
      e1 _ (Callback.updateTrustScores, 1000000000) rfl,
      e1 _ (Callback.runMLDetection, 1000000000) rfl,
      e1 _ (Callback.updateRuleBasedDetection, 500000000) rfl,
      e1 _ (Callback.runHybridDetection, 1500000000) rfl]
    simp [pendingBeacons]

theorem TickInv_start (cfg : Config) (n : Nat) :
    TickInv cfg (fun _ => 0) ((List.range n).map (fun i => (i, (1000000000 : Time)))) := by
  constructor
  · rw [List.map_map]
    have : (Prod.fst ∘ fun i : Nat => (i, (1000000000 : Time))) = id := rfl
    rw [this, List.map_id]
    exact List.nodup_range n
  · intro p hp
    obtain ⟨i, -, rfl⟩ := List.mem_map.1 hp
    rfl

/-- A tick that fires is the next tick of its node, and it leaves the schedule in order. -/
theorem fireBeacon_inv (cfg : Config) (c : Nat → Nat) (pending p1 : List (Nat × Time))
    (i : Nat) (now : Time) (hinv : TickInv cfg c pending)
    (h : fireBeacon (appOf cfg i) now pending = some p1) :
    now = tickTime (appOf cfg i) 1000000000 (c i) ∧
      TickInv cfg (Function.update c i (c i + 1)) p1 := by
  unfold fireBeacon at h
  rw [appOf_nodeId] at h
  split_ifs at h with hm
  simp only [Option.some.injEq] at h
  have hnow : now = tickTime (appOf cfg i) 1000000000 (c i) := hinv.2 _ hm
  refine ⟨hnow, ?_⟩
  have hnd : pending.Nodup := List.Nodup.of_map _ hinv.1
  have hkey : ∀ q ∈ pending.erase (i, now), q.1 ≠ i := by
    intro q hq
    rw [List.Nodup.mem_erase_iff hnd] at hq
    intro hqi
    apply hq.1
    have := hinv.2 q hq.2
    rw [hqi, ← hnow] at this
    exact Prod.ext hqi this
  rw [← h]
  constructor
  · rw [List.map_append, List.nodup_append]
    refine ⟨List.Nodup.sublist (List.Sublist.map _ (List.erase_sublist _ _)) hinv.1,
      List.nodup_singleton _, ?_⟩
    intro a ha hb
    simp only [List.map_cons, List.map_nil, List.mem_singleton] at hb
    obtain ⟨q, hq, rfl⟩ := List.mem_map.1 ha
    exact hkey q hq hb
  · intro q hq
    rcases List.mem_append.1 hq with hq1 | hq1
    · have hne := hkey q hq1
      rw [Function.update_noteq hne]
      exact hinv.2 q (List.mem_of_mem_erase hq1)
    · simp only [List.mem_singleton] at hq1
      subst hq1
      simp only [Function.update_same]
      rw [hnow]
      rfl

/-- A scheduled run is a run, and in it every node ticks at the times of its own schedule. -/
theorem scheduledRun_ticks (fmt : ℚ → List Char) (cfg : Config) (trace : List (Op × Time)) :
    ∀ (w : World) (pending : List (Nat × Time)) (c : Nat → Nat) (w1 : World)
      (p1 : List (Nat × Time)), TickInv cfg c pending →
      scheduledRun fmt cfg trace w pending = some (w1, p1) →
      run fmt cfg trace w = some w1 ∧
        ∀ i, ∃ n, ((ticksOf trace).filter (fun p => decide (p.1 = i))).map Prod.snd =
          (List.range' (c i) n).map (tickTime (appOf cfg i) 1000000000) := by
  induction trace with
  | nil =>
    intro w pending c w1 p1 _ h
    simp only [scheduledRun, Option.some.injEq, Prod.mk.injEq] at h
    refine ⟨by rw [← h.1]; rfl, fun i => ⟨0, rfl⟩⟩
  | cons e rest ih =>
    intro w pending c w1 p1 hinv h
    obtain ⟨op, now⟩ := e
    rw [scheduledRun] at h
    cases hs : scheduleBeacon cfg op now pending with
    | none => simp [hs] at h
    | some pending1 =>
      cases hx : exec fmt cfg op now w with
      | none => simp [hs, hx] at h
      | some w2 =>
        simp only [hs, hx] at h
        have hrun : run fmt cfg ((op, now) :: rest) w = run fmt cfg rest w2 := by
          simp only [run, hx]
        rw [hrun]
        by_cases hop : ∃ j pos vel, op = Op.sendBsm j pos vel
        · obtain ⟨j, pos, vel, rfl⟩ := hop
          simp only [scheduleBeacon] at hs
          obtain ⟨hnow, hinv1⟩ := fireBeacon_inv cfg c pending pending1 j now hinv hs
          obtain ⟨r1, r2⟩ := ih w2 pending1 _ w1 p1 hinv1 h
          refine ⟨r1, fun i => ?_⟩
          obtain ⟨n, hn⟩ := r2 i
          by_cases hij : j = i
          · subst hij
            rw [Function.update_same] at hn
            refine ⟨n + 1, ?_⟩
            simp only [ticksOf, List.filter_cons, decide_True, if_true, List.map_cons, hn,
              List.range'_succ, hnow]
          · rw [Function.update_noteq (Ne.symm hij)] at hn
            refine ⟨n, ?_⟩
            simp only [ticksOf, List.filter_cons, hij, decide_False]
            exact hn
        · have hp : pending1 = pending := by
            cases op <;> simp_all [scheduleBeacon]
          have ht : ticksOf ((op, now) :: rest) = ticksOf rest := by
            cases op <;> simp_all [ticksOf]
          rw [hp] at h
          obtain ⟨r1, r2⟩ := ih w2 pending c w1 p1 hinv h
          exact ⟨r1, fun i => by rw [ht]; exact r2 i⟩

/-- A scheduled run of the program from the state `main` leaves follows the tick schedule. -/
theorem scheduledRun_periodic (fmt : ℚ → List Char) (cfg : Config)
    (evs : List (Callback × Time)) (trace : List (Op × Time)) (w : World)
    (p : List (Nat × Time)) (hmain : main cfg = Except.ok evs)
    (hrun : scheduledRun fmt cfg trace World.init (pendingBeacons evs) = some (w, p)) :
    run fmt cfg trace World.init = some w ∧ Periodic cfg trace := by
  rw [main_pendingBeacons cfg evs hmain] at hrun
  obtain ⟨r1, r2⟩ := scheduledRun_ticks fmt cfg trace World.init _ (fun _ => 0) w p
    (TickInv_start cfg _) hrun
  refine ⟨r1, fun i => ?_⟩
  obtain ⟨n, hn⟩ := r2 i
  exact ⟨n, by rw [hn, List.range_eq_range']⟩

/-- The beacon-log times of one sender in a scheduled run: `1.0 s + k * interval`. -/
theorem scheduledRun_times (fmt : ℚ → List Char) (cfg : Config)
    (evs : List (Callback × Time)) (trace : List (Op × Time)) (w : World)
    (p : List (Nat × Time)) (hmain : main cfg = Except.ok evs)
    (hrun : scheduledRun fmt cfg trace World.init (pendingBeacons evs) = some (w, p)) (i : Nat) :
    ∃ n, ((w.bsm_output.filter (fun r => decide (r.nodeId = i))).map BsmRow.t) =
      (List.range n).map (fun k : Nat => GetSeconds (1000000000 + k * cfg.g_bsmInterval)) := by
  obtain ⟨r1, hper⟩ := scheduledRun_periodic fmt cfg evs trace w p hmain hrun
  have hout : w.bsm_output = bsmRowsOf trace := by
    have := run_bsm_output fmt cfg trace World.init w r1
    rw [this]
    rfl
  obtain ⟨n, hn⟩ := hper i
  refine ⟨n, ?_⟩
  rw [hout, bsmRowsOf_keys, hn, List.map_map]
  apply List.map_congr_left
  intro k _
  simp only [Function.comp, tickTime_eq, appOf_interval]

/-- A node whose next tick is in the scheduler can tick any number of times in a row. -/
theorem scheduledRun_ticks_fire (fmt : ℚ → List Char) (cfg : Config) (i : Nat) (n : Nat) :
    ∀ (k : Nat) (w : World) (pending : List (Nat × Time)),
      (i, tickTime (appOf cfg i) 1000000000 k) ∈ pending →
      ∃ w1 p1, scheduledRun fmt cfg ((List.range' k n).map (fun k =>
        (Op.sendBsm i ⟨0, 0, 0⟩ ⟨0, 0, 0⟩, tickTime (appOf cfg i) 1000000000 k))) w pending =
          some (w1, p1) := by
  induction n with
  | zero =>
    intro k w pending _
    exact ⟨w, pending, rfl⟩
  | succ n ih =>
    intro k w pending hm
    rw [List.range'_succ, List.map_cons, scheduledRun]
    have hf : scheduleBeacon cfg (Op.sendBsm i ⟨0, 0, 0⟩ ⟨0, 0, 0⟩)
        (tickTime (appOf cfg i) 1000000000 k) pending =
        some (pending.erase (i, tickTime (appOf cfg i) 1000000000 k) ++
          [(i, tickTime (appOf cfg i) 1000000000 (k + 1))]) := by
      simp only [scheduleBeacon, fireBeacon, appOf_nodeId, hm, if_true]
      rfl
    simp only [hf, exec]
    exact ih (k + 1) _ _ (List.mem_append_right _ (List.mem_singleton_self _))

theorem beaconTrace_scheduled (fmt : ℚ → List Char) (cfg : Config)
    (evs : List (Callback × Time)) (i n : Nat) (hmain : main cfg = Except.ok evs)
    (hi : i < cfg.g_numVehicles) :
    ∃ w p, scheduledRun fmt cfg (beaconTrace cfg i n) World.init (pendingBeacons evs) =
      some (w, p) := by
  rw [main_pendingBeacons cfg evs hmain, beaconTrace, List.range_eq_range']
  exact scheduledRun_ticks_fire fmt cfg i n 0 World.init _
    (List.mem_map.2 ⟨i, List.mem_range.2 hi, rfl⟩)

/-- The element at position `k` of a list whose image under `f` is an initial segment of a
sequence `g` has the value `g k`. -/
theorem getElem?_of_map_eq {α β : Type} (l : List α) (f : α → β) (g : Nat → β) (n k : Nat)
    (a : α) (h : l.map f = (List.range n).map g) (hk : l[k]? = some a) : f a = g k := by
  have h1 : (l.map f)[k]? = some (f a) := by rw [List.getElem?_map, hk]; rfl
  rw [h] at h1
  rw [List.getElem?_map] at h1
  cases hr : (List.range n)[k]? with
  | none => rw [hr] at h1; simp at h1
  | some m =>
    rw [hr] at h1
    simp only [Option.map_some', Option.some.injEq] at h1
    have hm : m = k := by
      have := List.getElem?_eq_some.1 hr
      obtain ⟨hlt, he⟩ := this
      rw [List.getElem_range] at he
      exact he.symm
    rw [← hm, h1]

theorem sixDigits_100000 :
    Ostream.sixDigits (Binary64.toDouble 100000) = 100000 ∧
      Ostream.sixDigits (Binary64.toDouble (1000001 / 10)) = 100000 := by
  constructor <;> decide!
theorem main_default_ok : ∃ evs, main {} = Except.ok evs := by
  unfold main
  rw [installApps_ok {} _ (fun i hi => List.mem_range.1 hi)]
  exact ⟨_, rfl⟩

theorem bsmRowsOf_ticks (i : Nat) (f : Nat → Time) (l : List Nat) :
    bsmRowsOf (l.map (fun k => (Op.sendBsm i ⟨0, 0, 0⟩ ⟨0, 0, 0⟩, f k))) =
      l.map (fun k => BsmRow.mk i 0 0 0 0 (GetSeconds (f k))) := by
  induction l with
  | nil => rfl
  | cons k rest ih => simp only [List.map_cons, bsmRowsOf, ih]

theorem scheduledRun_bsm_output (fmt : ℚ → List Char) (cfg : Config)
    (evs : List (Callback × Time)) (trace : List (Op × Time)) (w : World)
    (p : List (Nat × Time)) (hmain : main cfg = Except.ok evs)
    (hrun : scheduledRun fmt cfg trace World.init (pendingBeacons evs) = some (w, p)) :
    w.bsm_output = bsmRowsOf trace := by
  have := run_bsm_output fmt cfg trace World.init w
    (scheduledRun_periodic fmt cfg evs trace w p hmain hrun).1
  rw [this]
  rfl

/-- In a scheduled run every beacon-log row carries a time `1.0 s + k * interval`. -/
theorem scheduledRun_row_time (fmt : ℚ → List Char) (cfg : Config)
    (evs : List (Callback × Time)) (trace : List (Op × Time)) (w : World)
    (p : List (Nat × Time)) (hmain : main cfg = Except.ok evs)
    (hrun : scheduledRun fmt cfg trace World.init (pendingBeacons evs) = some (w, p))
    (r : BsmRow) (hr : r ∈ w.bsm_output) :
    ∃ k : Nat, r.t = GetSeconds (1000000000 + k * cfg.g_bsmInterval) := by
  obtain ⟨n, hn⟩ := scheduledRun_times fmt cfg evs trace w p hmain hrun r.nodeId
  have hm : r.t ∈ (w.bsm_output.filter (fun q => decide (q.nodeId = r.nodeId))).map BsmRow.t :=
    List.mem_map.2 ⟨r, List.mem_filter.2 ⟨hr, by simp⟩, rfl⟩
  rw [hn] at hm
  obtain ⟨k, -, hk⟩ := List.mem_map.1 hm
  exact ⟨k, hk.symm⟩

/-! ## Claims -/

/-- C1: `checkRuleBased` evaluated at time `now` returns true if and only if more than 15 of
the stored timestamps `t` of the node satisfy `now - t ≤ 0.5 s` (500 000 000 ns, the bound
included), whatever the stored list is; the vector it leaves is exactly the stored timestamps
inside the window.  In particular `k` timestamps exactly 0.5 s old flag if and only if
`15 < k` (15 do not, 16 do), and a timestamp older than 0.5 s does not change the verdict. -/
theorem checkRuleBased_iff_window_count (nodeId : Nat) (now : Time) (w : World) :
    ((checkRuleBased nodeId now w).1 = true ↔
        15 < (w.packetTimestamps nodeId).countP (fun t => decide (now - t ≤ 500000000))) ∧
      (checkRuleBased nodeId now w).2.packetTimestamps nodeId =
        (w.packetTimestamps nodeId).filter (fun t => decide (now - t ≤ 500000000)) ∧
      (∀ k : Nat, (checkRuleBased nodeId now
        { w with packetTimestamps := fun _ => List.replicate k (now - 500000000) }).1 =
          decide (15 < k)) ∧
      (∀ old : Time, 500000000 < now - old →
        (checkRuleBased nodeId now
          { w with packetTimestamps := fun _ => old :: w.packetTimestamps nodeId }).1 =
          (checkRuleBased nodeId now w).1) := by
  refine ⟨?_, ?_, ?_, ?_⟩
  · rw [checkRuleBased_fst, pruneTimestamps_eq_filter, List.countP_eq_length_filter]
    simp
  · rw [checkRuleBased_packetTimestamps, Function.update_same, pruneTimestamps_eq_filter]
  · intro k
    rw [checkRuleBased_fst, pruneTimestamps_eq_filter]
    simp
  · intro old hold
    rw [checkRuleBased_fst, checkRuleBased_fst, pruneTimestamps_eq_filter,
      pruneTimestamps_eq_filter]
    rw [List.filter_cons_of_neg]
    simp only [decide_eq_true_eq]
    exact not_le.2 hold

/-- C3: in the state `w` left by any run from the start state, the replay buffer of node `id`
holds at most 50 entries, exactly `min n 50` of them where `n` is the number of ticks of `id`
so far, and it is the list of the last `min n 50` beacons `id` generated, in generation order.
At the next tick of `id` the newest entry is that tick's beacon, and when the buffer was full
the entry dropped is the oldest one. -/
theorem replayBuffer_last_50 (fmt : ℚ → List Char) (cfg : Config) (trace : List (Op × Time))
    (w : World) (id : Nat) (h : run fmt cfg trace World.init = some w) :
    (w.replayBuffers id).length ≤ 50 ∧
      (w.replayBuffers id).length = min (beaconsOf fmt id trace).length 50 ∧
      w.replayBuffers id =
        (beaconsOf fmt id trace).drop ((beaconsOf fmt id trace).length - 50) ∧
      (∀ pos vel now,
        ((SendBsm fmt (appOf cfg id) pos vel now w).replayBuffers id).getLast? =
          some (beaconOf fmt id pos vel now)) ∧
      (∀ pos vel now oldest rest, w.replayBuffers id = oldest :: rest → rest.length = 49 →
        (SendBsm fmt (appOf cfg id) pos vel now w).replayBuffers id =
          rest ++ [beaconOf fmt id pos vel now]) := by
  have key := run_replayBuffers fmt cfg id trace World.init w [] rfl h
  rw [List.nil_append] at key
  have hlen : (w.replayBuffers id).length = min (beaconsOf fmt id trace).length 50 := by
    rw [key, List.length_drop]
    omega
  refine ⟨by omega, hlen, key, ?_, ?_⟩
  · intro pos vel now
    rw [SendBsm_replayBuffers, appOf_nodeId, Function.update_same]
    unfold pushBounded
    simp only []
    split_ifs with hc
    · rw [← List.drop_one, List.getLast?_drop]
      simp only [List.length_append, List.length_singleton] at hc
      simp
      intro he
      rw [he] at hc
      simp at hc
    · simp
  · intro pos vel now oldest rest hw hr
    rw [SendBsm_replayBuffers, appOf_nodeId, Function.update_same, hw]
    unfold pushBounded
    simp [hr]

/-- Witness for C3: node 3 ticks twice with a rule-detector pass in between. -/
theorem replayBuffer_last_50_witness :
    run sampleFmt {} sampleTrace World.init = some sampleWorld ∧
      (sampleWorld.replayBuffers 3).length = min (beaconsOf sampleFmt 3 sampleTrace).length 50 :=
  ⟨rfl, (replayBuffer_last_50 sampleFmt {} sampleTrace sampleWorld 3 rfl).2.1⟩

/-- C4: in every reachable state, for every node id and every velocity, the score returned by
`calculateTrustScore` lies in `[0, 1]`; so do every value stored in `nodeTrust` and every score
written to the trust log. -/
theorem trust_score_in_unit_interval (fmt : ℚ → List Char) (cfg : Config) (w : World)
    (h : Reachable fmt cfg w) :
    (∀ (id : Nat) (pos vel : Vector) (t : Time),
        0 ≤ (calculateTrustScore cfg id pos vel t w).1 ∧
          (calculateTrustScore cfg id pos vel t w).1 ≤ 1) ∧
      (∀ id, 0 ≤ w.nodeTrust id ∧ w.nodeTrust id ≤ 1) ∧
      (∀ row ∈ w.trust_output, 0 ≤ row.trustScore ∧ row.trustScore ≤ 1) := by
  obtain ⟨h1, h2, h3⟩ := Reachable_TrustInv fmt cfg w h
  exact ⟨fun id pos vel t => (calculateTrustScore_bounds cfg id pos vel t w (h1 id)).1, h2, h3⟩

/-- Witness for C4: the state after one `UpdateTrustScores` pass from the start state. -/
theorem trust_score_in_unit_interval_witness :
    Reachable sampleFmt {} (UpdateTrustScores {} sampleMob 1000000000 World.init) ∧
      ∀ (id : Nat) (pos vel : Vector) (t : Time),
        0 ≤ (calculateTrustScore {} id pos vel t
            (UpdateTrustScores {} sampleMob 1000000000 World.init)).1 ∧
          (calculateTrustScore {} id pos vel t
            (UpdateTrustScores {} sampleMob 1000000000 World.init)).1 ≤ 1 :=
  ⟨Reachable.step World.init _ (Op.updateTrustScores sampleMob) 1000000000 Reachable.init rfl,
    (trust_score_in_unit_interval sampleFmt {} _
      (Reachable.step World.init _ (Op.updateTrustScores sampleMob) 1000000000
        Reachable.init rfl)).1⟩

/-- C7: for every node `j`, every callback of the program (any `Op`, at any time, with any
inputs) leaves `suspiciousCount[j]` at least as large as it was, and so does every run of
callbacks; the same holds for a single `detectAnomaly` call on any node, whoever makes it. -/
theorem suspiciousCount_nondecreasing (fmt : ℚ → List Char) (cfg : Config) (op : Op)
    (now : Time) (trace : List (Op × Time)) (w w1 w2 : World) (j : Nat)
    (h : exec fmt cfg op now w = some w1) (hrun : run fmt cfg trace w1 = some w2) :
    w.suspiciousCount j ≤ w1.suspiciousCount j ∧
      w1.suspiciousCount j ≤ w2.suspiciousCount j ∧
      ∀ (i : Nat) (pos vel : Vector),
        w.suspiciousCount j ≤ (detectAnomaly i pos vel w).2.suspiciousCount j :=
  ⟨exec_suspiciousCount fmt cfg op now w w1 h j, run_suspiciousCount fmt cfg trace j w1 w2 hrun,
    fun i pos vel => detectAnomaly_suspiciousCount i pos vel w j⟩

/-- Witness for C7: one `RunMLDetection` pass from the start state. -/
theorem suspiciousCount_nondecreasing_witness :
    exec sampleFmt {} (Op.runMLDetection sampleMob) 1000000000 World.init =
        some (RunMLDetection {} sampleMob 1000000000 World.init) ∧
      World.init.suspiciousCount 3 ≤
        (RunMLDetection {} sampleMob 1000000000 World.init).suspiciousCount 3 :=
  ⟨rfl, (suspiciousCount_nondecreasing sampleFmt {} (Op.runMLDetection sampleMob) 1000000000 []
    World.init (RunMLDetection {} sampleMob 1000000000 World.init)
    (RunMLDetection {} sampleMob 1000000000 World.init) 3 rfl rfl).1⟩

/-- C8: one beacon tick of a sybil attacker installed by `main` on node `a`, at position
`(x, y)`, appends exactly 5 rows to the sybil log, for `i = 1..5` in that order, with fake id
`a * 1000 + i`, attacker id `a` and position `(x + 10 * i, y + 10 * i)`; it hands the socket
exactly 5 packets, the beacons of the same 5 identities at the same positions; the 5 fake ids
are pairwise distinct.  The same rows and packets are produced by any sybil application whose
node id is small enough for `id * 1000 + 5` to fit `uint32_t`. -/
theorem sybil_tick_five_identities (fmt : ℚ → List Char) (cfg : Config) (a : Nat)
    (pos vel : Vector) (now : Time) (w : World)
    (h1 : (appOf cfg a).m_isAttacker = true) (h2 : (appOf cfg a).m_attackType = "sybil") :
    (SendBsm fmt (appOf cfg a) pos vel now w).sybil_output =
        w.sybil_output ++ [1, 2, 3, 4, 5].map (fun i : Nat =>
          SybilRow.fake (GetSeconds now) (a * 1000 + i) a (pos.x + 10 * i) (pos.y + 10 * i)) ∧
      (SendBsm fmt (appOf cfg a) pos vel now w).sent =
        w.sent ++ [1, 2, 3, 4, 5].map (fun i : Nat =>
          (a, bsmString fmt (a * 1000 + i) (pos.x + 10 * i) (pos.y + 10 * i) vel.x vel.y
            (GetSeconds now))) ∧
      ([1, 2, 3, 4, 5].map (fun i : Nat => a * 1000 + i)).Nodup ∧
      (∀ app : EnhancedBsmApp, app.m_isAttacker = true → app.m_attackType = "sybil" →
        app.nodeId * 1000 + 5 < 4294967296 →
        (SendBsm fmt app pos vel now w).sybil_output =
            w.sybil_output ++ [1, 2, 3, 4, 5].map (fun i : Nat =>
              SybilRow.fake (GetSeconds now) (app.nodeId * 1000 + i) app.nodeId
                (pos.x + 10 * i) (pos.y + 10 * i)) ∧
          (SendBsm fmt app pos vel now w).sent =
            w.sent ++ [1, 2, 3, 4, 5].map (fun i : Nat =>
              (app.nodeId, bsmString fmt (app.nodeId * 1000 + i) (pos.x + 10 * i)
                (pos.y + 10 * i) vel.x vel.y (GetSeconds now)))) := by
  have ha := appOf_sybil cfg a h1 h2
  have hid := appOf_nodeId cfg a
  have hrows := SendBsm_sybil_rows fmt (appOf cfg a) pos vel now w h1 h2
    (by rw [hid, ha]; norm_num)
  rw [hid] at hrows
  refine ⟨hrows.1, hrows.2, ?_, fun app g1 g2 g3 =>
    SendBsm_sybil_rows fmt app pos vel now w g1 g2 g3⟩
  subst ha
  decide

/-- Witness for C8: node 10 is the sybil attacker of the default configuration. -/
theorem sybil_tick_five_identities_witness :
    (appOf {} 10).m_isAttacker = true ∧ (appOf {} 10).m_attackType = "sybil" ∧
      (SendBsm sampleFmt (appOf {} 10) ⟨1, 2, 0⟩ ⟨3, 4, 0⟩ 1000000000 World.init).sybil_output =
        World.init.sybil_output ++ [1, 2, 3, 4, 5].map (fun i : Nat =>
          SybilRow.fake (GetSeconds 1000000000) (10 * 1000 + i) 10 ((1 : ℚ) + 10 * i)
            ((2 : ℚ) + 10 * i)) :=
  ⟨rfl, rfl, (sybil_tick_five_identities sampleFmt {} 10 ⟨1, 2, 0⟩ ⟨3, 4, 0⟩ 1000000000
    World.init rfl rfl).1⟩

/-- C9: for a replay attacker whose replay buffer is empty at a tick, that tick writes no
replay-log row and hands no packet to the socket, and leaves the buffer holding exactly the
beacon it built; at its next tick (in any state `mid` in which its buffer is still that one)
exactly one replay-log row is written and one packet sent, and the payload of both is, unchanged,
the beacon built at the first tick, with that tick's position, velocity and timestamp. -/
theorem replay_first_two_ticks (fmt : ℚ → List Char) (app : EnhancedBsmApp)
    (pos1 vel1 pos2 vel2 : Vector) (t1 t2 : Time) (w mid : World)
    (h1 : app.m_isAttacker = true) (h2 : app.m_attackType = "replay")
    (hempty : w.replayBuffers app.nodeId = [])
    (hmid : mid.replayBuffers app.nodeId =
      (SendBsm fmt app pos1 vel1 t1 w).replayBuffers app.nodeId) :
    (SendBsm fmt app pos1 vel1 t1 w).replay_output = w.replay_output ∧
      (SendBsm fmt app pos1 vel1 t1 w).sent = w.sent ∧
      (SendBsm fmt app pos1 vel1 t1 w).replayBuffers app.nodeId =
        [beaconOf fmt app.nodeId pos1 vel1 t1] ∧
      (SendBsm fmt app pos2 vel2 t2 mid).replay_output =
        mid.replay_output ++
          [ReplayRow.replayed (GetSeconds t2) app.nodeId (beaconOf fmt app.nodeId pos1 vel1 t1)] ∧
      (SendBsm fmt app pos2 vel2 t2 mid).sent =
        mid.sent ++ [(app.nodeId, beaconOf fmt app.nodeId pos1 vel1 t1)] := by
  have hbuf : (SendBsm fmt app pos1 vel1 t1 w).replayBuffers app.nodeId =
      [beaconOf fmt app.nodeId pos1 vel1 t1] := by
    rw [SendBsm_replayBuffers, Function.update_same, hempty]
    simp [pushBounded]
  obtain ⟨w0, e1, -, e3, -, e5, s1, -, s3, -⟩ := SendBsm_streams fmt app pos1 vel1 t1 w
  obtain ⟨r1, r2⟩ := transmit_replay fmt app pos1 vel1 t1
    (beaconOf fmt app.nodeId pos1 vel1 t1) w0 h1 h2
  obtain ⟨m0, f1, -, f3, -, f5, u1, -, u3, -⟩ := SendBsm_streams fmt app pos2 vel2 t2 mid
  obtain ⟨q1, q2⟩ := transmit_replay fmt app pos2 vel2 t2
    (beaconOf fmt app.nodeId pos2 vel2 t2) m0 h1 h2
  refine ⟨?_, ?_, hbuf, ?_, ?_⟩
  · rw [s3, r1, e5, hempty, e3]
    simp [Option.toList]
  · rw [s1, r2, e5, hempty, e1]
    simp [Option.toList]
  · rw [u3, q1, f5, hmid, hbuf, f3]
    simp [Option.toList]
  · rw [u1, q2, f5, hmid, hbuf, f1]
    simp [Option.toList]

/-- Witness for C9: node 15, the replay attacker of the default configuration, ticks twice
from the start state. -/
theorem replay_first_two_ticks_witness :
    (appOf {} 15).m_isAttacker = true ∧ (appOf {} 15).m_attackType = "replay" ∧
      World.init.replayBuffers (appOf {} 15).nodeId = [] ∧
      (SendBsm sampleFmt (appOf {} 15) ⟨2, 2, 0⟩ ⟨3, 4, 0⟩ 1100000000
          (SendBsm sampleFmt (appOf {} 15) ⟨1, 2, 0⟩ ⟨3, 4, 0⟩ 1000000000
            World.init)).replay_output =
        (SendBsm sampleFmt (appOf {} 15) ⟨1, 2, 0⟩ ⟨3, 4, 0⟩ 1000000000
            World.init).replay_output ++
          [ReplayRow.replayed (GetSeconds 1100000000) (appOf {} 15).nodeId
            (beaconOf sampleFmt (appOf {} 15).nodeId ⟨1, 2, 0⟩ ⟨3, 4, 0⟩ 1000000000)] :=
  ⟨rfl, rfl, rfl, (replay_first_two_ticks sampleFmt (appOf {} 15) ⟨1, 2, 0⟩ ⟨3, 4, 0⟩ ⟨2, 2, 0⟩
    ⟨3, 4, 0⟩ 1000000000 1100000000 World.init
    (SendBsm sampleFmt (appOf {} 15) ⟨1, 2, 0⟩ ⟨3, 4, 0⟩ 1000000000 World.init)
    rfl rfl rfl rfl).2.2.2.1⟩

/-- C10: let `a` be the DDoS attacker `main` installs, with beacon interval 0.1 s.  Every tick
of `a` hands the socket exactly 10 copies of its beacon and writes 10 ddos-log rows with details
`0..9`.  Take any run from the start state in which `a` ticks at `t0 + k * 0.1 s` and every
copy sent by the ticks `k < n` has been received by some node, no earlier than it was sent
(`deliveries` is contained, with multiplicity, in the receptions of the run), where the ticks
`k < n` reach to within 0.3 s of the evaluation time `T`.  Then an evaluation of `a` by
`checkRuleBased` at any time `T` at least 1 s after the first tick, after the run, returns
true: more than 15 timestamps filed under `a` lie within the trailing 0.5 s. -/
theorem ddos_attacker_flagged (fmt : ℚ → List Char) (cfg : Config) (a : Nat)
    (posOf velOf : Nat → Vector) (t0 T : Time) (r : Nat → Nat → Time) (n : Nat)
    (trace : List (Op × Time)) (w : World)
    (h1 : (appOf cfg a).m_isAttacker = true) (h2 : (appOf cfg a).m_attackType = "ddos")
    (hI : cfg.g_bsmInterval = 100000000)
    (hrun : run fmt cfg trace World.init = some w)
    (hT : ∀ e ∈ trace, e.2 ≤ T)
    (hticks : ∀ k, k < n →
      (Op.sendBsm a (posOf k) (velOf k), t0 + k * cfg.g_bsmInterval) ∈ trace)
    (hdel : (deliveries fmt a posOf velOf t0 cfg.g_bsmInterval r n).Subperm (receptions trace))
    (hafter : ∀ k c, k < n → c < 10 → t0 + k * cfg.g_bsmInterval ≤ r k c)
    (hcover : T ≤ t0 + (n + 3) * cfg.g_bsmInterval)
    (hlate : t0 + 1000000000 ≤ T) :
    (∀ (pos vel : Vector) (now : Time) (w0 : World),
        (SendBsm fmt (appOf cfg a) pos vel now w0).sent =
            w0.sent ++ List.replicate 10 (a, beaconOf fmt a pos vel now) ∧
          (SendBsm fmt (appOf cfg a) pos vel now w0).ddos_output =
            w0.ddos_output ++ (List.range 10).map (fun i : Nat =>
              DdosRow.attack (GetSeconds now) a i)) ∧
      15 < (w.packetTimestamps a).countP (fun t => decide (T - t ≤ 500000000)) ∧
      (checkRuleBased a T w).1 = true := by
  have ha := appOf_ddos cfg a h1 h2
  have hcount : 15 < (w.packetTimestamps a).countP (fun t => decide (T - t ≤ 500000000)) := by
    have hw := run_window fmt cfg a T trace World.init w hrun hT
    have hinit : World.init.packetTimestamps a = [] := rfl
    rw [hinit, List.nil_append] at hw
    rw [List.countP_eq_length_filter, hw, ← List.countP_eq_length_filter, countP_attributed]
    refine lt_of_lt_of_le ?_ (List.Subperm.countP_le _ hdel)
    rw [hI] at hcover hafter
    rw [hI]
    have hn : 2 ≤ n := by
      have h7 : (7 : Int) ≤ (n : Int) := by linarith
      omega
    obtain ⟨m, rfl⟩ : ∃ m, n = m + 2 := ⟨n - 2, by omega⟩
    have hq : ∀ k c, m ≤ k → k < m + 2 → c < 10 →
        (fun pr : Payload × Time =>
          decide (T - pr.2 ≤ 500000000) && decide (senderOf pr.1 = some a))
          (beaconOf fmt a (posOf k) (velOf k) (t0 + k * 100000000), r k c) = true := by
      intro k c hk1 hk2 hc
      have hr := hafter k c hk2 hc
      have hkm : (m : Int) ≤ (k : Int) := by exact_mod_cast hk1
      have hwin : T - r k c ≤ 500000000 := by
        push_cast at hcover
        linarith
      have hs : senderOf (beaconOf fmt a (posOf k) (velOf k) (t0 + k * 100000000)) = some a := by
        rw [ha]
        exact senderOf_bsmString_five fmt _ _ _ _ _
      simp [hwin, hs]
    have e1 := countP_copies
      (fun pr : Payload × Time =>
        decide (T - pr.2 ≤ 500000000) && decide (senderOf pr.1 = some a))
      (beaconOf fmt a (posOf m) (velOf m) (t0 + m * 100000000)) (r m)
      (fun c hc => hq m c le_rfl (by omega) hc)
    have e2 := countP_copies
      (fun pr : Payload × Time =>
        decide (T - pr.2 ≤ 500000000) && decide (senderOf pr.1 = some a))
      (beaconOf fmt a (posOf (m + 1)) (velOf (m + 1)) (t0 + (m + 1 : Nat) * 100000000))
      (r (m + 1)) (fun c hc => hq (m + 1) c (by omega) (by omega) hc)
    rw [deliveries, deliveries, List.countP_append, List.countP_append, e1, e2]
    omega
  refine ⟨?_, hcount, ?_⟩
  · intro pos vel now w0
    obtain ⟨w00, e1, -, -, e4, -, s1, -, -, s4⟩ :=
      SendBsm_streams fmt (appOf cfg a) pos vel now w0
    obtain ⟨d1, d2⟩ := transmit_ddos fmt (appOf cfg a) pos vel now
      (beaconOf fmt (appOf cfg a).nodeId pos vel now) w00 h1 h2
    rw [s1, s4, d1, d2, e1, e4, appOf_nodeId]
    exact ⟨rfl, rfl⟩
  · rw [checkRuleBased_fst, pruneTimestamps_eq_filter, ← List.countP_eq_length_filter]
    exact decide_eq_true hcount

/-- Witness for C10: node 5 floods for 0.7 s, node 1 hears every copy at once, and node 5 is
evaluated 1 s after its first tick. -/
theorem ddos_attacker_flagged_witness :
    (appOf floodCfg 5).m_isAttacker = true ∧ (appOf floodCfg 5).m_attackType = "ddos" ∧
      ∃ w, run sampleFmt floodCfg (floodTrace 7) World.init = some w ∧
        (checkRuleBased 5 2000000000 w).1 = true := by
  have hs : (run sampleFmt floodCfg (floodTrace 7) World.init).isSome = true := by decide
  obtain ⟨w, hw⟩ := Option.isSome_iff_exists.1 hs
  have hdel : deliveries sampleFmt 5 (fun _ => ⟨0, 0, 0⟩) (fun _ => ⟨20, 0, 0⟩) 1000000000
      floodCfg.g_bsmInterval (fun k _ => 1000000000 + k * 100000000) 7 =
      receptions (floodTrace 7) := by decide
  refine ⟨rfl, rfl, w, hw, ?_⟩
  exact (ddos_attacker_flagged sampleFmt floodCfg 5 (fun _ => ⟨0, 0, 0⟩) (fun _ => ⟨20, 0, 0⟩)
    1000000000 2000000000 (fun k _ => 1000000000 + k * 100000000) 7 (floodTrace 7) w
    rfl rfl rfl hw
    (by decide)
    (by
      intro k hk
      interval_cases k <;> simp [floodTrace, floodCfg])
    (hdel ▸ List.Subperm.refl _)
    (by
      intro k c _ _
      exact le_of_eq rfl)
    (by decide) (by decide)).2.2

/-- C16: for every node and every trust history within its capacity of 100 entries, after 100
or more consecutive unpenalised evaluations (instantaneous score 1.0) the score the last
`calculateTrustScore` call returns is exactly 1.0, and the history holds 100 samples, all 1.0. -/
theorem hundred_unpenalised_restore_trust (cfg : Config) (id : Nat)
    (obs : List (Vector × Vector × Time)) (w : World)
    (hcap : (w.trustHistory id).length ≤ 100) (hlen : 100 ≤ obs.length)
    (hun : ∀ o ∈ obs, instantTrust cfg id o.2.1 = 1) :
    (evaluations cfg id obs w).1.getLast? = some 1 ∧
      (evaluations cfg id obs w).2.trustHistory id = List.replicate 100 1 := by
  have hpre : w.trustHistory id =
      (w.trustHistory id).drop ((w.trustHistory id).length - 100) := by
    rw [Nat.sub_eq_zero_of_le hcap, List.drop_zero]
  obtain ⟨h1, h2⟩ := evaluations_history cfg id obs w (w.trustHistory id) hpre hun
  have hne : obs ≠ [] := by
    intro he
    rw [he] at hlen
    simp at hlen
  have hdrop : (w.trustHistory id ++ List.replicate obs.length 1).drop
      ((w.trustHistory id ++ List.replicate obs.length 1).length - 100) =
      List.replicate 100 (1 : ℚ) := by
    rw [List.length_append, List.length_replicate,
      show (w.trustHistory id).length + obs.length - 100 =
        (w.trustHistory id).length + (obs.length - 100) by omega,
      List.drop_append, List.drop_replicate]
    congr 1
    omega
  rw [if_neg hne, hdrop] at h2
  rw [hdrop] at h1
  refine ⟨?_, h1⟩
  rw [h2, mean, List.sum_replicate, List.length_replicate]
  norm_num

/-- Witness for C16: a node holding one penalised sample is evaluated 100 times at rest. -/
theorem hundred_unpenalised_restore_trust_witness :
    (evaluations {} 3 restObservations penalisedWorld).1.getLast? = some 1 :=
  (hundred_unpenalised_restore_trust {} 3 restObservations penalisedWorld
    (by simp [penalisedWorld]) (by simp [restObservations])
    (by
      intro o ho
      rw [restObservations, List.mem_replicate] at ho
      rw [ho.2]
      norm_num [instantTrust])).1

/-- C17, counterexample: with 10 vehicles, node 9 belongs to the population, its velocity
`(60, -1)` has a component above 50 and a negative component, and its instantaneous score is
1.0: the plausibility check is skipped for `nodeId ≥ 0.8 * g_numVehicles`. -/
theorem instantTrust_unchecked_node :
    9 < floodCfg.g_numVehicles ∧ ((60 : ℚ) > 50 ∧ (-1 : ℚ) < 0) ∧
      instantTrust floodCfg 9 ⟨60, -1, 0⟩ = 1 ∧ ¬ instantTrust floodCfg 9 ⟨60, -1, 0⟩ < 1 := by
  refine ⟨by decide, ⟨by norm_num, by norm_num⟩, ?_, ?_⟩ <;> norm_num [instantTrust, floodCfg]

/-- C17, amended: for every node id with `nodeId < 0.8 * g_numVehicles` and every velocity with
a component above 50 or a negative component, the instantaneous score is 1.0 minus 0.3 when a
component exceeds 50 and minus 0.1 when a component is negative, hence strictly below 1.0; for
`nodeId ≥ 0.8 * g_numVehicles` the score is 1.0 whatever the velocity. -/
theorem instantTrust_penalised (cfg : Config) (nodeId : Nat) (vel : Vector)
    (hid : (nodeId : ℚ) < (cfg.g_numVehicles : ℚ) * (4 / 5))
    (himp : vel.x > 50 ∨ vel.y > 50 ∨ vel.x < 0 ∨ vel.y < 0) :
    instantTrust cfg nodeId vel =
        1 - (if vel.x > 50 ∨ vel.y > 50 then 3 / 10 else 0) -
          (if vel.x < 0 ∨ vel.y < 0 then 1 / 10 else 0) ∧
      instantTrust cfg nodeId vel < 1 ∧
      (∀ (other : Nat) (v : Vector), ¬ ((other : ℚ) < (cfg.g_numVehicles : ℚ) * (4 / 5)) →
        instantTrust cfg other v = 1) := by
  refine ⟨?_, ?_, ?_⟩
  · unfold instantTrust
    simp only []
    rw [if_pos hid]
    split_ifs <;> norm_num
  · unfold instantTrust
    simp only []
    rw [if_pos hid]
    split_ifs with h1 h2 h2
    · norm_num
    · norm_num
    · norm_num
    · exfalso
      rcases himp with h | h | h | h
      · exact h2 (Or.inl h)
      · exact h2 (Or.inr h)
      · exact h1 (Or.inl h)
      · exact h1 (Or.inr h)
  · intro other v hge
    unfold instantTrust
    simp only []
    rw [if_neg hge]

/-- Witness for C17: node 3 of 10 vehicles at velocity `(60, -1)`. -/
theorem instantTrust_penalised_witness :
    ((3 : Nat) : ℚ) < (floodCfg.g_numVehicles : ℚ) * (4 / 5) ∧
      instantTrust floodCfg 3 ⟨60, -1, 0⟩ < 1 :=
  ⟨by norm_num [floodCfg], (instantTrust_penalised floodCfg 3 ⟨60, -1, 0⟩
    (by norm_num [floodCfg]) (Or.inl (by norm_num))).2.1⟩

/-- C20: the configuration with 10 vehicles and jamming enabled is accepted (no option is
checked) and `main` looks up node 25, which is outside the population `0 .. 9`; the same holds for
every configuration with jamming enabled and at most 25 vehicles, and the lookup is the first
thing that goes wrong.  For every configuration with at least 26 vehicles the lookup is in range
and `main` reaches the simulation. -/
theorem main_jammer_node_out_of_population :
    main { g_numVehicles := 10 } =
        Except.error (MainError.node_index_out_of_range 25 10) ∧
      (∀ cfg : Config, cfg.g_enable_jamming = true → cfg.g_numVehicles ≤ 25 →
        NodeContainer.Get cfg.g_numVehicles 25 =
            Except.error (MainError.node_index_out_of_range 25 cfg.g_numVehicles) ∧
          main cfg = Except.error (MainError.node_index_out_of_range 25 cfg.g_numVehicles)) ∧
      (∀ cfg : Config, 26 ≤ cfg.g_numVehicles →
        NodeContainer.Get cfg.g_numVehicles 25 = Except.ok 25 ∧
          ∃ evs, main cfg = Except.ok evs ∧
            (cfg.g_enable_jamming = true →
              (Callback.injectJammerNode 25, (2000000000 : Time)) ∈ evs)) := by
  have hbad : ∀ cfg : Config, cfg.g_enable_jamming = true → cfg.g_numVehicles ≤ 25 →
      NodeContainer.Get cfg.g_numVehicles 25 =
          Except.error (MainError.node_index_out_of_range 25 cfg.g_numVehicles) ∧
        main cfg = Except.error (MainError.node_index_out_of_range 25 cfg.g_numVehicles) := by
    intro cfg hj hn
    have hget : NodeContainer.Get cfg.g_numVehicles 25 =
        Except.error (MainError.node_index_out_of_range 25 cfg.g_numVehicles) := by
      unfold NodeContainer.Get
      rw [if_neg (by omega)]
    refine ⟨hget, ?_⟩
    unfold main
    rw [installApps_ok cfg _ (fun i hi => List.mem_range.1 hi)]
    simp only [hj, hget, if_true]
  refine ⟨(hbad { g_numVehicles := 10 } rfl (by decide)).2, hbad, ?_⟩
  intro cfg hn
  have hget : NodeContainer.Get cfg.g_numVehicles 25 = Except.ok 25 := by
    unfold NodeContainer.Get
    rw [if_pos (by omega)]
  refine ⟨hget, ?_⟩
  unfold main
  rw [installApps_ok cfg _ (fun i hi => List.mem_range.1 hi)]
  simp only [hget]
  by_cases hj : cfg.g_enable_jamming = true
  · simp [hj]
  · simp [hj]

/-- C13: in a population of at least two nodes, for every node `i` of it and finite distances,
one `LogNeighbors` pass computes for `i` the pair `(c, m)` where `c` is the number of nodes
`j ≠ i` at distance strictly below 250 and `m` is the minimum distance from `i` to another
node; it appends one row per node, the row of `i` carrying `c` and `m`; it writes exactly
`c` and `m` into the two topology fields of the newest record of `i`'s feature queue; it
changes neither the length of any feature queue nor any other record or field, and a node with
no record still has none. -/
theorem LogNeighbors_topology (cfg : Config) (dist : Nat → Nat → ℚ) (now : Time) (w : World)
    (i : Nat) (hpop : 2 ≤ cfg.g_numVehicles) (hi : i < cfg.g_numVehicles)
    (hfin : ∀ j, dist i j ≤ DBL_MAX) :
    ∃ m : ℚ,
      (∀ j, j < cfg.g_numVehicles → j ≠ i → m ≤ dist i j) ∧
      (∃ j, j < cfg.g_numVehicles ∧ j ≠ i ∧ m = dist i j) ∧
      neighborScan cfg dist i =
        (((List.range cfg.g_numVehicles).filter
          (fun j => decide (j ≠ i) && decide (dist i j < 250))).length, m) ∧
      (LogNeighbors cfg dist now w).neighbor_output =
        w.neighbor_output ++ (List.range cfg.g_numVehicles).map (fun k =>
          NeighborRow.mk (GetSeconds now) k (neighborScan cfg dist k).1
            (neighborScan cfg dist k).2) ∧
      (∀ f, (w.nodeFeatures i).getLast? = some f →
        ((LogNeighbors cfg dist now w).nodeFeatures i).getLast? =
          some { f with
            neighborCount := ((List.range cfg.g_numVehicles).filter
              (fun j => decide (j ≠ i) && decide (dist i j < 250))).length,
            distanceToNearestNeighbor := m }) ∧
      (∀ k, ((LogNeighbors cfg dist now w).nodeFeatures k).length =
            (w.nodeFeatures k).length ∧
          ((LogNeighbors cfg dist now w).nodeFeatures k).dropLast =
            (w.nodeFeatures k).dropLast ∧
          ((LogNeighbors cfg dist now w).nodeFeatures k).map clearTopology =
            (w.nodeFeatures k).map clearTopology ∧
          (w.nodeFeatures k = [] → (LogNeighbors cfg dist now w).nodeFeatures k = [])) := by
  obtain ⟨s1, s2, s3, s4⟩ := neighborScan_fold dist i cfg.g_numVehicles
  obtain ⟨f1, f2, -, -, -⟩ := LogNeighbors_fold cfg dist now w cfg.g_numVehicles
  have hscan : neighborScan cfg dist i =
      (((List.range cfg.g_numVehicles).filter
        (fun j => decide (j ≠ i) && decide (dist i j < 250))).length,
        (neighborScan cfg dist i).2) := by
    rw [← List.countP_eq_length_filter, ← s1]
    rfl
  have hex : ∃ j, j < cfg.g_numVehicles ∧ j ≠ i ∧ (neighborScan cfg dist i).2 = dist i j := by
    rcases s4 with h | h
    · have hother : ∃ j, j < cfg.g_numVehicles ∧ j ≠ i := by
        by_cases h0 : i = 0
        · exact ⟨1, by omega, by omega⟩
        · exact ⟨0, by omega, fun hc => h0 hc.symm⟩
      obtain ⟨j, hj, hji⟩ := hother
      refine ⟨j, hj, hji, le_antisymm (s3 j hj hji) ?_⟩
      exact le_trans (hfin j) (le_of_eq h.symm)
    · exact h
  have hLN : ∀ k, (LogNeighbors cfg dist now w).nodeFeatures k =
      if k < cfg.g_numVehicles then
        setTopology (w.nodeFeatures k) (neighborScan cfg dist k).1 (neighborScan cfg dist k).2
      else w.nodeFeatures k := f1
  refine ⟨(neighborScan cfg dist i).2, s3, hex, hscan, f2, ?_, ?_⟩
  · intro f hf
    rw [hLN i, if_pos hi]
    have := (setTopology_props (w.nodeFeatures i) (neighborScan cfg dist i).1
      (neighborScan cfg dist i).2).2.2.2.2 f hf
    rw [this]
    conv_lhs => rw [hscan]
  · intro k
    rw [hLN k]
    obtain ⟨p1, p2, p3, p4, -⟩ := setTopology_props (w.nodeFeatures k)
      (neighborScan cfg dist k).1 (neighborScan cfg dist k).2
    split_ifs
    · exact ⟨p1, p2, p3, p4⟩
    · exact ⟨rfl, rfl, rfl, fun h => h⟩

/-- Witness for C13: 10 vehicles pairwise 100 apart, node 3 evaluated in `sampleWorld`. -/
theorem LogNeighbors_topology_witness :
    2 ≤ floodCfg.g_numVehicles ∧ 3 < floodCfg.g_numVehicles ∧
      (∀ j, sampleDist 3 j ≤ DBL_MAX) ∧
      ∃ m : ℚ, (∀ j, j < floodCfg.g_numVehicles → j ≠ 3 → m ≤ sampleDist 3 j) ∧
        (∃ j, j < floodCfg.g_numVehicles ∧ j ≠ 3 ∧ m = sampleDist 3 j) := by
  have hfin : ∀ j, sampleDist 3 j ≤ DBL_MAX := by
    intro j
    unfold sampleDist DBL_MAX
    split_ifs <;> norm_num
  obtain ⟨m, h1, h2, -⟩ := LogNeighbors_topology floodCfg sampleDist 1000000000 sampleWorld 3
    (by decide) (by decide) hfin
  exact ⟨by decide, by decide, hfin, m, h1, h2⟩

/-- C14: in every reachable state (so after every beacon tick and every trust evaluation) the
feature queue of every node has at most 100 entries, its message-time list at most 100, its
payload-size window at most 50 and its trust history at most 100; a beacon tick and a trust
evaluation leave each of them as the newest entries of the old content followed by the new
entry, so the entry dropped when the bound would be exceeded is the oldest one. -/
theorem containers_within_capacity (fmt : ℚ → List Char) (cfg : Config) (w : World)
    (h : Reachable fmt cfg w) :
    (∀ id, (w.nodeFeatures id).length ≤ 100 ∧ (w.nodeMessageTimes id).length ≤ 100 ∧
        (w.nodePayloadSizes id).length ≤ 50 ∧ (w.trustHistory id).length ≤ 100) ∧
      (∀ (app : EnhancedBsmApp) (pos vel : Vector) (now : Time),
        (SendBsm fmt app pos vel now w).nodeMessageTimes app.nodeId =
            (w.nodeMessageTimes app.nodeId ++ [now]).drop
              ((w.nodeMessageTimes app.nodeId ++ [now]).length - 100) ∧
          (SendBsm fmt app pos vel now w).nodePayloadSizes app.nodeId =
            (w.nodePayloadSizes app.nodeId ++ [200]).drop
              ((w.nodePayloadSizes app.nodeId ++ [200]).length - 50) ∧
          ∃ features, (SendBsm fmt app pos vel now w).nodeFeatures app.nodeId =
            (w.nodeFeatures app.nodeId ++ [features]).drop
              ((w.nodeFeatures app.nodeId ++ [features]).length - 100)) ∧
      (∀ (id : Nat) (pos vel : Vector) (t : Time),
        (calculateTrustScore cfg id pos vel t w).2.trustHistory id =
          (w.trustHistory id ++ [instantTrust cfg id vel]).drop
            ((w.trustHistory id ++ [instantTrust cfg id vel]).length - 100)) := by
  have hinv := Reachable_CapInv fmt cfg w h
  refine ⟨hinv, ?_, ?_⟩
  · intro app pos vel now
    obtain ⟨s1, s2, s3, -⟩ := SendBsm_windows fmt app pos vel now w
    rw [s1, s2, s3, Function.update_same, Function.update_same, Function.update_same]
    refine ⟨pushBounded_eq_drop 100 _ _ (by norm_num) (hinv app.nodeId).2.1,
      pushBounded_eq_drop 50 _ _ (by norm_num) (hinv app.nodeId).2.2.1, _,
      pushBounded_eq_drop 100 _ _ (by norm_num) (hinv app.nodeId).1⟩
  · intro id pos vel t
    rw [calculateTrustScore_trustHistory]
    exact pushBounded_eq_drop 100 _ _ (by norm_num) (hinv id).2.2.2

/-- Witness for C14: the state after the first tick of node 3. -/
theorem containers_within_capacity_witness :
    Reachable sampleFmt {}
        (SendBsm sampleFmt (appOf {} 3) ⟨1, 2, 0⟩ ⟨3, 4, 0⟩ 1000000000 World.init) ∧
      ∀ id, ((SendBsm sampleFmt (appOf {} 3) ⟨1, 2, 0⟩ ⟨3, 4, 0⟩ 1000000000
        World.init).nodeFeatures id).length ≤ 100 :=
  ⟨Reachable.step World.init _ (Op.sendBsm 3 ⟨1, 2, 0⟩ ⟨3, 4, 0⟩) 1000000000 Reachable.init rfl,
    fun id => ((containers_within_capacity sampleFmt {} _
      (Reachable.step World.init _ (Op.sendBsm 3 ⟨1, 2, 0⟩ ⟨3, 4, 0⟩) 1000000000
        Reachable.init rfl)).1 id).1⟩

/-- C23: in the state left by any run from the start state, the feature queue of node `i` is
empty exactly when `i` has not ticked yet, and the features log holds exactly one row of `i`
when `i` has ticked and none otherwise, however many ticks have run.  The next tick of `i`
appends one row of `i` to the features log when it is the first tick of `i`, and leaves the log
as it was otherwise; it is the first tick exactly when the queue holds one record after the
push. -/
theorem features_row_only_at_first_tick (fmt : ℚ → List Char) (cfg : Config)
    (trace : List (Op × Time)) (w : World) (i : Nat)
    (hrun : run fmt cfg trace World.init = some w) :
    (w.nodeFeatures i = [] ↔ i ∉ (ticksOf trace).map Prod.fst) ∧
      (w.features_output.filter (fun r => decide (r.nodeId = i))).length =
        (if i ∈ (ticksOf trace).map Prod.fst then 1 else 0) ∧
      (∀ (pos vel : Vector) (now : Time),
        (((SendBsm fmt (appOf cfg i) pos vel now w).nodeFeatures i).length = 1 ↔
            i ∉ (ticksOf trace).map Prod.fst) ∧
          (i ∉ (ticksOf trace).map Prod.fst →
            ∃ row : FeaturesRow, row.nodeId = i ∧ row.x = pos.x ∧ row.y = pos.y ∧
              row.vel = vel ∧ row.t = GetSeconds now ∧
              (SendBsm fmt (appOf cfg i) pos vel now w).features_output =
                w.features_output ++ [row]) ∧
          (i ∈ (ticksOf trace).map Prod.fst →
            (SendBsm fmt (appOf cfg i) pos vel now w).features_output = w.features_output)) := by
  obtain ⟨k1, k2⟩ := run_features fmt cfg i trace World.init w [] (by simp [World.init])
    (by simp [World.init]) hrun
  rw [List.nil_append] at k1 k2
  refine ⟨k1, k2, ?_⟩
  intro pos vel now
  have hn := (SendBsm_windows fmt (appOf cfg i) pos vel now w).2.2.1
  have hf := SendBsm_features_output fmt (appOf cfg i) pos vel now w
  rw [appOf_nodeId] at hn hf
  refine ⟨?_, ?_, ?_⟩
  · rw [hn, Function.update_same, pushBounded_length_one, k1]
  · intro hnot
    rw [hf, if_pos (k1.2 hnot)]
    exact ⟨_, rfl, rfl, rfl, rfl, rfl, rfl⟩
  · intro hmem
    rw [hf, if_neg (fun hc => (k1.1 hc) hmem)]

/-- Witness for C23: in `sampleTrace` node 3 ticks twice and the features log holds one row of
node 3. -/
theorem features_row_only_at_first_tick_witness :
    run sampleFmt {} sampleTrace World.init = some sampleWorld ∧
      (sampleWorld.features_output.filter (fun r => decide (r.nodeId = 3))).length =
        (if 3 ∈ (ticksOf sampleTrace).map Prod.fst then 1 else 0) ∧
      (ticksOf sampleTrace).map Prod.fst = [3, 3] :=
  ⟨rfl, (features_row_only_at_first_tick sampleFmt {} sampleTrace sampleWorld 3 rfl).2.1, rfl⟩

/-- C21, counterexample: with 10 vehicles, node 3 moving at `(60, -1)` is evaluated by ten
`UpdateTrustScores` passes.  Every instantaneous score is the `double` `0.6`
(`1.0 - 0.3 - 0.1`).  The loop `sum += t` over the ten retained scores passes through the
`double` values 0.6, 1.2, 1.7999999999999998, 2.4, 3.0, 3.6, 4.2, 4.8, 5.3999999999999995,
5.999999999999999, and `sum / size` is `5404319552844594 / 2^53` (printed
`0.5999999999999999`), one unit in the last place below the `double` `0.6` and below the real
number `0.6`.  The state before the tenth evaluation is reachable, and the trust-log row of the
tenth evaluation carries that score.  After 22 passes the stored mean is
`5404319552844593 / 2^53`, two units in the last place below the `double` `0.6`. -/
theorem trust_mean_below_floor_in_double :
    Binary64.Reachable sampleFmt floodCfg (penaltyWorld 9) ∧
      Binary64.instantTrust floodCfg 3 ⟨60, -1, 0⟩ = Binary64.toDouble (3 / 5) ∧
      (penaltyWorld 9).trustHistory 3 = List.replicate 9 (Binary64.toDouble (3 / 5)) ∧
      (List.range 11).map
          (fun k => Binary64.sum (List.replicate k (Binary64.toDouble (3 / 5)))) =
        [0, 5404319552844595 / 9007199254740992, 5404319552844595 / 4503599627370496,
          2026619832316723 / 1125899906842624, 5404319552844595 / 2251799813685248, 3,
          8106479329266893 / 2251799813685248, 4728779608739021 / 1125899906842624,
          5404319552844595 / 1125899906842624, 6079859496950169 / 1125899906842624,
          6755399441055743 / 1125899906842624] ∧
      Binary64.toDouble (6755399441055743 / 1125899906842624 / 10) =
        5404319552844594 / 9007199254740992 ∧
      (Binary64.calculateTrustScore floodCfg 3 ⟨3, 0, 0⟩ ⟨60, -1, 0⟩ 10000000000
          (penaltyWorld 9)).1 = 5404319552844594 / 9007199254740992 ∧
      Binary64.toDouble (3 / 5) = 5404319552844595 / 9007199254740992 ∧
      (5404319552844594 / 9007199254740992 : ℚ) < Binary64.toDouble (3 / 5) ∧
      (5404319552844594 / 9007199254740992 : ℚ) < 3 / 5 ∧
      TrustRow.mk 10 3 (5404319552844594 / 9007199254740992) 0 ∈
        (penaltyWorld 10).trust_output ∧
      (penaltyWorld 22).nodeTrust 3 = 5404319552844593 / 9007199254740992 := by
  refine ⟨penaltyWorld_reachable 9, by decide!, by decide!, by decide!, by decide!, by decide!,
    by decide!, by decide!, by norm_num, by decide!, by decide!⟩

/-- C22, counterexample: with 10 vehicles, every node moving at `(60, -1)`, the Trust Engine
evaluates node 3 at 1 s, 2 s, ..., 10 s, and the `RunHybridDetection` pass at 10.1 s still writes
a hybrid row for node 3: the stored mean of the ten scores `0.6`, as the source computes it in
`double` arithmetic (sum 5.999999999999999, quotient 0.5999999999999999), is
`5404319552844594 / 2^53 < 0.6`, and the heuristic flag is set (computed speed 60.00833275470999, above 40).  In exact
arithmetic the same run stores the mean `0.6` and writes no hybrid row. -/
theorem hybrid_row_for_evaluated_node :
    Binary64.run sampleFmt floodCfg hybridTrace World.init =
        some (Binary64.RunHybridDetection floodCfg sampleMob 10100000000 (penaltyWorld 10)) ∧
      evaluationCount floodCfg 3 hybridTrace = 10 ∧
      (penaltyWorld 10).nodeTrust 3 = 5404319552844594 / 9007199254740992 ∧
      (penaltyWorld 10).nodeTrust 3 < Binary64.toDouble (3 / 5) ∧
      (Binary64.detectAnomaly 3 (sampleMob.position 3) (sampleMob.velocity 3) (penaltyWorld 10)).1 =
        true ∧
      MitigationRow.hybrid_detection (101 / 10) 3 true false
          (5404319552844594 / 9007199254740992) ∈
        (Binary64.RunHybridDetection floodCfg sampleMob 10100000000
          (penaltyWorld 10)).mitigation_output ∧
      (match run sampleFmt floodCfg hybridTrace World.init with
        | some w => decide (w.nodeTrust 3 = 3 / 5) && w.mitigation_output.isEmpty
        | none => false) = true := by
  refine ⟨?_, by decide, by decide!, by decide!, by decide!, by decide!, by decide!⟩
  rw [hybridTrace, Binary64.run_append, penaltyTrace_run]
  rfl

/-- C21, amended: every instantaneous score is one of 1.0, 0.9, 0.7 or 0.6 (in exact arithmetic
these four numbers, in `double` arithmetic the four `double` values nearest to them).  In exact
arithmetic the mean `calculateTrustScore` returns is at least 0.6 in every reachable state.  As
the source computes it in `double` arithmetic, the mean is at least the `double` `0.6` minus two
units in the last place (`2 * 2^-53`) in every reachable state, and it is below the `double`
`0.6` exactly when the retained scores, the new one included, are all `0.6` and there are
between 10 and 28 of them.  In both arithmetics every trust-log row carries the low-trust flag
0, for every node and every velocity sequence. -/
theorem trust_mean_floor (fmt : ℚ → List Char) (cfg : Config) (we wd : World)
    (he : Reachable fmt cfg we) (hd : Binary64.Reachable fmt cfg wd) :
    (∀ (id : Nat) (vel : Vector), instantTrust cfg id vel ∈ [1, 9 / 10, 7 / 10, (3 / 5 : ℚ)]) ∧
      (∀ (id : Nat) (pos vel : Vector) (t : Time),
        3 / 5 ≤ (calculateTrustScore cfg id pos vel t we).1) ∧
      (∀ row ∈ we.trust_output, 3 / 5 ≤ row.trustScore ∧ row.lowTrustFlag = 0) ∧
      (∀ (id : Nat) (vel : Vector), Binary64.instantTrust cfg id vel ∈
        [1, Binary64.toDouble (9 / 10), Binary64.toDouble (7 / 10),
          Binary64.toDouble (3 / 5)]) ∧
      (∀ (id : Nat) (pos vel : Vector) (t : Time),
        Binary64.toDouble (3 / 5) - 2 / 9007199254740992 ≤
            (Binary64.calculateTrustScore cfg id pos vel t wd).1 ∧
          ((Binary64.calculateTrustScore cfg id pos vel t wd).1 < Binary64.toDouble (3 / 5) ↔
            (pushBounded 100 (wd.trustHistory id) (Binary64.instantTrust cfg id vel) =
                List.replicate
                  (pushBounded 100 (wd.trustHistory id)
                    (Binary64.instantTrust cfg id vel)).length
                  (Binary64.toDouble (3 / 5)) ∧
              10 ≤ (pushBounded 100 (wd.trustHistory id)
                (Binary64.instantTrust cfg id vel)).length ∧
              (pushBounded 100 (wd.trustHistory id)
                (Binary64.instantTrust cfg id vel)).length ≤ 28))) ∧
      (∀ row ∈ wd.trust_output,
        Binary64.toDouble (3 / 5) - 2 / 9007199254740992 ≤ row.trustScore ∧
          row.lowTrustFlag = 0) := by
  obtain ⟨e1, -, e3⟩ := Reachable_TrustFloor fmt cfg we he
  obtain ⟨d1, d3⟩ := Binary64.Reachable_TrustState fmt cfg wd hd
  have hc : Binary64.toDouble (3 / 5) - 2 / 9007199254740992 =
      5404319552844593 / 9007199254740992 := by
    rw [Binary64.constants.1]
    norm_num
  rw [hc]
  refine ⟨?_, fun id pos vel t => calculateTrustScore_ge_floor cfg id pos vel t we (e1 id).2,
    e3, ?_, ?_, d3⟩
  · intro id vel
    simp only [List.mem_cons, List.mem_singleton, List.not_mem_nil, or_false]
    exact instantTrust_mem cfg id vel
  · intro id vel
    simp only [List.mem_cons, List.mem_singleton, List.not_mem_nil, or_false]
    exact Binary64.instantTrust_mem_double cfg id vel
  · intro id pos vel t
    obtain ⟨s1, s2, s3, s4⟩ := Binary64.calculateTrustScore_spec cfg id pos vel t wd (d1 id).1
      (d1 id).2.1
    refine ⟨s4, ?_⟩
    rw [s3]
    exact (Binary64.mean_below_iff _ (pushBounded_ne_nil 100 _ _ (by norm_num)) s1 s2).1

/-- Witness for C21: the states one `UpdateTrustScores` pass leaves from the start state, in
exact and in `double` arithmetic. -/
theorem trust_mean_floor_witness :
    Reachable sampleFmt floodCfg (UpdateTrustScores floodCfg sampleMob 1000000000 World.init) ∧
      Binary64.Reachable sampleFmt floodCfg (penaltyWorld 1) ∧
      ∀ row ∈ (penaltyWorld 1).trust_output,
        Binary64.toDouble (3 / 5) - 2 / 9007199254740992 ≤ row.trustScore ∧
          row.lowTrustFlag = 0 :=
  ⟨Reachable.step World.init _ (Op.updateTrustScores sampleMob) 1000000000 Reachable.init rfl,
    penaltyWorld_reachable 1,
    (trust_mean_floor sampleFmt floodCfg _ (penaltyWorld 1)
      (Reachable.step World.init _ (Op.updateTrustScores sampleMob) 1000000000
        Reachable.init rfl) (penaltyWorld_reachable 1)).2.2.2.2.2⟩

/-- C22, amended: in the state left by any run from the start state, with the trust pipeline
and the detectors in `double` arithmetic as in the source, a `RunHybridDetection` pass writes a
hybrid row for node `i` if and only if `i` is a node of the population, a rule or heuristic flag
is set for `i`, and the stored `nodeTrust[i]` is below the `double` `0.6`.  The stored value is below
`0.6` exactly when the Trust Engine has not evaluated `i` (the stored value is the default 0,
so every flag writes a row) or the retained scores of `i` are all `0.6` and there are between
10 and 28 of them (the computed mean is then one or two units in the last place below `0.6`).
In exact arithmetic the stored value of an evaluated node is at least 0.6 and no hybrid row is
written for it. -/
theorem hybrid_row_iff_stored_trust_below (fmt : ℚ → List Char) (cfg : Config)
    (trace : List (Op × Time)) (wd : World) (i : Nat) (mob : Mobility) (now : Time)
    (hd : Binary64.run fmt cfg trace World.init = some wd) :
    ((∃ row ∈ (Binary64.RunHybridDetection cfg mob now wd).mitigation_output.drop
          wd.mitigation_output.length, row.isHybridOf i = true) ↔
        (i < cfg.g_numVehicles ∧
          ((Binary64.detectAnomaly i (mob.position i) (mob.velocity i) wd).1 = true ∨
            (checkRuleBased i now wd).1 = true) ∧
          wd.nodeTrust i < Binary64.toDouble (3 / 5))) ∧
      (wd.nodeTrust i < Binary64.toDouble (3 / 5) ↔
        (evaluationCount cfg i trace = 0 ∨
          (wd.trustHistory i =
              List.replicate (wd.trustHistory i).length (Binary64.toDouble (3 / 5)) ∧
            10 ≤ (wd.trustHistory i).length ∧ (wd.trustHistory i).length ≤ 28))) ∧
      (evaluationCount cfg i trace = 0 →
        wd.nodeTrust i = 0 ∧
          ((∃ row ∈ (Binary64.RunHybridDetection cfg mob now wd).mitigation_output.drop
              wd.mitigation_output.length, row.isHybridOf i = true) ↔
            (i < cfg.g_numVehicles ∧
              ((Binary64.detectAnomaly i (mob.position i) (mob.velocity i) wd).1 = true ∨
                (checkRuleBased i now wd).1 = true)))) ∧
      (evaluationCount cfg i trace ≠ 0 →
        wd.trustHistory i ≠ [] ∧
          wd.nodeTrust i = Binary64.avgTrust 1 (wd.trustHistory i) ∧
          Binary64.toDouble (3 / 5) - 2 / 9007199254740992 ≤ wd.nodeTrust i) ∧
      (∀ we : World, run fmt cfg trace World.init = some we →
        (evaluationCount cfg i trace = 0 → we.nodeTrust i = 0) ∧
          (evaluationCount cfg i trace ≠ 0 →
            3 / 5 ≤ we.nodeTrust i ∧
              ∀ row ∈ (RunHybridDetection cfg mob now we).mitigation_output.drop
                we.mitigation_output.length, row.isHybridOf i = false)) := by
  have key := Binary64.hybrid_row_iff cfg mob now wd i
  obtain ⟨⟨d1, -⟩, hnil⟩ := Binary64.run_state fmt cfg i trace World.init wd
    Binary64.TrustState_init hd
  obtain ⟨dlen, dmem, dz, dn⟩ := d1 i
  have hnil2 : wd.trustHistory i = [] ↔ evaluationCount cfg i trace = 0 := by
    rw [hnil]
    exact ⟨fun h => h.2, fun h => ⟨rfl, h⟩⟩
  have hc6 := Binary64.constants.1
  have h06 : (0 : ℚ) < Binary64.toDouble (3 / 5) := by
    rw [hc6]
    norm_num
  have hc : Binary64.toDouble (3 / 5) - 2 / 9007199254740992 =
      5404319552844593 / 9007199254740992 := by
    rw [hc6]
    norm_num
  have hzero : evaluationCount cfg i trace = 0 → wd.nodeTrust i = 0 :=
    fun hz => dz (hnil2.2 hz)
  have hpos : evaluationCount cfg i trace ≠ 0 →
      wd.trustHistory i ≠ [] ∧ wd.nodeTrust i = Binary64.avgTrust 1 (wd.trustHistory i) :=
    fun hne => ⟨fun h => hne (hnil2.1 h), dn (fun h => hne (hnil2.1 h))⟩
  refine ⟨key, ?_, ?_, ?_, ?_⟩
  · by_cases hz : evaluationCount cfg i trace = 0
    · rw [hzero hz]
      exact ⟨fun _ => Or.inl hz, fun _ => h06⟩
    · obtain ⟨p1, p2⟩ := hpos hz
      rw [p2, (Binary64.mean_below_iff _ p1 dlen dmem).1]
      exact ⟨fun h => Or.inr h, fun h => h.resolve_left hz⟩
  · intro hz
    refine ⟨hzero hz, ?_⟩
    rw [key, hzero hz]
    constructor
    · exact fun h => ⟨h.1, h.2.1⟩
    · exact fun h => ⟨h.1, h.2, h06⟩
  · intro hne
    obtain ⟨p1, p2⟩ := hpos hne
    refine ⟨p1, p2, ?_⟩
    rw [hc, p2]
    exact (Binary64.mean_below_iff _ p1 dlen dmem).2
  · intro we he
    obtain ⟨e1, e2⟩ := run_nodeTrust_eval fmt cfg i trace World.init we (TrustFloor_init _) he
    exact ⟨fun hz => e1 hz,
      fun hne => ⟨e2 hne, hybrid_no_row_of_trusted cfg mob now we i (e2 hne)⟩⟩

/-- Witness for C22: after the ten `UpdateTrustScores` passes of `penaltyTrace 10` the stored
trust of node 3 is characterised as in the theorem. -/
theorem hybrid_row_iff_stored_trust_below_witness :
    Binary64.run sampleFmt floodCfg (penaltyTrace 10) World.init = some (penaltyWorld 10) ∧
      ((penaltyWorld 10).nodeTrust 3 < Binary64.toDouble (3 / 5) ↔
        (evaluationCount floodCfg 3 (penaltyTrace 10) = 0 ∨
          ((penaltyWorld 10).trustHistory 3 =
              List.replicate ((penaltyWorld 10).trustHistory 3).length
                (Binary64.toDouble (3 / 5)) ∧
            10 ≤ ((penaltyWorld 10).trustHistory 3).length ∧
            ((penaltyWorld 10).trustHistory 3).length ≤ 28))) :=
  ⟨penaltyTrace_run 10,
    (hybrid_row_iff_stored_trust_below sampleFmt floodCfg (penaltyTrace 10) (penaltyWorld 10) 3
      sampleMob 10100000000 (penaltyTrace_run 10)).2.1⟩

/-- C2: one `RunHybridDetection` pass (in `double` arithmetic, as in the source) keeps the rows
already in the mitigation log and writes a `hybrid_detection` row for node `i` if and only if
`i` is a node of the population, the heuristic verdict or the rule verdict of `i` is true, and
the stored trust score of `i` is strictly below the `double` `0.6`
(`5404319552844595 / 2^53`, slightly below `3/5`); when the stored trust score is at least that
`double` no row of the pass is a hybrid row of `i`, whatever the two verdicts are. -/
theorem RunHybridDetection_row_iff (cfg : Config) (mob : Mobility) (now : Time) (w : World)
    (i : Nat) :
    ((Binary64.RunHybridDetection cfg mob now w).mitigation_output.take
        w.mitigation_output.length = w.mitigation_output) ∧
    ((∃ row ∈ (Binary64.RunHybridDetection cfg mob now w).mitigation_output.drop
          w.mitigation_output.length, row.isHybridOf i = true) ↔
      (i < cfg.g_numVehicles ∧
        ((Binary64.detectAnomaly i (mob.position i) (mob.velocity i) w).1 = true ∨
          (checkRuleBased i now w).1 = true) ∧
        w.nodeTrust i < Binary64.toDouble (3 / 5))) ∧
    (Binary64.toDouble (3 / 5) ≤ w.nodeTrust i →
      ∀ row ∈ (Binary64.RunHybridDetection cfg mob now w).mitigation_output.drop
          w.mitigation_output.length, row.isHybridOf i = false) ∧
    Binary64.toDouble (3 / 5) = 5404319552844595 / 9007199254740992 ∧
    Binary64.toDouble (3 / 5) < 3 / 5 := by
  have hf := (Binary64.hybrid_fold_double mob now w cfg.g_numVehicles).1
  have key := Binary64.hybrid_row_iff cfg mob now w i
  refine ⟨?_, key, ?_, Binary64.constants.1, ?_⟩
  · unfold Binary64.RunHybridDetection
    rw [hf, List.take_left]
  · intro hge row hrow
    by_contra hne
    have : row.isHybridOf i = true := by simpa using hne
    have h3 := (key.1 ⟨row, hrow, this⟩).2.2
    exact absurd h3 (not_lt.2 hge)
  · rw [Binary64.constants.1]
    norm_num

/-- C12, counterexample: at the velocity `(40, 2^-21)` the sum of squares exceeds 1600, in
exact arithmetic and as the source computes it (`40 * 40 = 1600`, `2^-21 * 2^-21 = 2^-42`, and
`1600 + 2^-42 = 1600.0000000000002` is a `double`), but `sqrt` of it rounds to `40.0`, so the
computed speed does not exceed 40 and `detectAnomaly` returns false for a node without
history.  Likewise at `(35, 2^-21)` the second evaluation of a node (4 stored entries) returns
false although `vx^2 + vy^2 > 1225`.  At `(40, 2^-24)` the sum itself rounds to 1600. -/
theorem detectAnomaly_boundary_velocity :
    (40 : ℚ) ^ 2 + (1 / 2097152) ^ 2 > 1600 ∧
      Binary64.toDouble ((40 : ℚ) * 40) = 1600 ∧
      Binary64.toDouble ((1 / 2097152 : ℚ) * (1 / 2097152)) = 1 / 4398046511104 ∧
      Binary64.toDouble ((1600 : ℚ) + 1 / 4398046511104) = 1600 + 1 / 4398046511104 ∧
      Binary64.sqrt (1600 + 1 / 4398046511104) = 40 ∧
      Binary64.speed ⟨40, 1 / 2097152, 0⟩ = 40 ∧
      (Binary64.detectAnomaly 3 ⟨0, 0, 0⟩ ⟨40, 1 / 2097152, 0⟩ World.init).1 = false ∧
      (35 : ℚ) ^ 2 + (1 / 2097152) ^ 2 > 1225 ∧
      Binary64.toDouble
          (Binary64.toDouble ((35 : ℚ) * 35) +
            Binary64.toDouble ((1 / 2097152 : ℚ) * (1 / 2097152))) =
        1225 + 1 / 4398046511104 ∧
      Binary64.speed ⟨35, 1 / 2097152, 0⟩ = 35 ∧
      ((Binary64.detectAnomaly 3 ⟨0, 0, 0⟩ ⟨35, 1 / 2097152, 0⟩ World.init).2.mobilityHistory
        3).length = 4 ∧
      (Binary64.detectAnomaly 3 ⟨0, 0, 0⟩ ⟨35, 1 / 2097152, 0⟩
        (Binary64.detectAnomaly 3 ⟨0, 0, 0⟩ ⟨35, 1 / 2097152, 0⟩ World.init).2).1 = false ∧
      Binary64.speed ⟨40, 1 / 16777216, 0⟩ = 40 ∧
      (Binary64.detectAnomaly 3 ⟨0, 0, 0⟩ ⟨40, 1 / 16777216, 0⟩ World.init).1 = false := by
  refine ⟨by norm_num, by decide!, by decide!, by decide!, by decide!, by decide!, by decide!,
    by norm_num, by decide!, by decide!, by decide!, by decide!, by decide!, by decide!⟩

/-- C12, amended: `detectAnomaly` returns true if and only if the speed it computes in `double`
arithmetic (`sqrt` of the rounded sum of the two rounded squares, itself rounded) exceeds 40, or
the stored mobility history of the node has at least 4 entries and the computed speed exceeds
35.  The computed speed exceeds 40 exactly when the rounded sum of squares exceeds
`(40 + 2^-48)^2`; this happens only if `vx^2 + vy^2 > 1600`, and always if
`vx^2 + vy^2 ≥ 1600 * (1 + 2^-50)` (likewise for 35 and 1225).  Hence a true verdict implies
`vx^2 + vy^2 > 1600`, or a history of at least 4 entries and `vx^2 + vy^2 > 1225`, and the
converse holds once the sum of squares is above the threshold by the factor `1 + 2^-50`. -/
theorem detectAnomaly_verdict_iff (nodeId : Nat) (pos vel : Vector) (w : World) :
    ((Binary64.detectAnomaly nodeId pos vel w).1 = true ↔
        (Binary64.speed vel > 40 ∨
          (4 ≤ (w.mobilityHistory nodeId).length ∧ Binary64.speed vel > 35))) ∧
      (Binary64.speed vel > 40 ↔
        (40 + 1 / 281474976710656) * (40 + 1 / 281474976710656) <
          Binary64.toDouble
            (Binary64.toDouble (vel.x * vel.x) + Binary64.toDouble (vel.y * vel.y))) ∧
      (Binary64.speed vel > 35 ↔
        (35 + 1 / 281474976710656) * (35 + 1 / 281474976710656) <
          Binary64.toDouble
            (Binary64.toDouble (vel.x * vel.x) + Binary64.toDouble (vel.y * vel.y))) ∧
      (Binary64.speed vel > 40 → vel.x ^ 2 + vel.y ^ 2 > 1600) ∧
      (Binary64.speed vel > 35 → vel.x ^ 2 + vel.y ^ 2 > 1225) ∧
      (1600 * (1 + 1 / 1125899906842624) ≤ vel.x ^ 2 + vel.y ^ 2 → Binary64.speed vel > 40) ∧
      (1225 * (1 + 1 / 1125899906842624) ≤ vel.x ^ 2 + vel.y ^ 2 → Binary64.speed vel > 35) ∧
      ((Binary64.detectAnomaly nodeId pos vel w).1 = true →
        (1600 < vel.x ^ 2 + vel.y ^ 2 ∨
          (4 ≤ (w.mobilityHistory nodeId).length ∧ 1225 < vel.x ^ 2 + vel.y ^ 2))) ∧
      ((1600 * (1 + 1 / 1125899906842624) ≤ vel.x ^ 2 + vel.y ^ 2 ∨
          (4 ≤ (w.mobilityHistory nodeId).length ∧
            1225 * (1 + 1 / 1125899906842624) ≤ vel.x ^ 2 + vel.y ^ 2)) →
        (Binary64.detectAnomaly nodeId pos vel w).1 = true) := by
  have h1 : (Binary64.detectAnomaly nodeId pos vel w).1 = true ↔
      (Binary64.speed vel > 40 ∨
        (4 ≤ (w.mobilityHistory nodeId).length ∧ Binary64.speed vel > 35)) := by
    rw [Binary64.detectAnomaly_fst_double]
    simp
  obtain ⟨a1, a2, a3⟩ := Binary64.speed_gt_40 vel
  obtain ⟨b1, b2, b3⟩ := Binary64.speed_gt_35 vel
  have e : vel.x ^ 2 + vel.y ^ 2 = vel.x * vel.x + vel.y * vel.y := by ring
  rw [e]
  refine ⟨h1, a1, b1, a2, b2, a3, b3, ?_, ?_⟩
  · intro h
    rcases h1.1 h with h | ⟨h4, h⟩
    · exact Or.inl (a2 h)
    · exact Or.inr ⟨h4, b2 h⟩
  · intro h
    rw [h1]
    rcases h with h | ⟨h4, h⟩
    · exact Or.inl (a3 h)
    · exact Or.inr ⟨h4, b3 h⟩

/-- C24: in the state left by any run from the start state (detectors in `double` arithmetic,
as in the source), the stored mobility history of node `id` is empty when `detectAnomaly` has
not evaluated `id` yet, and otherwise it is the four numbers `[x, y, vx, vy]` of the last
evaluation, so it has exactly 4 entries after the first evaluation and in every later state.
Hence the first evaluation of a node flags if and only if `speed > 40`, and every later
evaluation flags if and only if `speed > 35`, where `speed` is the value the source computes
(`sqrt (vel.x*vel.x + vel.y*vel.y)` in `double` arithmetic).  Whatever the state, the history a
`detectAnomaly` call leaves for the node has 4 entries. -/
theorem mobilityHistory_four_after_first_evaluation (fmt : ℚ → List Char) (cfg : Config)
    (trace : List (Op × Time)) (w : World) (id : Nat)
    (hrun : Binary64.run fmt cfg trace World.init = some w) :
    w.mobilityHistory id = historyAfter (observationsOf cfg id trace) ∧
      (observationsOf cfg id trace = [] →
        w.mobilityHistory id = [] ∧
          ∀ pos vel : Vector, ((Binary64.detectAnomaly id pos vel w).1 = true ↔
            Binary64.speed vel > 40)) ∧
      (observationsOf cfg id trace ≠ [] →
        (w.mobilityHistory id).length = 4 ∧
          ∀ pos vel : Vector, ((Binary64.detectAnomaly id pos vel w).1 = true ↔
            Binary64.speed vel > 35)) ∧
      (∀ (pos vel : Vector) (w0 : World),
        ((Binary64.detectAnomaly id pos vel w0).2.mobilityHistory id).length = 4) := by
  have key := Binary64.run_mobilityHistory_double fmt cfg id trace World.init w [] rfl hrun
  rw [List.nil_append] at key
  refine ⟨key, ?_, ?_, ?_⟩
  · intro he
    have hw : w.mobilityHistory id = [] := by
      rw [key, he]
      rfl
    refine ⟨hw, ?_⟩
    intro pos vel
    rw [Binary64.detectAnomaly_fst_double, hw]
    simp
  · intro hne
    have hw : (w.mobilityHistory id).length = 4 := by
      rw [key]
      exact historyAfter_length _ hne
    refine ⟨hw, ?_⟩
    intro pos vel
    rw [Binary64.detectAnomaly_fst_double, hw]
    simp only [Bool.or_eq_true, Bool.and_eq_true, decide_eq_true_eq]
    constructor
    · rintro (h | ⟨-, h⟩)
      · linarith
      · exact h
    · intro h
      exact Or.inr ⟨le_rfl, h⟩
  · intro pos vel w0
    rw [(Binary64.detectAnomaly_frame_double id pos vel w0).2.2.2.2.2.2, Function.update_same]
    rfl

/-- Witness for C24: after one `RunMLDetection` pass node 3 has been evaluated once. -/
theorem mobilityHistory_four_after_first_evaluation_witness :
    Binary64.run sampleFmt {} mlTrace World.init =
        some (Binary64.RunMLDetection {} sampleMob 1000000000 World.init) ∧
      ((Binary64.RunMLDetection {} sampleMob 1000000000 World.init).mobilityHistory 3).length
        = 4 :=
  ⟨rfl, ((mobilityHistory_four_after_first_evaluation sampleFmt {} mlTrace
    (Binary64.RunMLDetection {} sampleMob 1000000000 World.init) 3 rfl).2.2.1
      (by simp [mlTrace, observationsOf])).1⟩

/-- C25: one `detectAnomaly` evaluation of node `nodeId` (speed computed in `double`
arithmetic, as in the source) adds to `suspiciousCount[nodeId]` exactly 2 when the speed exceeds
40 and the stored history has at least 4 entries, exactly 1 when it flags through only one of
the two conditions (speed above 40 with a history shorter than 4, or speed above 35 but not
above 40 with a history of at least 4), and 0 when it does not flag; the three flagging cases
are the only ones in which it flags, and the counter of every other node is left as it was.
At the velocity `(40, 2^-24)`, whose computed speed is exactly 40, a node with 4 stored entries
gets 1, a node without history 0. -/
theorem detectAnomaly_counter_increment (nodeId : Nat) (pos vel : Vector) (w : World) :
    (Binary64.speed vel > 40 → 4 ≤ (w.mobilityHistory nodeId).length →
        (Binary64.detectAnomaly nodeId pos vel w).1 = true ∧
          (Binary64.detectAnomaly nodeId pos vel w).2.suspiciousCount nodeId =
            w.suspiciousCount nodeId + 2) ∧
      (Binary64.speed vel > 40 → (w.mobilityHistory nodeId).length < 4 →
        (Binary64.detectAnomaly nodeId pos vel w).1 = true ∧
          (Binary64.detectAnomaly nodeId pos vel w).2.suspiciousCount nodeId =
            w.suspiciousCount nodeId + 1) ∧
      (¬ Binary64.speed vel > 40 → Binary64.speed vel > 35 →
        4 ≤ (w.mobilityHistory nodeId).length →
        (Binary64.detectAnomaly nodeId pos vel w).1 = true ∧
          (Binary64.detectAnomaly nodeId pos vel w).2.suspiciousCount nodeId =
            w.suspiciousCount nodeId + 1) ∧
      ((Binary64.detectAnomaly nodeId pos vel w).1 = false →
        (Binary64.detectAnomaly nodeId pos vel w).2.suspiciousCount nodeId =
          w.suspiciousCount nodeId) ∧
      ((Binary64.detectAnomaly nodeId pos vel w).1 = true →
        (Binary64.speed vel > 40 ∧ 4 ≤ (w.mobilityHistory nodeId).length) ∨
          (Binary64.speed vel > 40 ∧ (w.mobilityHistory nodeId).length < 4) ∨
          (¬ Binary64.speed vel > 40 ∧ Binary64.speed vel > 35 ∧
            4 ≤ (w.mobilityHistory nodeId).length)) ∧
      (∀ j, j ≠ nodeId →
        (Binary64.detectAnomaly nodeId pos vel w).2.suspiciousCount j = w.suspiciousCount j) ∧
      (Binary64.detectAnomaly 3 ⟨0, 0, 0⟩ ⟨40, 1 / 16777216, 0⟩
          (Binary64.detectAnomaly 3 ⟨0, 0, 0⟩ ⟨0, 0, 0⟩ World.init).2).2.suspiciousCount 3 = 1 ∧
      (Binary64.detectAnomaly 3 ⟨0, 0, 0⟩ ⟨40, 1 / 16777216, 0⟩
          World.init).2.suspiciousCount 3 = 0 := by
  have hs := Binary64.detectAnomaly_count_double nodeId pos vel w
  have hv := Binary64.detectAnomaly_fst_double nodeId pos vel w
  have hc : (Binary64.detectAnomaly nodeId pos vel w).2.suspiciousCount nodeId =
      w.suspiciousCount nodeId +
        Binary64.anomalyIncrement vel (w.mobilityHistory nodeId).length := by
    rw [hs, Function.update_same]
  refine ⟨?_, ?_, ?_, ?_, ?_, ?_, by decide!, by decide!⟩
  · intro h1 h2
    have h3 : Binary64.speed vel > 35 := by linarith
    refine ⟨by rw [hv]; simp [h1], ?_⟩
    rw [hc, Binary64.anomalyIncrement, if_pos h1, if_pos ⟨h2, h3⟩]
    norm_num
  · intro h1 h2
    refine ⟨by rw [hv]; simp [h1], ?_⟩
    rw [hc, Binary64.anomalyIncrement, if_pos h1, if_neg (fun h => absurd h.1 (by omega))]
    norm_num
  · intro h1 h2 h3
    refine ⟨by rw [hv]; simp [h2, h3], ?_⟩
    rw [hc, Binary64.anomalyIncrement, if_neg h1, if_pos ⟨h3, h2⟩]
    norm_num
  · intro hf
    rw [hv] at hf
    simp only [Bool.or_eq_false_iff, Bool.and_eq_false_iff, decide_eq_false_iff_not] at hf
    obtain ⟨hf1, hf2⟩ := hf
    rw [hc, Binary64.anomalyIncrement, if_neg hf1, if_neg (by
      intro h
      rcases hf2 with h4 | h4
      · exact h4 h.1
      · exact h4 h.2)]
    norm_num
  · intro ht
    rw [hv] at ht
    simp only [Bool.or_eq_true, Bool.and_eq_true, decide_eq_true_eq] at ht
    by_cases h1 : Binary64.speed vel > 40
    · by_cases h2 : 4 ≤ (w.mobilityHistory nodeId).length
      · exact Or.inl ⟨h1, h2⟩
      · exact Or.inr (Or.inl ⟨h1, by omega⟩)
    · rcases ht with ht | ht
      · exact absurd ht h1
      · exact Or.inr (Or.inr ⟨h1, ht.2, ht.1⟩)
  · intro j hj
    rw [hs, Function.update_noteq hj]

/-- C6, counterexample: with 10 vehicles, every node moving at `(60, 0)`, node 3 is evaluated at
1 s, 2 s and 3 s; its three instantaneous scores are the `double` `0.7`, whose arithmetic mean
is `0.7`, but the loop `sum += t` passes through `0.7`, `1.4`, `2.0999999999999996` and the
third evaluation returns `sum / 3 = 0.6999999999999998 = 6305039478318693 / 2^53`, which is
stored in `nodeTrust[3]`. -/
theorem trust_mean_differs_from_exact_mean :
    Binary64.run sampleFmt floodCfg fastTrace World.init = some fastWorld ∧
      Binary64.scoresOf floodCfg 3 fastTrace =
        List.replicate 3 (3152519739159347 / 4503599627370496) ∧
      mean (Binary64.scoresOf floodCfg 3 fastTrace) = 3152519739159347 / 4503599627370496 ∧
      (List.range 4).map
          (fun k => Binary64.sum (List.replicate k (3152519739159347 / 4503599627370496))) =
        [0, 3152519739159347 / 4503599627370496, 3152519739159347 / 2251799813685248,
          1182194902184755 / 562949953421312] ∧
      Binary64.toDouble (1182194902184755 / 562949953421312 / 3) =
        6305039478318693 / 9007199254740992 ∧
      fastWorld.nodeTrust 3 = 6305039478318693 / 9007199254740992 ∧
      fastWorld.nodeTrust 3 ≠ mean (Binary64.scoresOf floodCfg 3 fastTrace) := by
  refine ⟨fastTrace_run, by decide!, by decide!, by decide!, by decide!, by decide!,
    by decide!⟩

/-- C6, amended: in the state left by any run from the start state, the value
`calculateTrustScore` returns for node `id` is the mean of the last `min n 100` instantaneous
scores of `id` as the source computes it in `double` arithmetic: the scores are added oldest
first, every partial sum rounded, and the sum is divided by their number, the quotient rounded;
`n` counts the evaluations of `id` so far, this one included.  The returned value is within
`104 * 2^-53` of the arithmetic mean of these scores.  In exact arithmetic it is that mean. -/
theorem trust_mean_of_last_100 (fmt : ℚ → List Char) (cfg : Config) (trace : List (Op × Time))
    (w : World) (id : Nat) (pos vel : Vector) (t : Time)
    (h : Binary64.run fmt cfg trace World.init = some w) :
    (Binary64.calculateTrustScore cfg id pos vel t w).1 =
        Binary64.toDouble
          (Binary64.sum ((Binary64.scoresOf cfg id trace ++
              [Binary64.instantTrust cfg id vel]).drop
            ((Binary64.scoresOf cfg id trace ++ [Binary64.instantTrust cfg id vel]).length -
              100)) /
            (((Binary64.scoresOf cfg id trace ++ [Binary64.instantTrust cfg id vel]).drop
              ((Binary64.scoresOf cfg id trace ++ [Binary64.instantTrust cfg id vel]).length -
                100)).length : ℚ)) ∧
      ((Binary64.scoresOf cfg id trace ++ [Binary64.instantTrust cfg id vel]).drop
          ((Binary64.scoresOf cfg id trace ++ [Binary64.instantTrust cfg id vel]).length -
            100)).length =
        min ((Binary64.scoresOf cfg id trace).length + 1) 100 ∧
      |(Binary64.calculateTrustScore cfg id pos vel t w).1 -
          mean ((Binary64.scoresOf cfg id trace ++ [Binary64.instantTrust cfg id vel]).drop
            ((Binary64.scoresOf cfg id trace ++ [Binary64.instantTrust cfg id vel]).length -
              100))| ≤ 104 / 9007199254740992 ∧
      (∀ we : World, run fmt cfg trace World.init = some we →
        (calculateTrustScore cfg id pos vel t we).1 =
          mean ((scoresOf cfg id trace ++ [instantTrust cfg id vel]).drop
            ((scoresOf cfg id trace ++ [instantTrust cfg id vel]).length - 100))) := by
  have key := Binary64.run_trustHistory_double fmt cfg id trace World.init w [] rfl h
  rw [List.nil_append] at key
  obtain ⟨a1, -⟩ := Binary64.run_TrustState fmt cfg trace w h
  obtain ⟨dlen, dmem, -, -⟩ := a1 id
  obtain ⟨s1, s2, s3, -⟩ := Binary64.calculateTrustScore_spec cfg id pos vel t w dlen dmem
  have hne := pushBounded_ne_nil 100 (w.trustHistory id) (Binary64.instantTrust cfg id vel)
    (by norm_num)
  have hpush : pushBounded 100 (w.trustHistory id) (Binary64.instantTrust cfg id vel) =
      (Binary64.scoresOf cfg id trace ++ [Binary64.instantTrust cfg id vel]).drop
        ((Binary64.scoresOf cfg id trace ++ [Binary64.instantTrust cfg id vel]).length -
          100) := by
    rw [key, pushBounded_drop 100 _ _ (by norm_num)]
  rw [hpush] at s1 s2 s3 hne
  refine ⟨?_, ?_, ?_, ?_⟩
  · rw [s3]
    unfold Binary64.avgTrust
    rw [if_pos hne]
  · rw [List.length_drop, List.length_append, List.length_singleton]
    omega
  · rw [s3]
    exact Binary64.avgTrust_near _ hne
      (fun x hx => (Binary64.score_bounds x (s2 x hx)).1) s1 1
  · intro we he
    have keye := run_trustHistory fmt cfg id trace World.init we [] rfl he
    rw [List.nil_append] at keye
    rw [calculateTrustScore_fst]
    unfold calculateTrustScore mean
    simp only [Function.update_same]
    rw [keye, pushBounded_drop 100 _ _ (by norm_num)]

/-- Witness for C6: the third evaluation of node 3, after the two passes of `penaltyTrace 2`. -/
theorem trust_mean_of_last_100_witness :
    Binary64.run sampleFmt floodCfg (penaltyTrace 2) World.init = some (penaltyWorld 2) ∧
      |(Binary64.calculateTrustScore floodCfg 3 ⟨0, 0, 0⟩ ⟨10, 0, 0⟩ 3000000000
            (penaltyWorld 2)).1 -
          mean ((Binary64.scoresOf floodCfg 3 (penaltyTrace 2) ++
              [Binary64.instantTrust floodCfg 3 ⟨10, 0, 0⟩]).drop
            ((Binary64.scoresOf floodCfg 3 (penaltyTrace 2) ++
              [Binary64.instantTrust floodCfg 3 ⟨10, 0, 0⟩]).length - 100))| ≤
        104 / 9007199254740992 :=
  ⟨penaltyTrace_run 2,
    (trust_mean_of_last_100 sampleFmt floodCfg (penaltyTrace 2) (penaltyWorld 2) 3 ⟨0, 0, 0⟩
      ⟨10, 0, 0⟩ 3000000000 (penaltyTrace_run 2)).2.2.1⟩

/-- C5, counterexample: with 10 vehicles, node 3 is evaluated once per second; its score is
`1.0` in passes 1 to 16, `0.6` in passes 17 to 19 and `1.0` from pass 20 on.  The 100th
evaluation returns `0.9880000000000001 = 8899112863684101 / 2^53`; the 101st evaluation is
unpenalised (score `1.0`, it evicts the `1.0` of pass 1, so the retained scores are the same
multiset) and returns `0.988 = 8899112863684100 / 2^53`, which is less. -/
theorem unpenalised_mean_decreases_in_double :
    Binary64.run sampleFmt floodCfg (dipTrace 101) World.init = some (dipWorld 101) ∧
      (dipWorld 100).trustHistory 3 =
        List.replicate 16 1 ++ List.replicate 3 (Binary64.toDouble (3 / 5)) ++
          List.replicate 81 1 ∧
      (dipWorld 100).nodeTrust 3 = 8899112863684101 / 9007199254740992 ∧
      Binary64.instantTrust floodCfg 3 ((dipMob 100).velocity 3) = 1 ∧
      (dipWorld 101).trustHistory 3 =
        List.replicate 15 1 ++ List.replicate 3 (Binary64.toDouble (3 / 5)) ++
          List.replicate 82 1 ∧
      (dipWorld 101).nodeTrust 3 = 8899112863684100 / 9007199254740992 ∧
      (dipWorld 101).nodeTrust 3 < (dipWorld 100).nodeTrust 3 := by
  refine ⟨dipTrace_run 101, by decide!, by decide!, by decide!, by decide!, by decide!,
    by decide!⟩

/-- C5, amended: in every reachable state (trust pipeline in `double` arithmetic, as in the
source), when an evaluation of a node is unpenalised (instantaneous score 1.0), the mean
`calculateTrustScore` returns is at least the mean the previous evaluation of that node
returned, unless the history was full (100 entries) and the evicted score is itself 1.0; in that
case the retained scores are the same up to order, and the returned mean can be lower than the
previous one by rounding, by at most `208 * 2^-53`.  In exact arithmetic the mean never
decreases. -/
theorem unpenalised_mean_nondecreasing (fmt : ℚ → List Char) (cfg : Config) (w : World)
    (id : Nat) (pos0 vel0 pos1 vel1 : Vector) (t0 t1 : Time)
    (hr : Binary64.Reachable fmt cfg w) (hun : Binary64.instantTrust cfg id vel1 = 1) :
    (¬ (((Binary64.calculateTrustScore cfg id pos0 vel0 t0 w).2.trustHistory id).length = 100 ∧
          ((Binary64.calculateTrustScore cfg id pos0 vel0 t0 w).2.trustHistory id).head? =
            some 1) →
        (Binary64.calculateTrustScore cfg id pos0 vel0 t0 w).1 ≤
          (Binary64.calculateTrustScore cfg id pos1 vel1 t1
            (Binary64.calculateTrustScore cfg id pos0 vel0 t0 w).2).1) ∧
      (Binary64.calculateTrustScore cfg id pos0 vel0 t0 w).1 - 208 / 9007199254740992 ≤
        (Binary64.calculateTrustScore cfg id pos1 vel1 t1
          (Binary64.calculateTrustScore cfg id pos0 vel0 t0 w).2).1 ∧
      (∀ we : World, (∀ x ∈ we.trustHistory id, 0 ≤ x ∧ x ≤ 1) → instantTrust cfg id vel1 = 1 →
        (calculateTrustScore cfg id pos0 vel0 t0 we).1 ≤
          (calculateTrustScore cfg id pos1 vel1 t1
            (calculateTrustScore cfg id pos0 vel0 t0 we).2).1) := by
  obtain ⟨a1, -⟩ := Binary64.Reachable_TrustState fmt cfg w hr
  obtain ⟨dlen, dmem, -, -⟩ := a1 id
  obtain ⟨s1, s2, s3, -⟩ := Binary64.calculateTrustScore_spec cfg id pos0 vel0 t0 w dlen dmem
  have hne := pushBounded_ne_nil 100 (w.trustHistory id) (Binary64.instantTrust cfg id vel0)
    (by norm_num)
  have hh : (Binary64.calculateTrustScore cfg id pos0 vel0 t0 w).2.trustHistory id =
      pushBounded 100 (w.trustHistory id) (Binary64.instantTrust cfg id vel0) := by
    unfold Binary64.calculateTrustScore
    simp only [Function.update_same]
  have hlen1 : ((Binary64.calculateTrustScore cfg id pos0 vel0 t0 w).2.trustHistory id).length
      ≤ 100 := by
    rw [hh]
    exact s1
  have hmem1 : ∀ x ∈ (Binary64.calculateTrustScore cfg id pos0 vel0 t0 w).2.trustHistory id,
      x = 1 ∨ x = Binary64.toDouble (9 / 10) ∨ x = Binary64.toDouble (7 / 10) ∨
        x = Binary64.toDouble (3 / 5) := by
    rw [hh]
    exact s2
  obtain ⟨-, -, r3, -⟩ := Binary64.calculateTrustScore_spec cfg id pos1 vel1 t1
    (Binary64.calculateTrustScore cfg id pos0 vel0 t0 w).2 hlen1 hmem1
  rw [r3, hh, hun, s3]
  obtain ⟨p1, p2⟩ := Binary64.push_one_mean _ hne s1 s2
  refine ⟨p2, p1, ?_⟩
  intro we hb hune
  have step : ∀ w1 : World, w1.trustHistory id ≠ [] →
      (∀ x ∈ w1.trustHistory id, 0 ≤ x ∧ x ≤ 1) →
      (w1.trustHistory id).sum / (w1.trustHistory id).length ≤
        (calculateTrustScore cfg id pos1 vel1 t1 w1).1 := by
    intro w1 hne1 hb1
    have := mean_push_one (w1.trustHistory id) hne1 hb1
    unfold calculateTrustScore
    simp only []
    rw [hune]
    exact this
  rw [calculateTrustScore_fst cfg id pos0 vel0 t0 we]
  refine step _ ?_ ?_
  · unfold calculateTrustScore
    simp only [Function.update_same]
    exact pushBounded_ne_nil 100 _ _ (by norm_num)
  · intro x hx
    rcases (calculateTrustScore_bounds cfg id pos0 vel0 t0 we hb).2 id x hx with h1 | h1
    · exact hb x h1
    · exact h1

/-- Witness for C5: node 3 after one penalised pass is evaluated twice, the second time at
the velocity `(10, 0)`, which is not penalised. -/
theorem unpenalised_mean_nondecreasing_witness :
    Binary64.Reachable sampleFmt floodCfg (penaltyWorld 1) ∧
      Binary64.instantTrust floodCfg 3 ⟨10, 0, 0⟩ = 1 ∧
      (Binary64.calculateTrustScore floodCfg 3 ⟨0, 0, 0⟩ ⟨60, -1, 0⟩ 0 (penaltyWorld 1)).1 -
          208 / 9007199254740992 ≤
        (Binary64.calculateTrustScore floodCfg 3 ⟨0, 0, 0⟩ ⟨10, 0, 0⟩ 1
          (Binary64.calculateTrustScore floodCfg 3 ⟨0, 0, 0⟩ ⟨60, -1, 0⟩ 0
            (penaltyWorld 1)).2).1 :=
  ⟨penaltyWorld_reachable 1, by decide!,
    (unpenalised_mean_nondecreasing sampleFmt floodCfg (penaltyWorld 1) 3 ⟨0, 0, 0⟩ ⟨60, -1, 0⟩
      ⟨0, 0, 0⟩ ⟨10, 0, 0⟩ 0 1 (penaltyWorld_reachable 1) (by decide!)).2.1⟩

/-- C11, counterexample: the beacon log shows the time with 6 significant digits, so two rows
of one sender can show the same `(nodeId, t)`.  With the program's configuration (interval
0.1 s, first tick at 1.0 s) the ticks number 999990 and 999991 of node 0 fire at 100000 s and
at 100000.1 s, and both rows show the time `100000`: a run in which node 0 ticks 999992 times
contains the two rows, and in every scheduled run of the program the rows number 999990 and
999991 of any sender, when they exist, carry different times that print alike. -/
theorem beacon_rows_print_same_time :
    (∃ evs w p, main {} = Except.ok evs ∧
      scheduledRun sampleFmt {} (beaconTrace {} 0 999992) World.init (pendingBeacons evs) =
        some (w, p) ∧
      w.bsm_output[999990]? = some (BsmRow.mk 0 0 0 0 0 100000) ∧
      w.bsm_output[999991]? = some (BsmRow.mk 0 0 0 0 0 (1000001 / 10)) ∧
      (BsmRow.mk 0 0 0 0 0 100000).printedTime = 100000 ∧
      (BsmRow.mk 0 0 0 0 0 (1000001 / 10)).printedTime = 100000) ∧
    (∀ (fmt : ℚ → List Char) (evs : List (Callback × Time)) (trace : List (Op × Time))
      (w : World) (p : List (Nat × Time)), main {} = Except.ok evs →
      scheduledRun fmt {} trace World.init (pendingBeacons evs) = some (w, p) →
      ∀ (i : Nat) (r1 r2 : BsmRow),
        (w.bsm_output.filter (fun r => decide (r.nodeId = i)))[999990]? = some r1 →
        (w.bsm_output.filter (fun r => decide (r.nodeId = i)))[999991]? = some r2 →
        r1.nodeId = r2.nodeId ∧ r1.t = 100000 ∧ r2.t = 1000001 / 10 ∧
          r1.printedTime = 100000 ∧ r2.printedTime = 100000) := by
  have hint : ({} : Config).g_bsmInterval = 100000000 := rfl
  constructor
  · obtain ⟨evs, hmain⟩ := main_default_ok
    obtain ⟨w, p, hrun⟩ := beaconTrace_scheduled sampleFmt {} evs 0 999992 hmain (by decide)
    have hout := scheduledRun_bsm_output sampleFmt {} evs _ w p hmain hrun
    rw [beaconTrace, bsmRowsOf_ticks] at hout
    have t1 : GetSeconds (tickTime (appOf {} 0) 1000000000 999990) = 100000 := by
      rw [tickTime_eq, appOf_interval, hint]
      norm_num [GetSeconds]
    have t2 : GetSeconds (tickTime (appOf {} 0) 1000000000 999991) = 1000001 / 10 := by
      rw [tickTime_eq, appOf_interval, hint]
      norm_num [GetSeconds]
    refine ⟨evs, w, p, hmain, hrun, ?_, ?_, ?_, ?_⟩
    · rw [hout, List.getElem?_map, List.getElem?_range (by norm_num)]
      simp only [Option.map_some', t1]
    · rw [hout, List.getElem?_map, List.getElem?_range (by norm_num)]
      simp only [Option.map_some', t2]
    · exact sixDigits_100000.1
    · exact sixDigits_100000.2
  · intro fmt evs trace w p hmain hrun i r1 r2 h1 h2
    obtain ⟨n, hn⟩ := scheduledRun_times fmt {} evs trace w p hmain hrun i
    have e1 := getElem?_of_map_eq _ BsmRow.t _ n 999990 r1 hn h1
    have e2 := getElem?_of_map_eq _ BsmRow.t _ n 999991 r2 hn h2
    rw [hint] at e1 e2
    have t1 : r1.t = 100000 := by
      rw [e1]
      norm_num [GetSeconds]
    have t2 : r2.t = 1000001 / 10 := by
      rw [e2]
      norm_num [GetSeconds]
    have m1 := (List.mem_filter.1 (List.mem_iff_getElem?.2 ⟨_, h1⟩)).2
    have m2 := (List.mem_filter.1 (List.mem_iff_getElem?.2 ⟨_, h2⟩)).2
    simp only [decide_eq_true_eq] at m1 m2
    refine ⟨by rw [m1, m2], t1, t2, ?_, ?_⟩
    · rw [BsmRow.printedTime, t1]
      exact sixDigits_100000.1
    · rw [BsmRow.printedTime, t2]
      exact sixDigits_100000.2

/-- C11 (amended): every beacon tick writes exactly one beacon-log row, whatever the behaviour
variant of the node (and so does a tick of the basic variant).  The ticks are the events the
program schedules: `main` starts every application at 1.0 s and every `SendBsm` schedules the
next one `m_interval` later.  Hence in every run the rows of one sender carry the times
`1.0 s + k * interval`, `k = 0, 1, ...`, in order.  When the scheduling delay is positive (at
least one nanosecond) these times are strictly increasing and no two rows have the same pair
of node and time of writing; with a zero delay every row carries the time 1.0 s.  The log shows
the time with 6 significant digits: with the interval 0.1 s of the program every row written
before 100000 s shows its time exactly, so the rows written before 100000 s show pairwise
different `(nodeId, t)`. -/
theorem beacon_rows_unique (fmt : ℚ → List Char) (cfg : Config) (evs : List (Callback × Time))
    (trace : List (Op × Time)) (w : World) (p : List (Nat × Time))
    (hmain : main cfg = Except.ok evs)
    (hrun : scheduledRun fmt cfg trace World.init (pendingBeacons evs) = some (w, p)) :
    (∀ (app : EnhancedBsmApp) (pos vel : Vector) (now : Time) (w0 : World),
        (SendBsm fmt app pos vel now w0).bsm_output =
          w0.bsm_output ++ [BsmRow.mk app.nodeId pos.x pos.y vel.x vel.y (GetSeconds now)]) ∧
      (∀ (id : Nat) (pos vel : Vector) (now : Time) (w0 : Hisol.World),
        (Hisol.SendBsm fmt id pos vel now w0).output_log =
          w0.output_log ++ [BsmRow.mk id pos.x pos.y vel.x vel.y (GetSeconds now)]) ∧
      (∀ i, ∃ n, ((w.bsm_output.filter (fun r => decide (r.nodeId = i))).map BsmRow.t) =
        (List.range n).map (fun k : Nat =>
          GetSeconds (1000000000 + k * cfg.g_bsmInterval))) ∧
      (0 < cfg.g_bsmInterval →
        (∀ i, ((w.bsm_output.filter (fun r => decide (r.nodeId = i))).map BsmRow.t).Pairwise
          (· < ·)) ∧
        (w.bsm_output.map (fun r => (r.nodeId, r.t))).Nodup) ∧
      (cfg.g_bsmInterval = 0 → ∀ r ∈ w.bsm_output, r.t = 1) ∧
      (cfg.g_bsmInterval = 100000000 →
        (∀ r ∈ w.bsm_output, r.t < 100000 → r.printedTime = r.t) ∧
        ((w.bsm_output.filter (fun r => decide (r.t < 100000))).map
          (fun r => (r.nodeId, r.printedTime))).Nodup) := by
  have hprog := scheduledRun_times fmt cfg evs trace w p hmain hrun
  have hpair : 0 < cfg.g_bsmInterval →
      ∀ i, ((w.bsm_output.filter (fun r => decide (r.nodeId = i))).map
        BsmRow.t).Pairwise (· < ·) := by
    intro hpos i
    obtain ⟨n, hn⟩ := hprog i
    rw [hn]
    exact progression_pairwise 1000000000 cfg.g_bsmInterval hpos n
  have hprint : cfg.g_bsmInterval = 100000000 →
      ∀ r ∈ w.bsm_output, r.t < 100000 → r.printedTime = r.t := by
    intro hint r hr hlt
    obtain ⟨k, hk⟩ := scheduledRun_row_time fmt cfg evs trace w p hmain hrun r hr
    rw [hint] at hk
    have hq : r.t = ((10 + k : ℕ) : ℚ) / 10 := by
      rw [hk, GetSeconds]
      push_cast
      ring
    have hm : 10 + k < 1000000 := by
      rw [hq] at hlt
      have h1 : ((10 + k : ℕ) : ℚ) < 1000000 := by linarith
      exact_mod_cast h1
    rw [BsmRow.printedTime, hq]
    exact Ostream.sixDigits_tenths (10 + k) (by omega) hm
  refine ⟨fun app pos vel now w0 => (SendBsm_windows fmt app pos vel now w0).2.2.2,
    fun id pos vel now w0 => rfl, hprog,
    fun hpos => ⟨hpair hpos,
      nodup_of_pairwise_per_key BsmRow.nodeId BsmRow.t w.bsm_output (hpair hpos)⟩, ?_,
    fun hint => ⟨hprint hint, ?_⟩⟩
  · intro hz r hr
    obtain ⟨k, hk⟩ := scheduledRun_row_time fmt cfg evs trace w p hmain hrun r hr
    rw [hk, hz]
    norm_num [GetSeconds]
  · have hnd := nodup_of_pairwise_per_key BsmRow.nodeId BsmRow.t w.bsm_output
      (hpair (by rw [hint]; norm_num))
    have hsub : ((w.bsm_output.filter (fun r => decide (r.t < 100000))).map
        (fun r => (r.nodeId, r.t))).Nodup :=
      List.Nodup.sublist (List.Sublist.map _ (List.filter_sublist _)) hnd
    have hcongr : (w.bsm_output.filter (fun r => decide (r.t < 100000))).map
        (fun r => (r.nodeId, r.printedTime)) =
        (w.bsm_output.filter (fun r => decide (r.t < 100000))).map
          (fun r => (r.nodeId, r.t)) := by
      apply List.map_congr_left
      intro r hr
      obtain ⟨h1, h2⟩ := List.mem_filter.1 hr
      simp only [decide_eq_true_eq] at h2
      rw [hprint hint r h1 h2]
    rw [hcongr]
    exact hsub

/-- Witness for C11: the flooding scenario (10 vehicles, interval 0.1 s), in which node 3 ticks
at 1.0 s and at 1.1 s with a pass of the rule detector in between. -/
theorem beacon_rows_unique_witness :
    main floodCfg = Except.ok floodEvents ∧
      scheduledRun sampleFmt floodCfg sampleTrace World.init (pendingBeacons floodEvents) =
        some (floodSampleWorld, floodSamplePending) ∧
      (floodSampleWorld.bsm_output.map (fun r => (r.nodeId, r.t))).Nodup ∧
      ((floodSampleWorld.bsm_output.filter (fun r => decide (r.t < 100000))).map
        (fun r => (r.nodeId, r.printedTime))).Nodup :=
  ⟨rfl, rfl,
    ((beacon_rows_unique sampleFmt floodCfg floodEvents sampleTrace floodSampleWorld
      floodSamplePending rfl rfl).2.2.2.1 (by decide)).2,
    ((beacon_rows_unique sampleFmt floodCfg floodEvents sampleTrace floodSampleWorld
      floodSamplePending rfl rfl).2.2.2.2.2 rfl).2⟩

end Vanet
